import Mathlib

/-!
# Line table state machine, stack iterator and value loader of delve, embedded in Lean

Source files embedded here:

* `pkg/dwarf/line/state_machine.go`: the DWARF line number program interpreter
  (`StateMachine.next`) and the queries built on it (`PCToLine`, `LineToPC`,
  `AllPCsForFileLine`, `AllPCsBetween`, `copy`);
* `pkg/proc/stack.go`: the stack iterator (`newStackIterator`, `Next`,
  `switchStack`, `advanceRegs`, `newStackframe`), `stackIterator.stacktrace` and
  `appendInlineCalls`;
* `pkg/proc/variables.go`: `newVariable`, `loadValue` and the map iterator,
  `SetVariable`, `Locals`, `G.stkbar`, and the constants (`popcnt`,
  `constantsMap.Get`, `describe`).

Conventions.  A byte is a natural number below 256 and a byte slice is a
`List Nat`.  `uint64` values are naturals reduced modulo `2 ^ 64` where the Go
code can overflow, `int` and `int64` are integers wrapped to 64 bits, `int8` is
wrapped to 8 bits.  A `bytes.Buffer` that is only read is the list of its unread
bytes.  A Go run-time panic is an explicit outcome.  Loops that call `next` until
it fails are written with a step budget; `Outcome.fuel` is the outcome of an
exhausted budget and the top-level functions of the line table and of the stack
start with a budget that is never exhausted.  The loader of values calls itself
through the value tree and can follow a cyclic chain of buckets for ever: it
takes the depth of calls and the rounds of the map iterator as a parameter.

Layout.  The definitions come first: the machine and its opcodes, the queries,
the table of a program as the list of machine states, a memory model for `copy`,
the vocabulary of the statements, decoders and concrete tables, the stack
iterator and the loader of values.  The theorems follow, grouped by query.
-/

namespace Line

/-! ## Machine arithmetic -/

/-- Reduction of a natural number to a `uint64`. -/
def wrap64 (n : Nat) : Nat := n % 2 ^ 64

/-- Two's complement reduction of an integer to an `int64` (Go `int` on 64 bit targets). -/
def toInt64 (z : Int) : Int := (z + 2 ^ 63) % 2 ^ 64 - 2 ^ 63

/-- Two's complement reduction of an integer to an `int8`. -/
def toInt8 (z : Int) : Int := (z + 128) % 256 - 128

/-! ## Data model -/

/-- Modelled from the spec: the declaration of `FileEntry` is not among the sources; the
fields are the ones `readFileEntry` fills, of which the state machine reads `Path`. -/
structure FileEntry where
  Path : String
  DirIdx : Nat
  LastModTime : Nat
  Length : Nat
deriving DecidableEq

/-- Modelled from the spec: the declaration of `DebugLinePrologue` is not among the sources;
the fields are the ones `state_machine.go` reads, with the widths its conversions show
(`LineBase` is an `int8`, the other scalars are `uint8`, `StdOpLengths` is a `[]uint8`). -/
structure DebugLinePrologue where
  MinInstrLength : Nat
  InitialIsStmt : Nat
  LineBase : Int
  LineRange : Nat
  OpcodeBase : Nat
  StdOpLengths : List Nat
deriving DecidableEq

/-- Modelled from the spec: the declaration of `DebugLineInfo` is not among the sources; the
fields are the ones `state_machine.go` reads.  The two cache maps of the Go struct, the only
fields that are written after parsing, are kept apart in `MachineCaches`. -/
structure DebugLineInfo where
  Prologue : DebugLinePrologue
  IncludeDirs : List String
  FileNames : List FileEntry
  Instructions : List Nat
deriving DecidableEq

/-- The Go struct `StateMachine`.  `buf` is the list of unread instruction bytes.  The field
`opcodes` is left out: `newStateMachine` always fills it with the ten entries
`execExtendedOpcode, copyfn, ..., fixedadvancepc`, which `next` below dispatches on directly. -/
structure StateMachine where
  dbl : DebugLineInfo
  file : String
  line : Int
  address : Nat
  column : Nat
  isStmt : Bool
  basicBlock : Bool
  endSeq : Bool
  lastWasStandard : Bool
  lastDelta : Int
  valid : Bool
  started : Bool
  buf : List Nat
  definedFiles : List FileEntry
  lastAddress : Nat
  lastFile : String
  lastLine : Int
deriving DecidableEq

/-- The helpers of other packages that `state_machine.go` calls and that are not among the
sources.  Each takes the unread bytes and returns the decoded value together with the number of
bytes it consumed, or `none` when it panics. -/
structure Decoders where
  DecodeULEB128 : List Nat → Option (Nat × Nat)
  DecodeSLEB128 : List Nat → Option (Int × Nat)
  readFileEntry : DebugLineInfo → List Nat → Option (FileEntry × Nat)

/-- Outcome of a call of `next`: it returned `nil`, it returned the error of `ReadByte` (the
machine has been touched all the same), or it panicked. -/
inductive NextResult where
  | ok (sm : StateMachine)
  | eof (sm : StateMachine)
  | panic
deriving DecidableEq

/-- Outcome of a function that loops over `next`. -/
inductive Outcome (α : Type) where
  | ok (a : α)
  | panic
  | fuel
deriving DecidableEq

/-! ## Reading operands -/

/-- Value of a little-endian byte string. -/
def leValue : List Nat → Nat
  | [] => 0
  | b :: bs => b + 256 * leValue bs

/-- The call `binary.Read(buf, binary.LittleEndian, &x)` for an `n` byte unsigned `x` that
starts as zero: with fewer than `n` unread bytes the read fails, `x` stays zero and the buffer
is drained. -/
def binaryRead (n : Nat) (buf : List Nat) : Nat × List Nat :=
  if buf.length < n then (0, []) else (leValue (buf.take n), buf.drop n)

/-- Runs `util.DecodeULEB128` on the buffer of the machine. -/
def readULEB (dec : Decoders) (sm : StateMachine) : Option (Nat × StateMachine) :=
  match dec.DecodeULEB128 sm.buf with
  | none => none
  | some (v, n) => some (wrap64 v, { sm with buf := sm.buf.drop n })

/-- Runs `util.DecodeSLEB128` on the buffer of the machine. -/
def readSLEB (dec : Decoders) (sm : StateMachine) : Option (Int × StateMachine) :=
  match dec.DecodeSLEB128 sm.buf with
  | none => none
  | some (v, n) => some (toInt64 v, { sm with buf := sm.buf.drop n })

/-! ## Opcodes -/

def copyfn (sm : StateMachine) : StateMachine :=
  { sm with basicBlock := false, valid := true }

def advancepc (dec : Decoders) (sm : StateMachine) : Option StateMachine :=
  match readULEB dec sm with
  | none => none
  | some (addr, sm) =>
    some { sm with address := wrap64 (sm.address + wrap64 (addr * sm.dbl.Prologue.MinInstrLength)) }

def advanceline (dec : Decoders) (sm : StateMachine) : Option StateMachine :=
  match readSLEB dec sm with
  | none => none
  | some (line, sm) => some { sm with line := toInt64 (sm.line + line), lastDelta := line }

def setfile (dec : Decoders) (sm : StateMachine) : Option StateMachine :=
  match readULEB dec sm with
  | none => none
  | some (i, sm) =>
    let i1 := wrap64 (i + (2 ^ 64 - 1))
    if i1 < sm.dbl.FileNames.length then
      match sm.dbl.FileNames.get? i1 with
      | some e => some { sm with file := e.Path }
      | none => none
    else
      let j := wrap64 (i1 + (2 ^ 64 - sm.dbl.FileNames.length % 2 ^ 64))
      if j < sm.definedFiles.length then
        match sm.definedFiles.get? j with
        | some e => some { sm with file := e.Path }
        | none => none
      else some { sm with file := "" }

def setcolumn (dec : Decoders) (sm : StateMachine) : Option StateMachine :=
  match readULEB dec sm with
  | none => none
  | some (c, sm) => some { sm with column := c }

def negatestmt (sm : StateMachine) : StateMachine :=
  { sm with isStmt := !sm.isStmt }

def setbasicblock (sm : StateMachine) : StateMachine :=
  { sm with basicBlock := true }

def constaddpc (sm : StateMachine) : Option StateMachine :=
  if sm.dbl.Prologue.LineRange = 0 then none
  else some { sm with address := wrap64 (sm.address +
    ((255 + (256 - sm.dbl.Prologue.OpcodeBase % 256)) % 256 / sm.dbl.Prologue.LineRange)
      * sm.dbl.Prologue.MinInstrLength) }

def fixedadvancepc (sm : StateMachine) : StateMachine :=
  let r := binaryRead 2 sm.buf
  { sm with buf := r.2, address := wrap64 (sm.address + r.1) }

def endsequence (sm : StateMachine) : StateMachine :=
  { sm with endSeq := true, valid := true }

def setaddress (sm : StateMachine) : StateMachine :=
  let r := binaryRead 8 sm.buf
  { sm with buf := r.2, address := r.1 }

def definefile (dec : Decoders) (sm : StateMachine) : Option StateMachine :=
  match dec.readFileEntry sm.dbl sm.buf with
  | none => none
  | some (entry, n) =>
    some { sm with buf := sm.buf.drop n, definedFiles := sm.definedFiles ++ [entry] }

/-- The function `execExtendedOpcode`: the length operand is decoded and dropped, the
sub-opcode byte is read (`0` when the buffer is empty) and looked up in `extendedopcodes`. -/
def execExtendedOpcode (dec : Decoders) (sm : StateMachine) : Option StateMachine :=
  match readULEB dec sm with
  | none => none
  | some (_, sm) =>
    let b := sm.buf.headD 0
    let sm := { sm with buf := sm.buf.tail }
    if b = 1 then some (endsequence sm)
    else if b = 2 then some (setaddress sm)
    else if b = 3 then definefile dec sm
    else some sm

/-- The function `execSpecialOpcode`; `instr` is at least `OpcodeBase` at the only call. -/
def execSpecialOpcode (sm : StateMachine) (instr : Nat) : Option StateMachine :=
  let p := sm.dbl.Prologue
  let decoded := (instr + (256 - p.OpcodeBase % 256)) % 256
  if p.LineRange = 0 then none
  else
    let lastDelta := toInt8 (p.LineBase + toInt8 ((decoded % p.LineRange : Nat) : Int))
    some { sm with
      isStmt := if p.InitialIsStmt = 1 then true else sm.isStmt
      lastDelta := lastDelta
      line := toInt64 (sm.line + lastDelta)
      address := wrap64 (sm.address + (decoded / p.LineRange) * p.MinInstrLength)
      basicBlock := false
      lastWasStandard := false
      valid := true }

/-- The entries `1 .. 9` of `sm.opcodes` (the map `standardopcodes`) and entry `0`. -/
def execOpcode (dec : Decoders) (b : Nat) (sm : StateMachine) : Option StateMachine :=
  match b with
  | 0 => execExtendedOpcode dec sm
  | 1 => some (copyfn sm)
  | 2 => advancepc dec sm
  | 3 => advanceline dec sm
  | 4 => setfile dec sm
  | 5 => setcolumn dec sm
  | 6 => some (negatestmt sm)
  | 7 => some (setbasicblock sm)
  | 8 => constaddpc sm
  | 9 => some (fixedadvancepc sm)
  | _ => none

/-- The loop of `next` over the operands of an unimplemented standard opcode: `opnum` calls of
`util.DecodeSLEB128` whose values are dropped. -/
def skipOperands (dec : Decoders) : Nat → StateMachine → Option StateMachine
  | 0, sm => some sm
  | n + 1, sm =>
    match readSLEB dec sm with
    | none => none
    | some (_, sm) => skipOperands dec n sm

/-- The function `newStateMachine`; it panics on an empty `FileNames`. -/
def newStateMachine (dbl : DebugLineInfo) (instructions : List Nat) : Option StateMachine :=
  match dbl.FileNames with
  | [] => none
  | f :: _ => some
    { dbl := dbl, file := f.Path, line := 1, address := 0, column := 0, isStmt := false,
      basicBlock := false, endSeq := false, lastWasStandard := false, lastDelta := 0,
      valid := false, started := false, buf := instructions, definedFiles := [],
      lastAddress := 0, lastFile := "", lastLine := 0 }

/-- The first statements of `next`: the machine is marked as started and a valid row is
remembered in the `last` fields. -/
def nextRemember (sm : StateMachine) : StateMachine :=
  if sm.valid then
    { sm with started := true, lastAddress := sm.address, lastFile := sm.file,
              lastLine := sm.line }
  else { sm with started := true }

/-- The reset of the registers in `next` after an end of sequence.  `none` is the panic of
`FileNames[0]` on an empty file table. -/
def nextReset (sm : StateMachine) : Option StateMachine :=
  if sm.endSeq then
    match sm.dbl.FileNames with
    | [] => none
    | f :: _ => some { sm with endSeq := false, file := f.Path, line := 1, column := 0,
                               isStmt := false, basicBlock := false }
  else some sm

/-- The part of `next` that comes before the opcode byte is read. -/
def nextPrepare (sm : StateMachine) : Option StateMachine :=
  nextReset (nextRemember sm)

/-- The part of `next` that executes the opcode byte `b`, already taken off the buffer. -/
def nextDispatch (dec : Decoders) (b : Nat) (sm : StateMachine) : Option StateMachine :=
  if b < 10 then
    execOpcode dec b { sm with lastWasStandard := b != 0, valid := false }
  else if b < sm.dbl.Prologue.OpcodeBase then
    match sm.dbl.Prologue.StdOpLengths.get? (b - 1) with
    | none => none
    | some opnum => skipOperands dec opnum sm
  else execSpecialOpcode sm b

/-- The method `StateMachine.next`. -/
def next (dec : Decoders) (sm : StateMachine) : NextResult :=
  match nextPrepare sm with
  | none => .panic
  | some sm =>
    match sm.buf with
    | [] => .eof sm
    | b :: rest =>
      match nextDispatch dec b { sm with buf := rest } with
      | none => .panic
      | some sm => .ok sm

/-! ## Queries -/

/-- The loop of `StateMachine.PCToLine` together with the code after it.  The result is the
returned triple and the machine as the call leaves it. -/
def StateMachine.PCToLine.loop (dec : Decoders) (pc : Nat) :
    Nat → StateMachine → Outcome ((String × Int × Bool) × StateMachine)
  | 0, _ => .fuel
  | fuel + 1, sm =>
    if sm.valid = true ∧ sm.address > pc then .ok ((sm.lastFile, sm.lastLine, true), sm)
    else if sm.valid = true ∧ sm.address = pc then .ok ((sm.file, sm.line, true), sm)
    else
      match next dec sm with
      | .panic => .panic
      | .eof sm =>
        if sm.valid then .ok ((sm.file, sm.line, true), sm) else .ok (("", 0, false), sm)
      | .ok sm => StateMachine.PCToLine.loop dec pc fuel sm

/-- The part of `StateMachine.PCToLine` after the machine has been started. -/
def StateMachine.PCToLine.started (dec : Decoders) (pc : Nat) (sm : StateMachine) :
    Outcome ((String × Int × Bool) × StateMachine) :=
  if sm.lastAddress > pc then .ok (("", 0, false), sm)
  else StateMachine.PCToLine.loop dec pc (sm.buf.length + 1) sm

/-- The method `StateMachine.PCToLine`. -/
def StateMachine.PCToLine (dec : Decoders) (sm : StateMachine) (pc : Nat) :
    Outcome ((String × Int × Bool) × StateMachine) :=
  if sm.started then StateMachine.PCToLine.started dec pc sm
  else
    match next dec sm with
    | .panic => .panic
    | .eof sm => .ok (("", 0, false), sm)
    | .ok sm => StateMachine.PCToLine.started dec pc sm

/-- The method `StateMachine.copy`: a struct copy with a buffer of its own over the unread
bytes. -/
def StateMachine.copy (sm : StateMachine) : StateMachine :=
  { sm with buf := sm.buf }

/-- The two maps `stateMachineCache` and `lastMachineCache` of the Go struct `DebugLineInfo`,
keyed by `basePC`, both taken to be allocated.  They hold pointers to machines: a machine
that is run after it has been stored is stored again below. -/
structure MachineCaches where
  stateMachineCache : Nat → Option StateMachine
  lastMachineCache : Nat → Option StateMachine

/-- Assignment `m[k] = v` on a map. -/
def mapSet (m : Nat → Option StateMachine) (k : Nat) (v : StateMachine) :
    Nat → Option StateMachine :=
  fun k2 => if k2 = k then some v else m k2

/-- The choice of the machine in `DebugLineInfo.PCToLine` for a non-zero `basePC`: the machine
to run and the caches after the choice (the chosen machine is `lastMachineCache[basePC]`). -/
def DebugLineInfo.PCToLine.pick (dec : Decoders) (lineInfo : DebugLineInfo)
    (caches : MachineCaches) (basePC pc : Nat) : Outcome (StateMachine × MachineCaches) :=
  let fresh : Outcome (StateMachine × MachineCaches) :=
    match caches.stateMachineCache basePC with
    | some sm =>
      .ok (sm.copy, { caches with lastMachineCache := mapSet caches.lastMachineCache basePC sm.copy })
    | none =>
      match newStateMachine lineInfo lineInfo.Instructions with
      | none => .panic
      | some sm =>
        match sm.PCToLine dec basePC with
        | .panic => .panic
        | .fuel => .fuel
        | .ok (_, sm) =>
          .ok (sm.copy, { stateMachineCache := mapSet caches.stateMachineCache basePC sm
                          lastMachineCache := mapSet caches.lastMachineCache basePC sm.copy })
  match caches.lastMachineCache basePC with
  | none => fresh
  | some sm => if sm.lastAddress > pc then fresh else .ok (sm, caches)

/-- The method `DebugLineInfo.PCToLine`; `lineInfo = none` is the nil receiver.  The result is
the returned pair and the caches after the call. -/
def DebugLineInfo.PCToLine (dec : Decoders) (lineInfo : Option DebugLineInfo)
    (caches : MachineCaches) (basePC pc : Nat) : Outcome ((String × Int) × MachineCaches) :=
  match lineInfo with
  | none => .ok (("", 0), caches)
  | some lineInfo =>
    if basePC > pc then .panic
    else if basePC = 0 then
      match newStateMachine lineInfo lineInfo.Instructions with
      | none => .panic
      | some sm =>
        match sm.PCToLine dec pc with
        | .panic => .panic
        | .fuel => .fuel
        | .ok ((file, line, _), _) => .ok ((file, line), caches)
    else
      match DebugLineInfo.PCToLine.pick dec lineInfo caches basePC pc with
      | .panic => .panic
      | .fuel => .fuel
      | .ok (sm, caches) =>
        match sm.PCToLine dec pc with
        | .panic => .panic
        | .fuel => .fuel
        | .ok ((file, line, _), sm) =>
          .ok ((file, line), { caches with lastMachineCache := mapSet caches.lastMachineCache basePC sm })

/-- The loop of `DebugLineInfo.LineToPC`. -/
def DebugLineInfo.LineToPC.loop (dec : Decoders) (filename : String) (lineno : Int) :
    Nat → StateMachine → Bool → Outcome Nat
  | 0, _, _ => .fuel
  | fuel + 1, sm, foundFile =>
    match next dec sm with
    | .panic => .panic
    | .eof _ => .ok 0
    | .ok sm =>
      if foundFile = true ∧ sm.file ≠ filename then .ok 0
      else if sm.line = lineno ∧ sm.file = filename then
        if sm.valid then .ok sm.address
        else DebugLineInfo.LineToPC.loop dec filename lineno fuel sm true
      else DebugLineInfo.LineToPC.loop dec filename lineno fuel sm foundFile

/-- The method `DebugLineInfo.LineToPC`. -/
def DebugLineInfo.LineToPC (dec : Decoders) (lineInfo : Option DebugLineInfo)
    (filename : String) (lineno : Int) : Outcome Nat :=
  match lineInfo with
  | none => .ok 0
  | some lineInfo =>
    match newStateMachine lineInfo lineInfo.Instructions with
    | none => .panic
    | some sm => DebugLineInfo.LineToPC.loop dec filename lineno (sm.buf.length + 1) sm false

/-- The inner loop of `AllPCsForFileLine`: `next` is called until it fails or the machine is
on another line.  The result is the machine as the loop leaves it. -/
def DebugLineInfo.AllPCsForFileLine.skip (dec : Decoders) (l : Int) :
    Nat → StateMachine → Outcome StateMachine
  | 0, _ => .fuel
  | fuel + 1, sm =>
    match next dec sm with
    | .panic => .panic
    | .eof sm => .ok sm
    | .ok sm => if l ≠ sm.line then .ok sm else DebugLineInfo.AllPCsForFileLine.skip dec l fuel sm

/-- The outer loop of `AllPCsForFileLine`.  `lastAddr` is the local variable of that name: it
is compared with the address of the machine and never assigned. -/
def DebugLineInfo.AllPCsForFileLine.loop (dec : Decoders) (f : String) (l : Int)
    (lastAddr : Nat) : Nat → StateMachine → Bool → List Nat → Outcome (List Nat)
  | 0, _, _, _ => .fuel
  | fuel + 1, sm, foundFile, pcs =>
    match next dec sm with
    | .panic => .panic
    | .eof _ => .ok pcs
    | .ok sm =>
      if foundFile = true ∧ sm.file ≠ f then .ok pcs
      else if sm.line = l ∧ sm.file = f ∧ sm.address ≠ lastAddr then
        match DebugLineInfo.AllPCsForFileLine.skip dec l fuel sm with
        | .panic => .panic
        | .fuel => .fuel
        | .ok sm2 =>
          DebugLineInfo.AllPCsForFileLine.loop dec f l lastAddr fuel sm2 true
            (if sm.valid then pcs ++ [sm.address] else pcs)
      else DebugLineInfo.AllPCsForFileLine.loop dec f l lastAddr fuel sm foundFile pcs

/-- The method `DebugLineInfo.AllPCsForFileLine`; the nil slice is the empty list. -/
def DebugLineInfo.AllPCsForFileLine (dec : Decoders) (lineInfo : Option DebugLineInfo)
    (f : String) (l : Int) : Outcome (List Nat) :=
  match lineInfo with
  | none => .ok []
  | some lineInfo =>
    match newStateMachine lineInfo lineInfo.Instructions with
    | none => .panic
    | some sm => DebugLineInfo.AllPCsForFileLine.loop dec f l 0 (sm.buf.length + 1) sm false []

/-- The error values `AllPCsBetween` can return. -/
inductive LineError where
  | NoSourceError
deriving DecidableEq

/-- The loop of `AllPCsBetween`. -/
def DebugLineInfo.AllPCsBetween.loop (dec : Decoders) (b e : Nat) :
    Nat → StateMachine → Nat → List Nat → Outcome (List Nat)
  | 0, _, _, _ => .fuel
  | fuel + 1, sm, lastaddr, pcs =>
    match next dec sm with
    | .panic => .panic
    | .eof _ => .ok pcs
    | .ok sm =>
      if ¬ sm.valid = true then DebugLineInfo.AllPCsBetween.loop dec b e fuel sm lastaddr pcs
      else if sm.address > e then .ok pcs
      else if sm.address ≥ b ∧ sm.address > lastaddr then
        DebugLineInfo.AllPCsBetween.loop dec b e fuel sm sm.address (pcs ++ [sm.address])
      else DebugLineInfo.AllPCsBetween.loop dec b e fuel sm lastaddr pcs

/-- The method `DebugLineInfo.AllPCsBetween`: the returned slice (nil is the empty list) and
the returned error (`none` is nil). -/
def DebugLineInfo.AllPCsBetween (dec : Decoders) (lineInfo : Option DebugLineInfo)
    (b e : Nat) : Outcome (List Nat × Option LineError) :=
  match lineInfo with
  | none => .ok ([], some .NoSourceError)
  | some lineInfo =>
    match newStateMachine lineInfo lineInfo.Instructions with
    | none => .panic
    | some sm =>
      match DebugLineInfo.AllPCsBetween.loop dec b e (sm.buf.length + 1) sm 0 [] with
      | .panic => .panic
      | .fuel => .fuel
      | .ok pcs => .ok (pcs, none)

/-! ## The table of a line number program -/

/-- The machines that successive calls of `next` produce from `sm`, up to the call that fails,
and the machine that failing call leaves. -/
def run (dec : Decoders) : Nat → StateMachine → Outcome (List StateMachine × StateMachine)
  | 0, _ => .fuel
  | fuel + 1, sm =>
    match next dec sm with
    | .panic => .panic
    | .eof sm => .ok ([], sm)
    | .ok sm =>
      match run dec fuel sm with
      | .panic => .panic
      | .fuel => .fuel
      | .ok (rows, last) => .ok (sm :: rows, last)

/-- The line table of `lineInfo`: the states of a fresh machine after each instruction, in
program order, and the machine after the end of the instructions.  The rows of the table in
the sense of DWARF are the states with `valid = true`. -/
def table (dec : Decoders) (lineInfo : DebugLineInfo) :
    Outcome (List StateMachine × StateMachine) :=
  match newStateMachine lineInfo lineInfo.Instructions with
  | none => .panic
  | some sm => run dec (sm.buf.length + 1) sm

/-- `Steps dec sm rows last`: from `sm`, successive calls of `next` return `nil` and leave
the machines `rows`, then a call fails and leaves `last`. -/
inductive Steps (dec : Decoders) : StateMachine → List StateMachine → StateMachine → Prop where
  | eof {sm last : StateMachine} : next dec sm = .eof last → Steps dec sm [] last
  | ok {sm s last : StateMachine} {rows : List StateMachine} :
      next dec sm = .ok s → Steps dec s rows last → Steps dec sm (s :: rows) last

/-- Applies a function to the value of an outcome. -/
def Outcome.map {α β : Type} (g : α → β) : Outcome α → Outcome β
  | .ok a => .ok (g a)
  | .panic => .panic
  | .fuel => .fuel

/-- Runs a second computation on the value of an outcome. -/
def Outcome.bind {α β : Type} (x : Outcome α) (g : α → Outcome β) : Outcome β :=
  match x with
  | .ok a => g a
  | .panic => .panic
  | .fuel => .fuel

/-- Whether a computation has returned. -/
def Outcome.isOk {α : Type} : Outcome α → Bool
  | .ok _ => true
  | _ => false

/-- The registers of a machine state that the queries look at: address, file, line and the
`valid` flag. -/
def rowView (s : StateMachine) : Nat × String × Int × Bool :=
  (s.address, s.file, s.line, s.valid)

/-- The table of `lineInfo` shown as the list of `rowView`s of its states. -/
def tableView (dec : Decoders) (lineInfo : DebugLineInfo) :
    Outcome (List (Nat × String × Int × Bool)) :=
  (table dec lineInfo).map (fun r => r.1.map rowView)

/-- Caches with no machine in them. -/
def noCaches : MachineCaches :=
  { stateMachineCache := fun _ => none, lastMachineCache := fun _ => none }

/-! ## Machines in memory

`StateMachine.copy` is about sharing: the Go struct holds a pointer to its `bytes.Buffer` and
a slice header for `definedFiles`, and a struct copy shares both.  The memory below has the
machines, the buffers and the backing arrays of the `definedFiles` slices, addressed by their
index. -/

/-- A Go slice header for `definedFiles`: backing array, length and capacity. -/
structure FilesSlice where
  arr : Nat
  len : Nat
  cap : Nat
deriving DecidableEq

/-- The Go struct `StateMachine` as it lies in memory: the scalar fields (`regs`, whose `buf`
and `definedFiles` are kept empty), the pointer `buf` and the slice header `definedFiles`. -/
structure MachineCell where
  regs : StateMachine
  bufPtr : Nat
  files : FilesSlice
deriving DecidableEq

/-- The memory: machines, buffers (each the unread bytes of a `bytes.Buffer`) and backing
arrays of file entries (each the slots written so far). -/
structure Heap where
  machines : List MachineCell
  buffers : List (List Nat)
  arrays : List (List FileEntry)
deriving DecidableEq

/-- The scalar fields of a machine. -/
def strip (sm : StateMachine) : StateMachine :=
  { sm with buf := [], definedFiles := [] }

/-- The machine that the pointer `p` denotes: its scalar fields, the unread bytes of its
buffer and the entries of its `definedFiles` slice. -/
def Heap.load (h : Heap) (p : Nat) : Option StateMachine :=
  match h.machines[p]? with
  | none => none
  | some cell =>
    match h.buffers[cell.bufPtr]?, h.arrays[cell.files.arr]? with
    | some bytes, some arr =>
      some { cell.regs with buf := bytes, definedFiles := arr.take cell.files.len }
    | _, _ => none

/-- The capacity the Go runtime gives a small slice that has to grow. -/
def growCap (cap : Nat) : Nat := if cap = 0 then 1 else 2 * cap

/-- The Go built-in `append(s, e)` on a `definedFiles` slice: with spare capacity the entry
is written into the backing array, which other slices may share; otherwise the entries move
to a new array. -/
def Heap.appendFile (h : Heap) (s : FilesSlice) (e : FileEntry) : Heap × FilesSlice :=
  match h.arrays[s.arr]? with
  | none => (h, s)
  | some arr =>
    if s.len < s.cap then
      ({ h with arrays := h.arrays.set s.arr (arr.take s.len ++ e :: arr.drop (s.len + 1)) },
        { s with len := s.len + 1 })
    else
      ({ h with arrays := h.arrays ++ [arr.take s.len ++ [e]] },
        { arr := h.arrays.length, len := s.len + 1, cap := growCap s.cap })

/-- The `append` that a call of `next` on the machine in `cell` has made, `sm` being the
machine after the call: `definefile` appends one entry, the other opcodes none. -/
def Heap.appendNew (h : Heap) (cell : MachineCell) (sm : StateMachine) : Heap × FilesSlice :=
  match (sm.definedFiles.drop cell.files.len).head? with
  | none => (h, cell.files)
  | some e => h.appendFile cell.files e

/-- Writes the machine `sm`, the result of a call of `next` on the machine at `p`, back to
memory: an entry that `definefile` has appended goes through `append`, the scalar fields go to
the struct and the unread bytes to its buffer. -/
def Heap.writeBack (h : Heap) (p : Nat) (cell : MachineCell) (sm : StateMachine) : Heap :=
  { machines := (h.appendNew cell sm).1.machines.set p
      { regs := strip sm, bufPtr := cell.bufPtr, files := (h.appendNew cell sm).2 }
    buffers := (h.appendNew cell sm).1.buffers.set cell.bufPtr sm.buf
    arrays := (h.appendNew cell sm).1.arrays }

/-- The call `sm.next()` on the machine at `p`: the memory after the call and whether the call
returned `nil`; `none` when the pointer is dangling or the call panics. -/
def nextAt (dec : Decoders) (h : Heap) (p : Nat) : Option (Heap × Bool) :=
  match h.machines[p]?, h.load p with
  | some cell, some sm =>
    match next dec sm with
    | .panic => none
    | .ok sm2 => some (h.writeBack p cell sm2, true)
    | .eof sm2 => some (h.writeBack p cell sm2, false)
  | _, _ => none

/-- `n` calls of `next` on the machine at `p`. -/
def runAt (dec : Decoders) : Nat → Heap → Nat → Option Heap
  | 0, h, _ => some h
  | n + 1, h, p =>
    match nextAt dec h p with
    | none => none
    | some (h2, _) => runAt dec n h2 p

/-- The call `sm.copy()` on the machine at `p`: the struct is copied to a new address, with
the same slice header for `definedFiles`, and gets a new buffer with the unread bytes.  The
result is the memory after the call and the returned pointer. -/
def copyAt (h : Heap) (p : Nat) : Option (Heap × Nat) :=
  match h.machines[p]? with
  | none => none
  | some cell =>
    match h.buffers[cell.bufPtr]? with
    | none => none
    | some bytes =>
      some ({ h with machines := h.machines ++ [{ cell with bufPtr := h.buffers.length }]
                     buffers := h.buffers ++ [bytes] }, h.machines.length)

/-- The machine at `p` is well formed: its pointers are valid and the entries of its
`definedFiles` slice are written in its backing array. -/
def Heap.WF (h : Heap) (p : Nat) : Prop :=
  ∃ cell bytes arr, h.machines[p]? = some cell ∧ h.buffers[cell.bufPtr]? = some bytes ∧
    h.arrays[cell.files.arr]? = some arr ∧ cell.files.len ≤ arr.length

/-- `Apart h r o co bytes vis`: in the memory `h` the machine at `o` has the struct `co`, the
unread bytes `bytes` and the defined files `vis`, and the machine at `r` is another struct
with another buffer whose `definedFiles` slice, if it shares the backing array of `o`, is at
least as long. -/
def Apart (h : Heap) (r o : Nat) (co : MachineCell) (bytes : List Nat)
    (vis : List FileEntry) : Prop :=
  r ≠ o ∧ h.machines[o]? = some co ∧ h.buffers[co.bufPtr]? = some bytes ∧
  (∃ arr, h.arrays[co.files.arr]? = some arr ∧ co.files.len ≤ arr.length ∧
    arr.take co.files.len = vis) ∧
  ∃ cr, h.machines[r]? = some cr ∧ cr.bufPtr ≠ co.bufPtr ∧
    (cr.files.arr = co.files.arr → co.files.len ≤ cr.files.len) ∧
    ∃ arr, h.arrays[cr.files.arr]? = some arr ∧ cr.files.len ≤ arr.length

/-! ## Vocabulary of the statements -/

/-- The address the contract of `LineToPC` names: the address of the first valid row of the
table that is on line `l` of file `f`, and `0` when there is no such row. -/
def firstValidRowAddress (f : String) (l : Int) (rows : List StateMachine) : Nat :=
  match rows.find? (fun s => s.valid && s.file == f && s.line == l) with
  | some r => r.address
  | none => 0

/-- The machines a lookup on `lineInfo` can hold: a fresh machine and every machine that calls
of `next` make of it. -/
inductive Reach (dec : Decoders) (lineInfo : DebugLineInfo) : StateMachine → Prop where
  | fresh {sm : StateMachine} :
      newStateMachine lineInfo lineInfo.Instructions = some sm → Reach dec lineInfo sm
  | ok {sm s : StateMachine} : Reach dec lineInfo sm → next dec sm = .ok s → Reach dec lineInfo s
  | eof {sm s : StateMachine} :
      Reach dec lineInfo sm → next dec sm = .eof s → Reach dec lineInfo s

/-- The cached machines are machines of this table: what `PCToLine` keeps true of the two
maps. -/
def CachesOk (dec : Decoders) (lineInfo : DebugLineInfo) (caches : MachineCaches) : Prop :=
  (∀ k sm, caches.stateMachineCache k = some sm → Reach dec lineInfo sm) ∧
  (∀ k sm, caches.lastMachineCache k = some sm → Reach dec lineInfo sm)

/-- `PickedAt f l rows a i`: the state of `rows` at index `i` is a valid row on line `l` of
file `f` and `a` is its address. -/
def PickedAt (f : String) (l : Int) (rows : List StateMachine) (a i : Nat) : Prop :=
  ∃ s, rows[i]? = some s ∧ s.address = a ∧ s.valid = true ∧ s.file = f ∧ s.line = l

/-- `LeavesLine l rows i j`: between the indices `i` and `j` some state of `rows` is not on
line `l`, so the states at `i` and `j` are in different runs of line `l`. -/
def LeavesLine (l : Int) (rows : List StateMachine) (i j : Nat) : Prop :=
  ∃ m t, i < m ∧ m < j ∧ rows[m]? = some t ∧ t.line ≠ l

/-- `RunStart l rows i`: the state at index `i` is not preceded by a state on line `l`, so a
run of line `l` that contains it starts with it. -/
def RunStart (l : Int) (rows : List StateMachine) (i : Nat) : Prop :=
  i = 0 ∨ ∃ t, rows[i - 1]? = some t ∧ t.line ≠ l

/-- `StaysInFile f l rows i`: before index `i`, no state of another file follows a state on
line `l` of file `f`. -/
def StaysInFile (f : String) (l : Int) (rows : List StateMachine) (i : Nat) : Prop :=
  ∀ j1 j2 a b, j1 < j2 → j2 < i → rows[j1]? = some a → rows[j2]? = some b →
    a.file = f → a.line = l → b.file = f

/-- `FilesStep sm sm2`: the defined files of `sm2` are those of `sm`, or those of `sm` and
one more entry at the end. -/
def FilesStep (sm sm2 : StateMachine) : Prop :=
  sm2.definedFiles = sm.definedFiles ∨ ∃ e, sm2.definedFiles = sm.definedFiles ++ [e]

/-- The fields of a machine that no opcode writes: the `last` registers, `dbl` and
`started`. -/
def keptFields (sm : StateMachine) : Nat × String × Int × DebugLineInfo × Bool :=
  (sm.lastAddress, sm.lastFile, sm.lastLine, sm.dbl, sm.started)

/-! ## Decoders for concrete tables -/

/-- Modelled from the spec: `util.DecodeULEB128` is not among the sources.  The unsigned
LEB128 decoding the spec names: seven value bits per byte, least significant group first, the
high bit marks a continuation; an empty buffer gives zero and a value cut short is a panic.
`acc`, `shift` and `n` are the value, the shift and the number of bytes so far. -/
def uleb128 : List Nat → Nat → Nat → Nat → Option (Nat × Nat)
  | [], _, _, n => if n = 0 then some (0, 0) else none
  | b :: rest, acc, shift, n =>
    let acc2 := acc + (b % 128) * 2 ^ shift
    if b % 256 < 128 then some (acc2 % 2 ^ 64, n + 1) else uleb128 rest acc2 (shift + 7) (n + 1)

/-- Modelled from the spec: `util.DecodeSLEB128` is not among the sources.  The signed LEB128
decoding: as `uleb128`, with the sign taken from bit 6 of the last byte. -/
def sleb128 : List Nat → Nat → Nat → Nat → Option (Int × Nat)
  | [], _, _, n => if n = 0 then some (0, 0) else none
  | b :: rest, acc, shift, n =>
    let acc2 := acc + (b % 128) * 2 ^ shift
    if b % 256 < 128 then
      some (if b % 128 < 64 then toInt64 acc2 else toInt64 ((acc2 : Int) - 2 ^ (shift + 7)), n + 1)
    else sleb128 rest acc2 (shift + 7) (n + 1)

/-- Modelled from the spec: `readFileEntry` is not among the sources.  A file entry of a line
number program: a path ended by a zero byte, then the directory index, the modification time
and the length as unsigned LEB128 values.  The path is kept as it is written. -/
def stdReadFileEntry (_dbl : DebugLineInfo) (buf : List Nat) : Option (FileEntry × Nat) :=
  let name := buf.takeWhile (fun b => b != 0)
  let r1 := buf.drop (name.length + 1)
  match uleb128 r1 0 0 0 with
  | none => none
  | some (d, n1) =>
    match uleb128 (r1.drop n1) 0 0 0 with
    | none => none
    | some (m, n2) =>
      match uleb128 (r1.drop (n1 + n2)) 0 0 0 with
      | none => none
      | some (len, n3) =>
        some ({ Path := String.mk (name.map Char.ofNat), DirIdx := d, LastModTime := m,
                Length := len }, name.length + 1 + n1 + n2 + n3)

/-- The decoders used for the concrete tables below. -/
def stdDecoders : Decoders where
  DecodeULEB128 := fun buf => uleb128 buf 0 0 0
  DecodeSLEB128 := fun buf => sleb128 buf 0 0 0
  readFileEntry := stdReadFileEntry

/-! ## Concrete tables -/

/-- The Go zero value of `StateMachine`, with `dbl` set. -/
def zeroMachine (dbl : DebugLineInfo) : StateMachine :=
  { dbl := dbl, file := "", line := 0, address := 0, column := 0, isStmt := false,
    basicBlock := false, endSeq := false, lastWasStandard := false, lastDelta := 0,
    valid := false, started := false, buf := [], definedFiles := [],
    lastAddress := 0, lastFile := "", lastLine := 0 }

/-- The states of the table of `lineInfo`, empty when there is no table. -/
def tableRows (dec : Decoders) (lineInfo : DebugLineInfo) : List StateMachine :=
  match table dec lineInfo with
  | .ok r => r.1
  | _ => []

/-- The machine after the end of the program of `lineInfo`. -/
def tableLast (dec : Decoders) (lineInfo : DebugLineInfo) : StateMachine :=
  match table dec lineInfo with
  | .ok r => r.2
  | _ => zeroMachine lineInfo

/-- A prologue with the parameters the Go linker writes: special opcodes start at 10 and
cover line advances from -4 to 5. -/
def examplePrologue : DebugLinePrologue :=
  { MinInstrLength := 1, InitialIsStmt := 1, LineBase := -4, LineRange := 10, OpcodeBase := 10,
    StdOpLengths := [0, 1, 1, 1, 1, 0, 0, 0, 1] }

/-- A line table over the files `a.go` and `b.go` with the given line number program. -/
def exampleTable (instructions : List Nat) : DebugLineInfo :=
  { Prologue := examplePrologue, IncludeDirs := [],
    FileNames := [⟨"a.go", 0, 0, 0⟩, ⟨"b.go", 0, 0, 0⟩], Instructions := instructions }

/-- Program: `negate_stmt`; `set_file 2`; `fixed_advance_pc 5`; `set_file 1`; `copy`.  Its only
row is `(5, a.go, 1)`, after a state of `b.go`. -/
def tableOtherFile : DebugLineInfo := exampleTable [6, 4, 2, 9, 5, 0, 4, 1, 1]

/-- Program: `set_file 2`; `fixed_advance_pc 7`; special opcode 15 (line + 1); `advance_pc 3`;
`end_sequence`.  Rows `(7, b.go, 2)` and `(10, b.go, 2)`. -/
def tableEndSeq : DebugLineInfo := exampleTable [4, 2, 9, 7, 0, 15, 2, 3, 0, 1, 1]

/-- Program: `fixed_advance_pc 4`; `copy`; special opcode 15 (line + 1).  Rows `(4, a.go, 1)`
and `(4, a.go, 2)` at one address. -/
def tableSameAddress : DebugLineInfo := exampleTable [9, 4, 0, 1, 15]

/-- Program: `copy`; `negate_stmt`.  One row `(0, a.go, 1)` followed by a state that is not a
row. -/
def tableTrailing : DebugLineInfo := exampleTable [1, 6]

/-- Program: special opcodes 26 (line + 2, address + 1), 15 (line + 1) and 13 (line - 1).
Rows `(1, a.go, 3)`, `(1, a.go, 4)`, `(1, a.go, 3)`: line 3 is entered twice at address 1. -/
def tableReentry : DebugLineInfo := exampleTable [26, 15, 13]

/-- Program: six special opcodes and `end_sequence`.  Rows at addresses 1, 2, 3, 4, 6, 7 on
lines 3, 3, 4, 3, 3, 5 of `a.go`: line 3 is entered at address 1 and again at address 4. -/
def tableLoop : DebugLineInfo := exampleTable [26, 24, 25, 23, 34, 26, 0, 1, 1]

/-- Program: special opcodes 26 and 15; `set_file 2`; `copy`; `set_file 1`; special opcode 23.
Rows `(1, a.go, 3)`, `(1, a.go, 4)`, `(1, b.go, 4)`, `(2, a.go, 3)`: line 3 of `a.go` is
entered at address 1 and, after a row of `b.go`, at address 2. -/
def tableTwoFiles : DebugLineInfo := exampleTable [26, 15, 4, 2, 1, 4, 1, 23]

/-- Program: `define_file` of the file `c` (extended opcode 3 with the entry `c\x00`, 0, 0,
0); `copy`. -/
def tableDefineFile : DebugLineInfo := exampleTable [0, 5, 3, 99, 0, 0, 0, 0, 1]

/-- A memory with one machine: a fresh machine on `tableDefineFile`, with an empty
`definedFiles` slice of capacity 2. -/
def exampleHeap : Heap :=
  { machines := [{ regs := strip ((newStateMachine tableDefineFile []).getD
                      (zeroMachine tableDefineFile)),
                   bufPtr := 0, files := { arr := 0, len := 0, cap := 2 } }]
    buffers := [tableDefineFile.Instructions]
    arrays := [[]] }

/-! ## Skipped and special opcodes: vocabulary and concrete tables -/

/-- The unread bytes after `n` calls of `util.DecodeSLEB128` on `buf`: what is left of a
buffer once `n` LEB128 operands have been taken off it; `none` when a call panics. -/
def afterOperands (dec : Decoders) : Nat → List Nat → Option (List Nat)
  | 0, buf => some buf
  | n + 1, buf =>
    match dec.DecodeSLEB128 buf with
    | none => none
    | some (_, k) => afterOperands dec n (buf.drop k)

/-- `DecodesAt dec dbl buf`: none of the three helpers panics on the unread bytes `buf`. -/
def DecodesAt (dec : Decoders) (dbl : DebugLineInfo) (buf : List Nat) : Prop :=
  (dec.DecodeULEB128 buf).isSome = true ∧ (dec.DecodeSLEB128 buf).isSome = true ∧
    (dec.readFileEntry dbl buf).isSome = true

instance (dec : Decoders) (dbl : DebugLineInfo) (buf : List Nat) :
    Decidable (DecodesAt dec dbl buf) := by
  unfold DecodesAt
  infer_instance

/-- A prologue with the twelve standard opcodes of DWARF 3: the machine implements the
opcodes 1 to 9, the opcodes 10, 11 and 12 are declared with 0, 0 and 1 operands. -/
def prologueTwelve : DebugLinePrologue :=
  { MinInstrLength := 1, InitialIsStmt := 1, LineBase := -4, LineRange := 10, OpcodeBase := 13,
    StdOpLengths := [0, 1, 1, 1, 1, 0, 0, 0, 1, 0, 0, 1] }

/-- A line table over the files `a.go` and `b.go` with the prologue `prologueTwelve`. -/
def tableTwelve (instructions : List Nat) : DebugLineInfo :=
  { Prologue := prologueTwelve, IncludeDirs := [],
    FileNames := [⟨"a.go", 0, 0, 0⟩, ⟨"b.go", 0, 0, 0⟩], Instructions := instructions }

/-- Program: `set_file 2`; special opcode 29 (line + 2, address + 1); `end_sequence`; the
unimplemented standard opcode 12 with its operand 5. -/
def tableSkipAfterEndSeq : DebugLineInfo := tableTwelve [4, 2, 29, 0, 1, 1, 12, 5]

/-- Program: special opcode 29; the unimplemented standard opcode 12 with the two byte
operand `0x80 0x01`; `copy`. -/
def tableSkip : DebugLineInfo := tableTwelve [29, 12, 128, 1, 1]

/-- Program: special opcode 26 (line + 2, address + 1); an extended instruction of declared
length 3 with the sub-opcode `0x80`, which the machine does not know, and the two payload
bytes 1 and 15. -/
def tableUnknownExtended : DebugLineInfo := exampleTable [26, 0, 3, 128, 1, 15]

/-- Program: special opcode 26; an extended instruction of declared length 1 with the
unknown sub-opcode `0x80`; special opcode 15 (line + 1). -/
def tableUnknownExtendedShort : DebugLineInfo := exampleTable [26, 0, 1, 128, 15]

/-- Program: `set_file 2`; special opcode 26 (line + 2, address + 1); `end_sequence`; special
opcode 15 (line + 1). -/
def tableSpecialAfterEndSeq : DebugLineInfo := exampleTable [4, 2, 26, 0, 1, 1, 15]

/-- The machine of a table after its first `n` instructions; the zero machine when the table
has fewer states. -/
def stateAfter (dec : Decoders) (lineInfo : DebugLineInfo) (n : Nat) : StateMachine :=
  match n with
  | 0 => (newStateMachine lineInfo lineInfo.Instructions).getD (zeroMachine lineInfo)
  | n + 1 => ((tableRows dec lineInfo).get? n).getD (zeroMachine lineInfo)

/-- Program: special opcode 26; an extended `set_address` of declared length 9 whose eight
byte operand is cut short after one byte. -/
def tableCutShort : DebugLineInfo := exampleTable [26, 0, 9, 2, 1]

/-! ## Lookups one after the other, and two more tables -/

/-- Program: `advance_pc 5`; `copy`.  The state after `advance_pc` is on line 1 of `a.go` at
address 5 and is not a row; the row `(5, a.go, 1)` follows it. -/
def tableInvalidFirst : DebugLineInfo := exampleTable [2, 5, 1]

/-- Program: the special opcodes 26, 25, 15 and 24.  Rows `(1, a.go, 3)`, `(2, a.go, 4)`,
`(2, a.go, 5)`, `(3, a.go, 5)`: the address 2 has a row on line 4 and a row on line 5. -/
def tableTwoRowsAtTwo : DebugLineInfo := exampleTable [26, 25, 15, 24]

/-- Program: `advance_pc` whose LEB128 operand is cut short: its one byte, 128, announces a
byte that does not follow. -/
def tableOperandCut : DebugLineInfo := exampleTable [2, 128]

/-- The caches after the lookups `PCToLine(basePC, pc)` for the `pc` of `pcs`, in this order,
starting from `caches`. -/
def cachesAfter (dec : Decoders) (lineInfo : DebugLineInfo) (basePC : Nat) :
    List Nat → MachineCaches → Outcome MachineCaches
  | [], caches => .ok caches
  | pc :: pcs, caches =>
    match DebugLineInfo.PCToLine dec (some lineInfo) caches basePC pc with
    | .panic => .panic
    | .fuel => .fuel
    | .ok (_, caches) => cachesAfter dec lineInfo basePC pcs caches

/-- The answer of `PCToLine(basePC, pc)` after the earlier lookups `pcs` with the same
`basePC`, the first of them on empty caches. -/
def answerAfter (dec : Decoders) (lineInfo : DebugLineInfo) (basePC : Nat) (pcs : List Nat)
    (pc : Nat) : Outcome (String × Int) :=
  match cachesAfter dec lineInfo basePC pcs noCaches with
  | .panic => .panic
  | .fuel => .fuel
  | .ok caches => (DebugLineInfo.PCToLine dec (some lineInfo) caches basePC pc).map (fun r => r.1)

end Line

namespace Proc

open Line (DebugLineInfo Outcome toInt64 wrap64)

/-! ## Stack frames (`pkg/proc/stack.go`) -/

/-- The error values of `stack.go`. -/
inductive Error where
  | negativeDepth
  | nullAddr
  | other (msg : String)
deriving DecidableEq

/-- Modelled from the spec: the declaration of `compileUnit` is not among the sources; the one
field `stack.go` reads is `lineInfo`, a pointer that can be nil. -/
structure CompileUnit where
  lineInfo : Option DebugLineInfo
deriving DecidableEq

/-- Modelled from the spec: the declaration of `Function` is not among the sources; the fields
are the ones `appendInlineCalls` reads and writes.  `cu` is a pointer that can be nil. -/
structure Function where
  Name : String
  Entry : Nat
  End : Nat
  offset : Nat
  cu : Option CompileUnit
deriving DecidableEq

/-- Modelled from the spec: the declaration of `Location` is not among the sources; the fields
and their order are those of the literal in `appendInlineCalls`. -/
structure Location where
  PC : Nat
  File : String
  Line : Int
  Fn : Option Function
deriving DecidableEq

/-- The Go struct `Stackframe`; `R` is the type of the register set `op.DwarfRegisters`. -/
structure Stackframe (R : Type) where
  Current : Location
  Call : Location
  Regs : R
  stackHi : Nat
  Ret : Nat
  addrret : Nat
  Err : Option Error
  SystemStack : Bool
  Inlined : Bool
  lastpc : Nat
deriving DecidableEq

/-- The Go zero value of `Location`. -/
def Location.zero : Location := { PC := 0, File := "", Line := 0, Fn := none }

/-- The frame `Stackframe{Err: err}`. -/
def Stackframe.ofErr {R : Type} [Inhabited R] (err : Error) : Stackframe R :=
  { Current := Location.zero, Call := Location.zero, Regs := default, stackHi := 0, Ret := 0,
    addrret := 0, Err := some err, SystemStack := false, Inlined := false, lastpc := 0 }

/-- What `appendInlineCalls` reads of one entry of `reader.InlineStack` after
`reader.LoadAbstractOrigin`: the attributes `AttrName`, `AttrCallFile` and `AttrCallLine`
(`none` when the type assertion fails) and the offset. -/
structure InlineEntry where
  name : Option String
  callFile : Option Int
  callLine : Option Int
  offset : Nat
deriving DecidableEq

/-- The parts of a `stackIterator` that `stacktrace` and `appendInlineCalls` use, over a type
`σ` of iterator states: the method `Next` (the iterator after the call and the returned
boolean, or the panic of the call), the accessors `Frame` and `Err`, and the entries that
`reader.InlineStack(it.bi.dwarf, offset, callpc)` yields. -/
structure IteratorOps (σ R : Type) where
  Next : σ → Outcome (σ × Bool)
  Frame : σ → Stackframe R
  Err : σ → Option Error
  inlineStack : σ → Nat → Nat → List InlineEntry

/-- The loop of `appendInlineCalls` over the inline entries; a `break` leaves the loop for the
final `append(frames, frame)`.  `none` is a nil dereference of `frame.Current.Fn`, of its `cu`
or of its `lineInfo`. -/
def appendInlineCalls.loop {R : Type} (callFn : Function) :
    List InlineEntry → List (Stackframe R) → Stackframe R → Option (List (Stackframe R))
  | [], frames, frame => some (frames ++ [frame])
  | entry :: rest, frames, frame =>
    match entry.name, entry.callFile, entry.callLine with
    | some fnname, some fileidx, some line =>
      let idx := toInt64 (fileidx - 1)
      if idx < 0 then some (frames ++ [frame])
      else
        match frame.Current.Fn with
        | none => none
        | some curFn =>
          match curFn.cu with
          | none => none
          | some cu =>
            match cu.lineInfo with
            | none => none
            | some lineInfo =>
              if idx ≥ (lineInfo.FileNames.length : Int) then some (frames ++ [frame])
              else
                match lineInfo.FileNames.get? idx.toNat with
                | none => none
                | some fe =>
                  let inlfn : Function :=
                    { Name := fnname, Entry := callFn.Entry, End := callFn.End,
                      offset := entry.offset, cu := callFn.cu }
                  let synthetic : Stackframe R :=
                    { Current := frame.Current
                      Call := { PC := frame.Call.PC, File := frame.Call.File,
                                Line := frame.Call.Line, Fn := some inlfn }
                      Regs := frame.Regs, stackHi := frame.stackHi, Ret := frame.Ret,
                      addrret := frame.addrret, Err := frame.Err,
                      SystemStack := frame.SystemStack, Inlined := true,
                      lastpc := frame.lastpc }
                  appendInlineCalls.loop callFn rest (frames ++ [synthetic])
                    { frame with
                      Call := { frame.Call with File := fe.Path, Line := toInt64 line } }
    | _, _, _ => some (frames ++ [frame])

/-- The method `appendInlineCalls`. -/
def appendInlineCalls {σ R : Type} (ops : IteratorOps σ R) (it : σ)
    (frames : List (Stackframe R)) (frame : Stackframe R) : Option (List (Stackframe R)) :=
  match frame.Call.Fn with
  | none => some (frames ++ [frame])
  | some callFn =>
    match callFn.cu with
    | none => none
    | some cu =>
      match cu.lineInfo with
      | none => some (frames ++ [frame])
      | some _ =>
        let callpc := if frames.length > 0 then wrap64 (frame.Call.PC + (2 ^ 64 - 1))
          else frame.Call.PC
        appendInlineCalls.loop callFn (ops.inlineStack it callFn.offset callpc) frames frame

/-- The loop `for it.Next()` of `stacktrace`: the iterator and the frames when the loop is
left. -/
def stacktrace.loop {σ R : Type} (ops : IteratorOps σ R) (depth : Int) :
    Nat → σ → List (Stackframe R) → Outcome (σ × List (Stackframe R))
  | 0, _, _ => .fuel
  | fuel + 1, it, frames =>
    match ops.Next it with
    | .panic => .panic
    | .fuel => .fuel
    | .ok (it, false) => .ok (it, frames)
    | .ok (it, true) =>
      match appendInlineCalls ops it frames (ops.Frame it) with
      | none => .panic
      | some frames =>
        if (frames.length : Int) ≥ toInt64 (depth + 1) then .ok (it, frames)
        else stacktrace.loop ops depth fuel it frames

/-- The method `stacktrace`: the returned frames (nil is the empty list) and error, and the
iterator after the call.  `make([]Stackframe, 0, depth+1)` panics on a negative capacity;
the limit of what the runtime can allocate is not modelled. -/
def stacktrace {σ R : Type} [Inhabited R] (ops : IteratorOps σ R) (it : σ) (depth : Int) :
    Outcome ((List (Stackframe R) × Option Error) × σ) :=
  if depth < 0 then .ok (([], some .negativeDepth), it)
  else if toInt64 (depth + 1) < 0 then .panic
  else
    match stacktrace.loop ops depth ((toInt64 (depth + 1)).toNat + 1) it [] with
    | .panic => .panic
    | .fuel => .fuel
    | .ok (it, frames) =>
      match ops.Err it with
      | some err =>
        if frames.length = 0 then .ok (([], some err), it)
        else .ok ((frames ++ [Stackframe.ofErr err], none), it)
      | none => .ok ((frames, none), it)

/-- The iterator after `n` calls of `Next`. -/
def nextN {σ R : Type} (ops : IteratorOps σ R) : Nat → σ → Outcome σ
  | 0, it => .ok it
  | n + 1, it =>
    match ops.Next it with
    | .panic => .panic
    | .fuel => .fuel
    | .ok (it, _) => nextN ops n it

/-- The call of `Next` number `j + 1` returns true. -/
def YieldsAt {σ R : Type} (ops : IteratorOps σ R) (it : σ) (j : Nat) : Prop :=
  ∃ s s2, nextN ops j it = .ok s ∧ ops.Next s = .ok (s2, true)

/-- An iterator over a counter: `Next` succeeds while the counter is below `n`, the frame is
at the program counter given by the counter and belongs to no function, and there is no
error. -/
def counterOps (n : Nat) : IteratorOps Nat Unit where
  Next := fun k => .ok (k + 1, decide (k < n))
  Frame := fun k =>
    { Current := { PC := k, File := "?", Line := -1, Fn := none }
      Call := { PC := k, File := "?", Line := -1, Fn := none }
      Regs := (), stackHi := 0, Ret := 0, addrret := 8, Err := none, SystemStack := false,
      Inlined := false, lastpc := k }
  Err := fun _ => none
  inlineStack := fun _ _ _ => []

/-! ## Target memory and raw integers (`pkg/proc/variables.go`) -/

/-- The value of an `int64` as a `uint64`. -/
def toUint64 (z : Int) : Nat := (z % 2 ^ 64).toNat

/-- Two's complement reading of the low `bits` bits of `n`. -/
def signExtend (bits : Nat) (n : Nat) : Int :=
  if n % 2 ^ bits < 2 ^ (bits - 1) then (n % 2 ^ bits : Nat) else ((n % 2 ^ bits : Nat) : Int) - 2 ^ bits

/-- The read side of the collaborator `MemoryReadWriter`: `read addr size` is what a read of
`size` bytes at `addr` delivers, or the error of the read. -/
structure Memory where
  read : Nat → Nat → Except Error (List Nat)

/-- The buffer of `size` bytes after the reader has filled it: bytes are reduced modulo 256
and a buffer the reader did not fill keeps its zeros. -/
def fitBytes (size : Nat) (bs : List Nat) : List Nat :=
  ((bs.map (· % 256)) ++ List.replicate size 0).take size

/-- The call `mem.ReadMemory(buf, addr)` on a zeroed buffer of `size` bytes. -/
def Memory.ReadMemory (mem : Memory) (size addr : Nat) : Except Error (List Nat) :=
  match mem.read (addr % 2 ^ 64) size with
  | .ok bs => .ok (fitBytes size bs)
  | .error e => .error e

/-- A memory given by its bytes: a read succeeds when every byte of the range is mapped. -/
def Memory.ofBytes (bytes : Nat → Option Nat) : Memory where
  read := fun addr size =>
    if (List.range size).all (fun i => (bytes (addr + i)).isSome) then
      .ok ((List.range size).map (fun i => (bytes (addr + i)).getD 0))
    else .error (.other "unreadable memory")

/-- A memory that holds the bytes `bs` from address `base` on and nothing else. -/
def Memory.ofList (base : Nat) (bs : List Nat) : Memory :=
  Memory.ofBytes (fun a => if base ≤ a then bs.get? (a - base) else none)

/-- The `n` little-endian bytes of `v`. -/
def leBytes : Nat → Nat → List Nat
  | 0, _ => []
  | n + 1, v => v % 256 :: leBytes n (v / 256)

/-- The function `readUintRaw`: the value and the error.  `make` panics on a negative
size. -/
def readUintRaw (mem : Memory) (addr : Nat) (size : Int) : Outcome (Nat × Option Error) :=
  if size < 0 then .panic
  else
    match mem.ReadMemory size.toNat addr with
    | .error e => .ok (0, some e)
    | .ok val =>
      .ok ((if size = 1 ∨ size = 2 ∨ size = 4 ∨ size = 8 then Line.leValue val else 0), none)

/-- The function `readIntRaw`: the value and the error. -/
def readIntRaw (mem : Memory) (addr : Nat) (size : Int) : Outcome (Int × Option Error) :=
  if size < 0 then .panic
  else
    match mem.ReadMemory size.toNat addr with
    | .error e => .ok (0, some e)
    | .ok val =>
      .ok ((if size = 1 ∨ size = 2 ∨ size = 4 ∨ size = 8 then
              signExtend (8 * size.toNat) (Line.leValue val) else 0), none)

/-! ## The stack iterator (`pkg/proc/stack.go`) -/

/-- Modelled from the spec: the declaration of `op.DwarfRegister` is not among the sources;
a register is its value and its bytes. -/
structure DwarfRegister where
  Uint64Val : Nat
  Bytes : List Nat
deriving DecidableEq

/-- Modelled from the spec: the declaration of `op.DwarfRegisters` is not among the sources;
the fields are the ones `stack.go` uses (`ByteOrder` is left out).  `regs` is the slice of
register pointers, `none` for nil.  Registers are copied by value: the sharing of a register
between the iterator and a frame built earlier is not modelled. -/
structure DwarfRegisters where
  CFA : Int
  FrameBase : Int
  PCRegNum : Nat
  SPRegNum : Nat
  BPRegNum : Nat
  regs : List (Option DwarfRegister)
deriving DecidableEq

/-- The Go zero value of `op.DwarfRegisters`. -/
def DwarfRegisters.zero : DwarfRegisters :=
  { CFA := 0, FrameBase := 0, PCRegNum := 0, SPRegNum := 0, BPRegNum := 0, regs := [] }

instance : Inhabited DwarfRegisters := ⟨DwarfRegisters.zero⟩

/-- Modelled from the spec: the method `Reg` is not among the sources; the register pointer at
`idx`, nil beyond the slice. -/
def DwarfRegisters.Reg (r : DwarfRegisters) (idx : Nat) : Option DwarfRegister :=
  (r.regs.get? idx).join

/-- Modelled from the spec: the method `Uint64Val` is not among the sources; the value of the
register at `idx`, zero for a nil register. -/
def DwarfRegisters.Uint64Val (r : DwarfRegisters) (idx : Nat) : Nat :=
  match r.Reg idx with
  | none => 0
  | some reg => reg.Uint64Val

/-- Modelled from the spec: the method `AddReg` is not among the sources; the slice grows to
hold index `idx` and the register is stored there. -/
def DwarfRegisters.AddReg (r : DwarfRegisters) (idx : Nat) (reg : Option DwarfRegister) :
    DwarfRegisters :=
  { r with regs := (r.regs ++ List.replicate (idx + 1 - r.regs.length) none).set idx reg }

def DwarfRegisters.PC (r : DwarfRegisters) : Nat := r.Uint64Val r.PCRegNum

def DwarfRegisters.SP (r : DwarfRegisters) : Nat := r.Uint64Val r.SPRegNum

def DwarfRegisters.BP (r : DwarfRegisters) : Nat := r.Uint64Val r.BPRegNum

/-- The assignment `regs.Reg(idx).Uint64Val = v`; `none` is the dereference of a nil
register. -/
def DwarfRegisters.setUint64Val (r : DwarfRegisters) (idx v : Nat) : Option DwarfRegisters :=
  match r.Reg idx with
  | none => none
  | some reg => some { r with regs := r.regs.set idx (some { reg with Uint64Val := v }) }

/-- Modelled from the spec: `op.DwarfRegisterFromUint64` is not among the sources. -/
def DwarfRegisterFromUint64 (v : Nat) : DwarfRegister := { Uint64Val := v, Bytes := [] }

/-- Modelled from the spec: `op.DwarfRegisterFromBytes` is not among the sources; the value is
the little-endian reading of 1, 2, 4 or the first 8 bytes. -/
def DwarfRegisterFromBytes (bytes : List Nat) : DwarfRegister :=
  { Uint64Val :=
      if bytes.length = 1 ∨ bytes.length = 2 ∨ bytes.length = 4 then Line.leValue bytes
      else if bytes.length ≥ 8 then Line.leValue (bytes.take 8) else 0
    Bytes := bytes }

/-- Modelled from the spec: the rule kinds of the package `frame` are not among the sources;
these are the ones `executeFrameRegRule` switches on, `unknown` standing for any other. -/
inductive RuleKind where
  | undefined | sameVal | offset | valOffset | register | expression | valExpression
  | architectural | cfa | framePointer | unknown
deriving DecidableEq

/-- Modelled from the spec: the declaration of `frame.DWRule` is not among the sources. -/
structure DWRule where
  Rule : RuleKind
  Offset : Int
  Reg : Nat
  Expression : List Nat
deriving DecidableEq

/-- Modelled from the spec: the declaration of `frame.FrameContext` is not among the sources;
`Regs` is the map from register number to rule, as the list of its entries. -/
structure FrameContext where
  CFA : DWRule
  Regs : List (Nat × DWRule)
  RetAddrReg : Nat
deriving DecidableEq

/-- The Go struct `savedLR`. -/
structure savedLR where
  ptr : Nat
  val : Nat
deriving DecidableEq

/-- The fields of the Go struct `G` that the iterator reads. -/
structure G where
  PC : Nat
  SP : Nat
  BP : Nat
  SystemStack : Bool
deriving DecidableEq

/-- The Go struct `stackIterator`.  The fields `bi`, `mem` and `dwarfReader`, which the
iterator does not write, are in `StackEnv`.  `stkbar = none` is the nil slice. -/
structure stackIterator where
  pc : Nat
  top : Bool
  atend : Bool
  frame : Stackframe DwarfRegisters
  err : Option Error
  stackhi : Nat
  systemstack : Bool
  stackBarrierPC : Nat
  stkbar : Option (List savedLR)
  regs : DwarfRegisters
  g : Option G
  g0_sched_sp : Nat
deriving DecidableEq

/-- What the iterator uses of its binary info, memory and readers.  `frameContext pc` is the
context `advanceRegs` gets from `FDEForPC` and `FixFrameUnwindContext`, `pcToLine` is
`bi.PCToLine`, `frameBase fn pc regs` is the method `frameBase`, whose DWARF reader and
location evaluation are not among the sources, `spRegNum` is the constant
`amd64DwarfSPRegNum`, `ptrSize` is `bi.Arch.PtrSize()` and `regSize` is `bi.Arch.RegSize`. -/
structure StackEnv where
  frameContext : Nat → FrameContext
  executeStackProgram : DwarfRegisters → List Nat → Except Error Int
  regSize : Nat → Nat
  mem : Memory
  ptrSize : Nat
  pcToLine : Nat → String × Int × Option Function
  frameBase : Function → Nat → DwarfRegisters → Int
  spRegNum : Nat

/-- The method `readRegisterAt`. -/
def readRegisterAt (env : StackEnv) (regnum addr : Nat) : Option DwarfRegister × Option Error :=
  match env.mem.ReadMemory (env.regSize regnum) addr with
  | .error e => (none, some e)
  | .ok buf => (some (DwarfRegisterFromBytes buf), none)

/-- The method `executeFrameRegRule`; `.panic` is the dereference of a nil register under
`RuleSameVal`. -/
def executeFrameRegRule (env : StackEnv) (it : stackIterator) (regnum : Nat) (rule : DWRule)
    (cfa : Int) : Outcome (Option DwarfRegister × Option Error) :=
  match rule.Rule with
  | .unknown => .ok (none, none)
  | .undefined => .ok (none, none)
  | .sameVal =>
    match it.regs.Reg regnum with
    | none => .panic
    | some reg => .ok (some reg, none)
  | .offset => .ok (readRegisterAt env regnum (toUint64 (toInt64 (cfa + rule.Offset))))
  | .valOffset => .ok (some (DwarfRegisterFromUint64 (toUint64 (toInt64 (cfa + rule.Offset)))), none)
  | .register => .ok (it.regs.Reg rule.Reg, none)
  | .expression =>
    match env.executeStackProgram it.regs rule.Expression with
    | .error e => .ok (none, some e)
    | .ok v => .ok (readRegisterAt env regnum (toUint64 v))
  | .valExpression =>
    match env.executeStackProgram it.regs rule.Expression with
    | .error e => .ok (none, some e)
    | .ok v => .ok (some (DwarfRegisterFromUint64 (toUint64 v)), none)
  | .architectural => .ok (none, some (.other "architectural frame rules are unsupported"))
  | .cfa =>
    match it.regs.Reg rule.Reg with
    | none => .ok (none, none)
    | some _ =>
      .ok (some (DwarfRegisterFromUint64
        (toUint64 (toInt64 (toInt64 (it.regs.Uint64Val rule.Reg) + rule.Offset)))), none)
  | .framePointer =>
    match it.regs.Reg rule.Reg with
    | none => .ok (none, none)
    | some curReg =>
      if curReg.Uint64Val ≤ toUint64 cfa then .ok (readRegisterAt env regnum curReg.Uint64Val)
      else .ok (some curReg, none)

/-- The loop of `advanceRegs` over the register rules of the frame context.  The state is the
error of the iterator, the registers of the calling frame, `ret` and `retaddr`. -/
def advanceRegs.loop (env : StackEnv) (it : stackIterator) (retAddrReg : Nat) :
    List (Nat × DWRule) → Option Error × DwarfRegisters × Nat × Nat →
    Outcome (Option Error × DwarfRegisters × Nat × Nat)
  | [], st => .ok st
  | (i, regRule) :: rest, (err, cfr, ret, retaddr) =>
    match executeFrameRegRule env it i regRule it.regs.CFA with
    | .panic => .panic
    | .fuel => .fuel
    | .ok (reg, e) =>
      let cfr := cfr.AddReg i reg
      if i = retAddrReg then
        let retaddr2 := toUint64 (toInt64 (it.regs.CFA + regRule.Offset))
        match reg with
        | none =>
          advanceRegs.loop env it retAddrReg rest
            (some (e.getD (.other "Undefined return address")), cfr, ret, retaddr2)
        | some r => advanceRegs.loop env it retAddrReg rest (err, cfr, r.Uint64Val, retaddr2)
      else advanceRegs.loop env it retAddrReg rest (err, cfr, ret, retaddr)

/-- The method `advanceRegs`: the iterator after the call (its `err` and `regs.CFA` may have
changed) and the three results `callFrameRegs`, `ret` and `retaddr`.  The register numbers of
`callFrameRegs` are read before `regs.CFA` is written, which leaves them as they are. -/
def advanceRegs (env : StackEnv) (it : stackIterator) :
    Outcome (stackIterator × DwarfRegisters × Nat × Nat) :=
  let framectx := env.frameContext it.pc
  match executeFrameRegRule env it 0 framectx.CFA 0 with
  | .panic => .panic
  | .fuel => .fuel
  | .ok (none, _) =>
    .ok ({ it with err := some (.other "CFA becomes undefined") }, DwarfRegisters.zero, 0, 0)
  | .ok (some cfareg, _) =>
    let regs : DwarfRegisters := { it.regs with CFA := toInt64 cfareg.Uint64Val }
    let cfr : DwarfRegisters :=
      ({ DwarfRegisters.zero with PCRegNum := it.regs.PCRegNum, SPRegNum := it.regs.SPRegNum,
                                  BPRegNum := it.regs.BPRegNum }).AddReg env.spRegNum (some cfareg)
    match advanceRegs.loop env { it with regs := regs } framectx.RetAddrReg framectx.Regs
        (it.err, cfr, 0, 0) with
    | .panic => .panic
    | .fuel => .fuel
    | .ok (err, cfr, ret, retaddr) =>
      .ok ({ it with regs := regs, err := err }, cfr, ret, retaddr)

/-- The Go zero value `Stackframe{}`. -/
def Stackframe.zero : Stackframe DwarfRegisters :=
  { Current := Location.zero, Call := Location.zero, Regs := DwarfRegisters.zero, stackHi := 0,
    Ret := 0, addrret := 0, Err := none, SystemStack := false, Inlined := false, lastpc := 0 }

/-- The method `newStackframe`: the iterator after the call (its `err` and `regs.FrameBase` may
have changed) and the frame. -/
def newStackframe (env : StackEnv) (it : stackIterator) (ret retaddr : Nat) :
    stackIterator × Stackframe DwarfRegisters :=
  if retaddr = 0 then ({ it with err := some .nullAddr }, Stackframe.zero)
  else
    let fl := env.pcToLine it.pc
    let regs : DwarfRegisters :=
      match fl.2.2 with
      | none => it.regs
      | some f => { it.regs with FrameBase := env.frameBase f it.pc it.regs }
    let cur : Location :=
      match fl.2.2 with
      | none => { PC := it.pc, File := "?", Line := -1, Fn := none }
      | some f => { PC := it.pc, File := fl.1, Line := fl.2.1, Fn := some f }
    let fnname : String :=
      match fl.2.2 with
      | none => ""
      | some f => f.Name
    if it.top = true ∨ fnname = "runtime.mstart" ∨ fnname = "runtime.systemstack_switch" then
      ({ it with regs := regs },
        { Current := cur, Call := cur, Regs := regs, stackHi := it.stackhi, Ret := ret,
          addrret := retaddr, Err := none, SystemStack := it.systemstack, Inlined := false,
          lastpc := it.pc })
    else
      let pc1 := wrap64 (it.pc + (2 ^ 64 - 1))
      let cl := env.pcToLine pc1
      let call : Location :=
        match cl.2.2 with
        | none => { PC := it.pc, File := "?", Line := -1, Fn := none }
        | some f => { PC := it.pc, File := cl.1, Line := cl.2.1, Fn := some f }
      ({ it with regs := regs },
        { Current := cur, Call := call, Regs := regs, stackHi := it.stackhi, Ret := ret,
          addrret := retaddr, Err := none, SystemStack := it.systemstack, Inlined := false,
          lastpc := pc1 })

/-- The branch through which `switchStack` returns: `none` is `return false`, the others
return `true`. -/
inductive SwitchKind where
  | none | asmcgocall | cgocallback | topOfStack | runtime
deriving DecidableEq

/-- The constant `asmcgocallSPOffsetSaveSlot`. -/
def asmcgocallSPOffsetSaveSlot : Nat := 0x28

/-- The method `switchStack`: the iterator after the call and the branch taken.  `.panic` is
the assignment to a nil stack or frame pointer register. -/
def switchStack (env : StackEnv) (it : stackIterator) : Outcome (stackIterator × SwitchKind) :=
  match it.frame.Current.Fn with
  | none => .ok (it, .none)
  | some fn =>
    if fn.Name = "runtime.asmcgocall" then
      if it.top = true ∨ it.systemstack = false then .ok (it, .none)
      else
        match readIntRaw env.mem (wrap64 (it.regs.SP + asmcgocallSPOffsetSaveSlot)) env.ptrSize with
        | .panic => .panic
        | .fuel => .fuel
        | .ok (off, _) =>
          match it.regs.setUint64Val it.regs.SPRegNum
              (toUint64 (toInt64 (toInt64 it.stackhi - off))) with
          | none => .panic
          | some regs =>
            if regs.SP = it.regs.SP then .ok ({ it with regs := regs }, .none)
            else
              match readUintRaw env.mem
                  (toUint64 (toInt64 (toInt64 regs.SP + toInt64 env.ptrSize))) env.ptrSize with
              | .panic => .panic
              | .fuel => .fuel
              | .ok (ret, _) =>
                .ok ({ it with regs := regs, systemstack := false,
                               frame := { it.frame with
                                 addrret := toUint64 (toInt64 (toInt64 regs.SP + toInt64 env.ptrSize)),
                                 Ret := ret },
                               pc := ret, top := false }, .asmcgocall)
    else if fn.Name = "runtime.cgocallback_gofunc" then
      if it.top = true ∨ it.systemstack = true then .ok (it, .none)
      else if it.g0_sched_sp ≤ 0 then .ok (it, .none)
      else
        match it.regs.setUint64Val it.regs.SPRegNum it.g0_sched_sp with
        | none => .panic
        | some regs =>
          match readUintRaw env.mem regs.SP env.ptrSize with
          | .panic => .panic
          | .fuel => .fuel
          | .ok (sp, _) =>
            match advanceRegs env { it with regs := regs, g0_sched_sp := sp, top := false } with
            | .panic => .panic
            | .fuel => .fuel
            | .ok (it1, callFrameRegs, ret, retaddr) =>
              .ok ({ (newStackframe env it1 ret retaddr).1 with
                       pc := (newStackframe env it1 ret retaddr).2.Ret, regs := callFrameRegs,
                       systemstack := true }, .cgocallback)
    else if fn.Name = "runtime.goexit" ∨ fn.Name = "runtime.rt0_go" ∨ fn.Name = "runtime.mcall"
    then .ok ({ it with atend := true }, .topOfStack)
    else
      match it.g with
      | none => .ok (it, .none)
      | some g =>
        if it.systemstack = true ∧ it.top = true ∧
            ("runtime.".toList).isPrefixOf fn.Name.toList = true then
          match it.regs.setUint64Val it.regs.SPRegNum g.SP with
          | none => .panic
          | some regs1 =>
            match regs1.setUint64Val regs1.BPRegNum g.BP with
            | none => .panic
            | some regs2 =>
              .ok ({ it with systemstack := false, top := false, pc := g.PC, regs := regs2 },
                .runtime)
        else .ok (it, .none)

/-- The way a call of `Next` returns: `stopped` is `return false`; the others return `true`,
after a stack switch, at the end of the stack, or after the iterator has advanced to the
calling frame. -/
inductive StepKind where
  | stopped
  | switched (k : SwitchKind)
  | atEnd
  | advanced
deriving DecidableEq

/-- The skipping of a stack barrier in `Next`; `none` is the index out of range of
`it.stkbar[0]` on an empty slice. -/
def skipStackBarrier (it : stackIterator) : Option stackIterator :=
  match it.stkbar with
  | none => some it
  | some bars =>
    if it.frame.Ret = it.stackBarrierPC then
      match bars with
      | [] => none
      | bar :: rest =>
        if it.frame.addrret = bar.ptr then
          some { it with frame := { it.frame with Ret := bar.val }, stkbar := some rest }
        else some it
    else some it

/-- The method `Next` with the way it returned. -/
def nextStep (env : StackEnv) (it : stackIterator) : Outcome (stackIterator × StepKind) :=
  if it.err ≠ none ∨ it.atend = true then .ok (it, .stopped)
  else
    match advanceRegs env it with
    | .panic => .panic
    | .fuel => .fuel
    | .ok (it1, callFrameRegs, ret, retaddr) =>
      match skipStackBarrier { (newStackframe env it1 ret retaddr).1 with
                               frame := (newStackframe env it1 ret retaddr).2 } with
      | none => .panic
      | some it2 =>
        match switchStack env it2 with
        | .panic => .panic
        | .fuel => .fuel
        | .ok (it3, k) =>
          if k ≠ .none then .ok (it3, .switched k)
          else if it3.frame.Ret ≤ 0 then .ok ({ it3 with atend := true }, .atEnd)
          else
            .ok ({ it3 with top := false, pc := it3.frame.Ret, regs := callFrameRegs }, .advanced)

/-- The method `Next`: the iterator after the call and the returned boolean. -/
def Next (env : StackEnv) (it : stackIterator) : Outcome (stackIterator × Bool) :=
  (nextStep env it).map (fun r => (r.1, decide (r.2 ≠ .stopped)))

/-- The stack iterator as the iterator of `stacktrace`; `inl offset callpc` are the entries of
`reader.InlineStack(it.bi.dwarf, offset, callpc)`. -/
def stackOps (env : StackEnv) (inl : Nat → Nat → List InlineEntry) :
    IteratorOps stackIterator DwarfRegisters where
  Next := Next env
  Frame := fun it => it.frame
  Err := fun it => it.err
  inlineStack := fun _ => inl

/-- The first `n` calls of `Next`, each with the way it returned and the iterator after it;
the list ends early at a call that panics. -/
def trace (env : StackEnv) : Nat → stackIterator → List (StepKind × stackIterator)
  | 0, _ => []
  | n + 1, it =>
    match nextStep env it with
    | .ok (it1, k) => (k, it1) :: trace env n it1
    | _ => []

/-- The iterator after the calls of a trace that starts at `it`. -/
def lastState (it : stackIterator) : List (StepKind × stackIterator) → stackIterator
  | [] => it
  | r :: rest => lastState r.2 rest

/-- The ways the calls of a trace returned. -/
def kinds (tr : List (StepKind × stackIterator)) : List StepKind := tr.map (·.1)

/-- The names of the functions at which `switchStack` ends the walk. -/
def topOfStackNames : List String := ["runtime.goexit", "runtime.rt0_go", "runtime.mcall"]

/-! ## Concrete stacks -/

/-- A memory in which every address is readable: the 8-byte little-endian words listed in
`words`, each at an address that is a multiple of 8, and zero everywhere else. -/
def Memory.ofWords (words : List (Nat × Nat)) : Memory :=
  Memory.ofBytes (fun a =>
    match words.lookup (a - a % 8) with
    | none => some 0
    | some w => some (w / 256 ^ (a % 8) % 256))

/-- A compile unit without line information: `appendInlineCalls` appends frames of its
functions as they are. -/
def exampleCU : CompileUnit := { lineInfo := none }

def exampleFunction (name : String) (entry : Nat) : Function :=
  { Name := name, Entry := entry, End := entry + 0x100, offset := entry, cu := some exampleCU }

/-- The functions of the example binary by program counter: `main.f` from 0x100,
`runtime.asmcgocall` from 0x200, `runtime.cgocallback_gofunc` from 0x300, `runtime.goexit`
from 0x400, each 0x100 bytes long, and no function anywhere else. -/
def examplePCToLine (pc : Nat) : String × Int × Option Function :=
  if 0x100 ≤ pc ∧ pc < 0x200 then ("main.go", 10, some (exampleFunction "main.f" 0x100))
  else if 0x200 ≤ pc ∧ pc < 0x300 then
    ("asm_amd64.s", 20, some (exampleFunction "runtime.asmcgocall" 0x200))
  else if 0x300 ≤ pc ∧ pc < 0x400 then
    ("asm_amd64.s", 30, some (exampleFunction "runtime.cgocallback_gofunc" 0x300))
  else if 0x400 ≤ pc ∧ pc < 0x500 then
    ("asm_amd64.s", 40, some (exampleFunction "runtime.goexit" 0x400))
  else ("", 0, none)

/-- The frame contexts of the example binary: the CFA is the stack pointer plus 24 inside
`main.f` and plus 16 elsewhere, the return address is in the word below the CFA, and from
0x500 on the CFA is undefined. -/
def exampleFrameContext (pc : Nat) : FrameContext :=
  { CFA :=
      if 0x500 ≤ pc then { Rule := .undefined, Offset := 0, Reg := 0, Expression := [] }
      else
        { Rule := .cfa, Offset := if 0x100 ≤ pc ∧ pc < 0x200 then 24 else 16, Reg := 7,
          Expression := [] }
    Regs := [(16, { Rule := .offset, Offset := -8, Reg := 0, Expression := [] })]
    RetAddrReg := 16 }

/-- The example binary over the memory `mem`. -/
def exampleEnv (mem : Memory) : StackEnv :=
  { frameContext := exampleFrameContext
    executeStackProgram := fun _ _ => .error (.other "no stack program")
    regSize := fun _ => 8
    mem := mem
    ptrSize := 8
    pcToLine := examplePCToLine
    frameBase := fun _ _ regs => regs.CFA
    spRegNum := 7 }

/-- The registers of a thread of the example binary: program counter in register 16, stack
pointer in register 7, frame pointer in register 6. -/
def exampleRegs (pc sp : Nat) : DwarfRegisters :=
  { CFA := 0, FrameBase := 0, PCRegNum := 16, SPRegNum := 7, BPRegNum := 6,
    regs := (List.replicate 17 none).set 16 (some (DwarfRegisterFromUint64 pc))
      |>.set 7 (some (DwarfRegisterFromUint64 sp))
      |>.set 6 (some (DwarfRegisterFromUint64 0)) }

/-- The iterator that `newStackIterator` builds for a thread without goroutine and without
stack barriers. -/
def exampleIterator (pc sp stackhi : Nat) (systemstack : Bool) (g0_sched_sp : Nat) :
    stackIterator :=
  { pc := pc, top := true, atend := false, frame := Stackframe.zero, err := none,
    stackhi := stackhi, systemstack := systemstack, stackBarrierPC := 0, stkbar := none,
    regs := exampleRegs pc sp, g := none, g0_sched_sp := g0_sched_sp }

/-- A stack of frames of `main.f` of which the memory holds only the first 48 bytes, at
addresses 1000 to 1047: the return addresses of the first two frames are 0x110 and 0x120,
the one of the third frame cannot be read. -/
def memShortStack : Memory :=
  Memory.ofList 1000 ([0, 0, 0x110, 0, 0, 0x120].flatMap (leBytes 8))

/-- A stack that crosses the boundary between C and Go twice.  On the system stack, from
address 1000, a C function returns into `runtime.asmcgocall`, which has saved the offset 1000
of the goroutine stack pointer from the top 5000 of the goroutine stack; on the goroutine
stack, from address 4000, `main.f` returns into `runtime.cgocallback_gofunc`; the system
stack continues at the saved `g0.sched.sp` 2000. -/
def memCgoStack : Memory :=
  Memory.ofWords [(1008, 0x210), (1024, 0x77), (1056, 1000), (4008, 0x120), (4016, 0x310),
    (4032, 0x130), (2000, 0), (2008, 0x60)]

/-- A stack on which `main.f` returns to the address 0x510, for which the example binary has
no CFA rule. -/
def memNoCFA : Memory := Memory.ofWords [(1016, 0x510)]

/-- A stack on which `main.f` was called from `runtime.goexit`. -/
def memGoexit : Memory := Memory.ofWords [(1016, 0x410), (1032, 0x999)]

/-- A stack on which `main.f` has the return address 0. -/
def memBottom : Memory := Memory.ofWords [(1016, 0)]


/-! ## Variables (`pkg/proc/variables.go`)

An error that the code formats with an address, a name or the error it wraps is given by the
fixed part of its message. -/

/-- The Go type `reflect.Kind`. -/
inductive Kind where
  | Invalid | Bool | Int | Int8 | Int16 | Int32 | Int64 | Uint | Uint8 | Uint16 | Uint32
  | Uint64 | Uintptr | Float32 | Float64 | Complex64 | Complex128 | Array | Chan | Func
  | Interface | Map | Ptr | Slice | String | Struct | UnsafePointer
deriving DecidableEq

/-- Modelled from the spec: the declaration of `godwarf.CommonType` is not among the sources;
these are the fields `variables.go` reads. -/
structure CommonType where
  ByteSize : Int
  Name : String
deriving DecidableEq

/-- Modelled from the spec: the declaration of `godwarf.StructField` is not among the sources;
`T` is the type of types and `Typ` is the Go field `Type`. -/
structure StructField (T : Type) where
  Name : String
  Typ : T
  ByteOffset : Int
  Embedded : Bool

/-- Modelled from the spec: the types of the package `godwarf` are not among the sources; one
constructor for each type `variables.go` switches on, with the fields it reads, and
`OtherType` for any other.  The target of a pointer is a type or, for `PtrRef`, the entry
`id` of the type table of the binary, which is how a type refers to itself.  The types that
embed `TypedefType` (`ChanType`, `MapType`, `InterfaceType`) carry its `Type` as `target`. -/
inductive Ty where
  | PtrType (c : CommonType) (elem : Ty)
  | PtrRef (c : CommonType) (id : Nat)
  | VoidType (c : CommonType)
  | ChanType (c : CommonType) (target : Ty) (ElemType : Ty)
  | MapType (c : CommonType) (target : Ty) (KeyType : Ty) (ElemType : Ty)
  | StringType (c : CommonType)
  | SliceType (c : CommonType) (Field : List (StructField Ty)) (ElemType : Ty)
  | InterfaceType (c : CommonType) (target : Ty)
  | StructType (c : CommonType) (Field : List (StructField Ty))
  | ArrayType (c : CommonType) (elem : Ty) (Count : Int)
  | ComplexType (c : CommonType)
  | IntType (c : CommonType)
  | UintType (c : CommonType)
  | FloatType (c : CommonType)
  | BoolType (c : CommonType)
  | FuncType (c : CommonType)
  | UnspecifiedType (c : CommonType)
  | TypedefType (c : CommonType) (target : Ty)
  | OtherType (c : CommonType)

/-- Modelled from the spec: the method `Common` of `godwarf.Type`. -/
def Ty.Common : Ty → CommonType
  | .PtrType c _ => c
  | .PtrRef c _ => c
  | .VoidType c => c
  | .ChanType c _ _ => c
  | .MapType c _ _ _ => c
  | .StringType c => c
  | .SliceType c _ _ => c
  | .InterfaceType c _ => c
  | .StructType c _ => c
  | .ArrayType c _ _ => c
  | .ComplexType c => c
  | .IntType c => c
  | .UintType c => c
  | .FloatType c => c
  | .BoolType c => c
  | .FuncType c => c
  | .UnspecifiedType c => c
  | .TypedefType c _ => c
  | .OtherType c => c

/-- Modelled from the spec: the method `Size` of `godwarf.Type`: the byte size of the common
part, but for a typedef (and the types that embed one) the size of its target, and for an
array the count times the size of the element, 0 for the count -1. -/
def Ty.Size : Ty → Int
  | .TypedefType _ t => t.Size
  | .ChanType _ t _ => t.Size
  | .MapType _ t _ _ => t.Size
  | .InterfaceType _ t => t.Size
  | .ArrayType _ e n => if n = -1 then 0 else toInt64 (n * e.Size)
  | t => t.Common.ByteSize

/-- The function `resolveTypedef`. -/
def resolveTypedef : Ty → Ty
  | .TypedefType _ t => resolveTypedef t
  | t => t

/-- The values of `go/constant` that `variables.go` makes: `MakeInt64` and `MakeUint64`,
`MakeBool`, `MakeString` of bytes read from memory and of a name, `MakeFloat64` (the bits
read and their byte size) and the sum of a real and an imaginary part of `readComplex`. -/
inductive Value where
  | int (n : Int)
  | bool (b : Bool)
  | string (s : List Nat)
  | str (s : String)
  | float (bits : Nat) (size : Int)
  | complex (re : Nat) (im : Nat) (size : Int)
deriving DecidableEq

/-- The Go type `FloatSpecial`. -/
inductive FloatSpecial where
  | FloatIsNormal | FloatIsNaN | FloatIsPosInf | FloatIsNegInf
deriving DecidableEq

/-- The Go struct `Variable`.  The fields `mem` and `bi` are in `LoadEnv`: every variable
reads the one memory of the target. -/
structure Variable where
  Addr : Nat
  OnlyAddr : Bool
  Name : String
  DwarfType : Option Ty
  RealType : Option Ty
  Kind : Kind
  Value : Option Value
  FloatSpecial : FloatSpecial
  Len : Int
  Cap : Int
  Flags : Nat
  Base : Nat
  stride : Int
  fieldType : Option Ty
  mapSkip : Int
  Children : List Variable
  loaded : Bool
  Unreadable : Option Error
  LocationExpr : String

/-- The Go struct `LoadConfig`. -/
structure LoadConfig where
  FollowPointers : Bool
  MaxVariableRecurse : Int
  MaxStringLen : Int
  MaxArrayValues : Int
  MaxStructFields : Int
deriving DecidableEq

def loadSingleValue : LoadConfig := ⟨false, 0, 64, 0, 0⟩

def loadFullValue : LoadConfig := ⟨true, 1, 64, 64, -1⟩

def maxErrCount : Int := 3

def hashTophashEmpty : Nat := 0

def hashMinTopHash : Nat := 4

/-- What the loop of `loadInterface` over the fields `tab` and `_type` finds: the nil
interface, an error, or a type descriptor, with what resolving the descriptor then gives:
the concrete type and the kind bits of the descriptor, an error, or `none` for a panic. -/
inductive IfaceType where
  | isnil
  | unreadable (err : Error)
  | descriptor (resolved : Option (Except Error (Ty × Int)))

/-- What the loader uses of its binary info and memory.  `mem` is the memory of the target:
`cacheMemory` and `DereferenceMemory`, which are not among the sources, are taken to return
a memory that reads as the one they are given.  `ptrSize` is `bi.Arch.PtrSize()`, `types` is
the type table that `PtrRef` points into, `pcToFunc` is `bi.PCToFunc`.  `ifaceType v` is the
walk of the runtime type descriptor of the interface variable `v` in `loadInterface`, from
the fields `tab` and `_type` to `findType` and `findTypeExpr`: it rests on
`nameOfRuntimeType`, `findType`, `findTypeExpr` and the Go parser, none of which is among
the sources; `none` is a panic of the walk.  `directIface kind` is the test
`kind&kindDirectIface != 0`, on a constant that is not among the sources. -/
structure LoadEnv where
  mem : Memory
  ptrSize : Nat
  types : Nat → Ty
  pcToFunc : Nat → Option Function
  ifaceType : Variable → Option IfaceType
  directIface : Int → Bool

/-- The type of the method `newVariable` as the loader calls it: name, address and type. -/
abbrev NewFn := String → Nat → Option Ty → Outcome Variable

/-- The type of the method `loadValueInternal`: recursion level, configuration and
variable. -/
abbrev LoadFn := Int → LoadConfig → Variable → Outcome Variable

/-- The Go zero value of `Variable`. -/
def Variable.zero : Variable :=
  { Addr := 0, OnlyAddr := false, Name := "", DwarfType := none, RealType := none,
    Kind := .Invalid, Value := none, FloatSpecial := .FloatIsNormal, Len := 0, Cap := 0,
    Flags := 0, Base := 0, stride := 0, fieldType := none, mapSkip := 0, Children := [],
    loaded := false, Unreadable := none, LocationExpr := "" }

/-- The pieces of a name around its dots, as `strings.Split(name, ".")` gives them. -/
def splitDots : List Char → List (List Char)
  | [] => [[]]
  | c :: rest =>
    match splitDots rest with
    | [] => [[c]]
    | p :: ps => if c = '.' then [] :: p :: ps else (c :: p) :: ps

/-- The name `toField` gives to the variable of a field. -/
def fieldName (vname fname : String) : String :=
  if vname = "" then ""
  else
    match splitDots fname.toList with
    | _ :: p :: _ => vname ++ "." ++ String.mk p
    | _ => vname ++ "." ++ fname

/-- The call `binary.LittleEndian.Uint64(val)`; `none` is the index out of range on fewer
than 8 bytes. -/
def leUint64 (val : List Nat) : Option Nat :=
  if val.length < 8 then none else some (Line.leValue (val.take 8))

/-- The function `readStringInfo`: the address of the bytes, the length and the error. -/
def readStringInfo (env : LoadEnv) (addr : Nat) : Outcome (Nat × Int × Option Error) :=
  match env.mem.ReadMemory env.ptrSize (addr + env.ptrSize) with
  | .error _ => .ok (0, 0, some (.other "could not read string len"))
  | .ok val =>
    match leUint64 val with
    | none => .panic
    | some n =>
      if toInt64 n < 0 then .ok (0, 0, some (.other "invalid length"))
      else
        match env.mem.ReadMemory env.ptrSize addr with
        | .error _ => .ok (0, 0, some (.other "could not read string pointer"))
        | .ok val2 =>
          match leUint64 val2 with
          | none => .panic
          | some p => if p = 0 then .ok (0, 0, none) else .ok (p, toInt64 n, none)

/-- The function `readStringValue`: the bytes of the string and the error.  `.panic` is
`make` with a negative length. -/
def readStringValue (env : LoadEnv) (addr : Nat) (strlen : Int) (cfg : LoadConfig) :
    Outcome (List Nat × Option Error) :=
  if strlen = 0 then .ok ([], none)
  else
    if (if strlen > cfg.MaxStringLen then cfg.MaxStringLen else strlen) < 0 then .panic
    else
      match env.mem.ReadMemory
          (if strlen > cfg.MaxStringLen then cfg.MaxStringLen else strlen).toNat addr with
      | .error _ => .ok ([], some (.other "could not read string"))
      | .ok val => .ok (val, none)

/-- Modelled from the spec: `math.IsInf` and `math.IsNaN` on the bits of a float of `size`
bytes: all exponent bits set, with a zero or non-zero fraction. -/
def floatSpecial (bits : Nat) (size : Int) : FloatSpecial :=
  if size = 4 then
    if bits / 2 ^ 23 % 2 ^ 8 = 2 ^ 8 - 1 then
      if bits % 2 ^ 23 ≠ 0 then .FloatIsNaN
      else if bits / 2 ^ 31 % 2 = 0 then .FloatIsPosInf else .FloatIsNegInf
    else .FloatIsNormal
  else
    if bits / 2 ^ 52 % 2 ^ 11 = 2 ^ 11 - 1 then
      if bits % 2 ^ 52 ≠ 0 then .FloatIsNaN
      else if bits / 2 ^ 63 % 2 = 0 then .FloatIsPosInf else .FloatIsNegInf
    else .FloatIsNormal

/-- Modelled from the spec: `constant.Int64Val` is not among the sources; the integer of an
integer value reduced to 64 bits, 0 for the unknown value that `MakeFloat64` makes of an
infinity or a NaN, and `none`, a panic, for nil and any other value. -/
def int64Val : Option Value → Option Int
  | some (.int n) => some (toInt64 n)
  | some (.float bits size) =>
    if floatSpecial bits size = .FloatIsNormal then none else some 0
  | _ => none

/-- Modelled from the spec: `constant.Uint64Val` is not among the sources; as `int64Val`,
read as a `uint64`. -/
def uint64Val (v : Option Value) : Option Nat := (int64Val v).map toUint64

/-- The type of a pointer target: the type itself or the entry of the type table. -/
def ptrElem (env : LoadEnv) : Ty → Option Ty
  | .PtrType _ elem => some elem
  | .PtrRef _ id => some (env.types id)
  | _ => none

/-- Modelled from the spec: `pointerTo` is not among the sources; the pointer type to `typ`,
of the pointer size of the architecture. -/
def pointerTo (env : LoadEnv) (typ : Ty) : Ty :=
  .PtrType { ByteSize := env.ptrSize, Name := "*" ++ typ.Common.Name } typ

/-- The method `maybeDereference`, over the method `newVariable`. -/
def maybeDereference (env : LoadEnv) (rn : NewFn) (v : Variable) : Outcome Variable :=
  if v.Unreadable ≠ none then .ok v
  else
    match v.RealType with
    | none => .ok v
    | some t =>
      match ptrElem env t with
      | none => .ok v
      | some elem =>
        (readUintRaw env.mem v.Addr t.Common.ByteSize).bind fun r =>
          (rn "" r.1 (some elem)).bind fun d =>
            match r.2 with
            | none => .ok d
            | some err => .ok { d with Unreadable := some err }

/-- The method `toField`, over the method `newVariable`: the variable of the field or the
error. -/
def toField (rn : NewFn) (v : Variable) (field : StructField Ty) :
    Outcome (Except Error Variable) :=
  if v.Unreadable ≠ none then .ok (.ok v)
  else if v.Addr = 0 then .ok (.error (.other "is nil"))
  else
    (rn (fieldName v.Name field.Name)
      (toUint64 (toInt64 (toInt64 v.Addr + field.ByteOffset))) (some field.Typ)).map .ok

/-- The statement `f, _ := v.toField(field)` followed by a use of `*f`; `.panic` is the
dereference of the nil that `toField` returns with an error. -/
def toFieldVar (rn : NewFn) (v : Variable) (field : StructField Ty) : Outcome Variable :=
  (toField rn v field).bind fun r =>
    match r with
    | .ok f => .ok f
    | .error _ => .panic

/-- The loop of `loadSliceInfo` over the fields of the slice type: the variable and whether
the method has returned from inside the loop. -/
def loadSliceInfo.loop (env : LoadEnv) (rn : NewFn) (rl : LoadFn) :
    List (StructField Ty) → Variable → Outcome (Variable × Bool)
  | [], v => .ok (v, false)
  | f :: rest, v =>
    if f.Name = "array" then
      (readUintRaw env.mem (toUint64 (toInt64 (toInt64 v.Addr + f.ByteOffset))) f.Typ.Size).bind
        fun r =>
          match r.2 with
          | some err => .ok ({ v with Unreadable := some err }, true)
          | none =>
            match ptrElem env f.Typ with
            | none =>
              .ok ({ v with Base := r.1,
                            Unreadable := some (.other "Invalid type in slice array") }, true)
            | some elem =>
              loadSliceInfo.loop env rn rl rest { v with Base := r.1, fieldType := some elem }
    else if f.Name = "len" then
      (toFieldVar rn v f).bind fun fv =>
        (rl 0 loadSingleValue fv).bind fun lv =>
          match lv.Unreadable with
          | some err => .ok ({ v with Unreadable := some err }, true)
          | none =>
            match int64Val lv.Value with
            | none => .panic
            | some n => loadSliceInfo.loop env rn rl rest { v with Len := n }
    else if f.Name = "cap" then
      (toFieldVar rn v f).bind fun fv =>
        (rl 0 loadSingleValue fv).bind fun lv =>
          match lv.Unreadable with
          | some err => .ok ({ v with Unreadable := some err }, true)
          | none =>
            match int64Val lv.Value with
            | none => .panic
            | some n => loadSliceInfo.loop env rn rl rest { v with Cap := n }
    else loadSliceInfo.loop env rn rl rest v

/-- The method `loadSliceInfo`, over `newVariable` and `loadValueInternal`; `.panic` is the
call of `Size` on a nil `fieldType`. -/
def loadSliceInfo (env : LoadEnv) (rn : NewFn) (rl : LoadFn) (v : Variable)
    (fields : List (StructField Ty)) : Outcome Variable :=
  (loadSliceInfo.loop env rn rl fields v).bind fun r =>
    if r.2 = true then .ok r.1
    else
      match r.1.fieldType with
      | none => .panic
      | some ft =>
        match ft with
        | .PtrType c _ => .ok { r.1 with stride := c.ByteSize }
        | .PtrRef c _ => .ok { r.1 with stride := c.ByteSize }
        | _ => .ok { r.1 with stride := ft.Size }

/-- The fields of the struct type that `loadChanInfo` builds: the field `buf` becomes a
pointer to an array of `chanLen` elements. -/
def chanFields (env : LoadEnv) (elemType : Ty) (chanLen : Nat) :
    List (StructField Ty) → List (StructField Ty)
  | [] => []
  | f :: rest =>
    (if f.Name = "buf" then
      { f with Typ := (pointerTo env
          (.ArrayType { ByteSize := toInt64 (toInt64 chanLen * elemType.Common.ByteSize),
                        Name := "[...]" ++ elemType.Common.Name }
            elemType (toInt64 chanLen))) }
    else f) :: chanFields env elemType chanLen rest

/-- The method `loadChanInfo`, on a variable whose `RealType` is the channel type
`ChanType c target elemType`. -/
def loadChanInfo (env : LoadEnv) (rn : NewFn) (rl : LoadFn) (v : Variable)
    (c : CommonType) (target elemType : Ty) : Outcome Variable :=
  (maybeDereference env rn { v with RealType := some (resolveTypedef target) }).bind fun sv =>
    if sv.Unreadable ≠ none ∨ sv.Addr = 0 then .ok v
    else
      match sv.DwarfType with
      | some (.StructType sc fields) =>
        match fields.get? 1 with
        | none => .panic
        | some f1 =>
          (toFieldVar rn sv f1).bind fun lenAddr =>
            (rl 0 loadSingleValue lenAddr).bind fun lv =>
              match lv.Unreadable with
              | some _ => .ok { v with Unreadable := some (.other "unreadable length") }
              | none =>
                match uint64Val lv.Value with
                | none => .panic
                | some n =>
                  .ok { v with RealType := some (.ChanType c
                    (pointerTo env (.StructType sc (chanFields env elemType n fields)))
                    elemType) }
      | _ => .ok { v with Unreadable := some (.other "bad channel type") }

/-- The function `newVariable`, over itself and `loadValueInternal`, which `loadChanInfo` and
`loadSliceInfo` call on the variables they make. -/
def newVariableBody (env : LoadEnv) (rn : NewFn) (rl : LoadFn) (name : String) (addr : Nat)
    (dwarfType : Option Ty) : Outcome Variable :=
  match dwarfType.map resolveTypedef with
  | none =>
    .ok { Variable.zero with Name := name, Addr := addr, DwarfType := dwarfType,
                             Unreadable := some (.other "Unknown type") }
  | some t =>
    match t with
    | .PtrType _ elem =>
      .ok { Variable.zero with
        Name := name, Addr := addr, DwarfType := dwarfType, RealType := some t,
        Kind := match elem with
          | .VoidType _ => .UnsafePointer
          | _ => .Ptr }
    | .PtrRef _ id =>
      .ok { Variable.zero with
        Name := name, Addr := addr, DwarfType := dwarfType, RealType := some t,
        Kind := match env.types id with
          | .VoidType _ => .UnsafePointer
          | _ => .Ptr }
    | .ChanType c target elemType =>
      if addr ≠ 0 then
        loadChanInfo env rn rl
          { Variable.zero with Name := name, Addr := addr, DwarfType := dwarfType,
                               RealType := some t, Kind := .Chan } c target elemType
      else
        .ok { Variable.zero with Name := name, Addr := addr, DwarfType := dwarfType,
                                 RealType := some t, Kind := .Chan }
    | .MapType _ _ _ _ =>
      .ok { Variable.zero with Name := name, Addr := addr, DwarfType := dwarfType,
                               RealType := some t, Kind := .Map }
    | .StringType _ =>
      if addr ≠ 0 then
        (readStringInfo env addr).bind fun r =>
          .ok { Variable.zero with
            Name := name, Addr := addr, DwarfType := dwarfType, RealType := some t,
            Kind := .String, stride := 1,
            fieldType := some (.UintType { ByteSize := 1, Name := "byte" }),
            Base := r.1, Len := r.2.1, Unreadable := r.2.2 }
      else
        .ok { Variable.zero with
          Name := name, Addr := addr, DwarfType := dwarfType, RealType := some t,
          Kind := .String, stride := 1,
          fieldType := some (.UintType { ByteSize := 1, Name := "byte" }) }
    | .SliceType _ fields _ =>
      if addr ≠ 0 then
        loadSliceInfo env rn rl
          { Variable.zero with Name := name, Addr := addr, DwarfType := dwarfType,
                               RealType := some t, Kind := .Slice } fields
      else
        .ok { Variable.zero with Name := name, Addr := addr, DwarfType := dwarfType,
                                 RealType := some t, Kind := .Slice }
    | .InterfaceType _ _ =>
      .ok { Variable.zero with Name := name, Addr := addr, DwarfType := dwarfType,
                               RealType := some t, Kind := .Interface }
    | .StructType _ _ =>
      .ok { Variable.zero with Name := name, Addr := addr, DwarfType := dwarfType,
                               RealType := some t, Kind := .Struct }
    | .ArrayType c elem count =>
      .ok { Variable.zero with
        Name := name, Addr := addr, DwarfType := dwarfType, RealType := some t,
        Kind := .Array, Base := addr, Len := count, Cap := -1, fieldType := some elem,
        stride := if count > 0 then Int.tdiv c.ByteSize count else 0 }
    | .ComplexType c =>
      .ok { Variable.zero with
        Name := name, Addr := addr, DwarfType := dwarfType, RealType := some t,
        Kind := if c.ByteSize = 8 then .Complex64
                else if c.ByteSize = 16 then .Complex128 else .Invalid }
    | .IntType _ =>
      .ok { Variable.zero with Name := name, Addr := addr, DwarfType := dwarfType,
                               RealType := some t, Kind := .Int }
    | .UintType _ =>
      .ok { Variable.zero with Name := name, Addr := addr, DwarfType := dwarfType,
                               RealType := some t, Kind := .Uint }
    | .FloatType c =>
      .ok { Variable.zero with
        Name := name, Addr := addr, DwarfType := dwarfType, RealType := some t,
        Kind := if c.ByteSize = 4 then .Float32
                else if c.ByteSize = 8 then .Float64 else .Invalid }
    | .BoolType _ =>
      .ok { Variable.zero with Name := name, Addr := addr, DwarfType := dwarfType,
                               RealType := some t, Kind := .Bool }
    | .FuncType _ =>
      .ok { Variable.zero with Name := name, Addr := addr, DwarfType := dwarfType,
                               RealType := some t, Kind := .Func }
    | .VoidType _ =>
      .ok { Variable.zero with Name := name, Addr := addr, DwarfType := dwarfType,
                               RealType := some t, Kind := .Invalid }
    | .UnspecifiedType _ =>
      .ok { Variable.zero with Name := name, Addr := addr, DwarfType := dwarfType,
                               RealType := some t, Kind := .Invalid }
    | .TypedefType _ _ =>
      .ok { Variable.zero with Name := name, Addr := addr, DwarfType := dwarfType,
                               RealType := some t,
                               Unreadable := some (.other "Unknown type") }
    | .OtherType _ =>
      .ok { Variable.zero with Name := name, Addr := addr, DwarfType := dwarfType,
                               RealType := some t,
                               Unreadable := some (.other "Unknown type") }

/-- The method `readFloatRaw`: the bits read and the error. -/
def readFloatRaw (env : LoadEnv) (v : Variable) (size : Int) : Outcome (Nat × Option Error) :=
  if size < 0 then .panic
  else
    match env.mem.ReadMemory size.toNat v.Addr with
    | .error e => .ok (0, some e)
    | .ok val =>
      if size = 4 ∨ size = 8 then .ok (Line.leValue val, none)
      else .ok (0, some (.other "could not read float"))

/-- The method `readFunctionPtr`. -/
def readFunctionPtr (env : LoadEnv) (v : Variable) : Outcome Variable :=
  match env.mem.ReadMemory env.ptrSize v.Addr with
  | .error e => .ok { v with Unreadable := some e }
  | .ok val =>
    match leUint64 val with
    | none => .panic
    | some fnaddr =>
      if fnaddr = 0 then .ok { v with Base := 0, Value := some (.string []) }
      else
        match env.mem.ReadMemory env.ptrSize fnaddr with
        | .error e => .ok { v with Unreadable := some e }
        | .ok val2 =>
          match leUint64 val2 with
          | none => .panic
          | some base =>
            match env.pcToFunc base with
            | none =>
              .ok { v with Base := base, Unreadable := some (.other "could not find function") }
            | some fn => .ok { v with Base := base, Value := some (.str fn.Name) }

/-- One round of the loop of `loadArrayValues`: the variable of the element `i`, loaded one
level down. -/
def loadElem (rn : NewFn) (rl : LoadFn) (recurseLevel : Int) (cfg : LoadConfig)
    (v : Variable) (i : Int) : Outcome Variable :=
  (rn "" (toUint64 (toInt64 (toInt64 v.Base + toInt64 (i * v.stride)))) v.fieldType).bind
    fun fv => rl (recurseLevel + 1) cfg fv

/-- The loop of `loadArrayValues` over the indices `i`, `i + 1`, ..., below `count`, with at
most `n` rounds. -/
def loadArrayValues.loop (rn : NewFn) (rl : LoadFn) (recurseLevel : Int) (cfg : LoadConfig)
    (v : Variable) (count : Int) : Nat → Int → Int → List Variable → Outcome (List Variable)
  | 0, _, _, children => .ok children
  | n + 1, i, errcount, children =>
    if i < count then
      (loadElem rn rl recurseLevel cfg v i).bind fun lv =>
        if (if lv.Unreadable ≠ none then errcount + 1 else errcount) > maxErrCount then
          .ok (children ++ [lv])
        else
          loadArrayValues.loop rn rl recurseLevel cfg v count n (i + 1)
            (if lv.Unreadable ≠ none then errcount + 1 else errcount) (children ++ [lv])
    else .ok children

/-- The number of elements that `loadArrayValues` loads at most: the length, capped at
`MaxArrayValues`. -/
def arrayCount (cfg : LoadConfig) (v : Variable) : Int :=
  if v.Len > cfg.MaxArrayValues then cfg.MaxArrayValues else v.Len

/-- The method `loadArrayValues`. -/
def loadArrayValues (rn : NewFn) (rl : LoadFn) (recurseLevel : Int) (cfg : LoadConfig)
    (v : Variable) : Outcome Variable :=
  if v.Unreadable ≠ none then .ok v
  else if v.Len < 0 then .ok { v with Unreadable := some (.other "Negative array length") }
  else
    (loadArrayValues.loop rn rl recurseLevel cfg v (arrayCount cfg v) (arrayCount cfg v).toNat
      0 0 v.Children).map fun children => { v with Children := children }

/-- One round of the loop over the fields of a struct in `loadValueInternal`: the variable of
the field, named after the field and loaded one level down. -/
def loadField (rn : NewFn) (rl : LoadFn) (recurseLevel : Int) (cfg : LoadConfig)
    (v : Variable) (field : StructField Ty) : Outcome Variable :=
  (toFieldVar rn v field).bind fun f =>
    rl (recurseLevel + 1) cfg { f with Name := field.Name }

/-- The loop over the fields of a struct in `loadValueInternal`. -/
def loadStructFields (rn : NewFn) (rl : LoadFn) (recurseLevel : Int) (cfg : LoadConfig)
    (v : Variable) : List (StructField Ty) → List Variable → Outcome (List Variable)
  | [], children => .ok children
  | field :: rest, children =>
    if cfg.MaxStructFields ≥ 0 ∧ (children.length : Int) ≥ cfg.MaxStructFields then
      .ok children
    else
      (loadField rn rl recurseLevel cfg v field).bind fun c =>
        loadStructFields rn rl recurseLevel cfg v rest (children ++ [c])

/-- The method `readComplex`; `.panic` is `constant.MakeImag` or `constant.BinaryOp` on a part
that has no value. -/
def readComplex (rn : NewFn) (rl : LoadFn) (v : Variable) (size : Int) : Outcome Variable :=
  if size = 8 ∨ size = 16 then
    (rn "real" v.Addr
        (some (.FloatType { ByteSize := if size = 8 then 4 else 8,
                            Name := if size = 8 then "float4" else "float8" }))).bind
      fun realvar =>
        (rn "imaginary" (wrap64 (v.Addr + (if size = 8 then 4 else 8)))
            (some (.FloatType { ByteSize := if size = 8 then 4 else 8,
                                Name := if size = 8 then "float4" else "float8" }))).bind
          fun imagvar =>
            (rl 0 loadSingleValue realvar).bind fun re =>
              (rl 0 loadSingleValue imagvar).bind fun im =>
                match re.Value, im.Value with
                | some (.float rb _), some (.float ib _) =>
                  .ok { v with Value := some (.complex rb ib size) }
                | _, _ => .panic
  else .ok { v with Unreadable := some (.other "invalid size for complex type") }

/-- The last field of the name `name`, which is the one a loop over the fields that assigns
at every field of that name ends with. -/
def lastField (name : String) (fields : List (StructField Ty)) : Option (StructField Ty) :=
  (fields.filter fun f => f.Name = name).getLast?

/-- The method `loadInterface`, on a variable whose `RealType` is an interface type with the
typedef target `target`.  `.panic` stands for the failed type assertion on the resolved
target, for the dereference of a missing field `data` and for a panic of the walk of the type
descriptor. -/
def loadInterface (env : LoadEnv) (rn : NewFn) (rl : LoadFn) (recurseLevel : Int)
    (loadData : Bool) (cfg : LoadConfig) (v : Variable) (target : Ty) : Outcome Variable :=
  match resolveTypedef target with
  | .StructType _ fields =>
    match env.ifaceType v with
    | none => .panic
    | some (.unreadable err) => .ok { v with Unreadable := some err }
    | some .isnil =>
      match lastField "data" fields with
      | none => .panic
      | some f =>
        (toFieldVar rn v f).bind fun data0 =>
          (maybeDereference env rn data0).bind fun data =>
            if loadData = true then
              (rl recurseLevel cfg data).map fun d => { v with Children := [d] }
            else .ok { v with Children := [data] }
    | some (.descriptor resolved) =>
      match lastField "data" fields with
      | none => .ok { v with Unreadable := some (.other "invalid interface type") }
      | some f =>
        (toField rn v f).bind fun fr =>
          match fr with
          | .error _ => .ok { v with Unreadable := some (.other "invalid interface type") }
          | .ok data0 =>
            match resolved with
            | none => .panic
            | some (.error err) => .ok { v with Unreadable := some err }
            | some (.ok (typ, kind)) =>
              (if env.directIface kind = false ∧ (ptrElem env (resolveTypedef typ)).isNone
                then
                  (rn "data" data0.Addr (some (pointerTo env typ))).bind fun p =>
                    (maybeDereference env rn p).map fun d => { d with Name := "data" }
                else rn "data" data0.Addr (some typ)).bind fun data =>
                if loadData = true ∧ recurseLevel ≤ cfg.MaxVariableRecurse then
                  (rl recurseLevel cfg data).map fun d => { v with Children := [d] }
                else .ok { v with Children := [{ data with OnlyAddr := true }] }
  | _ => .panic

/-- Modelled from the spec: `sliceAccess` is not among the sources; the variable of the
element `idx` of an array, slice or string, or the error "index out of bounds". -/
def sliceAccess (rn : NewFn) (v : Variable) (idx : Int) : Outcome (Except Error Variable) :=
  if idx < 0 ∨ idx ≥ v.Len then .ok (.error (.other "index out of bounds"))
  else
    (rn "" (wrap64 (v.Base + toUint64 (toInt64 (idx * v.stride)))) v.fieldType).map .ok

/-- Modelled from the spec: `asUint` is not among the sources; the variable is loaded as a
single value and its value is returned when it is of an unsigned integer type. -/
def asUint (rl : LoadFn) (v : Variable) : Outcome (Nat × Option Error) :=
  match v.DwarfType with
  | none =>
    match v.Value with
    | some (.int n) => .ok (toUint64 n, none)
    | _ => .ok (0, some (.other "can not convert constant to uint"))
  | some t =>
    (rl 0 loadSingleValue v).bind fun lv =>
      match lv.Unreadable with
      | some err => .ok (0, some err)
      | none =>
        match t with
        | .UintType _ =>
          match uint64Val lv.Value with
          | none => .panic
          | some n => .ok (n, none)
        | _ => .ok (0, some (.other "can not convert value to uint"))

/-- Modelled from the spec: `asInt` is not among the sources; the variable is loaded as a
single value and its value is returned when it is of a signed integer type. -/
def asInt (rl : LoadFn) (v : Variable) : Outcome (Int × Option Error) :=
  match v.DwarfType with
  | none =>
    match v.Value with
    | some (.int n) => .ok (toInt64 n, none)
    | _ => .ok (0, some (.other "can not convert constant to int"))
  | some t =>
    (rl 0 loadSingleValue v).bind fun lv =>
      match lv.Unreadable with
      | some err => .ok (0, some err)
      | none =>
        match t with
        | .IntType _ =>
          match int64Val lv.Value with
          | none => .panic
          | some n => .ok (n, none)
        | _ => .ok (0, some (.other "can not convert value to int"))

def mapBucketContentsNotArrayErr : Error :=
  .other "malformed map type: keys, values or tophash of a bucket is not an array"

def mapBucketContentsInconsistentLenErr : Error :=
  .other "malformed map type: inconsistent array length in bucket"

def mapBucketsNotStructErr : Error :=
  .other "malformed map type: buckets, oldbuckets or overflow field not a struct"

/-- The Go struct `mapIterator`.  The field `v` is the map variable itself: what the iterator
writes through its pointer `v` is written here. -/
structure mapIterator where
  v : Variable
  numbuckets : Nat
  oldmask : Nat
  buckets : Option Variable
  oldbuckets : Option Variable
  b : Option Variable
  bidx : Nat
  tophashes : Option Variable
  keys : Option Variable
  values : Option Variable
  overflow : Option Variable
  idx : Int

/-- The shift `x << s` of `uint64`. -/
def shl64 (x s : Nat) : Nat := if s ≥ 64 then 0 else x * 2 ^ s % 2 ^ 64

/-- The loop of the method `mapIterator` over the fields of the map header: the iterator, or
the variable with its error when the method returns nil. -/
def mapIteratorFields (env : LoadEnv) (rn : NewFn) (rl : LoadFn) (sv : Variable) :
    List (StructField Ty) → mapIterator → Outcome (Except Variable mapIterator)
  | [], it => .ok (.ok it)
  | f :: rest, it =>
    (toFieldVar rn sv f).bind fun field =>
      if f.Name = "count" then
        (asInt rl field).bind fun r =>
          match r.2 with
          | some err => .ok (.error { it.v with Len := r.1, Unreadable := some err })
          | none =>
            mapIteratorFields env rn rl sv rest { it with v := { it.v with Len := r.1 } }
      else if f.Name = "B" then
        (asUint rl field).bind fun r =>
          match r.2 with
          | some err => .ok (.error { it.v with Unreadable := some err })
          | none =>
            mapIteratorFields env rn rl sv rest
              { it with numbuckets := shl64 1 r.1,
                        oldmask := wrap64 (shl64 1 (wrap64 (r.1 + (2 ^ 64 - 1))) + (2 ^ 64 - 1)) }
      else if f.Name = "buckets" then
        (maybeDereference env rn field).bind fun d =>
          mapIteratorFields env rn rl sv rest { it with buckets := some d }
      else if f.Name = "oldbuckets" then
        (maybeDereference env rn field).bind fun d =>
          mapIteratorFields env rn rl sv rest { it with oldbuckets := some d }
      else mapIteratorFields env rn rl sv rest it

/-- The method `mapIterator`, on a variable whose `RealType` is a map type with the typedef
target `target`: the iterator, or the variable when the method returns nil.  `.panic` is the
dereference of a field variable that `toField` did not make or of missing buckets. -/
def mapIteratorOf (env : LoadEnv) (rn : NewFn) (rl : LoadFn) (v : Variable) (target : Ty) :
    Outcome (Except Variable mapIterator) :=
  (maybeDereference env rn { v with RealType := some (resolveTypedef target) }).bind fun sv =>
    match sv.RealType with
    | some (.StructType _ fields) =>
      if sv.Addr = 0 then
        .ok (.ok { v := { v with Base := sv.Addr }, numbuckets := 0, oldmask := 0,
                   buckets := none, oldbuckets := none, b := none, bidx := 0,
                   tophashes := none, keys := none, values := none, overflow := none,
                   idx := 0 })
      else
        (mapIteratorFields env rn rl sv fields
          { v := { v with Base := sv.Addr }, numbuckets := 0, oldmask := 0,
            buckets := none, oldbuckets := none, b := none, bidx := 0,
            tophashes := none, keys := none, values := none, overflow := none,
            idx := 0 }).bind fun r =>
          match r with
          | .error v2 => .ok (.error v2)
          | .ok it =>
            match it.buckets, it.oldbuckets with
            | some bk, some ob =>
              if bk.Kind ≠ .Struct ∨ ob.Kind ≠ .Struct then
                .ok (.error { it.v with Unreadable := some mapBucketsNotStructErr })
              else .ok (.ok it)
            | _, _ => .panic
    | _ =>
      .ok (.error { v with Base := sv.Addr,
                           Unreadable := some (.other "wrong real type for map") })

/-- The bucket `idx` of an array of buckets: the clone of the array variable moved by `idx`
times the size of its type; `none` is the call of `Size` on a nil type. -/
def bucketAt (buckets : Variable) (idx : Nat) : Option Variable :=
  match buckets.DwarfType with
  | none => none
  | some t => some { buckets with Addr := wrap64 (buckets.Addr + wrap64 (toUint64 t.Size * idx)) }

/-- The function `mapEvacuated`. -/
def mapEvacuated.loop (rn : NewFn) (rl : LoadFn) (b : Variable) :
    List (StructField Ty) → Outcome Bool
  | [] => .ok true
  | f :: rest =>
    if f.Name ≠ "tophash" then mapEvacuated.loop rn rl b rest
    else
      (toFieldVar rn b f).bind fun tophashes =>
        (sliceAccess rn tophashes 0).bind fun r =>
          match r with
          | .error _ => .panic
          | .ok tophash0var =>
            (asUint rl tophash0var).bind fun u =>
              match u.2 with
              | some _ => .ok true
              | none => .ok (decide (u.1 > hashTophashEmpty ∧ u.1 < hashMinTopHash))

/-- The function `mapEvacuated`; `.panic` is the failed type assertion on the type of the
bucket. -/
def mapEvacuated (rn : NewFn) (rl : LoadFn) (b : Variable) : Outcome Bool :=
  if b.Addr = 0 then .ok true
  else
    match b.DwarfType with
    | some (.StructType _ fields) => mapEvacuated.loop rn rl b fields
    | _ => .panic

/-- The loop `for it.bidx < it.numbuckets` of `nextBucket`, with at most `n` rounds: the
bucket chosen, nil when all buckets are done, and `bidx`. -/
def nextBucket.pick (rn : NewFn) (rl : LoadFn) (it : mapIterator) (buckets oldbuckets : Variable) :
    Nat → Nat → Outcome (Option Variable × Nat)
  | 0, bidx => .ok (none, bidx)
  | n + 1, bidx =>
    if bidx < it.numbuckets then
      match bucketAt buckets bidx with
      | none => .panic
      | some b =>
        if oldbuckets.Addr ≤ 0 then .ok (some b, bidx)
        else
          match bucketAt oldbuckets (Nat.land bidx it.oldmask) with
          | none => .panic
          | some oldb =>
            (mapEvacuated rn rl oldb).bind fun ev =>
              if ev = true then .ok (some b, bidx)
              else if Nat.land bidx it.oldmask = bidx then .ok (some oldb, bidx)
              else nextBucket.pick rn rl it buckets oldbuckets n (wrap64 (bidx + 1))
    else .ok (none, bidx)

/-- The loop of `nextBucket` over the fields of the bucket: the iterator and whether the
method has returned false from inside the loop. -/
def nextBucket.fields (env : LoadEnv) (rn : NewFn) (b : Variable) :
    List (StructField Ty) → mapIterator → Outcome (mapIterator × Bool)
  | [], it => .ok (it, false)
  | f :: rest, it =>
    (toField rn b f).bind fun r =>
      match r with
      | .error err => .ok ({ it with v := { it.v with Unreadable := some err } }, true)
      | .ok field =>
        match field.Unreadable with
        | some err => .ok ({ it with v := { it.v with Unreadable := some err } }, true)
        | none =>
          if f.Name = "tophash" then
            nextBucket.fields env rn b rest { it with tophashes := some field }
          else if f.Name = "keys" then
            nextBucket.fields env rn b rest { it with keys := some field }
          else if f.Name = "values" then
            nextBucket.fields env rn b rest { it with values := some field }
          else if f.Name = "overflow" then
            (maybeDereference env rn field).bind fun d =>
              nextBucket.fields env rn b rest { it with overflow := some d }
          else nextBucket.fields env rn b rest it

/-- The sanity checks at the end of `nextBucket`: the iterator and the returned boolean. -/
def nextBucket.checks (it : mapIterator) : Outcome (mapIterator × Bool) :=
  match it.tophashes, it.keys, it.values with
  | some th, some ks, some vs =>
    if th.Kind ≠ .Array ∨ ks.Kind ≠ .Array ∨ vs.Kind ≠ .Array then
      .ok ({ it with v := { it.v with Unreadable := some mapBucketContentsNotArrayErr } },
        false)
    else if th.Len ≠ ks.Len then
      .ok ({ it with v := { it.v with Unreadable := some mapBucketContentsInconsistentLenErr } },
        false)
    else
      match vs.fieldType with
      | none => .panic
      | some vt =>
        if vt.Size > 0 ∧ th.Len ≠ vs.Len then
          .ok ({ it with v := { it.v with
            Unreadable := some mapBucketContentsInconsistentLenErr } }, false)
        else
          match it.overflow with
          | none => .panic
          | some ov =>
            if ov.Kind ≠ .Struct then
              .ok ({ it with v := { it.v with Unreadable := some mapBucketsNotStructErr } },
                false)
            else .ok (it, true)
  | _, _, _ =>
    .ok ({ it with v := { it.v with Unreadable := some (.other "malformed map type") } }, false)

/-- The second half of `nextBucket`, once the bucket `b` is chosen and `bidx` is set. -/
def nextBucket.enter (env : LoadEnv) (rn : NewFn) (it : mapIterator) (b : Variable)
    (bidx : Nat) : Outcome (mapIterator × Bool) :=
  if b.Addr ≤ 0 then .ok ({ it with b := some b, bidx := bidx }, false)
  else
    match b.DwarfType with
    | some (.StructType _ fields) =>
      (nextBucket.fields env rn b fields
        { it with b := some b, bidx := bidx, tophashes := none, keys := none, values := none,
                  overflow := none }).bind fun r =>
        if r.2 = true then .ok (r.1, false) else nextBucket.checks r.1
    | _ => .panic

/-- The method `nextBucket`: the iterator after the call and the returned boolean. -/
def nextBucket (env : LoadEnv) (rn : NewFn) (rl : LoadFn) (it : mapIterator) :
    Outcome (mapIterator × Bool) :=
  match it.overflow with
  | some ov =>
    if ov.Addr > 0 then nextBucket.enter env rn it ov it.bidx
    else nextBucket.start env rn rl it
  | none => nextBucket.start env rn rl it
where
  /-- The branch of `nextBucket` that leaves the overflow chain for the next bucket. -/
  start (env : LoadEnv) (rn : NewFn) (rl : LoadFn) (it : mapIterator) :
      Outcome (mapIterator × Bool) :=
    if it.bidx < it.numbuckets then
      match it.buckets, it.oldbuckets with
      | some buckets, some oldbuckets =>
        (nextBucket.pick rn rl it buckets oldbuckets (it.numbuckets - it.bidx) it.bidx).bind
          fun r =>
            match r.1 with
            | none => .ok ({ it with b := none, bidx := r.2 }, false)
            | some b => nextBucket.enter env rn it b (wrap64 (r.2 + 1))
      | _, _ => .panic
    else .ok ({ it with b := none }, false)

/-- The start of a round of `next`: a new bucket is entered when there is none or the current
one is used up.  The iterator and whether the round goes on; false is the return of false
after `nextBucket` has returned false. -/
def mapIterator.refill (env : LoadEnv) (rn : NewFn) (rl : LoadFn) (it : mapIterator) :
    Outcome (mapIterator × Bool) :=
  match it.b, it.tophashes with
  | some _, none => .panic
  | some _, some th =>
    if it.idx ≥ th.Len then
      (nextBucket env rn rl it).bind fun r =>
        if r.2 = true then .ok ({ r.1 with idx := 0 }, true) else .ok (r.1, false)
    else .ok (it, true)
  | none, _ =>
    (nextBucket env rn rl it).bind fun r =>
      if r.2 = true then .ok ({ r.1 with idx := 0 }, true) else .ok (r.1, false)

/-- The method `next` of the map iterator, with at most `n` rounds of its loop: the iterator
after the call and the returned boolean.  `.panic` is the dereference of tophashes that are
nil or of an element that `sliceAccess` did not make.  The error "unreadable tophash" stands
for the message that also quotes the error of the read. -/
def mapIterator.next (env : LoadEnv) (rn : NewFn) (rl : LoadFn) :
    Nat → mapIterator → Outcome (mapIterator × Bool)
  | 0, _ => .fuel
  | n + 1, it =>
    (mapIterator.refill env rn rl it).bind fun r =>
      if r.2 = false then .ok (r.1, false)
      else
        match r.1.tophashes with
        | none => .panic
        | some th =>
          (sliceAccess rn th r.1.idx).bind fun sa =>
            match sa with
            | .error _ => .panic
            | .ok tophash =>
              (asUint rl tophash).bind fun h =>
                match h.2 with
                | some _ =>
                  .ok ({ r.1 with v := { r.1.v with
                    Unreadable := some (.other "unreadable tophash") } }, false)
                | none =>
                  if h.1 ≠ hashTophashEmpty then .ok ({ r.1 with idx := r.1.idx + 1 }, true)
                  else mapIterator.next env rn rl n { r.1 with idx := r.1.idx + 1 }

/-- The method `key` of the map iterator; `.panic` stands for the later use of the nil that
`sliceAccess` returns with an error. -/
def mapIterator.key (rn : NewFn) (it : mapIterator) : Outcome Variable :=
  match it.keys with
  | none => .panic
  | some ks =>
    (sliceAccess rn ks (it.idx - 1)).bind fun r =>
      match r with
      | .error _ => .panic
      | .ok k => .ok k

/-- The method `value` of the map iterator. -/
def mapIterator.value (rn : NewFn) (it : mapIterator) : Outcome Variable :=
  match it.values with
  | none => .panic
  | some vs =>
    (sliceAccess rn vs (it.idx - 1)).bind fun r =>
      match r with
      | .error _ => .panic
      | .ok k => .ok k

/-- The loop `for skip := 0; skip < v.mapSkip; skip++` of `loadMap`, with `n` rounds left:
the iterator and whether `loadMap` goes on; false is the return with the error "map index out
of bounds". -/
def loadMap.skip (env : LoadEnv) (rn : NewFn) (rl : LoadFn) (fuel : Nat) :
    Nat → mapIterator → Outcome (mapIterator × Bool)
  | 0, it => .ok (it, true)
  | n + 1, it =>
    (mapIterator.next env rn rl fuel it).bind fun r =>
      if r.2 = false then
        .ok ({ r.1 with v := { r.1.v with
          Unreadable := some (.other "map index out of bounds") } }, false)
      else loadMap.skip env rn rl fuel n r.1

/-- The loop `for it.next()` of `loadMap`, with at most `n` rounds: the iterator and the
children appended. -/
def loadMap.loop (env : LoadEnv) (rn : NewFn) (rl : LoadFn) (fuel : Nat) (recurseLevel : Int)
    (cfg : LoadConfig) :
    Nat → mapIterator → Int → Int → List Variable → Outcome (mapIterator × List Variable)
  | 0, _, _, _, _ => .fuel
  | n + 1, it, count, errcount, children =>
    (mapIterator.next env rn rl fuel it).bind fun r =>
      if r.2 = false then .ok (r.1, children)
      else if count ≥ cfg.MaxArrayValues then .ok (r.1, children)
      else
        (mapIterator.key rn r.1).bind fun key =>
          match r.1.values with
          | none => .panic
          | some vs =>
            match vs.fieldType with
            | none => .panic
            | some vt =>
              (if vt.Size > 0 then mapIterator.value rn r.1
                else rn "" vs.Addr vs.fieldType).bind fun val =>
                (rl (recurseLevel + 1) cfg key).bind fun lk =>
                  (rl (recurseLevel + 1) cfg val).bind fun lv =>
                    if (if lk.Unreadable ≠ none ∨ lv.Unreadable ≠ none then errcount + 1
                        else errcount) > maxErrCount then
                      .ok (r.1, children ++ [lk, lv])
                    else
                      loadMap.loop env rn rl fuel recurseLevel cfg n r.1 (count + 1)
                        (if lk.Unreadable ≠ none ∨ lv.Unreadable ≠ none then errcount + 1
                          else errcount) (children ++ [lk, lv])

/-- The method `loadMap`, on a variable whose `RealType` is a map type with the typedef
target `target`.  The loops of the iterator run for at most `fuel` rounds each. -/
def loadMap (env : LoadEnv) (rn : NewFn) (rl : LoadFn) (fuel : Nat) (recurseLevel : Int)
    (cfg : LoadConfig) (v : Variable) (target : Ty) : Outcome Variable :=
  (mapIteratorOf env rn rl v target).bind fun r =>
    match r with
    | .error v2 => .ok v2
    | .ok it =>
      (loadMap.skip env rn rl fuel v.mapSkip.toNat it).bind fun s =>
        if s.2 = false then .ok s.1.v
        else
          (loadMap.loop env rn rl fuel recurseLevel cfg fuel s.1 0 0 []).map fun l =>
            { l.1.v with Children := v.Children ++ l.2 }

/-- The method `loadValueInternal`, over `newVariable` and itself; the loops of the map
iterator run for at most `fuel` rounds each.  `.panic` is a failed type assertion on
`RealType`, or a panic further down.  The fields of a struct are made from the variable as it
was on entry: `toField` reads its address, name and error, which the method has not written
by then. -/
def loadValueInternalBody (env : LoadEnv) (fuel : Nat) (rn : NewFn) (rl : LoadFn)
    (recurseLevel : Int) (cfg : LoadConfig) (v : Variable) : Outcome Variable :=
  if v.Unreadable ≠ none ∨ v.loaded = true ∨ (v.Addr = 0 ∧ v.Base = 0) then .ok v
  else
    match v.Kind with
    | .Ptr | .UnsafePointer =>
      (maybeDereference env rn { v with loaded := true, Len := 1 }).bind fun child =>
        if cfg.FollowPointers = true then
          (rl (if child.Kind = .Interface then recurseLevel + 1 else recurseLevel) cfg
            child).map fun c => { v with loaded := true, Len := 1, Children := [c] }
        else
          .ok { v with loaded := true, Len := 1,
                       Children := [{ child with OnlyAddr := true }] }
    | .Chan =>
      match v.RealType with
      | some (.ChanType _ target _) =>
        (maybeDereference env rn
          { v with loaded := true, RealType := some (resolveTypedef target) }).bind fun sv =>
          (rl 0 loadFullValue sv).map fun lsv =>
            { v with loaded := true, Children := lsv.Children, Len := lsv.Len,
                     Base := lsv.Addr }
      | _ => .panic
    | .Map =>
      match v.RealType with
      | some (.MapType _ target _ _) =>
        if recurseLevel ≤ cfg.MaxVariableRecurse then
          loadMap env rn rl fuel recurseLevel cfg { v with loaded := true } target
        else
          (mapIteratorOf env rn rl { v with loaded := true } target).map fun r =>
            match r with
            | .error v2 => v2
            | .ok it => it.v
      | _ => .panic
    | .String =>
      (readStringValue env v.Base v.Len cfg).map fun r =>
        { v with loaded := true, Unreadable := r.2, Value := some (.string r.1) }
    | .Slice | .Array => loadArrayValues rn rl recurseLevel cfg { v with loaded := true }
    | .Struct =>
      match v.RealType with
      | some (.StructType _ fields) =>
        if recurseLevel ≤ cfg.MaxVariableRecurse then
          (loadStructFields rn rl recurseLevel cfg v fields []).map fun children =>
            { v with loaded := true, Len := fields.length, Children := children }
        else .ok { v with loaded := true, Len := fields.length }
      | _ => .panic
    | .Interface =>
      match v.RealType with
      | some (.InterfaceType _ target) =>
        loadInterface env rn rl recurseLevel true cfg { v with loaded := true } target
      | _ => .panic
    | .Complex64 | .Complex128 =>
      match v.RealType with
      | some (.ComplexType c) => readComplex rn rl { v with loaded := true } c.ByteSize
      | _ => .panic
    | .Int | .Int8 | .Int16 | .Int32 | .Int64 =>
      match v.RealType with
      | some (.IntType c) =>
        (readIntRaw env.mem v.Addr c.ByteSize).map fun r =>
          { v with loaded := true, Unreadable := r.2, Value := some (.int r.1) }
      | _ => .panic
    | .Uint | .Uint8 | .Uint16 | .Uint32 | .Uint64 | .Uintptr =>
      match v.RealType with
      | some (.UintType c) =>
        (readUintRaw env.mem v.Addr c.ByteSize).map fun r =>
          { v with loaded := true, Unreadable := r.2, Value := some (.int r.1) }
      | _ => .panic
    | .Bool =>
      match env.mem.ReadMemory 1 v.Addr with
      | .error e => .ok { v with loaded := true, Unreadable := some e }
      | .ok val => .ok { v with loaded := true, Value := some (.bool (decide (val.headD 0 ≠ 0))) }
    | .Float32 | .Float64 =>
      match v.RealType with
      | some (.FloatType c) =>
        (readFloatRaw env v c.ByteSize).map fun r =>
          { v with loaded := true, Unreadable := r.2, Value := some (.float r.1 c.ByteSize),
                   FloatSpecial := floatSpecial r.1 c.ByteSize }
      | _ => .panic
    | .Func => readFunctionPtr env { v with loaded := true }
    | .Invalid =>
      .ok { v with loaded := true,
                   Unreadable := some (.other "unknown or unsupported kind") }

/-- The functions `newVariable` and `loadValueInternal` with `fuel` levels of calls of one
another and of themselves left; with none left the result is `.fuel`. -/
def loaderAt (env : LoadEnv) : Nat → NewFn × LoadFn
  | 0 => (fun _ _ _ => .fuel, fun _ _ _ => .fuel)
  | fuel + 1 =>
    (newVariableBody env (loaderAt env fuel).1 (loaderAt env fuel).2,
      loadValueInternalBody env fuel (loaderAt env fuel).1 (loaderAt env fuel).2)

/-- The function `newVariable`. -/
def newVariable (env : LoadEnv) (fuel : Nat) : NewFn := (loaderAt env fuel).1

/-- The method `loadValueInternal`. -/
def loadValueInternal (env : LoadEnv) (fuel : Nat) : LoadFn := (loaderAt env fuel).2

/-- The method `loadValue`. -/
def loadValue (env : LoadEnv) (fuel : Nat) (cfg : LoadConfig) (v : Variable) :
    Outcome Variable :=
  loadValueInternal env fuel 0 cfg v

/-! ## Concrete variables -/

/-- The type `int` of 8 bytes. -/
def intTy : Ty := .IntType { ByteSize := 8, Name := "int" }

/-- The type `uint8`. -/
def uint8Ty : Ty := .UintType { ByteSize := 1, Name := "uint8" }

/-- The pointer type to `t`, of 8 bytes. -/
def ptrTy (t : Ty) : Ty := .PtrType { ByteSize := 8, Name := "*" ++ t.Common.Name } t

/-- A struct type with the five fields `A` to `E` of type `int`. -/
def struct5Ty : Ty :=
  .StructType { ByteSize := 40, Name := "main.S" }
    [⟨"A", intTy, 0, false⟩, ⟨"B", intTy, 8, false⟩, ⟨"C", intTy, 16, false⟩,
      ⟨"D", intTy, 24, false⟩, ⟨"E", intTy, 32, false⟩]

/-- The type `string`. -/
def stringTy : Ty := .StringType { ByteSize := 16, Name := "string" }

/-- The type `[]int`. -/
def sliceTy : Ty :=
  .SliceType { ByteSize := 24, Name := "[]int" }
    [⟨"array", ptrTy intTy, 0, false⟩, ⟨"len", intTy, 8, false⟩, ⟨"cap", intTy, 16, false⟩] intTy

/-- The bucket type of `map[int]int`: eight tophash bytes, eight keys, eight values and the
pointer to the overflow bucket, which is entry 0 of the type table. -/
def bucketTy : Ty :=
  .StructType { ByteSize := 144, Name := "bucket<int,int>" }
    [⟨"tophash", .ArrayType ⟨8, "[8]uint8"⟩ uint8Ty 8, 0, false⟩,
      ⟨"keys", .ArrayType ⟨64, "[8]int"⟩ intTy 8, 8, false⟩,
      ⟨"values", .ArrayType ⟨64, "[8]int"⟩ intTy 8, 72, false⟩,
      ⟨"overflow", .PtrRef ⟨8, "*bucket<int,int>"⟩ 0, 136, false⟩]

/-- The header type of `map[int]int`, with the fields the iterator reads. -/
def hmapTy : Ty :=
  .StructType { ByteSize := 32, Name := "hash<int,int>" }
    [⟨"count", intTy, 0, false⟩, ⟨"B", uint8Ty, 8, false⟩,
      ⟨"buckets", .PtrRef ⟨8, "*bucket<int,int>"⟩ 0, 16, false⟩,
      ⟨"oldbuckets", .PtrRef ⟨8, "*bucket<int,int>"⟩ 0, 24, false⟩]

/-- The type `map[int]int`. -/
def mapTy : Ty :=
  .MapType ⟨8, "map[int]int"⟩ (.PtrType ⟨8, "*hash<int,int>"⟩ hmapTy) intTy intTy

/-- A binary of pointer size 8 over the memory `mem`, whose type table holds the bucket type
of `map[int]int`, without functions and without interface types. -/
def exampleLoadEnv (mem : Memory) : LoadEnv :=
  { mem := mem, ptrSize := 8, types := fun _ => bucketTy, pcToFunc := fun _ => none,
    ifaceType := fun _ => none, directIface := fun _ => false }

/-- A variable of name `name`, type `t` and kind `kind` at the address `addr`, about which
nothing else is known yet: what `newVariable` makes of a type that needs no read. -/
def varAt (name : String) (addr : Nat) (t : Ty) (kind : Kind) : Variable :=
  { Variable.zero with
    Name := name, Addr := addr, DwarfType := some t, RealType := some t, Kind := kind }

/-- The variable that `newVariable` makes of the slice header of `memSlice`: 200 elements of
type `int` from the address 4104 on, with room for 256. -/
def exampleSliceVar : Variable :=
  { varAt "s" 4000 sliceTy .Slice with
    Base := 4104, Len := 200, Cap := 256, stride := 8, fieldType := some intTy }

/-- The variable of name `name` and type `t` at the address `addr`, loaded with `cfg`. -/
def loadAt (env : LoadEnv) (fuel : Nat) (cfg : LoadConfig) (name : String) (addr : Nat)
    (t : Ty) : Outcome Variable :=
  (newVariable env fuel name addr (some t)).bind fun v => loadValue env fuel cfg v

/-- A struct of type `struct5Ty` at the address 1000, with the fields 11, 22, 33, 44, 55. -/
def memStruct5 : Memory :=
  Memory.ofWords [(1000, 11), (1008, 22), (1016, 33), (1024, 44), (1032, 55)]

/-- A chain of three pointers from the address 2000 to the integer 7 at the address 2024. -/
def memPtrChain : Memory := Memory.ofWords [(2000, 2008), (2008, 2016), (2016, 2024), (2024, 7)]

/-- The string "hello" at the address 3104, with its header at the address 3000. -/
def memString : Memory := Memory.ofWords [(3000, 3104), (3008, 5), (3104, 0x6f6c6c6568)]

/-- The header of a slice of length 200 and capacity 256 at the address 4000, its elements
from the address 4104 on: 1, 2 and zeros. -/
def memSlice : Memory :=
  Memory.ofWords [(4000, 4104), (4008, 200), (4016, 256), (4104, 1), (4112, 2)]

/-- A `map[int]int` at the address 5000 in the middle of a resize from one bucket to two.
The old bucket, at the address 7000, holds the keys 1, 2, 3 with the values 10, 20, 30 and is
not marked as evacuated; of the new buckets, the one at the address 6000 has received the
keys 1 and 3, the other one, at the address 6144, is empty. -/
def memMapResize : Memory :=
  Memory.ofWords
    [(5000, 5040), (5040, 3), (5048, 1), (5056, 6000), (5064, 7000),
      (6000, 0x0705), (6008, 1), (6016, 3), (6072, 10), (6080, 30),
      (7000, 0x070605), (7008, 1), (7016, 2), (7024, 3), (7072, 10), (7080, 20), (7088, 30)]

/-- The same map after the resize has moved the old bucket: its tophash bytes mark it as
evacuated, the new bucket at the address 6000 holds the keys 1 and 3, the one at the address
6144 the key 2. -/
def memMapEvacuated : Memory :=
  Memory.ofWords
    [(5000, 5040), (5040, 3), (5048, 1), (5056, 6000), (5064, 7000),
      (6000, 0x0705), (6008, 1), (6016, 3), (6072, 10), (6080, 30),
      (6144, 0x06), (6152, 2), (6216, 20),
      (7000, 0x010101), (7008, 1), (7016, 2), (7024, 3), (7072, 10), (7080, 20), (7088, 30)]

/-- A `map[int]int` at the address 5000 in the middle of a grow that keeps the number of
buckets: the header has `B = 1` and the count 3, the two new buckets, at the addresses 6000
and 6144, are still empty, and the old array, at the address 7000, has two buckets as well.
The old bucket 0 holds the keys 1 and 3 with the values 10 and 30, the old bucket 1, at the
address 7144, holds the key 2 with the value 20; neither is marked as evacuated. -/
def memMapSameSize : Memory :=
  Memory.ofWords
    [(5000, 5040), (5040, 3), (5048, 1), (5056, 6000), (5064, 7000),
      (7000, 0x0705), (7008, 1), (7016, 3), (7072, 10), (7080, 30),
      (7144, 0x06), (7152, 2), (7216, 20)]

/-- The array of the two new buckets of `memMapResize`, as the iterator holds it. -/
def exampleBuckets : Variable := varAt "" 6000 bucketTy .Struct

/-- The array of the one old bucket of `memMapResize`, as the iterator holds it. -/
def exampleOldBuckets : Variable := varAt "" 7000 bucketTy .Struct

/-- The iterator over the map of `memMapResize` before its first bucket: two buckets, and the
mask 0 of the one old bucket. -/
def exampleMapIterator : mapIterator :=
  { v := varAt "m" 5000 mapTy .Map, numbuckets := 2, oldmask := 0,
    buckets := some exampleBuckets, oldbuckets := some exampleOldBuckets, b := none, bidx := 0,
    tophashes := none, keys := none, values := none, overflow := none, idx := 0 }

/-- A `map[int]int` at the address 5000 with two buckets, of which the memory holds the first
one, with the key 1 and the value 10, and nothing of the second: the memory ends at the
address 5248, where the second bucket starts. -/
def memMapTorn : Memory :=
  Memory.ofList 5000 ((List.range 31).flatMap fun i =>
    leBytes 8 (match i with
      | 0 => 5040
      | 5 => 1
      | 6 => 1
      | 7 => 5104
      | 13 => 0x05
      | 14 => 1
      | 22 => 10
      | _ => 0))


/-! ## The poisoning invariant -/

/-- The poisoning invariant of a value tree, with the exception that the loader makes for
maps: a variable that has an error and is not a map has no children, and the same holds for
every child. -/
inductive LeafWhenUnreadable : Variable → Prop
  | node (v : Variable) (hleaf : v.Unreadable ≠ none → v.Kind ≠ .Map → v.Children = [])
      (hchildren : ∀ c ∈ v.Children, LeafWhenUnreadable c) : LeafWhenUnreadable v

/-- What `newVariable` returns has no children. -/
def RnFresh (rn : NewFn) : Prop :=
  ∀ name addr t d, rn name addr t = .ok d → d.Children = []

/-- What `loadValueInternal` returns for a variable without children satisfies the poisoning
invariant. -/
def RlSound (rl : LoadFn) : Prop :=
  ∀ lvl cfg v w, v.Children = [] → rl lvl cfg v = .ok w → LeafWhenUnreadable w

/-- The variable `b` is the variable `a` with the same kind and the same children: what the
map iterator leaves of the map variable it writes to. -/
def SameNode (a b : Variable) : Prop := b.Kind = a.Kind ∧ b.Children = a.Children

/-! ## Inlined calls: vocabulary and a concrete frame -/

/-- A frame that `appendInlineCalls` makes for an inlined call out of the physical frame
`frame`: it is marked as inlined and has the fields of `frame` except for `Call`, of which it
keeps the program counter. -/
def SyntheticOf {R : Type} (frame s : Stackframe R) : Prop :=
  s.Inlined = true ∧ s.Current = frame.Current ∧ s.Regs = frame.Regs ∧ s.Ret = frame.Ret ∧
    s.addrret = frame.addrret ∧ s.SystemStack = frame.SystemStack ∧ s.stackHi = frame.stackHi ∧
    s.Err = frame.Err ∧ s.lastpc = frame.lastpc ∧ s.Call.PC = frame.Call.PC

/-- The physical frame `p` that `appendInlineCalls` appends last for the frame `frame`: it is
`frame` except for the file and the line of `Call`. -/
def PhysicalOf {R : Type} (frame p : Stackframe R) : Prop :=
  p = { frame with Call := { frame.Call with File := p.Call.File, Line := p.Call.Line } }

/-- The function `main.g` of a compile unit with the files `a.go` and `b.go`. -/
def inlineFunction : Function :=
  { Name := "main.g", Entry := 0x100, End := 0x200, offset := 0x100,
    cu := some { lineInfo := some (Line.exampleTable []) } }

/-- A frame of `main.g` at the program counter 0x150, line 12 of `a.go`. -/
def inlineFrame : Stackframe Unit :=
  { Current := { PC := 0x150, File := "a.go", Line := 12, Fn := some inlineFunction }
    Call := { PC := 0x150, File := "a.go", Line := 12, Fn := some inlineFunction }
    Regs := (), stackHi := 0, Ret := 0x90, addrret := 8, Err := none, SystemStack := false,
    Inlined := false, lastpc := 0x150 }

/-- An iterator whose inline reader finds one inlined call in every function: the call of
`main.inl` at line 7 of the second file. -/
def inlineOps : IteratorOps Nat Unit where
  Next := fun k => .ok (k + 1, false)
  Frame := fun _ => inlineFrame
  Err := fun _ => none
  inlineStack := fun _ _ _ =>
    [{ name := some "main.inl", callFile := some 2, callLine := some 7, offset := 0x180 }]

/-! ## Raw integers: vocabulary -/

/-- The value of the byte string `bytes` read as a little-endian two's complement number of
`8 * bytes.length` bits. -/
def twosComplement (bytes : List Nat) : Int :=
  if Line.leValue bytes < 2 ^ (8 * bytes.length - 1) then (Line.leValue bytes : Int)
  else (Line.leValue bytes : Int) - 2 ^ (8 * bytes.length)

/-- A memory that holds the byte 0xFB at the address 100, the two bytes of the 16-bit -5 at
the address 110, the four bytes of the 32-bit -5 at the address 120 and the eight bytes of the
64-bit -5 at the address 130, and nothing at the address 200. -/
def memMinusFive : Memory :=
  Memory.ofBytes fun a =>
    if a = 100 ∨ a = 110 ∨ a = 120 ∨ a = 130 then some 0xFB
    else if a = 111 ∨ (121 ≤ a ∧ a ≤ 123) ∨ (131 ≤ a ∧ a ≤ 137) then some 0xFF
    else if a < 200 then some 0 else none

/-! ## Writing to the target (`pkg/proc/variables.go`) -/

/-- The text of an error, as the verb `%v` prints it. -/
def Error.text : Error → String
  | .negativeDepth => "negative maximum stack depth"
  | .nullAddr => "NULL address"
  | .other msg => msg

/-- The method `String` of `reflect.Kind` (`Kind.String` is the kind of strings). -/
def kindString : Kind → String
  | .Invalid => "invalid" | .Bool => "bool" | .Int => "int" | .Int8 => "int8"
  | .Int16 => "int16" | .Int32 => "int32" | .Int64 => "int64" | .Uint => "uint"
  | .Uint8 => "uint8" | .Uint16 => "uint16" | .Uint32 => "uint32" | .Uint64 => "uint64"
  | .Uintptr => "uintptr" | .Float32 => "float32" | .Float64 => "float64"
  | .Complex64 => "complex64" | .Complex128 => "complex128" | .Array => "array"
  | .Chan => "chan" | .Func => "func" | .Interface => "interface" | .Map => "map"
  | .Ptr => "ptr" | .Slice => "slice" | .String => "string" | .Struct => "struct"
  | .UnsafePointer => "unsafe.Pointer"

/-- Modelled from the spec: the write side of the collaborator `MemoryReadWriter` is not among
the sources.  The memory of the target is given by its bytes, as for `Memory.ofBytes`: the
call `mem.WriteMemory(addr, data)` succeeds when every byte of the range is mapped and then
replaces these bytes; a write that fails leaves the memory as it is.  The result is the error
and the memory after the call. -/
def WriteMemory (bytes : Nat → Option Nat) (addr : Nat) (data : List Nat) :
    Option Error × (Nat → Option Nat) :=
  if (List.range data.length).all (fun i => (bytes (addr % 2 ^ 64 + i)).isSome) then
    (none, fun a =>
      if addr % 2 ^ 64 ≤ a ∧ a < addr % 2 ^ 64 + data.length then
        (data.get? (a - addr % 2 ^ 64)).map (· % 256)
      else bytes a)
  else (some (.other "unwritable memory"), bytes)

/-- The method `writeUint`: the returned error and the memory after the call.  `make` panics
on a negative size; for a size other than 1, 2, 4 and 8 the buffer keeps its zeros. -/
def Variable.writeUint (bytes : Nat → Option Nat) (v : Variable) (value : Nat) (size : Int) :
    Outcome (Option Error × (Nat → Option Nat)) :=
  if size < 0 then .panic
  else
    .ok (WriteMemory bytes v.Addr
      (if size = 1 ∨ size = 2 ∨ size = 4 ∨ size = 8 then leBytes size.toNat value
       else List.replicate size.toNat 0))

/-- Modelled from the spec: the package `go/constant` and the conversions between floating
point formats are not among the sources.  `Float64Val x` is the `float64` of
`constant.Float64Val(x)`, given by its 64 bits, `RealVal x` and `ImagVal x` are those of
`constant.Float64Val(constant.Real(x))` and `constant.Float64Val(constant.Imag(x))`, `none`
for a panic; `float32bits f` are the 32 bits of `float32(f)`. -/
structure ConstOps where
  Float64Val : Option Value → Option Nat
  RealVal : Option Value → Option Nat
  ImagVal : Option Value → Option Nat
  float32bits : Nat → Nat

/-- Modelled from the spec: `constant.BoolVal` is not among the sources; the boolean of a
boolean value, and `none`, a panic, for nil and any other value. -/
def boolVal : Option Value → Option Bool
  | some (.bool b) => some b
  | _ => none

/-- The method `writeFloatRaw`, on the `float64` with the bits `f`: for a size other than 4
and 8 the buffer that is written is empty; `make` panics on a negative size. -/
def Variable.writeFloatRaw (c : ConstOps) (bytes : Nat → Option Nat) (v : Variable) (f : Nat)
    (size : Int) : Outcome (Option Error × (Nat → Option Nat)) :=
  if size < 0 then .panic
  else
    .ok (WriteMemory bytes v.Addr
      (if size = 4 then leBytes 4 (c.float32bits f)
       else if size = 8 then leBytes 8 f else []))

/-- The method `writeBool`. -/
def Variable.writeBool (bytes : Nat → Option Nat) (v : Variable) (value : Bool) :
    Option Error × (Nat → Option Nat) :=
  WriteMemory bytes v.Addr [if value then 1 else 0]

/-- The method `writeComplex`. -/
def Variable.writeComplex (c : ConstOps) (bytes : Nat → Option Nat) (v : Variable)
    (real imag : Nat) (size : Int) : Outcome (Option Error × (Nat → Option Nat)) :=
  (v.writeFloatRaw c bytes real (Int.tdiv size 2)).bind fun r =>
    match r.1 with
    | some err => .ok (some err, r.2)
    | none =>
      Variable.writeFloatRaw c r.2
        { v with Addr := (v.Addr + toUint64 (Int.tdiv size 2)) % 2 ^ 64 } imag (Int.tdiv size 2)

/-- The method `setValue`: the returned error and the memory after the call.  `.panic` is a
panic of `go/constant` on a value of another kind, the call of `Size` on a nil `RealType`, or
the index `y.Children[0]` on a variable without children. -/
def Variable.setValue (c : ConstOps) (bytes : Nat → Option Nat) (v y : Variable) :
    Outcome (Option Error × (Nat → Option Nat)) :=
  match v.Kind with
  | .Float32 | .Float64 =>
    match c.Float64Val y.Value, v.RealType with
    | some f, some t => v.writeFloatRaw c bytes f t.Size
    | _, _ => .panic
  | .Int | .Int8 | .Int16 | .Int32 | .Int64 =>
    match int64Val y.Value, v.RealType with
    | some n, some t => v.writeUint bytes (toUint64 n) t.Size
    | _, _ => .panic
  | .Uint | .Uint8 | .Uint16 | .Uint32 | .Uint64 =>
    match uint64Val y.Value, v.RealType with
    | some n, some t => v.writeUint bytes n t.Size
    | _, _ => .panic
  | .Bool =>
    match boolVal y.Value with
    | some b => .ok (v.writeBool bytes b)
    | none => .panic
  | .Complex64 | .Complex128 =>
    match c.RealVal y.Value, c.ImagVal y.Value, v.RealType with
    | some re, some im, some t => v.writeComplex c bytes re im t.Size
    | _, _, _ => .panic
  | _ =>
    match v.RealType with
    | some (.PtrType pc _) =>
      match y.Children with
      | [] => .panic
      | child :: _ => v.writeUint bytes child.Addr pc.ByteSize
    | some (.PtrRef pc _) =>
      match y.Children with
      | [] => .panic
      | child :: _ => v.writeUint bytes child.Addr pc.ByteSize
    | _ =>
      .ok (some (.other ("can not set variables of type " ++ kindString v.Kind ++
        " (not implemented)")), bytes)

/-- What `SetVariable` uses of its scope and of the Go parser, none of which is among the
sources: `ParseExpr` is `parser.ParseExpr` on expressions of type `Expr`, `evalAST` the method
of that name (`.panic` and `.fuel` when it does not return), `isType` the method of `Variable`
of that name, `env` the binary info and memory that `loadValue` reads. -/
structure SetScope (Expr : Type) where
  ParseExpr : String → Except Error Expr
  evalAST : Expr → Outcome (Except Error Variable)
  isType : Variable → Option Ty → Kind → Option Error
  env : LoadEnv

/-- The method `SetVariable`: the returned error and the memory of the target after the
call. -/
def SetVariable {Expr : Type} (c : ConstOps) (scope : SetScope Expr) (fuel : Nat)
    (bytes : Nat → Option Nat) (name value : String) :
    Outcome (Option Error × (Nat → Option Nat)) :=
  match scope.ParseExpr name with
  | .error err => .ok (some err, bytes)
  | .ok t =>
    (scope.evalAST t).bind fun r =>
      match r with
      | .error err => .ok (some err, bytes)
      | .ok xv =>
        if xv.Addr = 0 then .ok (some (.other ("Can not assign to \"" ++ name ++ "\"")), bytes)
        else
          match xv.Unreadable with
          | some e =>
            .ok (some (.other ("Expression \"" ++ name ++ "\" is unreadable: " ++ e.text)),
              bytes)
          | none =>
            match scope.ParseExpr value with
            | .error err => .ok (some err, bytes)
            | .ok t2 =>
              (scope.evalAST t2).bind fun r2 =>
                match r2 with
                | .error err => .ok (some err, bytes)
                | .ok yv0 =>
                  (loadValue scope.env fuel loadSingleValue yv0).bind fun yv =>
                    match scope.isType yv xv.RealType xv.Kind with
                    | some err => .ok (some err, bytes)
                    | none =>
                      match yv.Unreadable with
                      | some e =>
                        .ok (some (.other ("Expression \"" ++ value ++
                          "\" is unreadable: " ++ e.text)), bytes)
                      | none => xv.setValue c bytes yv

/-- Constant operations for the concrete examples, which hold no floating point value:
floats are taken by their bits and `float32` keeps the low 32 bits. -/
def exampleConstOps : ConstOps :=
  { Float64Val := fun x => match x with
      | some (.float bits _) => some bits
      | _ => none
    RealVal := fun x => match x with
      | some (.complex re _ _) => some re
      | _ => none
    ImagVal := fun x => match x with
      | some (.complex _ im _) => some im
      | _ => none
    float32bits := fun f => f % 2 ^ 32 }

/-- A target memory of 64 zero bytes from the address 4096 on. -/
def bytesZero : Nat → Option Nat :=
  fun a => if 4096 ≤ a ∧ a < 4160 then some 0 else none

/-- A scope over expressions that are names: `x` is an `int` at the address 4096, `u` is an
`int` with a location that could not be computed (no address, unreadable), `p` is an `int` at
the address 8192 that could not be read, and any other name is the integer constant of its
length. -/
def exampleSetScope : SetScope String :=
  { ParseExpr := fun s => .ok s
    evalAST := fun s =>
      if s = "x" then .ok (.ok (varAt "x" 4096 intTy .Int))
      else if s = "u" then
        .ok (.ok { varAt "u" 0 intTy .Int with Unreadable := some (.other "no location") })
      else if s = "p" then
        .ok (.ok { varAt "p" 8192 intTy .Int with Unreadable := some (.other "input/output error") })
      else .ok (.ok { Variable.zero with Kind := .Int, Value := some (.int s.length),
                                         loaded := true })
    isType := fun _ _ _ => none
    env := exampleLoadEnv (Memory.ofBytes bytesZero) }

/-! ## Local variables (`EvalScope.Locals`) -/

/-- The tags of DWARF entries that `variables.go` tells apart; `other` carries the text of
the tag. -/
inductive EntryTag where
  | FormalParameter
  | Variable
  | other (text : String)
deriving DecidableEq

/-- Modelled from the spec: `dwarf.Entry`, `reader.LoadAbstractOrigin`, `scope.Type`,
`BinInfo.Location` and `newCompositeMemory` are not among the sources.  What `Locals` and
`extractVarInfoFromEntry` read of an entry of the reader: of the entry itself the tag and
the attribute `AttrVarParam` (false when it is not a boolean); of the entry with its abstract
origin loaded the name (`none` when the attribute is not a string), what `scope.Type` makes
of the attribute `AttrType` (`none` when the attribute is not an offset), and the results of
`Location`: the address, the composite memory of the pieces (`none` for nil pieces), the
description and the error. -/
structure VarEntry where
  Tag : EntryTag
  VarParam : Bool
  Name : Option String
  Typ : Option (Except Error Ty)
  addr : Int
  pieces : Option Memory
  descr : String
  locErr : Option Error

/-- What `Locals` uses of its scope.  `Fn` is the function of the scope (nil is `none`),
`env` the binary info and the memory `scope.Mem`, `entries` the entries that the reader of
`reader.Variables` yields, each with the depth the reader gives for it (a nil entry is
`none`), and `readerErr` the error of the reader after the loop.  Modelled from the spec:
the reader and the constant `fakeAddress` are not among the sources. -/
structure LocalsScope where
  Fn : Option Function
  env : LoadEnv
  fakeAddress : Nat
  entries : List (Option VarEntry × Int)
  readerErr : Option Error

/-- A variable of `Locals` with the memory it reads (the Go field `mem`) and its depth, the
entry of the slice `depths` at its index. -/
structure LocalVar where
  v : Variable
  mem : Memory
  depth : Int

/-- The method `extractVarInfoFromEntry`: the variable with its memory, or the error. -/
def extractVarInfoFromEntry (scope : LocalsScope) (fuel : Nat) (varEntry : Option VarEntry) :
    Outcome (Except Error (Variable × Memory)) :=
  match varEntry with
  | none => .ok (.error (.other "invalid entry"))
  | some e =>
    match e.Tag with
    | .other text =>
      .ok (.error (.other
        ("invalid entry tag, only supports FormalParameter and Variable, got " ++ text)))
    | _ =>
      match e.Name with
      | none => .ok (.error (.other "type assertion failed"))
      | some n =>
        match e.Typ with
        | none => .ok (.error (.other "type assertion failed"))
        | some (.error err) => .ok (.error err)
        | some (.ok t) =>
          let addr := match e.pieces with
            | some _ => scope.fakeAddress
            | none => toUint64 e.addr
          let mem := match e.pieces with
            | some m => m
            | none => scope.env.mem
          (newVariable { scope.env with mem := mem } fuel n addr (some t)).map fun v =>
            .ok ({ v with
                    LocationExpr := e.descr
                    Unreadable := match e.locErr with
                      | some err => some err
                      | none => v.Unreadable }, mem)

/-- The first loop of `Locals` over the entries of the reader: the variables with their
depths, and the flag `hasScopes`.  An entry that `extractVarInfoFromEntry` fails on is
skipped. -/
def Locals.collect (scope : LocalsScope) (fuel : Nat) :
    List (Option VarEntry × Int) → List LocalVar → Bool → Outcome (List LocalVar × Bool)
  | [], vars, hasScopes => .ok (vars, hasScopes)
  | (entry, d) :: rest, vars, hasScopes =>
    (extractVarInfoFromEntry scope fuel entry).bind fun r =>
      match r with
      | .error _ => Locals.collect scope fuel rest vars hasScopes
      | .ok (val, mem) =>
        match entry with
        | none => .panic
        | some e =>
          let depth := if e.Tag = .FormalParameter ∧ d ≤ 1 then 0 else d
          let flags :=
            if e.Tag = .FormalParameter then
              (if e.VarParam then val.Flags ||| 16 else val.Flags ||| 8)
            else val.Flags
          Locals.collect scope fuel rest
            (vars ++ [{ v := { val with Flags := flags }, mem := mem, depth := depth }])
            (hasScopes || decide (depth > 1))

/-- Modelled from the spec: `sort.Stable` is a function of the Go library, not among the
sources.  The stable sort of the variables by `Less`, which compares the depths: an insertion
sort that keeps variables of equal depth in their order. -/
def sortByDepth (vars : List LocalVar) : List LocalVar :=
  vars.insertionSort (fun a b => a.depth ≤ b.depth)

/-- The statement `otherv.Flags |= VariableShadowed`. -/
def LocalVar.mark (lv : LocalVar) : LocalVar :=
  { lv with v := { lv.v with Flags := lv.v.Flags ||| 2 } }

/-- The statement `otherv.Flags |= VariableShadowed` on the variable at index `i`. -/
def markShadowed : Nat → List LocalVar → List LocalVar
  | _, [] => []
  | 0, lv :: rest => lv.mark :: rest
  | i + 1, lv :: rest => lv :: markShadowed i rest

/-- The test `len(name) > 1 && name[0] == '&'` of the second loop of `Locals`. -/
def EscapedName (name : String) : Prop := name.utf8ByteSize > 1 ∧ name.front = '&'

instance (name : String) : Decidable (EscapedName name) := by
  unfold EscapedName
  infer_instance

/-- The first statement of the second loop of `Locals`: a variable whose name has more than
one byte and starts with `&` is replaced by what it points to, is unreadable when that has
no address, loses the `&` and gets the flag `VariableEscaped`. -/
def Locals.escaped (env : LoadEnv) (fuel : Nat) (lv : LocalVar) : Outcome LocalVar :=
  if EscapedName lv.v.Name then
    (maybeDereference { env with mem := lv.mem } (newVariable { env with mem := lv.mem } fuel)
      lv.v).map fun d =>
      { lv with v := { d with
          Unreadable := if d.Addr = 0 then some (.other "no address for escaped variable")
                        else d.Unreadable
          Name := lv.v.Name.drop 1
          Flags := d.Flags ||| 1 } }
  else .ok lv

/-- The statement `if otherv := lvn[v.Name]; otherv != nil { otherv.Flags |=
VariableShadowed }` of the second loop of `Locals`, on the variables `done` before the index
of the loop. -/
def Locals.markOther (lvn : String → Option Nat) (name : String) (done : List LocalVar) :
    List LocalVar :=
  match lvn name with
  | some i => markShadowed i done
  | none => done

/-- The second loop of `Locals`.  `done` are the variables before the index of the loop and
`lvn` is the map of that name: the index in `done` of the last variable seen under a name. -/
def Locals.loop (env : LoadEnv) (fuel : Nat) (hasScopes : Bool) :
    List LocalVar → List LocalVar → (String → Option Nat) → Outcome (List LocalVar)
  | [], done, _ => .ok done
  | lv :: rest, done, lvn =>
    (Locals.escaped env fuel lv).bind fun w =>
      if hasScopes then
        Locals.loop env fuel hasScopes rest (Locals.markOther lvn w.v.Name done ++ [w])
          (fun name => if name = w.v.Name then some done.length else lvn name)
      else Locals.loop env fuel hasScopes rest (done ++ [w]) lvn

/-- The method `Locals`, with the depth of each returned variable. -/
def LocalsDepths (scope : LocalsScope) (fuel : Nat) : Outcome (Except Error (List LocalVar)) :=
  match scope.Fn with
  | none => .ok (.error (.other "unable to find function context"))
  | some _ =>
    (Locals.collect scope fuel scope.entries [] false).bind fun r =>
      match scope.readerErr with
      | some err => .ok (.error err)
      | none =>
        if r.1.length ≤ 0 then .ok (.ok r.1)
        else
          (Locals.loop scope.env fuel r.2 (if r.2 then sortByDepth r.1 else r.1) []
            (fun _ => none)).map .ok

/-- The method `Locals`: the returned variables or the returned error. -/
def Locals (scope : LocalsScope) (fuel : Nat) : Outcome (Except Error (List Variable)) :=
  (LocalsDepths scope fuel).map fun r =>
    match r with
    | .error err => .error err
    | .ok vars => .ok (vars.map (fun lv => lv.v))

/-- The flag `VariableShadowed` is set. -/
def Shadowed (v : Variable) : Prop := v.Flags.testBit 1 = true

instance (v : Variable) : Decidable (Shadowed v) := by
  unfold Shadowed
  infer_instance

/-- `LastSeen done lvn`: for each name, `lvn` holds the index of the last variable of `done`
with that name, and nothing when `done` has no such variable. -/
def LastSeen (done : List LocalVar) (lvn : String → Option Nat) : Prop :=
  ∀ m, match lvn m with
    | some i =>
      (∃ x, done[i]? = some x ∧ x.v.Name = m) ∧
        ∀ (j : Nat) (y : LocalVar), i < j → done[j]? = some y → y.v.Name ≠ m
    | none => ∀ (j : Nat) (y : LocalVar), done[j]? = some y → y.v.Name ≠ m

/-- `ShadowMarks vars`: a variable of `vars` carries `VariableShadowed` exactly when a later
variable of `vars` has its name. -/
def ShadowMarks (vars : List LocalVar) : Prop :=
  ∀ (i : Nat) (x : LocalVar), vars[i]? = some x →
    (Shadowed x.v ↔ ∃ (j : Nat) (y : LocalVar), i < j ∧ vars[j]? = some y ∧ y.v.Name = x.v.Name)

/-- The name `Locals` returns a variable of the name `name` under. -/
def localName (name : String) : String :=
  if EscapedName name then name.drop 1 else name

/-- The name and the depth that `Locals` records for an entry of the reader that
`extractVarInfoFromEntry` can parse: an entry that is not nil, with the tag of a formal
parameter or variable, a name, and a type that resolves; `none` for any other entry. -/
def entryKey (item : Option VarEntry × Int) : Option (String × Int) :=
  match item.1 with
  | none => none
  | some e =>
    match e.Tag with
    | .other _ => none
    | _ =>
      match e.Name with
      | none => none
      | some n =>
        match e.Typ with
        | some (.ok _) => some (n, if e.Tag = .FormalParameter ∧ item.2 ≤ 1 then 0 else item.2)
        | _ => none

/-- The names and depths of the result of `Locals`, and the flags. -/
def localsView (r : Outcome (Except Error (List LocalVar))) :
    Outcome (Option (List (String × Int × Nat))) :=
  r.map fun x =>
    match x with
    | .error _ => none
    | .ok vars => some (vars.map (fun lv => (lv.v.Name, lv.depth, lv.v.Flags)))

/-- An entry of tag `tag` for a variable `name` of type `int` at the address `addr`. -/
def intEntry (tag : EntryTag) (name : String) (addr : Int) : VarEntry :=
  { Tag := tag, VarParam := false, Name := some name, Typ := some (.ok intTy), addr := addr,
    pieces := none, descr := "", locErr := none }

/-- The function `main.main`, without compile unit. -/
def mainFunction : Function :=
  { Name := "main.main", Entry := 0x400, End := 0x500, offset := 0, cu := none }

/-- A scope in a block of `main.main`: the reader yields the variable `a` of the block (depth
2), a variable `b` whose type cannot be resolved, the variable `a` of the function (depth 1)
and the parameter `n`. -/
def scopeShadow : LocalsScope :=
  { Fn := some mainFunction
    env := exampleLoadEnv (Memory.ofBytes bytesZero)
    fakeAddress := 0xbeef0000
    entries :=
      [(some (intEntry .Variable "a" 4104), 2),
       (some { intEntry .Variable "b" 4112 with Typ := some (.error (.other "unsupported type")) },
        1),
       (some (intEntry .Variable "a" 4096), 1),
       (some (intEntry .FormalParameter "n" 4120), 1)]
    readerErr := none }

/-- A scope at the top of a function whose parameter `x` has escaped to the heap: the reader
yields the parameter `x` and the variable `&x`, a pointer to the copy on the heap, both at
depth 1. -/
def scopeEscaped : LocalsScope :=
  { Fn := some mainFunction
    env := exampleLoadEnv (Memory.ofWords [(4096, 4104), (4104, 7)])
    fakeAddress := 0xbeef0000
    entries :=
      [(some (intEntry .FormalParameter "x" 4112), 1),
       (some { intEntry .Variable "&x" 4096 with Typ := some (.ok (ptrTy intTy)) }, 1)]
    readerErr := none }

/-! ## Constants (`pkg/proc/variables.go`) -/

/-- The function `popcnt`.  The argument and the intermediate values are `uint64`; the result
`int(x) & (1<<7 - 1)` is the number made of the low seven bits of the last value. -/
def popcnt (x : Nat) : Nat :=
  let m0 := 0x5555555555555555
  let m1 := 0x3333333333333333
  let m2 := 0x0f0f0f0f0f0f0f0f
  let m := 2 ^ 64 - 1
  let x := wrap64 (((x >>> 1) &&& (m0 &&& m)) + (x &&& (m0 &&& m)))
  let x := wrap64 (((x >>> 2) &&& (m1 &&& m)) + (x &&& (m1 &&& m)))
  let x := wrap64 ((x >>> 4) + x) &&& (m2 &&& m)
  let x := wrap64 (x + (x >>> 8))
  let x := wrap64 (x + (x >>> 16))
  let x := wrap64 (x + (x >>> 32))
  x &&& (2 ^ 7 - 1)

/-- The number of bits set to 1 among the low `n` bits of `x`. -/
def onesCount : Nat → Nat → Nat
  | 0, _ => 0
  | n + 1, x => x % 2 + onesCount n (x / 2)

/-- The number whose `k` low bytes are all `c`. -/
def repByte (c : Nat) : Nat → Nat
  | 0 => 0
  | k + 1 => c + 256 * repByte c k

/-- The number whose `k` low bytes are the images under `f` of the `k` low bytes of `x`. -/
def mapBytes (f : Nat → Nat) : Nat → Nat → Nat
  | 0, _ => 0
  | k + 1, x => f (x % 256) + 256 * mapBytes f k (x / 256)

/-- The byte that the first two steps of `popcnt` make of the byte `b`: two fields of four
bits, the numbers of bits set in the two halves of `b`. -/
def nibbleCounts (b : Nat) : Nat :=
  (((((b >>> 1) &&& 0x55) + (b &&& 0x55)) >>> 2) &&& 0x33) +
    ((((b >>> 1) &&& 0x55) + (b &&& 0x55)) &&& 0x33)

/-- Modelled from the spec: the struct `constantValue` is declared in a file that is not among
the sources; these are the fields that `variables.go` uses.  `value` is an `int64`. -/
structure constantValue where
  name : String
  fullName : String
  value : Int
  singleBit : Bool
deriving DecidableEq

/-- Modelled from the spec: the struct `constantType` is declared in a file that is not among
the sources; these are the fields that `variables.go` uses. -/
structure constantType where
  initialized : Bool
  values : List constantValue
deriving DecidableEq

/-- Modelled from the spec: `sort.Sort` is a function of the Go library, not among the
sources.  The sort of the constants by `Less`, which compares the values: an insertion sort,
which keeps constants of equal value in their order (`sort.Sort` promises no order for
them). -/
def sortByValue (values : List constantValue) : List constantValue :=
  values.insertionSort (fun a b => a.value ≤ b.value)

/-- The body of the loop of `constantsMap.Get` for one constant: the package name is cut off
the name that starts with it (`strings.HasPrefix` and the slice `name[len(typepkg):]`, on the
characters of the strings) and the constant is marked when its value has exactly one bit
set. -/
def constantValue.prepare (typepkg : String) (v : constantValue) : constantValue :=
  { v with
    name := if typepkg.toList.isPrefixOf v.name.toList then
        String.mk (v.name.toList.drop typepkg.toList.length)
      else v.name
    singleBit := if popcnt (toUint64 v.value) = 1 then true else v.singleBit }

/-- The method `constantsMap.Get`: the map is keyed by the offset of the type, `offset` is
`typ.Common().Offset` and `typepkg` is `packageName(typ.String()) + "."` (`packageName` is
not among the sources).  The result is the constant type, `none` for nil, and the map after
the call: the type is written through the pointer that the map holds. -/
def constantsMap.Get (cm : Nat → Option constantType) (offset : Nat) (typepkg : String) :
    Option constantType × (Nat → Option constantType) :=
  match cm offset with
  | none => (none, cm)
  | some ctyp =>
    if ctyp.initialized then (some ctyp, cm)
    else
      (some { initialized := true
              values := (sortByValue ctyp.values).map (constantValue.prepare typepkg) },
        fun o => if o = offset then
          some { initialized := true
                 values := (sortByValue ctyp.values).map (constantValue.prepare typepkg) }
        else cm o)

/-- The operator `&` on two `int64`. -/
def and64 (a b : Int) : Int := toInt64 ((toUint64 a &&& toUint64 b : Nat) : Int)

/-- The expression `a & ^b` on two `int64`. -/
def andNot64 (a b : Int) : Int :=
  toInt64 ((toUint64 a &&& (2 ^ 64 - 1 - toUint64 b) : Nat) : Int)

/-- The second loop of `describe`: the names collected and what is left of `n`. -/
def constantType.describe.fields : List constantValue → Int → List String → List String × Int
  | [], n, fields => (fields, n)
  | val :: rest, n, fields =>
    if val.singleBit = false then constantType.describe.fields rest n fields
    else if and64 n val.value ≠ 0 then
      constantType.describe.fields rest (andNot64 n val.value) (fields ++ [val.name])
    else constantType.describe.fields rest n fields

/-- The method `describe`. -/
def constantType.describe (ctyp : constantType) (n : Int) : String :=
  match ctyp.values.find? (fun val => val.value == n) with
  | some val => val.name
  | none =>
    if n = 0 then ""
    else if (constantType.describe.fields ctyp.values n []).2 = 0 then
      "|".intercalate (constantType.describe.fields ctyp.values n []).1
    else ""

/-- The bitwise OR of the values of the constants `fs`, as a `uint64`. -/
def orValues (fs : List constantValue) : Nat :=
  fs.foldr (fun v acc => toUint64 v.value ||| acc) 0

/-- A constant type with the flags 1, 2 and 4 of the package `os`, the mask 3 and the constant
of value 0, in no order, before `Get` has been called on it. -/
def exampleConstants : constantType :=
  { initialized := false
    values := [⟨"os.Exec", "os.Exec", 4, false⟩, ⟨"os.ReadWrite", "os.ReadWrite", 3, false⟩,
      ⟨"os.Read", "os.Read", 1, false⟩, ⟨"os.None", "os.None", 0, false⟩,
      ⟨"os.Write", "os.Write", 2, false⟩] }

/-! ## Concrete variables for the loops of the loader -/

/-- The type `type T *T`, entry 0 of the type table of `selfPtrEnv`. -/
def selfPtrTy : Ty := .PtrRef { ByteSize := 8, Name := "T" } 0

/-- A binary whose type table holds `selfPtrTy`, over a memory in which the word at the
address 4096 holds 4096: a variable `p` of type `T` after `p = &p`. -/
def selfPtrEnv : LoadEnv :=
  { exampleLoadEnv (Memory.ofWords [(4096, 4096)]) with types := fun _ => selfPtrTy }

/-- An array of ten `uint8` at the address 5000, of which the memory holds only the first
two. -/
def shortArrayVar : Variable :=
  { varAt "a" 5000 (.ArrayType { ByteSize := 10, Name := "[10]uint8" } uint8Ty 10) .Array with
    Base := 5000, Len := 10, Cap := 10, stride := 1, fieldType := some uint8Ty }

/-- The memory of `shortArrayVar`: the bytes 7 and 8 at the addresses 5000 and 5001. -/
def memShortArray : Memory := Memory.ofList 5000 [7, 8]

/-! ## Stack barriers (`newStackIterator`, `G.stkbar`) -/

/-- What `newStackIterator` uses of its binary info: the entry
`bi.LookupFunc["runtime.stackBarrier"]`, nil in a binary without that function, and the
method `bi.PCToFunc`. -/
structure BarrierInfo where
  stackBarrierFunc : Option Function
  PCToFunc : Nat → Option Function

/-- The element `s[i]` of a slice of saved return addresses for an index of type `int`;
`none` is the index out of range. -/
def savedLRAt (s : List savedLR) (i : Int) : Option savedLR :=
  if i < 0 then none else s.get? i.toNat

/-- The slice `s[i:]`; `none` is the panic for slice bounds out of range. -/
def savedLRFrom (s : List savedLR) (i : Int) : Option (List savedLR) :=
  if i < 0 ∨ (s.length : Int) < i then none else some (s.drop i.toNat)

/-- The test of `newStackIterator` for a goroutine caught inside `runtime.stackBarrier`: the
position of the first pending record, or the error "failed to unwind through stackBarrier";
`none` is an index out of range. -/
def newStackIterator.position (regs : DwarfRegisters) (stkbar : List savedLR)
    (stkbarPos : Int) : Option (Except Error Int) :=
  let second : Option (Except Error Int) :=
    if stkbarPos > 0 then
      match savedLRAt stkbar (stkbarPos - 1) with
      | none => none
      | some bar =>
        if bar.ptr < regs.SP then some (.ok (stkbarPos - 1))
        else some (.error (.other "failed to unwind through stackBarrier"))
    else some (.error (.other "failed to unwind through stackBarrier"))
  if stkbar.length > 0 then
    match savedLRAt stkbar stkbarPos with
    | none => none
    | some bar => if bar.ptr < regs.SP then some (.ok stkbarPos) else second
  else second

/-- The function `newStackIterator`; `none` is a panic (an index or a slice bound out of
range).  `g0` is the goroutine that `g.variable.fieldVariable("m").structMember("g0")` and
`parseG` give for a non-nil `g`, nil when one of them fails.  The arguments `bi` and `mem`
that the iterator keeps are in `StackEnv`. -/
def newStackIterator (bi : BarrierInfo) (regs : DwarfRegisters) (stackhi : Nat)
    (stkbar : Option (List savedLR)) (stkbarPos : Int) (g : Option G) (g0 : Option G) :
    Option stackIterator :=
  let finish (stackBarrierPC : Nat) (stkbar : Option (List savedLR)) : stackIterator :=
    { pc := regs.PC, regs := regs, top := true, err := none, atend := false,
      frame := Stackframe.zero, stackhi := stackhi, stackBarrierPC := stackBarrierPC,
      stkbar := stkbar,
      systemstack :=
        match g with
        | none => true
        | some g => g.SystemStack
      g := g,
      g0_sched_sp :=
        match g, g0 with
        | some _, some g0 => g0.SP
        | _, _ => 0 }
  match bi.stackBarrierFunc, stkbar with
  | some stackBarrierFunc, some bars =>
    let inBarrier : Bool :=
      match bi.PCToFunc regs.PC with
      | none => false
      | some fn => decide (fn.Name = "runtime.stackBarrier")
    let pos : Option (Except Error Int) :=
      if inBarrier then newStackIterator.position regs bars stkbarPos else some (.ok stkbarPos)
    match pos with
    | none => none
    | some (.error e) =>
      some { pc := 0, top := false, atend := false, frame := Stackframe.zero, err := some e,
             stackhi := 0, systemstack := false, stackBarrierPC := 0, stkbar := none,
             regs := DwarfRegisters.zero, g := none, g0_sched_sp := 0 }
    | some (.ok p) =>
      match savedLRFrom bars p with
      | none => none
      | some rest => some (finish stackBarrierFunc.Entry (some rest))
  | _, _ => some (finish 0 stkbar)

/-- The iterator of `Next` after the assignment `it.frame = it.newStackframe(ret, retaddr)`,
on which the test for a stack barrier is made. -/
def withNewFrame (env : StackEnv) (it : stackIterator) (ret retaddr : Nat) : stackIterator :=
  { (newStackframe env it ret retaddr).1 with frame := (newStackframe env it ret retaddr).2 }

/-- The loop of `G.stkbar` over the fields of one child of `g.stkbarVar`: the fields
`savedLRPtr` and `savedLRVal` fill the record; `none` is a panic of `constant.Int64Val`. -/
def G.stkbar.record : List Variable → savedLR → Option savedLR
  | [], r => some r
  | field :: rest, r =>
    if field.Name = "savedLRPtr" then
      match int64Val field.Value with
      | none => none
      | some ptr => G.stkbar.record rest { r with ptr := toUint64 ptr }
    else if field.Name = "savedLRVal" then
      match int64Val field.Value with
      | none => none
      | some val => G.stkbar.record rest { r with val := toUint64 val }
    else G.stkbar.record rest r

/-- The method `G.stkbar` on the field `g.stkbarVar` (`none` is nil, a runtime whose `g` has
no field `stkbar`): the returned slice, `none` for nil, or the returned error.  For a non-nil
`g.stkbarVar` the slice is made by `make` and is not nil, also when it is empty. -/
def G.stkbar (env : LoadEnv) (fuel : Nat) (stkbarVar : Option Variable) :
    Outcome (Except Error (Option (List savedLR))) :=
  match stkbarVar with
  | none => .ok (.ok none)
  | some v =>
    match loadValue env fuel ⟨false, 1, 0, v.Len, 3⟩ v with
    | .panic => .panic
    | .fuel => .fuel
    | .ok v =>
      if v.Unreadable ≠ none then .ok (.error (.other "unreadable stkbar"))
      else
        match v.Children.mapM (fun child => G.stkbar.record child.Children ⟨0, 0⟩) with
        | none => .panic
        | some r => .ok (.ok (some r))

/-- The type `uintptr`. -/
def uintptrTy : Ty := .UintType { ByteSize := 8, Name := "uintptr" }

/-- The type `runtime.stkbar` of a stack barrier record. -/
def stkbarTy : Ty :=
  .StructType { ByteSize := 16, Name := "runtime.stkbar" }
    [⟨"savedLRPtr", uintptrTy, 0, false⟩, ⟨"savedLRVal", uintptrTy, 8, false⟩]

/-- The type `[]runtime.stkbar` of the field `stkbar` of `runtime.g`. -/
def stkbarSliceTy : Ty :=
  .SliceType { ByteSize := 24, Name := "[]runtime.stkbar" }
    [⟨"array", ptrTy stkbarTy, 0, false⟩, ⟨"len", intTy, 8, false⟩, ⟨"cap", intTy, 16, false⟩]
    stkbarTy

/-- The result of `G.stkbar` for a goroutine whose field `stkbar` is at the address 8000 of
the memory `mem`. -/
def stkbarAt (mem : Memory) : Outcome (Except Error (Option (List savedLR))) :=
  (newVariable (exampleLoadEnv mem) 4 "stkbar" 8000 (some stkbarSliceTy)).bind fun v =>
    G.stkbar (exampleLoadEnv mem) 4 (some v)

/-- A goroutine stopped in `main.f` with the stack pointer 1000: the return address of the
frame, in the slot 1016, is `ret`; the field `stkbar` of the goroutine, at the address 8000,
is a slice of length `n` and capacity 4 whose records are at the address 8104, the first of
them for the slot 1016 with the saved return address 0x120. -/
def memStkbar (ret n : Nat) : Memory :=
  Memory.ofWords [(1016, ret), (8000, 8104), (8008, n), (8016, 4), (8104, 1016), (8112, 0x120)]

/-- A binary without the function `runtime.stackBarrier`. -/
def noBarrierInfo : BarrierInfo :=
  { stackBarrierFunc := none, PCToFunc := fun pc => (examplePCToLine pc).2.2 }

/-- A binary with the function `runtime.stackBarrier` at the address 0x600. -/
def barrierInfo : BarrierInfo :=
  { stackBarrierFunc := some (exampleFunction "runtime.stackBarrier" 0x600),
    PCToFunc := fun pc => (examplePCToLine pc).2.2 }

/-- The goroutine of `memStkbar`, running on its own stack. -/
def exampleG : G := { PC := 0x110, SP := 1000, BP := 0, SystemStack := false }

/-- The iterator that `newStackIterator` builds in the binary `bi` for the goroutine of the
memory `mem`, with the list that `G.stkbar` returns and the position 0; `none` when one of
the two fails. -/
def iteratorAt (bi : BarrierInfo) (mem : Memory) : Option stackIterator :=
  match stkbarAt mem with
  | .ok (.ok stkbar) =>
    newStackIterator bi (exampleRegs 0x110 1000) 2000 stkbar 0 (some exampleG) none
  | _ => none

/-- The iterator over the stack of `exampleG` with the address `barrierPC` for
`stackBarrierPC` and the list `stkbar` of saved return addresses, not nil.  The theorem
`iteratorAt_eq` has it as what `newStackIterator` builds. -/
def goroutineIterator (barrierPC : Nat) (stkbar : List savedLR) : stackIterator :=
  { exampleIterator 0x110 1000 2000 false 0 with
    stackBarrierPC := barrierPC, stkbar := some stkbar, g := some exampleG }

end Proc

namespace Line

/-! ## Every instruction consumes bytes -/

theorem binaryRead_length_le (n : Nat) (buf : List Nat) :
    (binaryRead n buf).2.length ≤ buf.length := by
  unfold binaryRead
  split <;> simp

theorem readULEB_buf {dec : Decoders} {sm sm2 : StateMachine} {v : Nat}
    (h : readULEB dec sm = some (v, sm2)) : sm2.buf.length ≤ sm.buf.length := by
  unfold readULEB at h
  split at h
  · simp at h
  · simp only [Option.some.injEq, Prod.mk.injEq] at h
    rw [← h.2]
    simp

theorem readSLEB_buf {dec : Decoders} {sm sm2 : StateMachine} {v : Int}
    (h : readSLEB dec sm = some (v, sm2)) : sm2.buf.length ≤ sm.buf.length := by
  unfold readSLEB at h
  split at h
  · simp at h
  · simp only [Option.some.injEq, Prod.mk.injEq] at h
    rw [← h.2]
    simp

theorem skipOperands_buf {dec : Decoders} (n : Nat) {sm sm2 : StateMachine}
    (h : skipOperands dec n sm = some sm2) : sm2.buf.length ≤ sm.buf.length := by
  induction n generalizing sm with
  | zero =>
    simp only [skipOperands, Option.some.injEq] at h
    rw [h]
  | succ n ih =>
    simp only [skipOperands] at h
    split at h
    · simp at h
    · rename_i v sm1 h1
      exact le_trans (ih h) (readSLEB_buf h1)

theorem execExtendedOpcode_buf {dec : Decoders} {sm sm2 : StateMachine}
    (h : execExtendedOpcode dec sm = some sm2) : sm2.buf.length ≤ sm.buf.length := by
  unfold execExtendedOpcode at h
  split at h
  · simp at h
  · rename_i v sm1 h1
    have h0 := readULEB_buf h1
    have ht : sm1.buf.tail.length ≤ sm1.buf.length := by simp
    simp only at h
    split_ifs at h
    · simp only [Option.some.injEq] at h
      rw [← h]
      simp only [endsequence]
      omega
    · simp only [Option.some.injEq] at h
      rw [← h]
      simp only [setaddress]
      have := binaryRead_length_le 8 sm1.buf.tail
      omega
    · unfold definefile at h
      split at h
      · simp at h
      · simp only [Option.some.injEq] at h
        rw [← h]
        simp only [List.length_drop]
        omega
    · simp only [Option.some.injEq] at h
      rw [← h]
      simp only
      omega

theorem execOpcode_buf {dec : Decoders} {b : Nat} {sm sm2 : StateMachine}
    (h : execOpcode dec b sm = some sm2) : sm2.buf.length ≤ sm.buf.length := by
  unfold execOpcode at h
  split at h
  · exact execExtendedOpcode_buf h
  · simp only [Option.some.injEq] at h
    rw [← h]
    simp [copyfn]
  · unfold advancepc at h
    split at h
    · simp at h
    · rename_i v sm1 h1
      have h0 := readULEB_buf h1
      simp only [Option.some.injEq] at h
      rw [← h]
      exact h0
  · unfold advanceline at h
    split at h
    · simp at h
    · rename_i v sm1 h1
      have h0 := readSLEB_buf h1
      simp only [Option.some.injEq] at h
      rw [← h]
      exact h0
  · unfold setfile at h
    split at h
    · simp at h
    · rename_i v sm1 h1
      have h0 := readULEB_buf h1
      simp only at h
      split_ifs at h
      · split at h
        · simp only [Option.some.injEq] at h
          rw [← h]
          exact h0
        · simp at h
      · split at h
        · simp only [Option.some.injEq] at h
          rw [← h]
          exact h0
        · simp at h
      · simp only [Option.some.injEq] at h
        rw [← h]
        exact h0
  · unfold setcolumn at h
    split at h
    · simp at h
    · rename_i v sm1 h1
      have h0 := readULEB_buf h1
      simp only [Option.some.injEq] at h
      rw [← h]
      exact h0
  · simp only [Option.some.injEq] at h
    rw [← h]
    simp [negatestmt]
  · simp only [Option.some.injEq] at h
    rw [← h]
    simp [setbasicblock]
  · unfold constaddpc at h
    split_ifs at h
    simp only [Option.some.injEq] at h
    rw [← h]
  · simp only [Option.some.injEq] at h
    rw [← h]
    simp only [fixedadvancepc]
    exact binaryRead_length_le 2 sm.buf
  · simp at h

theorem execSpecialOpcode_buf {b : Nat} {sm sm2 : StateMachine}
    (h : execSpecialOpcode sm b = some sm2) : sm2.buf = sm.buf := by
  unfold execSpecialOpcode at h
  simp only at h
  by_cases hr : sm.dbl.Prologue.LineRange = 0
  · simp [hr] at h
  · rw [if_neg hr] at h
    simp only [Option.some.injEq] at h
    rw [← h]

theorem nextDispatch_buf {dec : Decoders} {b : Nat} {sm sm2 : StateMachine}
    (h : nextDispatch dec b sm = some sm2) : sm2.buf.length ≤ sm.buf.length := by
  unfold nextDispatch at h
  split_ifs at h
  · have h0 := execOpcode_buf h
    exact h0
  · split at h
    · simp at h
    · exact skipOperands_buf _ h
  · rw [execSpecialOpcode_buf h]

theorem nextRemember_buf (sm : StateMachine) : (nextRemember sm).buf = sm.buf := by
  unfold nextRemember
  split <;> rfl

theorem nextReset_buf {sm sm2 : StateMachine} (h : nextReset sm = some sm2) :
    sm2.buf = sm.buf := by
  unfold nextReset at h
  split_ifs at h
  · split at h
    · simp at h
    · simp only [Option.some.injEq] at h
      rw [← h]
  · simp only [Option.some.injEq] at h
    rw [← h]

theorem nextPrepare_buf {sm sm2 : StateMachine} (h : nextPrepare sm = some sm2) :
    sm2.buf = sm.buf := by
  unfold nextPrepare at h
  rw [nextReset_buf h, nextRemember_buf]

/-- A call of `next` that returns `nil` has consumed at least the opcode byte. -/
theorem next_ok_buf {dec : Decoders} {sm sm2 : StateMachine} (h : next dec sm = .ok sm2) :
    sm2.buf.length < sm.buf.length := by
  unfold next at h
  split at h
  · simp at h
  · rename_i sm1 h1
    have hb := nextPrepare_buf h1
    split at h
    · simp at h
    · rename_i b rest hrest
      split at h
      · simp at h
      · rename_i sm3 h3
        simp only [NextResult.ok.injEq] at h
        have := nextDispatch_buf h3
        simp only at this
        rw [← h, ← hb, hrest]
        simp only [List.length_cons]
        omega

/-- A call of `next` that fails leaves the buffer empty. -/
theorem next_eof_buf {dec : Decoders} {sm sm2 : StateMachine} (h : next dec sm = .eof sm2) :
    sm2.buf = [] ∧ sm.buf = [] := by
  unfold next at h
  split at h
  · simp at h
  · rename_i sm1 h1
    have hb := nextPrepare_buf h1
    split at h
    · rename_i hnil
      simp only [NextResult.eof.injEq] at h
      rw [← h, ← hb]
      exact ⟨hnil, hnil⟩
    · split at h <;> simp at h

/-! ## The table as a sequence of steps -/

theorem run_steps {dec : Decoders} (k : Nat) {sm last : StateMachine}
    {rows : List StateMachine} (h : run dec k sm = .ok (rows, last)) :
    Steps dec sm rows last := by
  induction k generalizing sm rows last with
  | zero => simp [run] at h
  | succ k ih =>
    simp only [run] at h
    split at h
    · simp at h
    · rename_i e he
      simp only [Outcome.ok.injEq, Prod.mk.injEq] at h
      rw [← h.1, ← h.2]
      exact Steps.eof he
    · rename_i s hs
      split at h
      · simp at h
      · simp at h
      · rename_i rows2 last2 hr
        simp only [Outcome.ok.injEq, Prod.mk.injEq] at h
        rw [← h.1, ← h.2]
        exact Steps.ok hs (ih hr)

theorem steps_run {dec : Decoders} {sm last : StateMachine} {rows : List StateMachine}
    (h : Steps dec sm rows last) : ∀ k, sm.buf.length < k → run dec k sm = .ok (rows, last) := by
  induction h with
  | eof he =>
    intro k hk
    cases k with
    | zero => omega
    | succ k => simp [run, he]
  | ok hs _ ih =>
    intro k hk
    cases k with
    | zero => omega
    | succ k =>
      have := next_ok_buf hs
      simp [run, hs, ih k (by omega)]

/-- The rows of the table of `lineInfo` are the steps of a fresh machine. -/
theorem table_steps {dec : Decoders} {lineInfo : DebugLineInfo} {rows : List StateMachine}
    {last : StateMachine} (h : table dec lineInfo = .ok (rows, last)) :
    ∃ sm, newStateMachine lineInfo lineInfo.Instructions = some sm ∧ Steps dec sm rows last := by
  unfold table at h
  split at h
  · simp at h
  · rename_i sm hsm
    exact ⟨sm, hsm, run_steps _ h⟩

/-! ## `AllPCsBetween` -/

theorem AllPCsBetween_loop_spec {dec : Decoders} {b e : Nat} {sm last : StateMachine}
    {rows : List StateMachine} (h : Steps dec sm rows last) :
    ∀ (k lastaddr : Nat) (pcs : List Nat), sm.buf.length < k →
      ∃ out, DebugLineInfo.AllPCsBetween.loop dec b e k sm lastaddr pcs = .ok (pcs ++ out) ∧
        List.Chain (· < ·) lastaddr out ∧
        ∀ a ∈ out, b ≤ a ∧ a ≤ e ∧ ∃ s ∈ rows, s.valid = true ∧ s.address = a := by
  induction h with
  | eof he =>
    intro k lastaddr pcs hk
    cases k with
    | zero => omega
    | succ k =>
      refine ⟨[], ?_, List.Chain.nil, ?_⟩
      · simp [DebugLineInfo.AllPCsBetween.loop, he]
      · simp
  | @ok sm s last rows hs _ ih =>
    intro k lastaddr pcs hk
    cases k with
    | zero => omega
    | succ k =>
      have hlt := next_ok_buf hs
      have hk2 : s.buf.length < k := by omega
      simp only [DebugLineInfo.AllPCsBetween.loop, hs]
      by_cases hv : s.valid = true
      · rw [if_neg (not_not.mpr hv)]
        by_cases he : s.address > e
        · rw [if_pos he]
          exact ⟨[], by simp, List.Chain.nil, by simp⟩
        · rw [if_neg he]
          by_cases hc : s.address ≥ b ∧ s.address > lastaddr
          · rw [if_pos hc]
            obtain ⟨out, h1, h2, h3⟩ := ih k s.address (pcs ++ [s.address]) hk2
            refine ⟨s.address :: out, ?_, List.Chain.cons hc.2 h2, ?_⟩
            · rw [h1]
              simp
            · intro a ha
              rcases List.mem_cons.mp ha with ha | ha
              · subst ha
                exact ⟨hc.1, by omega, s, List.mem_cons_self _ _, hv, rfl⟩
              · obtain ⟨h4, h5, t, ht, h6⟩ := h3 a ha
                exact ⟨h4, h5, t, List.mem_cons_of_mem _ ht, h6⟩
          · rw [if_neg hc]
            obtain ⟨out, h1, h2, h3⟩ := ih k lastaddr pcs hk2
            refine ⟨out, h1, h2, ?_⟩
            intro a ha
            obtain ⟨h4, h5, t, ht, h6⟩ := h3 a ha
            exact ⟨h4, h5, t, List.mem_cons_of_mem _ ht, h6⟩
      · rw [if_pos hv]
        obtain ⟨out, h1, h2, h3⟩ := ih k lastaddr pcs hk2
        refine ⟨out, h1, h2, ?_⟩
        intro a ha
        obtain ⟨h4, h5, t, ht, h6⟩ := h3 a ha
        exact ⟨h4, h5, t, List.mem_cons_of_mem _ ht, h6⟩

/-- `LineToPC` scans up to the first valid row on `(f, l)` when no state before it makes the
loop stop: `found` is the flag `foundFile` on entry. -/
theorem LineToPC_loop_found {dec : Decoders} {f : String} {l : Int} {r last : StateMachine}
    {B : List StateMachine} (hrv : r.valid = true) (hrf : r.file = f) (hrl : r.line = l) :
    ∀ (A : List StateMachine) (sm : StateMachine) (found : Bool) (k : Nat),
      Steps dec sm (A ++ r :: B) last →
      (∀ a ∈ A, ¬ (a.valid = true ∧ a.file = f ∧ a.line = l)) →
      (found = true → ∀ b ∈ A, b.file = f) →
      (∀ A1 a A2 b A3, A = A1 ++ a :: (A2 ++ b :: A3) → a.file = f → a.line = l → b.file = f) →
      sm.buf.length < k →
      DebugLineInfo.LineToPC.loop dec f l k sm found = .ok r.address := by
  intro A
  induction A with
  | nil =>
    intro sm found k hst _ _ _ hk
    cases k with
    | zero => omega
    | succ k =>
      cases hst with
      | ok hs _ =>
        simp only [DebugLineInfo.LineToPC.loop, hs]
        rw [if_neg (by simp [hrf]), if_pos ⟨hrl, hrf⟩, if_pos hrv]
  | cons x A ih =>
    intro sm found k hst hA hfound hstop hk
    cases k with
    | zero => omega
    | succ k =>
      cases hst with
      | ok hs hrest =>
        have hlt := next_ok_buf hs
        have hk2 : x.buf.length < k := by omega
        have hA2 : ∀ a ∈ A, ¬ (a.valid = true ∧ a.file = f ∧ a.line = l) :=
          fun a ha => hA a (List.mem_cons_of_mem _ ha)
        have hstop2 : ∀ A1 a A2 b A3, A = A1 ++ a :: (A2 ++ b :: A3) →
            a.file = f → a.line = l → b.file = f := by
          intro A1 a A2 b A3 hEq
          exact hstop (x :: A1) a A2 b A3 (by rw [hEq]; rfl)
        simp only [List.cons_append, DebugLineInfo.LineToPC.loop, hs]
        have hx : ¬ (found = true ∧ x.file ≠ f) := by
          rintro ⟨h1, h2⟩
          exact h2 (hfound h1 x (List.mem_cons_self _ _))
        rw [if_neg hx]
        by_cases hm : x.line = l ∧ x.file = f
        · rw [if_pos hm]
          have hxv : ¬ x.valid = true := fun hv => hA x (List.mem_cons_self _ _) ⟨hv, hm.2, hm.1⟩
          rw [if_neg hxv]
          refine ih x true k hrest hA2 ?_ hstop2 hk2
          intro _ b hb
          obtain ⟨A2, A3, hsplit⟩ := List.append_of_mem hb
          exact hstop [] x A2 b A3 (by rw [hsplit]; rfl) hm.2 hm.1
        · rw [if_neg hm]
          exact ih x found k hrest hA2 (fun h1 b hb => hfound h1 b (List.mem_cons_of_mem _ hb))
            hstop2 hk2

/-- `LineToPC` returns `0` when no valid row is on `(f, l)`. -/
theorem LineToPC_loop_none {dec : Decoders} {f : String} {l : Int} {sm last : StateMachine}
    {rows : List StateMachine} (h : Steps dec sm rows last)
    (hno : ∀ s ∈ rows, ¬ (s.valid = true ∧ s.file = f ∧ s.line = l)) :
    ∀ (found : Bool) (k : Nat), sm.buf.length < k →
      DebugLineInfo.LineToPC.loop dec f l k sm found = .ok 0 := by
  induction h with
  | eof he =>
    intro found k hk
    cases k with
    | zero => omega
    | succ k => simp [DebugLineInfo.LineToPC.loop, he]
  | @ok sm s last rows hs _ ih =>
    intro found k hk
    cases k with
    | zero => omega
    | succ k =>
      have hlt := next_ok_buf hs
      have hk2 : s.buf.length < k := by omega
      have ih2 := ih (fun t ht => hno t (List.mem_cons_of_mem _ ht))
      simp only [DebugLineInfo.LineToPC.loop, hs]
      by_cases hg : found = true ∧ s.file ≠ f
      · rw [if_pos hg]
      · rw [if_neg hg]
        by_cases hm : s.line = l ∧ s.file = f
        · rw [if_pos hm]
          have hsv : ¬ s.valid = true := fun hv => hno s (List.mem_cons_self _ _) ⟨hv, hm.2, hm.1⟩
          rw [if_neg hsv]
          exact ih2 true k hk2
        · rw [if_neg hm]
          exact ih2 found k hk2

/-- C2 (amended). On a table whose program runs to its end, `LineToPC(f, l)` returns the
address of the first valid row on line `l` of file `f` provided that, before that row, no
state of another file follows a state (valid or not) on `(f, l)`; it returns `0` when no
valid row is on `(f, l)`. -/
theorem LineToPC_first_valid_row (dec : Decoders) (lineInfo : DebugLineInfo) (f : String)
    (l : Int) (rows : List StateMachine) (last : StateMachine)
    (ht : table dec lineInfo = .ok (rows, last)) :
    (∀ A r B, rows = A ++ r :: B → r.valid = true → r.file = f → r.line = l →
      (∀ a ∈ A, ¬ (a.valid = true ∧ a.file = f ∧ a.line = l)) →
      (∀ A1 a A2 b A3, A = A1 ++ a :: (A2 ++ b :: A3) → a.file = f → a.line = l → b.file = f) →
      DebugLineInfo.LineToPC dec (some lineInfo) f l = .ok r.address) ∧
    ((∀ s ∈ rows, ¬ (s.valid = true ∧ s.file = f ∧ s.line = l)) →
      DebugLineInfo.LineToPC dec (some lineInfo) f l = .ok 0) := by
  obtain ⟨sm, hsm, hst⟩ := table_steps ht
  constructor
  · intro A r B hrows hrv hrf hrl hA hstop
    rw [hrows] at hst
    simp only [DebugLineInfo.LineToPC, hsm]
    exact LineToPC_loop_found hrv hrf hrl A sm false _ hst hA (by simp) hstop (by omega)
  · intro hno
    simp only [DebugLineInfo.LineToPC, hsm]
    exact LineToPC_loop_none hst hno false _ (by omega)

/-- C2, counterexample. The table `tableOtherFile` has one valid row on line 1 of `a.go`, at
address 5, and `LineToPC("a.go", 1)` returns 0: the scan has met `a.go:1` in a state that is
not a row and stops at the first state of `b.go`. -/
theorem LineToPC_misses_row_after_other_file :
    tableView stdDecoders tableOtherFile =
      .ok [(0, "a.go", 1, false), (0, "b.go", 1, false), (5, "b.go", 1, false),
           (5, "a.go", 1, false), (5, "a.go", 1, true)] ∧
    (table stdDecoders tableOtherFile).map (fun r => firstValidRowAddress "a.go" 1 r.1) = .ok 5 ∧
    DebugLineInfo.LineToPC stdDecoders (some tableOtherFile) "a.go" 1 = .ok 0 := by
  refine ⟨by decide, by decide, by decide⟩

/-! ## Fields the opcodes leave alone -/

theorem readULEB_kept {dec : Decoders} {sm sm2 : StateMachine} {v : Nat}
    (h : readULEB dec sm = some (v, sm2)) : keptFields sm2 = keptFields sm := by
  unfold readULEB at h
  split at h
  · simp at h
  · simp only [Option.some.injEq, Prod.mk.injEq] at h
    rw [← h.2]
    rfl

theorem readSLEB_kept {dec : Decoders} {sm sm2 : StateMachine} {v : Int}
    (h : readSLEB dec sm = some (v, sm2)) : keptFields sm2 = keptFields sm := by
  unfold readSLEB at h
  split at h
  · simp at h
  · simp only [Option.some.injEq, Prod.mk.injEq] at h
    rw [← h.2]
    rfl

theorem skipOperands_kept {dec : Decoders} (n : Nat) {sm sm2 : StateMachine}
    (h : skipOperands dec n sm = some sm2) : keptFields sm2 = keptFields sm := by
  induction n generalizing sm with
  | zero =>
    simp only [skipOperands, Option.some.injEq] at h
    rw [h]
  | succ n ih =>
    simp only [skipOperands] at h
    split at h
    · simp at h
    · rename_i v sm1 h1
      rw [ih h, readSLEB_kept h1]

theorem execExtendedOpcode_kept {dec : Decoders} {sm sm2 : StateMachine}
    (h : execExtendedOpcode dec sm = some sm2) : keptFields sm2 = keptFields sm := by
  unfold execExtendedOpcode at h
  split at h
  · simp at h
  · rename_i v sm1 h1
    have h0 := readULEB_kept h1
    simp only at h
    split_ifs at h
    · simp only [Option.some.injEq] at h
      rw [← h, ← h0]
      rfl
    · simp only [Option.some.injEq] at h
      rw [← h, ← h0]
      rfl
    · unfold definefile at h
      split at h
      · simp at h
      · simp only [Option.some.injEq] at h
        rw [← h, ← h0]
        rfl
    · simp only [Option.some.injEq] at h
      rw [← h, ← h0]
      rfl

theorem execOpcode_kept {dec : Decoders} {b : Nat} {sm sm2 : StateMachine}
    (h : execOpcode dec b sm = some sm2) : keptFields sm2 = keptFields sm := by
  unfold execOpcode at h
  split at h
  · exact execExtendedOpcode_kept h
  · simp only [Option.some.injEq] at h
    rw [← h]
    rfl
  · unfold advancepc at h
    split at h
    · simp at h
    · rename_i v sm1 h1
      have h0 := readULEB_kept h1
      simp only [Option.some.injEq] at h
      rw [← h, ← h0]
      rfl
  · unfold advanceline at h
    split at h
    · simp at h
    · rename_i v sm1 h1
      have h0 := readSLEB_kept h1
      simp only [Option.some.injEq] at h
      rw [← h, ← h0]
      rfl
  · unfold setfile at h
    split at h
    · simp at h
    · rename_i v sm1 h1
      have h0 := readULEB_kept h1
      simp only at h
      split_ifs at h
      · split at h
        · simp only [Option.some.injEq] at h
          rw [← h, ← h0]
          rfl
        · simp at h
      · split at h
        · simp only [Option.some.injEq] at h
          rw [← h, ← h0]
          rfl
        · simp at h
      · simp only [Option.some.injEq] at h
        rw [← h, ← h0]
        rfl
  · unfold setcolumn at h
    split at h
    · simp at h
    · rename_i v sm1 h1
      have h0 := readULEB_kept h1
      simp only [Option.some.injEq] at h
      rw [← h, ← h0]
      rfl
  · simp only [Option.some.injEq] at h
    rw [← h]
    rfl
  · simp only [Option.some.injEq] at h
    rw [← h]
    rfl
  · unfold constaddpc at h
    split_ifs at h
    simp only [Option.some.injEq] at h
    rw [← h]
    rfl
  · simp only [Option.some.injEq] at h
    rw [← h]
    rfl
  · simp at h

theorem execSpecialOpcode_kept {b : Nat} {sm sm2 : StateMachine}
    (h : execSpecialOpcode sm b = some sm2) : keptFields sm2 = keptFields sm := by
  unfold execSpecialOpcode at h
  simp only at h
  by_cases hr : sm.dbl.Prologue.LineRange = 0
  · simp [hr] at h
  · rw [if_neg hr] at h
    simp only [Option.some.injEq] at h
    rw [← h]
    rfl

theorem nextDispatch_kept {dec : Decoders} {b : Nat} {sm sm2 : StateMachine}
    (h : nextDispatch dec b sm = some sm2) : keptFields sm2 = keptFields sm := by
  unfold nextDispatch at h
  split_ifs at h
  · have h0 := execOpcode_kept h
    exact h0
  · split at h
    · simp at h
    · exact skipOperands_kept _ h
  · exact execSpecialOpcode_kept h

theorem nextReset_last {sm sm2 : StateMachine} (h : nextReset sm = some sm2) :
    keptFields sm2 = keptFields sm ∧ sm2.valid = sm.valid ∧ sm2.address = sm.address := by
  unfold nextReset at h
  split_ifs at h
  · split at h
    · simp at h
    · simp only [Option.some.injEq] at h
      rw [← h]
      exact ⟨rfl, rfl, rfl⟩
  · simp only [Option.some.injEq] at h
    rw [← h]
    exact ⟨rfl, rfl, rfl⟩

/-- After a call of `next` that returns `nil` the `last` registers hold the row the machine
was on before the call when that state was valid, and are unchanged otherwise. -/
theorem next_ok_last {dec : Decoders} {sm sm2 : StateMachine} (h : next dec sm = .ok sm2) :
    (sm.valid = true → sm2.lastAddress = sm.address ∧ sm2.lastFile = sm.file ∧
      sm2.lastLine = sm.line) ∧
    (sm.valid = false → sm2.lastAddress = sm.lastAddress ∧ sm2.lastFile = sm.lastFile ∧
      sm2.lastLine = sm.lastLine) := by
  unfold next at h
  split at h
  · simp at h
  · rename_i sm1 h1
    have hr := (nextReset_last h1).1
    split at h
    · simp at h
    · rename_i b rest hrest
      split at h
      · simp at h
      · rename_i sm3 h3
        simp only [NextResult.ok.injEq] at h
        have hk := nextDispatch_kept h3
        rw [h] at hk
        have hk2 : keptFields sm2 = keptFields (nextRemember sm) := by
          rw [hk, ← hr]
          rfl
        simp only [keptFields, Prod.mk.injEq] at hk2
        constructor
        · intro hv
          simp only [nextRemember, hv, if_true] at hk2
          exact ⟨hk2.1, hk2.2.1, hk2.2.2.1⟩
        · intro hv
          simp only [nextRemember, hv] at hk2
          exact ⟨hk2.1, hk2.2.1, hk2.2.2.1⟩

/-! ## `PCToLine` -/

theorem newStateMachine_fresh {lineInfo : DebugLineInfo} {ins : List Nat} {sm : StateMachine}
    (h : newStateMachine lineInfo ins = some sm) :
    sm.valid = false ∧ sm.started = false ∧ sm.lastAddress = 0 ∧ sm.buf = ins ∧
      sm.dbl = lineInfo := by
  unfold newStateMachine at h
  split at h
  · simp at h
  · simp only [Option.some.injEq] at h
    rw [← h]
    exact ⟨rfl, rfl, rfl, rfl, rfl⟩

/-- The loop of `StateMachine.PCToLine` on a valid row at `pc` returns that row. -/
theorem PCToLine_loop_at {dec : Decoders} {pc : Nat} {r : StateMachine} (hrv : r.valid = true)
    (hra : r.address = pc) (k : Nat) :
    StateMachine.PCToLine.loop dec pc (k + 1) r = .ok ((r.file, r.line, true), r) := by
  simp only [StateMachine.PCToLine.loop]
  rw [if_neg (by omega), if_pos ⟨hrv, hra⟩]

/-- The loop of `StateMachine.PCToLine` runs up to the first valid row at `pc` when the valid
rows before it are below `pc`. -/
theorem PCToLine_loop_hit {dec : Decoders} {pc : Nat} {r last : StateMachine}
    {B : List StateMachine} (hrv : r.valid = true) (hra : r.address = pc) :
    ∀ (A : List StateMachine) (sm : StateMachine) (k : Nat),
      Steps dec sm (A ++ r :: B) last →
      (sm.valid = true → sm.address < pc) →
      (∀ a ∈ A, a.valid = true → a.address < pc) →
      sm.buf.length < k →
      StateMachine.PCToLine.loop dec pc k sm = .ok ((r.file, r.line, true), r) := by
  intro A
  induction A with
  | nil =>
    intro sm k hst hsm _ hk
    cases k with
    | zero => omega
    | succ k =>
      cases hst with
      | ok hs _ =>
        have hlt := next_ok_buf hs
        simp only [StateMachine.PCToLine.loop]
        rw [if_neg (fun h => by have := hsm h.1; omega),
          if_neg (fun h => by have := hsm h.1; omega)]
        simp only [hs]
        cases k with
        | zero => omega
        | succ k => exact PCToLine_loop_at hrv hra k
  | cons x A ih =>
    intro sm k hst hsm hA hk
    cases k with
    | zero => omega
    | succ k =>
      cases hst with
      | ok hs hrest =>
        have hlt := next_ok_buf hs
        simp only [StateMachine.PCToLine.loop]
        rw [if_neg (fun h => by have := hsm h.1; omega),
          if_neg (fun h => by have := hsm h.1; omega)]
        simp only [hs]
        exact ih x k hrest (hA x (List.mem_cons_self _ _))
          (fun a ha => hA a (List.mem_cons_of_mem _ ha)) (by omega)

/-- With `basePC = 0`, `PCToLine` returns the file and line of the first valid row at `pc`
when the valid rows before it are below `pc`. -/
theorem PCToLine_zero_hit {dec : Decoders} {lineInfo : DebugLineInfo} (caches : MachineCaches)
    {pc : Nat} {rows A B : List StateMachine} {r last : StateMachine}
    (ht : table dec lineInfo = .ok (rows, last)) (hrows : rows = A ++ r :: B)
    (hrv : r.valid = true) (hra : r.address = pc)
    (hA : ∀ a ∈ A, a.valid = true → a.address < pc) :
    DebugLineInfo.PCToLine dec (some lineInfo) caches 0 pc = .ok ((r.file, r.line), caches) := by
  obtain ⟨sm, hsm, hst⟩ := table_steps ht
  obtain ⟨hv0, hs0, hl0, _, _⟩ := newStateMachine_fresh hsm
  rw [hrows] at hst
  have h0 : ¬ (0 > pc) := by omega
  simp only [DebugLineInfo.PCToLine, hsm, if_neg h0, if_true, StateMachine.PCToLine, hs0]
  cases A with
  | nil =>
    cases hst with
    | ok hs _ =>
      have hl := ((next_ok_last hs).2 hv0).1
      simp only [Bool.false_eq_true, if_false, hs, StateMachine.PCToLine.started]
      rw [if_neg (by omega), PCToLine_loop_at hrv hra]
  | cons x A =>
    cases hst with
    | ok hs hrest =>
      have hl := ((next_ok_last hs).2 hv0).1
      simp only [Bool.false_eq_true, if_false, hs, StateMachine.PCToLine.started]
      rw [if_neg (by omega), PCToLine_loop_hit hrv hra A x _ hrest (hA x (List.mem_cons_self _ _))
        (fun a ha => hA a (List.mem_cons_of_mem _ ha)) (by omega)]

/-- C2, witness: on `tableEndSeq` the first valid row of `b.go:2` is the third state, at
address 7, and `c.go:2` has no row. -/
theorem LineToPC_first_valid_row_witness :
    table stdDecoders tableEndSeq =
      .ok (tableRows stdDecoders tableEndSeq, tableLast stdDecoders tableEndSeq) ∧
    DebugLineInfo.LineToPC stdDecoders (some tableEndSeq) "b.go" 2 = .ok 7 ∧
    DebugLineInfo.LineToPC stdDecoders (some tableEndSeq) "c.go" 2 = .ok 0 := by
  have ht : table stdDecoders tableEndSeq =
      .ok (tableRows stdDecoders tableEndSeq, tableLast stdDecoders tableEndSeq) := by decide
  have h := LineToPC_first_valid_row stdDecoders tableEndSeq
  refine ⟨ht, ?_, ?_⟩
  · have hA : ∀ a ∈ (tableRows stdDecoders tableEndSeq).take 2,
        ¬ (a.file = "b.go" ∧ a.line = 2) := by decide
    exact (h "b.go" 2 _ _ ht).1 ((tableRows stdDecoders tableEndSeq).take 2)
      ((tableRows stdDecoders tableEndSeq).getD 2 (zeroMachine tableEndSeq))
      ((tableRows stdDecoders tableEndSeq).drop 3) (by decide) (by decide) (by decide)
      (by decide) (by decide)
      (fun A1 a A2 b A3 hEq hf hl =>
        absurd ⟨hf, hl⟩ (hA a (by rw [hEq]; simp)))
  · exact (h "c.go" 2 _ _ ht).2 (by decide)

/-- C3 (amended). On a table whose program runs to its end, let `r` be the first valid row on
line `l` of file `f`.  If no state of another file follows a state on `(f, l)` before `r`,
and every valid row before `r` has a smaller address than `r`, then `LineToPC(f, l)` returns
the address of `r` and `PCToLine(0, that address)` returns exactly `(f, l)`. -/
theorem PCToLine_LineToPC_roundtrip (dec : Decoders) (lineInfo : DebugLineInfo)
    (caches : MachineCaches) (f : String) (l : Int) (rows A B : List StateMachine)
    (r last : StateMachine)
    (ht : table dec lineInfo = .ok (rows, last)) (hrows : rows = A ++ r :: B)
    (hrv : r.valid = true) (hrf : r.file = f) (hrl : r.line = l)
    (hA : ∀ a ∈ A, ¬ (a.valid = true ∧ a.file = f ∧ a.line = l))
    (hstop : ∀ A1 a A2 b A3, A = A1 ++ a :: (A2 ++ b :: A3) →
      a.file = f → a.line = l → b.file = f)
    (hlow : ∀ a ∈ A, a.valid = true → a.address < r.address) :
    ∃ a, DebugLineInfo.LineToPC dec (some lineInfo) f l = .ok a ∧
      DebugLineInfo.PCToLine dec (some lineInfo) caches 0 a = .ok ((f, l), caches) := by
  refine ⟨r.address, ?_, ?_⟩
  · obtain ⟨sm, hsm, hst⟩ := table_steps ht
    rw [hrows] at hst
    simp only [DebugLineInfo.LineToPC, hsm]
    exact LineToPC_loop_found hrv hrf hrl A sm false _ hst hA (by simp) hstop (by omega)
  · have h := PCToLine_zero_hit caches ht hrows hrv rfl hlow
    rw [hrf, hrl] at h
    exact h

/-- C3, witness: `b.go:2` on `tableEndSeq`. -/
theorem PCToLine_LineToPC_roundtrip_witness :
    ∃ a, DebugLineInfo.LineToPC stdDecoders (some tableEndSeq) "b.go" 2 = .ok a ∧
      DebugLineInfo.PCToLine stdDecoders (some tableEndSeq) noCaches 0 a =
        .ok (("b.go", 2), noCaches) :=
  have hA : ∀ a ∈ (tableRows stdDecoders tableEndSeq).take 2,
      ¬ (a.file = "b.go" ∧ a.line = 2) := by decide
  PCToLine_LineToPC_roundtrip stdDecoders tableEndSeq noCaches "b.go" 2
    (tableRows stdDecoders tableEndSeq) ((tableRows stdDecoders tableEndSeq).take 2)
    ((tableRows stdDecoders tableEndSeq).drop 3)
    ((tableRows stdDecoders tableEndSeq).getD 2 (zeroMachine tableEndSeq))
    (tableLast stdDecoders tableEndSeq) (by decide) (by decide) (by decide) (by decide)
    (by decide) (by decide)
    (fun A1 a A2 b A3 hEq hf hl => absurd ⟨hf, hl⟩ (hA a (by rw [hEq]; simp)))
    (by decide)

/-- C3, counterexample. On `tableSameAddress` line 2 of `a.go` has a valid row, `LineToPC`
returns its address 4, and `PCToLine(0, 4)` returns `(a.go, 1)`: the first row at address 4 is
on line 1. -/
theorem PCToLine_LineToPC_same_address :
    tableView stdDecoders tableSameAddress =
      .ok [(4, "a.go", 1, false), (4, "a.go", 1, true), (4, "a.go", 2, true)] ∧
    DebugLineInfo.LineToPC stdDecoders (some tableSameAddress) "a.go" 2 = .ok 4 ∧
    (DebugLineInfo.PCToLine stdDecoders (some tableSameAddress) noCaches 0 4).map Prod.fst =
      .ok ("a.go", 1) := by
  refine ⟨by decide, by decide, by decide⟩

/-- C1, the code at the failing inputs. On `tableEndSeq` the valid rows are `(7, b.go, 2)` and
`(10, b.go, 2)`, in increasing address order, and `PCToLine(0, 1000)` returns `(a.go, 1)`, the
registers as reset after the end of sequence, where the closest preceding row is on
`b.go:2`.  On `tableTrailing` the only valid row is `(0, a.go, 1)` and `PCToLine(0, 5)`
returns the empty string and 0. -/
theorem PCToLine_past_last_row :
    tableView stdDecoders tableEndSeq =
      .ok [(0, "b.go", 1, false), (7, "b.go", 1, false), (7, "b.go", 2, true),
           (10, "b.go", 2, false), (10, "b.go", 2, true)] ∧
    (DebugLineInfo.PCToLine stdDecoders (some tableEndSeq) noCaches 0 1000).map Prod.fst =
      .ok ("a.go", 1) ∧
    tableView stdDecoders tableTrailing = .ok [(0, "a.go", 1, true), (0, "a.go", 1, false)] ∧
    (DebugLineInfo.PCToLine stdDecoders (some tableTrailing) noCaches 0 5).map Prod.fst =
      .ok ("", 0) := by
  refine ⟨by decide, by decide, by decide, by decide⟩

/-- C5, the code at the failing input. On `tableReentry` line 3 of `a.go` is entered twice
at address 1 and `AllPCsForFileLine("a.go", 3)` returns that address twice. -/
theorem AllPCsForFileLine_repeats_address :
    tableView stdDecoders tableReentry =
      .ok [(1, "a.go", 3, true), (1, "a.go", 4, true), (1, "a.go", 3, true)] ∧
    DebugLineInfo.AllPCsForFileLine stdDecoders (some tableReentry) "a.go" 3 = .ok [1, 1] := by
  refine ⟨by decide, by decide⟩

theorem steps_next_ok_inv {dec : Decoders} {sm s last : StateMachine}
    {rows : List StateMachine} (h : Steps dec sm rows last) (hs : next dec sm = .ok s) :
    ∃ rest, rows = s :: rest ∧ Steps dec s rest last := by
  cases h with
  | eof he => rw [he] at hs; simp at hs
  | ok hs2 hrest =>
    rw [hs2] at hs
    simp only [NextResult.ok.injEq] at hs
    subst hs
    exact ⟨_, rfl, hrest⟩

theorem nextReset_endSeq {sm s : StateMachine} (h : nextReset sm = some s) :
    s.endSeq = false := by
  unfold nextReset at h
  split_ifs at h with he
  · split at h
    · simp at h
    · simp only [Option.some.injEq] at h
      rw [← h]
  · simp only [Option.some.injEq] at h
    rw [← h]
    simpa using he

theorem next_eof_endSeq {dec : Decoders} {sm e : StateMachine} (h : next dec sm = .eof e) :
    e.endSeq = false := by
  unfold next at h
  split at h
  · simp at h
  · rename_i sm1 h1
    split at h
    · simp only [NextResult.eof.injEq] at h
      rw [← h]
      exact nextReset_endSeq h1
    · split at h <;> simp at h

/-- A machine at the end of its buffer and not at an end of sequence: `next` fails again. -/
theorem next_at_end (dec : Decoders) {sm : StateMachine} (hb : sm.buf = [])
    (he : sm.endSeq = false) : ∃ e, next dec sm = .eof e := by
  have h1 : (nextRemember sm).endSeq = false := by
    unfold nextRemember
    split <;> exact he
  have h2 : nextPrepare sm = some (nextRemember sm) := by
    unfold nextPrepare nextReset
    rw [if_neg (by simp [h1])]
  have h3 : (nextRemember sm).buf = [] := by rw [nextRemember_buf, hb]
  refine ⟨nextRemember sm, ?_⟩
  unfold next
  rw [h2]
  simp only
  split
  · rfl
  · rename_i b rest hbr
    rw [h3] at hbr
    simp at hbr

/-- On a table that decodes, every machine of a lookup either has steps to the end of the
program or is at its end. -/
theorem reach_cases {dec : Decoders} {lineInfo : DebugLineInfo} {rows : List StateMachine}
    {last : StateMachine} (ht : table dec lineInfo = .ok (rows, last)) {sm : StateMachine}
    (h : Reach dec lineInfo sm) :
    (∃ rest l2, Steps dec sm rest l2) ∨ (sm.buf = [] ∧ sm.endSeq = false) := by
  induction h with
  | fresh hf =>
    obtain ⟨sm0, h0, hst⟩ := table_steps ht
    rw [h0] at hf
    simp only [Option.some.injEq] at hf
    subst hf
    exact Or.inl ⟨_, _, hst⟩
  | ok _ hs ih =>
    rcases ih with ⟨rest, l2, hst⟩ | ⟨hb, _⟩
    · obtain ⟨r2, _, h2⟩ := steps_next_ok_inv hst hs
      exact Or.inl ⟨_, _, h2⟩
    · have := next_ok_buf hs
      rw [hb] at this
      simp at this
  | eof _ hs _ =>
    exact Or.inr ⟨(next_eof_buf hs).1, next_eof_endSeq hs⟩

theorem reach_no_panic {dec : Decoders} {lineInfo : DebugLineInfo} {rows : List StateMachine}
    {last : StateMachine} (ht : table dec lineInfo = .ok (rows, last)) {sm : StateMachine}
    (h : Reach dec lineInfo sm) : next dec sm ≠ .panic := by
  rcases reach_cases ht h with ⟨rest, l2, hst⟩ | ⟨hb, he⟩
  · cases hst with
    | eof h1 => rw [h1]; simp
    | ok h1 _ => rw [h1]; simp
  · obtain ⟨e, h1⟩ := next_at_end dec hb he
    rw [h1]
    simp

theorem PCToLine_loop_total {dec : Decoders} {lineInfo : DebugLineInfo}
    {rows : List StateMachine} {last : StateMachine}
    (ht : table dec lineInfo = .ok (rows, last)) (pc : Nat) :
    ∀ (k : Nat) (sm : StateMachine), Reach dec lineInfo sm → sm.buf.length < k →
      ∃ res sm2, StateMachine.PCToLine.loop dec pc k sm = .ok (res, sm2) ∧
        Reach dec lineInfo sm2 := by
  intro k
  induction k with
  | zero => intro sm _ hk; omega
  | succ k ih =>
    intro sm hr hk
    simp only [StateMachine.PCToLine.loop]
    split_ifs
    · exact ⟨_, _, rfl, hr⟩
    · exact ⟨_, _, rfl, hr⟩
    · have hnp := reach_no_panic ht hr
      cases hn : next dec sm with
      | panic => exact absurd hn hnp
      | eof e =>
        simp only
        split_ifs
        · exact ⟨_, _, rfl, Reach.eof hr hn⟩
        · exact ⟨_, _, rfl, Reach.eof hr hn⟩
      | ok s =>
        simp only
        have := next_ok_buf hn
        exact ih s (Reach.ok hr hn) (by omega)

theorem StateMachine_PCToLine_total {dec : Decoders} {lineInfo : DebugLineInfo}
    {rows : List StateMachine} {last : StateMachine}
    (ht : table dec lineInfo = .ok (rows, last)) (pc : Nat) (sm : StateMachine)
    (hr : Reach dec lineInfo sm) :
    ∃ res sm2, StateMachine.PCToLine dec sm pc = .ok (res, sm2) ∧ Reach dec lineInfo sm2 := by
  have hstarted : ∀ s, Reach dec lineInfo s →
      ∃ res sm2, StateMachine.PCToLine.started dec pc s = .ok (res, sm2) ∧
        Reach dec lineInfo sm2 := by
    intro s hs
    unfold StateMachine.PCToLine.started
    split_ifs
    · exact ⟨_, _, rfl, hs⟩
    · exact PCToLine_loop_total ht pc _ s hs (by omega)
  unfold StateMachine.PCToLine
  split_ifs
  · exact hstarted sm hr
  · have hnp := reach_no_panic ht hr
    cases hn : next dec sm with
    | panic => exact absurd hn hnp
    | eof e => exact ⟨_, _, rfl, Reach.eof hr hn⟩
    | ok s => exact hstarted s (Reach.ok hr hn)

theorem mapSet_reach {dec : Decoders} {lineInfo : DebugLineInfo}
    {m : Nat → Option StateMachine} (hm : ∀ k sm, m k = some sm → Reach dec lineInfo sm)
    (k0 : Nat) {v : StateMachine} (hv : Reach dec lineInfo v) :
    ∀ k sm, mapSet m k0 v k = some sm → Reach dec lineInfo sm := by
  intro k sm h
  unfold mapSet at h
  split_ifs at h
  · simp only [Option.some.injEq] at h
    rw [← h]
    exact hv
  · exact hm k sm h

theorem PCToLine_pick_total {dec : Decoders} {lineInfo : DebugLineInfo}
    {rows : List StateMachine} {last : StateMachine}
    (ht : table dec lineInfo = .ok (rows, last)) (caches : MachineCaches)
    (hc : CachesOk dec lineInfo caches) (basePC pc : Nat) :
    ∃ sm c2, DebugLineInfo.PCToLine.pick dec lineInfo caches basePC pc = .ok (sm, c2) ∧
      Reach dec lineInfo sm ∧ CachesOk dec lineInfo c2 := by
  have hfresh : ∃ sm c2,
      (match caches.stateMachineCache basePC with
        | some sm =>
          Outcome.ok (sm.copy, { caches with
            lastMachineCache := mapSet caches.lastMachineCache basePC sm.copy })
        | none =>
          match newStateMachine lineInfo lineInfo.Instructions with
          | none => Outcome.panic
          | some sm =>
            match sm.PCToLine dec basePC with
            | .panic => Outcome.panic
            | .fuel => Outcome.fuel
            | .ok (_, sm) =>
              Outcome.ok (sm.copy,
                { stateMachineCache := mapSet caches.stateMachineCache basePC sm
                  lastMachineCache := mapSet caches.lastMachineCache basePC sm.copy }))
        = .ok (sm, c2) ∧ Reach dec lineInfo sm ∧ CachesOk dec lineInfo c2 := by
    cases hsc : caches.stateMachineCache basePC with
    | some sm =>
      have hr : Reach dec lineInfo sm := hc.1 _ _ hsc
      exact ⟨_, _, rfl, hr, hc.1, mapSet_reach hc.2 basePC hr⟩
    | none =>
      obtain ⟨sm0, h0, _⟩ := table_steps ht
      obtain ⟨res, sm2, h2, hr2⟩ := StateMachine_PCToLine_total ht basePC sm0 (Reach.fresh h0)
      simp only [h0, h2]
      exact ⟨_, _, rfl, hr2, mapSet_reach hc.1 basePC hr2, mapSet_reach hc.2 basePC hr2⟩
  unfold DebugLineInfo.PCToLine.pick
  simp only
  cases hl : caches.lastMachineCache basePC with
  | none => exact hfresh
  | some sm =>
    simp only
    split_ifs
    · exact hfresh
    · exact ⟨_, _, rfl, hc.2 _ _ hl, hc⟩

/-- C7 (amended). `DebugLineInfo.PCToLine` returns the empty string and 0 on a nil table, for
every `basePC` and `pc`.  On a table whose line number program runs to its end, with caches
that hold machines of this table, it panics when `basePC > pc`, and for `basePC ≤ pc` it
returns a pair and leaves caches that hold machines of this table. -/
theorem PCToLine_soft_fail (dec : Decoders) (lineInfo : DebugLineInfo)
    (caches : MachineCaches) (basePC pc : Nat) (rows : List StateMachine)
    (last : StateMachine) (ht : table dec lineInfo = .ok (rows, last))
    (hc : CachesOk dec lineInfo caches) :
    DebugLineInfo.PCToLine dec none caches basePC pc = .ok (("", 0), caches) ∧
    (basePC > pc → DebugLineInfo.PCToLine dec (some lineInfo) caches basePC pc = .panic) ∧
    (basePC ≤ pc → ∃ file line c2,
      DebugLineInfo.PCToLine dec (some lineInfo) caches basePC pc = .ok ((file, line), c2) ∧
      CachesOk dec lineInfo c2) := by
  refine ⟨rfl, ?_, ?_⟩
  · intro h
    simp only [DebugLineInfo.PCToLine, if_pos h]
  · intro h
    have hn : ¬ basePC > pc := by omega
    simp only [DebugLineInfo.PCToLine, if_neg hn]
    split_ifs with hz
    · obtain ⟨sm0, h0, _⟩ := table_steps ht
      obtain ⟨res, sm2, h2, _⟩ := StateMachine_PCToLine_total ht pc sm0 (Reach.fresh h0)
      simp only [h0, h2]
      exact ⟨_, _, _, rfl, hc⟩
    · obtain ⟨sm, c2, h1, hr, hc2⟩ := PCToLine_pick_total ht caches hc basePC pc
      obtain ⟨res, sm2, h2, hr2⟩ := StateMachine_PCToLine_total ht pc sm hr
      simp only [h1, h2]
      exact ⟨_, _, _, rfl, hc2.1, mapSet_reach hc2.2 basePC hr2⟩

/-- C7, witness: the lookup of address 8 in the function at 7 on `tableEndSeq`, with empty
caches. -/
theorem PCToLine_soft_fail_witness :
    table stdDecoders tableEndSeq =
      .ok (tableRows stdDecoders tableEndSeq, tableLast stdDecoders tableEndSeq) ∧
    CachesOk stdDecoders tableEndSeq noCaches ∧
    DebugLineInfo.PCToLine stdDecoders none noCaches 7 8 = .ok (("", 0), noCaches) ∧
    (7 > 8 → DebugLineInfo.PCToLine stdDecoders (some tableEndSeq) noCaches 7 8 = .panic) ∧
    (7 ≤ 8 → ∃ file line c2,
      DebugLineInfo.PCToLine stdDecoders (some tableEndSeq) noCaches 7 8 =
        .ok ((file, line), c2) ∧ CachesOk stdDecoders tableEndSeq c2) :=
  have ht : table stdDecoders tableEndSeq =
      .ok (tableRows stdDecoders tableEndSeq, tableLast stdDecoders tableEndSeq) := by decide
  have hc : CachesOk stdDecoders tableEndSeq noCaches :=
    ⟨fun _ _ h => by simp [noCaches] at h, fun _ _ h => by simp [noCaches] at h⟩
  ⟨ht, hc, PCToLine_soft_fail stdDecoders tableEndSeq noCaches 7 8 _ _ ht hc⟩

/-- C7, counterexample. With a base hint above the address, `PCToLine(8, 7)` on `tableEndSeq`
panics. -/
theorem PCToLine_panics_on_base_after_pc :
    (DebugLineInfo.PCToLine stdDecoders (some tableEndSeq) noCaches 8 7).map Prod.fst =
      .panic := by
  decide

/-! ## `AllPCsForFileLine` -/

theorem steps_buf {dec : Decoders} {sm last : StateMachine} {rows : List StateMachine}
    (h : Steps dec sm rows last) : ∀ s ∈ rows, s.buf.length < sm.buf.length := by
  induction h with
  | eof _ => simp
  | ok hs _ ih =>
    intro t ht
    have := next_ok_buf hs
    rcases List.mem_cons.mp ht with rfl | ht
    · exact this
    · have := ih t ht
      omega

theorem steps_last {dec : Decoders} {sm last : StateMachine} {rows : List StateMachine}
    (h : Steps dec sm rows last) : last.buf = [] ∧ last.endSeq = false := by
  induction h with
  | eof he => exact ⟨(next_eof_buf he).1, next_eof_endSeq he⟩
  | ok _ _ ih => exact ih

/-- The inner loop of `AllPCsForFileLine` stops on the first state that is not on line `l`, or
at the end of the program. -/
theorem AllPCsForFileLine_skip_spec {dec : Decoders} {l : Int} {sm last : StateMachine}
    {rows : List StateMachine} (h : Steps dec sm rows last) :
    ∀ k, sm.buf.length < k →
      (∃ R y rest, rows = R ++ y :: rest ∧ (∀ s ∈ R, s.line = l) ∧ y.line ≠ l ∧
        DebugLineInfo.AllPCsForFileLine.skip dec l k sm = .ok y ∧ Steps dec y rest last) ∨
      ((∀ s ∈ rows, s.line = l) ∧ DebugLineInfo.AllPCsForFileLine.skip dec l k sm = .ok last) := by
  induction h with
  | eof he =>
    intro k hk
    cases k with
    | zero => omega
    | succ k =>
      right
      simp [DebugLineInfo.AllPCsForFileLine.skip, he]
  | @ok sm s last rows hs hrest ih =>
    intro k hk
    cases k with
    | zero => omega
    | succ k =>
      have hlt := next_ok_buf hs
      simp only [DebugLineInfo.AllPCsForFileLine.skip, hs]
      by_cases hl : l ≠ s.line
      · rw [if_pos hl]
        left
        exact ⟨[], s, rows, rfl, by simp, fun h => hl h.symm, rfl, hrest⟩
      · rw [if_neg hl]
        have hl2 : s.line = l := by
          by_contra hne
          exact hl (fun h => hne h.symm)
        rcases ih k (by omega) with ⟨R, y, rest, h1, h2, h3, h4, h5⟩ | ⟨h1, h2⟩
        · left
          refine ⟨s :: R, y, rest, by rw [h1]; rfl, ?_, h3, h4, h5⟩
          intro t ht
          rcases List.mem_cons.mp ht with rfl | ht
          · exact hl2
          · exact h2 t ht
        · right
          refine ⟨?_, h2⟩
          intro t ht
          rcases List.mem_cons.mp ht with rfl | ht
          · exact hl2
          · exact h1 t ht

/-- The outer loop of `AllPCsForFileLine` on a machine at the end of its program. -/
theorem AllPCsForFileLine_loop_at_end (dec : Decoders) (f : String) (l : Int) (lastAddr : Nat)
    {sm : StateMachine} (hb : sm.buf = []) (he : sm.endSeq = false) (k : Nat) (found : Bool)
    (pcs : List Nat) :
    DebugLineInfo.AllPCsForFileLine.loop dec f l lastAddr (k + 1) sm found pcs = .ok pcs := by
  obtain ⟨e, h1⟩ := next_at_end dec hb he
  simp [DebugLineInfo.AllPCsForFileLine.loop, h1]

theorem pickedAt_shift {f : String} {l : Int} (pre rows : List StateMachine) {a i : Nat}
    (h : PickedAt f l rows a i) : PickedAt f l (pre ++ rows) a (i + pre.length) := by
  obtain ⟨s, h1, h2⟩ := h
  refine ⟨s, ?_, h2⟩
  rw [List.getElem?_append_right (by omega)]
  simpa using h1

theorem leavesLine_shift {l : Int} (pre rows : List StateMachine) {i j : Nat}
    (h : LeavesLine l rows i j) : LeavesLine l (pre ++ rows) (i + pre.length) (j + pre.length) := by
  obtain ⟨m, t, h1, h2, h3, h4⟩ := h
  refine ⟨m + pre.length, t, by omega, by omega, ?_, h4⟩
  rw [List.getElem?_append_right (by omega)]
  simpa using h3

theorem picked_lift {f : String} {l : Int} (pre rows : List StateMachine) {out idxs : List Nat}
    (h1 : List.Forall₂ (PickedAt f l rows) out idxs)
    (h2 : List.Chain' (LeavesLine l rows) idxs) :
    List.Forall₂ (PickedAt f l (pre ++ rows)) out (idxs.map (· + pre.length)) ∧
    List.Chain' (LeavesLine l (pre ++ rows)) (idxs.map (· + pre.length)) := by
  constructor
  · rw [List.forall₂_map_right_iff]
    exact h1.imp (fun _ _ h => pickedAt_shift pre rows h)
  · rw [List.chain'_map]
    exact h2.imp (fun {_ _} h => leavesLine_shift pre rows h)

theorem getElem?_shift (pre rows : List StateMachine) (i : Nat) :
    (pre ++ rows)[i + pre.length]? = rows[i]? := by
  rw [List.getElem?_append_right (by omega)]
  simp

theorem runStart_unshift {l : Int} (pre rows : List StateMachine) {i : Nat}
    (h : RunStart l (pre ++ rows) (i + pre.length)) : RunStart l rows i := by
  cases i with
  | zero => exact Or.inl rfl
  | succ i =>
    rcases h with h | ⟨t, h1, h2⟩
    · omega
    · right
      refine ⟨t, ?_, h2⟩
      have e : i + 1 + pre.length - 1 = i + pre.length := by omega
      rw [e, getElem?_shift] at h1
      simpa using h1

theorem staysInFile_unshift {f : String} {l : Int} (pre rows : List StateMachine) {i : Nat}
    (h : StaysInFile f l (pre ++ rows) (i + pre.length)) : StaysInFile f l rows i := by
  intro j1 j2 a b h1 h2 ha hb
  exact h (j1 + pre.length) (j2 + pre.length) a b (by omega) (by omega)
    (by rw [getElem?_shift]; exact ha) (by rw [getElem?_shift]; exact hb)

/-- The outer loop of `AllPCsForFileLine` on an empty rest of the table. -/
theorem AllPCsForFileLine_loop_nil {dec : Decoders} {f : String} {l : Int}
    {sm last : StateMachine} (hst : Steps dec sm [] last) (found : Bool) (pcs : List Nat)
    (k : Nat) (hk : sm.buf.length < k) :
    DebugLineInfo.AllPCsForFileLine.loop dec f l 0 k sm found pcs = .ok pcs := by
  cases k with
  | zero => omega
  | succ k =>
    cases hst with
    | eof he => simp [DebugLineInfo.AllPCsForFileLine.loop, he]

/-- What the outer loop of `AllPCsForFileLine` returns, in terms of the states `rows` that
`next` produces from `sm`: the addresses `out` appended to `pcs` are those of valid rows on
`(f, l)` at indices `idxs`, two successive ones are separated by a state off line `l`, and
the first state of a run that is a valid row on `(f, l)` with a non-zero address is picked
when the scan is not stopped before it. -/
theorem AllPCsForFileLine_loop_spec (dec : Decoders) (f : String) (l : Int) :
    ∀ (n : Nat) (rows : List StateMachine), rows.length ≤ n →
    ∀ (sm last : StateMachine) (found : Bool) (pcs : List Nat) (k : Nat),
      Steps dec sm rows last → sm.buf.length < k →
      ∃ out idxs,
        DebugLineInfo.AllPCsForFileLine.loop dec f l 0 k sm found pcs = .ok (pcs ++ out) ∧
        List.Forall₂ (PickedAt f l rows) out idxs ∧
        List.Chain' (LeavesLine l rows) idxs ∧
        ∀ i s, rows[i]? = some s → s.valid = true → s.file = f → s.line = l →
          s.address ≠ 0 → RunStart l rows i →
          (found = true → ∀ j b, j < i → rows[j]? = some b → b.file = f) →
          StaysInFile f l rows i → i ∈ idxs := by
  intro n
  induction n with
  | zero =>
    intro rows hlen sm last found pcs k hst hk
    have hr : rows = [] := List.length_eq_zero.mp (by omega)
    subst hr
    exact ⟨[], [], by simp [AllPCsForFileLine_loop_nil hst found pcs k hk],
      List.Forall₂.nil, List.chain'_nil, by simp⟩
  | succ n ih =>
    intro rows hlen sm last found pcs k hst hk
    cases rows with
    | nil =>
      exact ⟨[], [], by simp [AllPCsForFileLine_loop_nil hst found pcs k hk],
        List.Forall₂.nil, List.chain'_nil, by simp⟩
    | cons x rest =>
      cases k with
      | zero => omega
      | succ k =>
        cases hst with
        | ok hs hrest =>
          have hlt := next_ok_buf hs
          have hk2 : x.buf.length < k := by omega
          simp only [List.length_cons] at hlen
          simp only [DebugLineInfo.AllPCsForFileLine.loop, hs]
          by_cases hg : found = true ∧ x.file ≠ f
          · -- the scan stops at a state of another file
            rw [if_pos hg]
            refine ⟨[], [], by simp, List.Forall₂.nil, List.chain'_nil, ?_⟩
            intro i s hi _ hf _ _ _ hfound _
            cases i with
            | zero =>
              simp only [List.getElem?_cons_zero, Option.some.injEq] at hi
              subst hi
              exact absurd hf hg.2
            | succ i => exact absurd (hfound hg.1 0 x (by omega) List.getElem?_cons_zero) hg.2
          · rw [if_neg hg]
            by_cases hm : x.line = l ∧ x.file = f ∧ x.address ≠ 0
            · -- the state is on the line: the inner loop runs
              rw [if_pos hm]
              rcases AllPCsForFileLine_skip_spec (l := l) hrest k hk2 with
                ⟨R, y, rows2, h1, h2, h3, h4, h5⟩ | ⟨h1, h2⟩
              · rw [h4]
                simp only
                have hy : y.buf.length < k := by
                  have := steps_buf hrest y (by rw [h1]; simp)
                  omega
                have hlen2 : rows2.length ≤ n := by
                  rw [h1] at hlen
                  simp only [List.length_append, List.length_cons] at hlen
                  omega
                obtain ⟨out2, idxs2, e1, e2, e3, e4⟩ := ih rows2 hlen2 y last true
                  (if x.valid = true then pcs ++ [x.address] else pcs) k h5 hy
                have hrows : x :: rest = (x :: (R ++ [y])) ++ rows2 := by rw [h1]; simp
                have hpl : (x :: (R ++ [y])).length = R.length + 2 := by simp
                obtain ⟨l1, l2⟩ := picked_lift (x :: (R ++ [y])) rows2 e2 e3
                rw [← hrows, hpl] at l1 l2
                have hrun : ∀ (m : Nat) (t : StateMachine), m ≤ R.length →
                    (x :: rest)[m]? = some t → t.line = l := by
                  intro m t hm2 ht
                  have e : x :: rest = (x :: R) ++ (y :: rows2) := by rw [h1]; simp
                  rw [e, List.getElem?_append_left (by simp; omega)] at ht
                  rcases List.mem_cons.mp (List.getElem?_mem ht) with rfl | hmem
                  · exact hm.1
                  · exact h2 t hmem
                have hyidx : (x :: rest)[R.length + 1]? = some y := by
                  rw [h1, List.getElem?_cons_succ, List.getElem?_append_right (le_refl _)]
                  simp
                -- completeness for the rows after the inner loop
                have hlater : ∀ i s, (x :: rest)[i]? = some s → s.valid = true → s.file = f →
                    s.line = l → s.address ≠ 0 → RunStart l (x :: rest) i →
                    StaysInFile f l (x :: rest) i → 0 < i →
                    i ∈ idxs2.map (· + (R.length + 2)) := by
                  intro i s hi hv hf hl ha hrs hstay hpos
                  by_cases hle : i ≤ R.length + 1
                  · rcases hrs with h0 | ⟨t, ht1, ht2⟩
                    · omega
                    · exact absurd (hrun (i - 1) t (by omega) ht1) ht2
                  · obtain ⟨i2, rfl⟩ : ∃ i2, i = i2 + (R.length + 2) := ⟨i - (R.length + 2), by omega⟩
                    rw [← hpl] at hi hrs hstay
                    rw [hrows] at hi hrs hstay
                    rw [getElem?_shift] at hi
                    refine List.mem_map.mpr ⟨i2, ?_, rfl⟩
                    refine e4 i2 s hi hv hf hl ha (runStart_unshift _ _ hrs) ?_
                      (staysInFile_unshift _ _ hstay)
                    intro _ j b hj hb
                    refine hstay 0 (j + (x :: (R ++ [y])).length) x b (by simp) (by omega)
                      (by simp) ?_ hm.2.1 hm.1
                    rw [getElem?_shift]
                    exact hb
                by_cases hv : x.valid = true
                · rw [if_pos hv] at e1
                  rw [if_pos hv]
                  refine ⟨x.address :: out2, 0 :: idxs2.map (· + (R.length + 2)), ?_, ?_, ?_, ?_⟩
                  · rw [e1]
                    simp
                  · exact List.Forall₂.cons ⟨x, List.getElem?_cons_zero, rfl, hv, hm.2.1, hm.1⟩ l1
                  · rw [List.chain'_cons']
                    refine ⟨?_, l2⟩
                    intro j hj
                    have hjm : j ∈ idxs2.map (· + (R.length + 2)) := List.mem_of_mem_head? hj
                    obtain ⟨j2, _, rfl⟩ := List.mem_map.mp hjm
                    exact ⟨R.length + 1, y, by omega, by omega, hyidx, h3⟩
                  · intro i s hi hv2 hf hl ha hrs _ hstay
                    cases i with
                    | zero => exact List.mem_cons_self _ _
                    | succ i =>
                      exact List.mem_cons_of_mem _
                        (hlater (i + 1) s hi hv2 hf hl ha hrs hstay (by omega))
                · rw [if_neg hv] at e1
                  rw [if_neg hv]
                  refine ⟨out2, idxs2.map (· + (R.length + 2)), e1, l1, l2, ?_⟩
                  intro i s hi hv2 hf hl ha hrs _ hstay
                  cases i with
                  | zero =>
                    simp only [List.getElem?_cons_zero, Option.some.injEq] at hi
                    subst hi
                    exact absurd hv2 hv
                  | succ i => exact hlater (i + 1) s hi hv2 hf hl ha hrs hstay (by omega)
              · -- the inner loop reaches the end of the program
                rw [h2]
                simp only
                obtain ⟨hb, he⟩ := steps_last hrest
                obtain ⟨k2, rfl⟩ : ∃ k2, k = k2 + 1 := ⟨k - 1, by omega⟩
                rw [AllPCsForFileLine_loop_at_end dec f l 0 hb he]
                have hrun : ∀ (m : Nat) (t : StateMachine),
                    (x :: rest)[m]? = some t → t.line = l := by
                  intro m t ht
                  rcases List.mem_cons.mp (List.getElem?_mem ht) with rfl | hmem
                  · exact hm.1
                  · exact h1 t hmem
                have hlater : ∀ i, RunStart l (x :: rest) i → 0 < i → False := by
                  intro i hrs hpos
                  rcases hrs with h0 | ⟨t, ht1, ht2⟩
                  · omega
                  · exact ht2 (hrun (i - 1) t ht1)
                by_cases hv : x.valid = true
                · rw [if_pos hv]
                  refine ⟨[x.address], [0], rfl,
                    List.Forall₂.cons ⟨x, List.getElem?_cons_zero, rfl, hv, hm.2.1, hm.1⟩ List.Forall₂.nil,
                    List.chain'_singleton _, ?_⟩
                  intro i s _ _ _ _ _ hrs _ _
                  cases i with
                  | zero => exact List.mem_cons_self _ _
                  | succ i => exact absurd (hlater (i + 1) hrs (by omega)) id
                · rw [if_neg hv]
                  refine ⟨[], [], by simp, List.Forall₂.nil, List.chain'_nil, ?_⟩
                  intro i s hi hv2 _ _ _ hrs _ _
                  cases i with
                  | zero =>
                    simp only [List.getElem?_cons_zero, Option.some.injEq] at hi
                    subst hi
                    exact absurd hv2 hv
                  | succ i => exact absurd (hlater (i + 1) hrs (by omega)) id
            · -- the state is not on the line, or has the address 0
              rw [if_neg hm]
              obtain ⟨out2, idxs2, e1, e2, e3, e4⟩ := ih rest (by omega) x last found pcs k
                hrest hk2
              obtain ⟨l1, l2⟩ := picked_lift [x] rest e2 e3
              refine ⟨out2, idxs2.map (· + 1), e1, l1, l2, ?_⟩
              intro i s hi hv hf hl ha hrs hfound hstay
              cases i with
              | zero =>
                simp only [List.getElem?_cons_zero, Option.some.injEq] at hi
                subst hi
                exact absurd ⟨hl, hf, ha⟩ hm
              | succ i =>
                refine List.mem_map.mpr ⟨i, ?_, rfl⟩
                refine e4 i s (by simpa using hi) hv hf hl ha
                  (runStart_unshift [x] rest hrs) ?_ (staysInFile_unshift [x] rest hstay)
                intro hfd j b hj hb
                exact hfound hfd (j + 1) b (by omega) (by simpa using hb)

/-- C4 (amended). On a table whose program runs to its end, `AllPCsForFileLine(f, l)` returns
the addresses of valid rows on line `l` of file `f`, in table order (`idxs` are their indices
in the table), at most one per run of consecutive states on line `l`: between two successive
returned rows the table leaves line `l`.  A run that starts with a valid row of `(f, l)` with
a non-zero address contributes the address of that row, provided no state of another file
follows a state on `(f, l)` before it. -/
theorem AllPCsForFileLine_one_per_run (dec : Decoders) (lineInfo : DebugLineInfo) (f : String)
    (l : Int) (rows : List StateMachine) (last : StateMachine)
    (ht : table dec lineInfo = .ok (rows, last)) :
    ∃ pcs idxs, DebugLineInfo.AllPCsForFileLine dec (some lineInfo) f l = .ok pcs ∧
      List.Forall₂ (PickedAt f l rows) pcs idxs ∧
      List.Chain' (LeavesLine l rows) idxs ∧
      ∀ i s, rows[i]? = some s → s.valid = true → s.file = f → s.line = l →
        s.address ≠ 0 → RunStart l rows i → StaysInFile f l rows i → i ∈ idxs := by
  obtain ⟨sm, hsm, hst⟩ := table_steps ht
  obtain ⟨out, idxs, h1, h2, h3, h4⟩ := AllPCsForFileLine_loop_spec dec f l rows.length rows
    (le_refl _) sm last false [] (sm.buf.length + 1) hst (by omega)
  refine ⟨out, idxs, ?_, h2, h3, ?_⟩
  · simp only [DebugLineInfo.AllPCsForFileLine, hsm, h1, List.nil_append]
  · intro i s hi hv hf hl ha hrs hstay
    exact h4 i s hi hv hf hl ha hrs (by simp) hstay

/-- C4, witness: line 3 of `a.go` in `tableLoop` is entered at address 1 and again at
address 4; the rows at addresses 2 and 6, inside the two runs, do not contribute. -/
theorem AllPCsForFileLine_one_per_run_witness :
    table stdDecoders tableLoop =
      .ok (tableRows stdDecoders tableLoop, tableLast stdDecoders tableLoop) ∧
    DebugLineInfo.AllPCsForFileLine stdDecoders (some tableLoop) "a.go" 3 = .ok [1, 4] ∧
    ∃ pcs idxs, DebugLineInfo.AllPCsForFileLine stdDecoders (some tableLoop) "a.go" 3 = .ok pcs ∧
      List.Forall₂ (PickedAt "a.go" 3 (tableRows stdDecoders tableLoop)) pcs idxs ∧
      List.Chain' (LeavesLine 3 (tableRows stdDecoders tableLoop)) idxs ∧
      ∀ i s, (tableRows stdDecoders tableLoop)[i]? = some s → s.valid = true →
        s.file = "a.go" → s.line = 3 → s.address ≠ 0 →
        RunStart 3 (tableRows stdDecoders tableLoop) i →
        StaysInFile "a.go" 3 (tableRows stdDecoders tableLoop) i → i ∈ idxs :=
  have ht : table stdDecoders tableLoop =
      .ok (tableRows stdDecoders tableLoop, tableLast stdDecoders tableLoop) := by decide
  ⟨ht, by decide, AllPCsForFileLine_one_per_run stdDecoders tableLoop "a.go" 3 _ _ ht⟩

/-- C4, counterexample. In `tableTwoFiles` line 3 of `a.go` has two runs, the rows at
addresses 1 and 2, separated by a row of `b.go`; `AllPCsForFileLine("a.go", 3)` returns the
first address only: after the first run the scan stops at the first state of another file. -/
theorem AllPCsForFileLine_stops_at_other_file :
    tableView stdDecoders tableTwoFiles =
      .ok [(1, "a.go", 3, true), (1, "a.go", 4, true), (1, "b.go", 4, false),
           (1, "b.go", 4, true), (1, "a.go", 4, false), (2, "a.go", 3, true)] ∧
    DebugLineInfo.AllPCsForFileLine stdDecoders (some tableTwoFiles) "a.go" 3 = .ok [1] := by
  refine ⟨by decide, by decide⟩

/-! ## `copy` -/

theorem appendFile_apart {h : Heap} {s : FilesSlice} {e : FileEntry} {co : MachineCell}
    {vis : List FileEntry}
    (hco : ∃ arr, h.arrays[co.files.arr]? = some arr ∧ co.files.len ≤ arr.length ∧
      arr.take co.files.len = vis)
    (hlen : s.arr = co.files.arr → co.files.len ≤ s.len)
    (hs : ∃ arr, h.arrays[s.arr]? = some arr ∧ s.len ≤ arr.length) :
    (h.appendFile s e).1.machines = h.machines ∧ (h.appendFile s e).1.buffers = h.buffers ∧
    (∃ arr, (h.appendFile s e).1.arrays[co.files.arr]? = some arr ∧
      co.files.len ≤ arr.length ∧ arr.take co.files.len = vis) ∧
    ((h.appendFile s e).2.arr = co.files.arr → co.files.len ≤ (h.appendFile s e).2.len) ∧
    ∃ arr, (h.appendFile s e).1.arrays[(h.appendFile s e).2.arr]? = some arr ∧
      (h.appendFile s e).2.len ≤ arr.length := by
  obtain ⟨arrS, hS1, hS2⟩ := hs
  obtain ⟨arrC, hC1, hC2, hC3⟩ := hco
  have hSlt : s.arr < h.arrays.length := (List.getElem?_eq_some.mp hS1).1
  have hClt : co.files.arr < h.arrays.length := (List.getElem?_eq_some.mp hC1).1
  unfold Heap.appendFile
  rw [hS1]
  simp only
  by_cases hcap : s.len < s.cap
  · rw [if_pos hcap]
    simp only
    refine ⟨trivial, trivial, ?_, fun h1 => by have := hlen h1; omega, ?_⟩
    · by_cases heq : s.arr = co.files.arr
      · have hle := hlen heq
        rw [heq] at hS1
        rw [hC1] at hS1
        simp only [Option.some.injEq] at hS1
        subst hS1
        refine ⟨_, by rw [heq, List.getElem?_set_self hClt], ?_, ?_⟩
        · simp only [List.length_append, List.length_take, List.length_cons, List.length_drop]
          omega
        · rw [List.take_append_of_le_length (by simp; omega), List.take_take]
          rw [Nat.min_eq_left hle]
          exact hC3
      · exact ⟨arrC, by rw [List.getElem?_set_ne heq]; exact hC1, hC2, hC3⟩
    · refine ⟨_, List.getElem?_set_self hSlt, ?_⟩
      simp only [List.length_append, List.length_take, List.length_cons, List.length_drop]
      omega
  · rw [if_neg hcap]
    simp only
    refine ⟨trivial, trivial, ?_, fun h1 => by omega, ?_⟩
    · exact ⟨arrC, by rw [List.getElem?_append_left hClt]; exact hC1, hC2, hC3⟩
    · refine ⟨_, List.getElem?_concat_length _ _, ?_⟩
      simp only [List.length_append, List.length_take, List.length_singleton]
      omega

theorem appendNew_apart {h : Heap} {cr : MachineCell} (sm : StateMachine) {co : MachineCell}
    {vis : List FileEntry}
    (hco : ∃ arr, h.arrays[co.files.arr]? = some arr ∧ co.files.len ≤ arr.length ∧
      arr.take co.files.len = vis)
    (hlen : cr.files.arr = co.files.arr → co.files.len ≤ cr.files.len)
    (hs : ∃ arr, h.arrays[cr.files.arr]? = some arr ∧ cr.files.len ≤ arr.length) :
    (h.appendNew cr sm).1.machines = h.machines ∧ (h.appendNew cr sm).1.buffers = h.buffers ∧
    (∃ arr, (h.appendNew cr sm).1.arrays[co.files.arr]? = some arr ∧
      co.files.len ≤ arr.length ∧ arr.take co.files.len = vis) ∧
    ((h.appendNew cr sm).2.arr = co.files.arr → co.files.len ≤ (h.appendNew cr sm).2.len) ∧
    ∃ arr, (h.appendNew cr sm).1.arrays[(h.appendNew cr sm).2.arr]? = some arr ∧
      (h.appendNew cr sm).2.len ≤ arr.length := by
  unfold Heap.appendNew
  cases (sm.definedFiles.drop cr.files.len).head? with
  | none => exact ⟨rfl, rfl, hco, hlen, hs⟩
  | some e => exact appendFile_apart hco hlen hs

/-- A call of `next` on the machine at `r` leaves the machine at `o` as it is. -/
theorem nextAt_apart {dec : Decoders} {h h2 : Heap} {r o : Nat} {co : MachineCell}
    {bytes : List Nat} {vis : List FileEntry} {b : Bool}
    (ha : Apart h r o co bytes vis) (hn : nextAt dec h r = some (h2, b)) :
    Apart h2 r o co bytes vis := by
  obtain ⟨hne, hmo, hbo, hco, cr, hmr, hbne, hlen, hs⟩ := ha
  have hrlt : r < h.machines.length := (List.getElem?_eq_some.mp hmr).1
  have hw : ∀ sm2, Apart (h.writeBack r cr sm2) r o co bytes vis := by
    intro sm2
    obtain ⟨w1, w2, w3, w4, w5⟩ := appendNew_apart sm2 hco hlen hs
    refine ⟨hne, ?_, ?_, w3, ?_⟩
    · simp only [Heap.writeBack, w1]
      rw [List.getElem?_set_ne hne]
      exact hmo
    · simp only [Heap.writeBack, w2]
      rw [List.getElem?_set_ne hbne]
      exact hbo
    · refine ⟨{ regs := strip sm2, bufPtr := cr.bufPtr, files := (h.appendNew cr sm2).2 },
        ?_, hbne, w4, w5⟩
      simp only [Heap.writeBack, w1]
      exact List.getElem?_set_self hrlt
  unfold nextAt at hn
  rw [hmr] at hn
  cases hl : h.load r with
  | none => simp [hl] at hn
  | some sm =>
    simp only [hl] at hn
    cases hx : next dec sm with
    | panic => simp [hx] at hn
    | ok sm2 =>
      simp only [hx, Option.some.injEq, Prod.mk.injEq] at hn
      rw [← hn.1]
      exact hw sm2
    | eof sm2 =>
      simp only [hx, Option.some.injEq, Prod.mk.injEq] at hn
      rw [← hn.1]
      exact hw sm2

theorem runAt_apart {dec : Decoders} {r o : Nat} {co : MachineCell} {bytes : List Nat}
    {vis : List FileEntry} :
    ∀ (n : Nat) (h h2 : Heap), Apart h r o co bytes vis → runAt dec n h r = some h2 →
      Apart h2 r o co bytes vis := by
  intro n
  induction n with
  | zero =>
    intro h h2 ha hr
    simp only [runAt, Option.some.injEq] at hr
    rw [← hr]
    exact ha
  | succ n ih =>
    intro h h2 ha hr
    simp only [runAt] at hr
    cases hx : nextAt dec h r with
    | none => simp [hx] at hr
    | some res =>
      obtain ⟨h1, b⟩ := res
      simp only [hx] at hr
      exact ih h1 h2 (nextAt_apart ha hx) hr

theorem apart_load {h : Heap} {r o : Nat} {co : MachineCell} {bytes : List Nat}
    {vis : List FileEntry} (ha : Apart h r o co bytes vis) :
    h.machines[o]? = some co ∧
      h.load o = some { co.regs with buf := bytes, definedFiles := vis } := by
  obtain ⟨_, hmo, hbo, ⟨arr, h1, _, h3⟩, _⟩ := ha
  refine ⟨hmo, ?_⟩
  simp only [Heap.load, hmo, hbo, h1, h3]

theorem readULEB_files {dec : Decoders} {sm sm2 : StateMachine} {v : Nat}
    (h : readULEB dec sm = some (v, sm2)) : sm2.definedFiles = sm.definedFiles := by
  unfold readULEB at h
  split at h
  · simp at h
  · simp only [Option.some.injEq, Prod.mk.injEq] at h
    rw [← h.2]

theorem readSLEB_files {dec : Decoders} {sm sm2 : StateMachine} {v : Int}
    (h : readSLEB dec sm = some (v, sm2)) : sm2.definedFiles = sm.definedFiles := by
  unfold readSLEB at h
  split at h
  · simp at h
  · simp only [Option.some.injEq, Prod.mk.injEq] at h
    rw [← h.2]

theorem skipOperands_files {dec : Decoders} (n : Nat) {sm sm2 : StateMachine}
    (h : skipOperands dec n sm = some sm2) : sm2.definedFiles = sm.definedFiles := by
  induction n generalizing sm with
  | zero =>
    simp only [skipOperands, Option.some.injEq] at h
    rw [h]
  | succ n ih =>
    simp only [skipOperands] at h
    split at h
    · simp at h
    · rename_i v sm1 h1
      rw [ih h, readSLEB_files h1]

theorem execExtendedOpcode_files {dec : Decoders} {sm sm2 : StateMachine}
    (h : execExtendedOpcode dec sm = some sm2) : FilesStep sm sm2 := by
  unfold execExtendedOpcode at h
  split at h
  · simp at h
  · rename_i v sm1 h1
    have h0 := readULEB_files h1
    simp only at h
    split_ifs at h
    · simp only [Option.some.injEq] at h
      rw [← h]
      exact Or.inl h0
    · simp only [Option.some.injEq] at h
      rw [← h]
      exact Or.inl h0
    · unfold definefile at h
      split at h
      · simp at h
      · rename_i entry n _
        simp only [Option.some.injEq] at h
        rw [← h]
        exact Or.inr ⟨entry, by rw [← h0]⟩
    · simp only [Option.some.injEq] at h
      rw [← h]
      exact Or.inl h0

theorem execOpcode_files {dec : Decoders} {b : Nat} {sm sm2 : StateMachine}
    (h : execOpcode dec b sm = some sm2) : FilesStep sm sm2 := by
  unfold execOpcode at h
  split at h
  · exact execExtendedOpcode_files h
  · simp only [Option.some.injEq] at h
    rw [← h]
    exact Or.inl rfl
  · unfold advancepc at h
    split at h
    · simp at h
    · rename_i v sm1 h1
      have h0 := readULEB_files h1
      simp only [Option.some.injEq] at h
      rw [← h]
      exact Or.inl h0
  · unfold advanceline at h
    split at h
    · simp at h
    · rename_i v sm1 h1
      have h0 := readSLEB_files h1
      simp only [Option.some.injEq] at h
      rw [← h]
      exact Or.inl h0
  · unfold setfile at h
    split at h
    · simp at h
    · rename_i v sm1 h1
      have h0 := readULEB_files h1
      simp only at h
      split_ifs at h
      · split at h
        · simp only [Option.some.injEq] at h
          rw [← h]
          exact Or.inl h0
        · simp at h
      · split at h
        · simp only [Option.some.injEq] at h
          rw [← h]
          exact Or.inl h0
        · simp at h
      · simp only [Option.some.injEq] at h
        rw [← h]
        exact Or.inl h0
  · unfold setcolumn at h
    split at h
    · simp at h
    · rename_i v sm1 h1
      have h0 := readULEB_files h1
      simp only [Option.some.injEq] at h
      rw [← h]
      exact Or.inl h0
  · simp only [Option.some.injEq] at h
    rw [← h]
    exact Or.inl rfl
  · simp only [Option.some.injEq] at h
    rw [← h]
    exact Or.inl rfl
  · unfold constaddpc at h
    split_ifs at h
    simp only [Option.some.injEq] at h
    rw [← h]
    exact Or.inl rfl
  · simp only [Option.some.injEq] at h
    rw [← h]
    exact Or.inl rfl
  · simp at h

theorem execSpecialOpcode_files {b : Nat} {sm sm2 : StateMachine}
    (h : execSpecialOpcode sm b = some sm2) : sm2.definedFiles = sm.definedFiles := by
  unfold execSpecialOpcode at h
  simp only at h
  by_cases hr : sm.dbl.Prologue.LineRange = 0
  · simp [hr] at h
  · rw [if_neg hr] at h
    simp only [Option.some.injEq] at h
    rw [← h]

theorem nextDispatch_files {dec : Decoders} {b : Nat} {sm sm2 : StateMachine}
    (h : nextDispatch dec b sm = some sm2) : FilesStep sm sm2 := by
  unfold nextDispatch at h
  split_ifs at h
  · have h0 := execOpcode_files h
    exact h0
  · split at h
    · simp at h
    · exact Or.inl (skipOperands_files _ h)
  · exact Or.inl (execSpecialOpcode_files h)

theorem nextPrepare_files {sm sm2 : StateMachine} (h : nextPrepare sm = some sm2) :
    sm2.definedFiles = sm.definedFiles := by
  have h1 : (nextRemember sm).definedFiles = sm.definedFiles := by
    unfold nextRemember
    split <;> rfl
  unfold nextPrepare nextReset at h
  split_ifs at h
  · split at h
    · simp at h
    · simp only [Option.some.injEq] at h
      rw [← h]
      exact h1
  · simp only [Option.some.injEq] at h
    rw [← h]
    exact h1

/-- A call of `next` appends at most one entry to the defined files. -/
theorem next_files {dec : Decoders} {sm sm2 : StateMachine}
    (h : next dec sm = .ok sm2 ∨ next dec sm = .eof sm2) : FilesStep sm sm2 := by
  unfold next at h
  split at h
  · simp at h
  · rename_i sm1 h1
    have hp := nextPrepare_files h1
    split at h
    · have h2 : sm1 = sm2 := by
        rcases h with h | h
        · simp at h
        · simpa using h
      rw [← h2]
      exact Or.inl hp
    · split at h
      · simp at h
      · rename_i sm3 h3
        have h2 : sm3 = sm2 := by
          rcases h with h | h
          · simpa using h
          · simp at h
        have hd := nextDispatch_files h3
        rw [h2] at hd
        rcases hd with hd | ⟨e, hd⟩
        · exact Or.inl (by rw [hd]; exact hp)
        · exact Or.inr ⟨e, by rw [hd]; exact congrArg (· ++ [e]) hp⟩

/-- Writing back the result of a call of `next` gives a well formed machine that denotes that
result: the memory model runs `next`. -/
theorem writeBack_load {h : Heap} {p : Nat} {cell : MachineCell} {bytes : List Nat}
    {arr : List FileEntry} {sm2 : StateMachine}
    (hm : h.machines[p]? = some cell) (hb : h.buffers[cell.bufPtr]? = some bytes)
    (ha : h.arrays[cell.files.arr]? = some arr) (hlen : cell.files.len ≤ arr.length)
    (hf : sm2.definedFiles = arr.take cell.files.len ∨
      ∃ e, sm2.definedFiles = arr.take cell.files.len ++ [e]) :
    (h.writeBack p cell sm2).load p = some sm2 ∧ (h.writeBack p cell sm2).WF p := by
  have hplt : p < h.machines.length := (List.getElem?_eq_some.mp hm).1
  have hblt : cell.bufPtr < h.buffers.length := (List.getElem?_eq_some.mp hb).1
  have halt : cell.files.arr < h.arrays.length := (List.getElem?_eq_some.mp ha).1
  have htl : (arr.take cell.files.len).length = cell.files.len := by
    rw [List.length_take]
    omega
  -- what the append leaves: the machines and buffers, and the entries of the new slice
  have key : (h.appendNew cell sm2).1.machines = h.machines ∧
      (h.appendNew cell sm2).1.buffers = h.buffers ∧
      ∃ arr2, (h.appendNew cell sm2).1.arrays[(h.appendNew cell sm2).2.arr]? = some arr2 ∧
        (h.appendNew cell sm2).2.len ≤ arr2.length ∧
        arr2.take (h.appendNew cell sm2).2.len = sm2.definedFiles := by
    unfold Heap.appendNew
    rcases hf with hf | ⟨e, hf⟩
    · have hd : (sm2.definedFiles.drop cell.files.len).head? = none := by
        rw [hf, List.drop_of_length_le (by omega)]
        rfl
      rw [hd]
      exact ⟨rfl, rfl, arr, ha, hlen, hf.symm⟩
    · have hd : (sm2.definedFiles.drop cell.files.len).head? = some e := by
        rw [hf, List.drop_append_of_le_length (by omega), List.drop_of_length_le (by omega)]
        rfl
      rw [hd]
      simp only [Heap.appendFile, ha]
      by_cases hcap : cell.files.len < cell.files.cap
      · rw [if_pos hcap]
        refine ⟨rfl, rfl, _, List.getElem?_set_self halt, ?_, ?_⟩
        · simp only [List.length_append, List.length_take, List.length_cons, List.length_drop]
          omega
        · rw [hf]
          have e1 : List.take cell.files.len arr ++ e :: List.drop (cell.files.len + 1) arr =
              (List.take cell.files.len arr ++ [e]) ++ List.drop (cell.files.len + 1) arr := by
            simp
          rw [e1, List.take_append_of_le_length (by simp; omega)]
          exact List.take_of_length_le (by simp)
      · rw [if_neg hcap]
        refine ⟨rfl, rfl, _, List.getElem?_concat_length _ _, ?_, ?_⟩
        · simp only [List.length_append, List.length_take, List.length_singleton]
          omega
        · rw [hf]
          exact List.take_of_length_le (by simp)
  obtain ⟨k1, k2, arr2, k3, k4, k5⟩ := key
  have hm2 : (h.writeBack p cell sm2).machines[p]? =
      some { regs := strip sm2, bufPtr := cell.bufPtr, files := (h.appendNew cell sm2).2 } := by
    simp only [Heap.writeBack, k1]
    exact List.getElem?_set_self hplt
  have hb2 : (h.writeBack p cell sm2).buffers[cell.bufPtr]? = some sm2.buf := by
    simp only [Heap.writeBack, k2]
    exact List.getElem?_set_self hblt
  have ha2 : (h.writeBack p cell sm2).arrays[(h.appendNew cell sm2).2.arr]? = some arr2 := k3
  refine ⟨?_, _, _, _, hm2, hb2, ha2, k4⟩
  simp only [Heap.load, hm2, hb2, ha2, k5]
  rfl

/-- On a well formed machine `nextAt` is `next`: it panics when `next` does, and otherwise
leaves a well formed machine that denotes the result of `next`. -/
theorem nextAt_next {dec : Decoders} {h : Heap} {p : Nat} (hwf : h.WF p) :
    ∃ sm, h.load p = some sm ∧
      (next dec sm = .panic → nextAt dec h p = none) ∧
      (∀ sm2, next dec sm = .ok sm2 →
        ∃ h2, nextAt dec h p = some (h2, true) ∧ h2.load p = some sm2 ∧ h2.WF p) ∧
      (∀ sm2, next dec sm = .eof sm2 →
        ∃ h2, nextAt dec h p = some (h2, false) ∧ h2.load p = some sm2 ∧ h2.WF p) := by
  obtain ⟨cell, bytes, arr, hm, hb, ha, hlen⟩ := hwf
  have hload : h.load p =
      some { cell.regs with buf := bytes, definedFiles := arr.take cell.files.len } := by
    simp only [Heap.load, hm, hb, ha]
  refine ⟨_, hload, ?_, ?_, ?_⟩
  · intro hx
    simp only [nextAt, hm, hload, hx]
  · intro sm2 hx
    have hf := next_files (Or.inl hx)
    refine ⟨h.writeBack p cell sm2, by simp only [nextAt, hm, hload, hx], ?_⟩
    exact writeBack_load hm hb ha hlen hf
  · intro sm2 hx
    have hf := next_files (Or.inr hx)
    refine ⟨h.writeBack p cell sm2, by simp only [nextAt, hm, hload, hx], ?_⟩
    exact writeBack_load hm hb ha hlen hf

/-- C8. `copy` on a well formed machine at `p` returns a pointer `q` to another struct in the
same state: the same scalar fields, unread bytes and defined files.  Any number of calls of
`next` on the copy leaves the struct of the original, its unread bytes and its defined files
unchanged, and any number of calls of `next` on the original leaves those of the copy
unchanged. -/
theorem copy_independent (dec : Decoders) (h : Heap) (p : Nat) (hwf : h.WF p) :
    ∃ h2 q, copyAt h p = some (h2, q) ∧ q ≠ p ∧ (h.load p).isSome = true ∧
      h2.load q = h.load p ∧ h2.load p = h.load p ∧ h2.machines[p]? = h.machines[p]? ∧
      (∀ n h3, runAt dec n h2 q = some h3 →
        h3.machines[p]? = h.machines[p]? ∧ h3.load p = h.load p) ∧
      (∀ n h3, runAt dec n h2 p = some h3 →
        h3.machines[q]? = h2.machines[q]? ∧ h3.load q = h2.load q) := by
  obtain ⟨cell, bytes, arr, hm, hb, ha, hlen⟩ := hwf
  have hplt : p < h.machines.length := (List.getElem?_eq_some.mp hm).1
  have hblt : cell.bufPtr < h.buffers.length := (List.getElem?_eq_some.mp hb).1
  have hload : h.load p =
      some { cell.regs with buf := bytes, definedFiles := arr.take cell.files.len } := by
    simp only [Heap.load, hm, hb, ha]
  have hcopy : copyAt h p =
      some ({ h with machines := h.machines ++ [{ cell with bufPtr := h.buffers.length }]
                     buffers := h.buffers ++ [bytes] }, h.machines.length) := by
    simp only [copyAt, hm, hb]
  have hq : ({ h with machines := h.machines ++ [{ cell with bufPtr := h.buffers.length }]
                      buffers := h.buffers ++ [bytes] } : Heap).machines[h.machines.length]? =
      some { cell with bufPtr := h.buffers.length } := List.getElem?_concat_length _ _
  have hp2 : ({ h with machines := h.machines ++ [{ cell with bufPtr := h.buffers.length }]
                       buffers := h.buffers ++ [bytes] } : Heap).machines[p]? = some cell := by
    simp only
    rw [List.getElem?_append_left hplt]
    exact hm
  have hbq : ({ h with machines := h.machines ++ [{ cell with bufPtr := h.buffers.length }]
                       buffers := h.buffers ++ [bytes] } : Heap).buffers[h.buffers.length]? =
      some bytes := List.getElem?_concat_length _ _
  have hbp : ({ h with machines := h.machines ++ [{ cell with bufPtr := h.buffers.length }]
                       buffers := h.buffers ++ [bytes] } : Heap).buffers[cell.bufPtr]? =
      some bytes := by
    simp only
    rw [List.getElem?_append_left hblt]
    exact hb
  -- the copy runs, the original is apart
  have hA1 : Apart { h with machines := h.machines ++ [{ cell with bufPtr := h.buffers.length }]
                            buffers := h.buffers ++ [bytes] }
      h.machines.length p cell bytes (arr.take cell.files.len) :=
    ⟨by omega, hp2, hbp, ⟨arr, ha, hlen, rfl⟩, _, hq, by simp only; omega, fun _ => le_refl _,
      arr, ha, hlen⟩
  -- the original runs, the copy is apart
  have hA2 : Apart { h with machines := h.machines ++ [{ cell with bufPtr := h.buffers.length }]
                            buffers := h.buffers ++ [bytes] }
      p h.machines.length { cell with bufPtr := h.buffers.length } bytes
      (arr.take cell.files.len) :=
    ⟨by omega, hq, hbq, ⟨arr, ha, hlen, rfl⟩, cell, hp2, by simp only; omega,
      fun _ => le_refl _, arr, ha, hlen⟩
  refine ⟨_, _, hcopy, by omega, by rw [hload]; rfl, ?_, ?_, ?_, ?_, ?_⟩
  · rw [(apart_load hA2).2, hload]
  · rw [(apart_load hA1).2, hload]
  · rw [hp2, hm]
  · intro n h3 hr
    have := apart_load (runAt_apart n _ h3 hA1 hr)
    rw [this.1, this.2, hm, hload]
    exact ⟨rfl, rfl⟩
  · intro n h3 hr
    have := apart_load (runAt_apart n _ h3 hA2 hr)
    rw [this.1, this.2, hq, (apart_load hA2).2]
    exact ⟨rfl, rfl⟩

/-- C8, witness: on `exampleHeap` the copy of the machine at 0 is at 1; after two calls of
`next` on the copy, which execute `define_file` and `copy`, the copy has read its nine bytes
and has one defined file, written into the backing array both share, and the original still
has nine unread bytes and no defined file. -/
theorem copy_independent_witness :
    exampleHeap.WF 0 ∧
    ((copyAt exampleHeap 0).bind (fun r => runAt stdDecoders 2 r.1 r.2)).map
        (fun h3 => ((h3.load 0).map (fun sm => (sm.buf.length, sm.definedFiles.length)),
                    (h3.load 1).map (fun sm => (sm.buf.length, sm.definedFiles.length)),
                    h3.arrays.map List.length)) =
      some (some (9, 0), some (0, 1), [1]) ∧
    ∃ h2 q, copyAt exampleHeap 0 = some (h2, q) ∧ q ≠ 0 ∧ (exampleHeap.load 0).isSome = true ∧
      h2.load q = exampleHeap.load 0 ∧ h2.load 0 = exampleHeap.load 0 ∧
      h2.machines[0]? = exampleHeap.machines[0]? ∧
      (∀ n h3, runAt stdDecoders n h2 q = some h3 →
        h3.machines[0]? = exampleHeap.machines[0]? ∧ h3.load 0 = exampleHeap.load 0) ∧
      (∀ n h3, runAt stdDecoders n h2 0 = some h3 →
        h3.machines[q]? = h2.machines[q]? ∧ h3.load q = h2.load q) :=
  have hwf : exampleHeap.WF 0 := ⟨_, _, _, rfl, rfl, rfl, by decide⟩
  ⟨hwf, by decide, copy_independent stdDecoders exampleHeap 0 hwf⟩

/-! ## One step of `next`, taken apart -/

/-- The registers `nextRemember` leaves alone. -/
theorem nextRemember_regs (sm : StateMachine) :
    (nextRemember sm).dbl = sm.dbl ∧ (nextRemember sm).file = sm.file ∧
    (nextRemember sm).line = sm.line ∧ (nextRemember sm).address = sm.address ∧
    (nextRemember sm).column = sm.column ∧ (nextRemember sm).valid = sm.valid ∧
    (nextRemember sm).endSeq = sm.endSeq ∧ (nextRemember sm).definedFiles = sm.definedFiles ∧
    (nextRemember sm).isStmt = sm.isStmt ∧ (nextRemember sm).basicBlock = sm.basicBlock := by
  unfold nextRemember
  split <;> exact ⟨rfl, rfl, rfl, rfl, rfl, rfl, rfl, rfl, rfl, rfl⟩

/-- Away from an end of sequence `nextPrepare` only remembers the last row. -/
theorem nextPrepare_plain {sm : StateMachine} (he : sm.endSeq = false) :
    nextPrepare sm = some (nextRemember sm) := by
  unfold nextPrepare nextReset
  have h1 : (nextRemember sm).endSeq = false := by rw [(nextRemember_regs sm).2.2.2.2.2.2.1, he]
  rw [if_neg (by simp [h1])]

/-- At an end of sequence `nextPrepare` resets file, line and column, and keeps the address. -/
theorem nextPrepare_reset {sm : StateMachine} {f0 : FileEntry} (he : sm.endSeq = true)
    (hfile : sm.dbl.FileNames.head? = some f0) :
    ∃ s1, nextPrepare sm = some s1 ∧ s1.buf = sm.buf ∧ s1.dbl = sm.dbl ∧
      s1.address = sm.address ∧ s1.valid = sm.valid ∧ s1.definedFiles = sm.definedFiles ∧
      s1.file = f0.Path ∧ s1.line = 1 ∧ s1.column = 0 ∧ s1.endSeq = false := by
  have hr := nextRemember_regs sm
  cases hf : sm.dbl.FileNames with
  | nil => rw [hf] at hfile; simp at hfile
  | cons a fs =>
    rw [hf] at hfile
    simp only [List.head?_cons, Option.some.injEq] at hfile
    have h1 : (nextRemember sm).endSeq = true := by rw [hr.2.2.2.2.2.2.1, he]
    have h2 : (nextRemember sm).dbl.FileNames = a :: fs := by rw [hr.1, hf]
    refine ⟨{ nextRemember sm with
                endSeq := false, file := a.Path, line := 1, column := 0, isStmt := false,
                basicBlock := false }, ?_, nextRemember_buf sm, hr.1, hr.2.2.2.1, hr.2.2.2.2.2.1,
      hr.2.2.2.2.2.2.2.1, by rw [hfile], rfl, rfl, rfl⟩
    unfold nextPrepare nextReset
    rw [if_pos h1, h2]

/-- A step of `next` from its two halves. -/
theorem next_eq_ok_of {dec : Decoders} {sm s1 s2 : StateMachine} {b : Nat} {rest : List Nat}
    (hp : nextPrepare sm = some s1) (hb : s1.buf = b :: rest)
    (hd : nextDispatch dec b { s1 with buf := rest } = some s2) : next dec sm = .ok s2 := by
  unfold next
  rw [hp]
  simp only
  rw [hb]
  simp only
  rw [hd]

theorem skipOperands_afterOperands (dec : Decoders) :
    ∀ (n : Nat) (sm : StateMachine) (out : List Nat), afterOperands dec n sm.buf = some out →
      skipOperands dec n sm = some { sm with buf := out } := by
  intro n
  induction n with
  | zero =>
    intro sm out h
    simp only [afterOperands, Option.some.injEq] at h
    simp only [skipOperands, h.symm]
  | succ n ih =>
    intro sm out h
    simp only [afterOperands] at h
    simp only [skipOperands, readSLEB]
    cases hd : dec.DecodeSLEB128 sm.buf with
    | none => rw [hd] at h; simp at h
    | some r =>
      obtain ⟨v, k⟩ := r
      rw [hd] at h
      simp only at h
      simp only
      exact ih { sm with buf := sm.buf.drop k } out h

/-- C25. An unimplemented standard opcode is skipped by its declared operand count: for a
machine whose next byte is `b` with `10 ≤ b < OpcodeBase`, whose prologue declares `opnum`
operands for it, and on whose buffer the `opnum` LEB128 decodings return, one step of `next`
returns without error, the unread bytes are those after the opcode byte and exactly `opnum`
operands, the address and the `valid` flag are unchanged, and file, line and column are
unchanged when the machine is not at an end of sequence; at an end of sequence they are the
initial ones (first file of the table, line 1, column 0). -/
theorem unimplemented_opcode_skips_operands (dec : Decoders) (sm : StateMachine) (b opnum : Nat)
    (rest out : List Nat) (f0 : FileEntry)
    (hbuf : sm.buf = b :: rest) (h10 : 10 ≤ b) (hb : b < sm.dbl.Prologue.OpcodeBase)
    (hlen : sm.dbl.Prologue.StdOpLengths.get? (b - 1) = some opnum)
    (hops : afterOperands dec opnum rest = some out)
    (hfile : sm.dbl.FileNames.head? = some f0) :
    ∃ sm2, next dec sm = .ok sm2 ∧ sm2.buf = out ∧ sm2.address = sm.address ∧
      sm2.valid = sm.valid ∧
      (sm.endSeq = false → sm2.file = sm.file ∧ sm2.line = sm.line ∧ sm2.column = sm.column) ∧
      (sm.endSeq = true → sm2.file = f0.Path ∧ sm2.line = 1 ∧ sm2.column = 0) := by
  have hdisp : ∀ s : StateMachine, s.dbl = sm.dbl → s.buf = rest →
      nextDispatch dec b s = some { s with buf := out } := by
    intro s hd hs
    have hb2 : b < s.dbl.Prologue.OpcodeBase := by rw [hd]; exact hb
    have hlen2 : s.dbl.Prologue.StdOpLengths.get? (b - 1) = some opnum := by rw [hd]; exact hlen
    unfold nextDispatch
    rw [if_neg (by omega), if_pos hb2, hlen2]
    simp only
    exact skipOperands_afterOperands dec opnum s out (by rw [hs]; exact hops)
  by_cases he : sm.endSeq = true
  · obtain ⟨s1, hp, h1, h2, h3, h4, _, h6, h7, h8, _⟩ := nextPrepare_reset he hfile
    have hstep := next_eq_ok_of hp (h1.trans hbuf) (hdisp { s1 with buf := rest } h2 rfl)
    exact ⟨_, hstep, rfl, h3, h4, fun h => by rw [he] at h; simp at h, fun _ => ⟨h6, h7, h8⟩⟩
  · have he2 : sm.endSeq = false := by simpa using he
    have hr := nextRemember_regs sm
    have hstep := next_eq_ok_of (nextPrepare_plain he2) ((nextRemember_buf sm).trans hbuf)
      (hdisp { nextRemember sm with buf := rest } hr.1 rfl)
    exact ⟨_, hstep, rfl, hr.2.2.2.1, hr.2.2.2.2.2.1, fun _ => ⟨hr.2.1, hr.2.2.1, hr.2.2.2.2.1⟩,
      fun h => absurd h he⟩

/-- C25, witness: in `tableSkip`, after the special opcode 29 the machine is on line 3 at
address 1 and meets opcode 12 with a two byte operand; the step leaves `copy` as the next
instruction and the registers as they are. -/
theorem unimplemented_opcode_skips_operands_witness :
    (stateAfter stdDecoders tableSkip 1).buf = [12, 128, 1, 1] ∧
    rowView (stateAfter stdDecoders tableSkip 1) = (1, "a.go", 3, true) ∧
    ∃ sm2, next stdDecoders (stateAfter stdDecoders tableSkip 1) = .ok sm2 ∧ sm2.buf = [1] ∧
      sm2.address = 1 ∧ sm2.valid = true ∧ sm2.file = "a.go" ∧ sm2.line = 3 ∧ sm2.column = 0 := by
  refine ⟨by decide, by decide, ?_⟩
  have h := unimplemented_opcode_skips_operands stdDecoders (stateAfter stdDecoders tableSkip 1)
    12 1 [128, 1, 1] [1] ⟨"a.go", 0, 0, 0⟩ (by decide) (by decide) (by decide) (by decide)
    (by decide) (by decide)
  obtain ⟨sm2, h1, h2, h3, h4, h5, _⟩ := h
  exact ⟨sm2, h1, h2, h3, h4, h5 (by decide)⟩

/-- C25, counterexample: in `tableSkipAfterEndSeq` the machine after `end_sequence` is on
line 3 of `b.go`; its next byte is the unimplemented opcode 12 (`10 ≤ 12 < 13`), and the step
that skips it leaves the machine on line 1 of `a.go`. -/
theorem unimplemented_opcode_after_end_sequence :
    (stateAfter stdDecoders tableSkipAfterEndSeq 3).buf = [12, 5] ∧
    (stateAfter stdDecoders tableSkipAfterEndSeq 3).dbl.Prologue.OpcodeBase = 13 ∧
    (stateAfter stdDecoders tableSkipAfterEndSeq 3).dbl.Prologue.StdOpLengths.get? 11 = some 1 ∧
    rowView (stateAfter stdDecoders tableSkipAfterEndSeq 3) = (1, "b.go", 3, true) ∧
    (match next stdDecoders (stateAfter stdDecoders tableSkipAfterEndSeq 3) with
      | .ok sm2 => some (sm2.buf, sm2.address, sm2.file, sm2.line)
      | _ => none) = some ([], 1, "a.go", 1) := by
  decide

/-- C26. The declared length of an extended instruction is not used: for a machine that is
not at an end of sequence, whose unread bytes are a zero byte, a length operand that decodes
to `n` over `k` bytes, and then a byte `sub` other than 1, 2 and 3 followed by `tail`, one
step of `next` returns without error and leaves file, line and address unchanged, and the
unread bytes are `tail`: one byte after the length operand has been consumed, whatever `n`
is, so the other `n - 1` declared bytes are the next instructions of the machine. -/
theorem unknown_extended_opcode_ignores_length (dec : Decoders) (sm : StateMachine)
    (rest tail : List Nat) (n k sub : Nat)
    (hend : sm.endSeq = false) (hbuf : sm.buf = 0 :: rest)
    (hlen : dec.DecodeULEB128 rest = some (n, k)) (hsub : rest.drop k = sub :: tail)
    (h1 : sub ≠ 1) (h2 : sub ≠ 2) (h3 : sub ≠ 3) :
    ∃ sm2, next dec sm = .ok sm2 ∧ sm2.buf = tail ∧ sm2.file = sm.file ∧ sm2.line = sm.line ∧
      sm2.address = sm.address ∧ sm2.valid = false := by
  have hr := nextRemember_regs sm
  have hd : nextDispatch dec 0 { nextRemember sm with buf := rest } =
      some { nextRemember sm with buf := tail, lastWasStandard := false, valid := false } := by
    unfold nextDispatch
    rw [if_pos (by decide)]
    simp only [execOpcode, execExtendedOpcode, readULEB, hlen, hsub, List.headD_cons,
      List.tail_cons, if_neg h1, if_neg h2, if_neg h3]
    rfl
  have hstep := next_eq_ok_of (nextPrepare_plain hend) ((nextRemember_buf sm).trans hbuf) hd
  exact ⟨_, hstep, rfl, hr.2.1, hr.2.2.1, hr.2.2.2.1, rfl⟩

/-- C26, witness: in `tableUnknownExtended` the machine after the special opcode 26 meets an
extended instruction of declared length 3 with the unknown sub-opcode `0x80`; the step leaves
the two payload bytes 1 and 15 unread, and the traversal runs them as `copy` and as the
special opcode 15, which gives the rows `(1, a.go, 3)` and `(1, a.go, 4)` after the one row
of the program.  With the declared length 1 (`tableUnknownExtendedShort`) the step ends on
the next instruction. -/
theorem unknown_extended_opcode_ignores_length_witness :
    (stateAfter stdDecoders tableUnknownExtended 1).buf = [0, 3, 128, 1, 15] ∧
    (∃ sm2, next stdDecoders (stateAfter stdDecoders tableUnknownExtended 1) = .ok sm2 ∧
      sm2.buf = [1, 15] ∧ sm2.file = "a.go" ∧ sm2.line = 3 ∧ sm2.address = 1 ∧
      sm2.valid = false) ∧
    tableView stdDecoders tableUnknownExtended =
      .ok [(1, "a.go", 3, true), (1, "a.go", 3, false), (1, "a.go", 3, true),
           (1, "a.go", 4, true)] ∧
    tableView stdDecoders tableUnknownExtendedShort =
      .ok [(1, "a.go", 3, true), (1, "a.go", 3, false), (1, "a.go", 4, true)] := by
  refine ⟨by decide, ?_, by decide, by decide⟩
  exact unknown_extended_opcode_ignores_length stdDecoders
    (stateAfter stdDecoders tableUnknownExtended 1) [3, 128, 1, 15] [1, 15] 3 1 128
    (by decide) (by decide) (by decide) (by decide) (by decide) (by decide) (by decide)

theorem toInt8_of_range {z : Int} (h1 : -128 ≤ z) (h2 : z ≤ 127) : toInt8 z = z := by
  unfold toInt8
  omega

theorem toInt64_of_range {z : Int} (h1 : -(2 : Int) ^ 63 ≤ z) (h2 : z < (2 : Int) ^ 63) :
    toInt64 z = z := by
  unfold toInt64
  norm_num at h1 h2 ⊢
  omega

/-- C27. Special opcodes follow the linear formula, in machine arithmetic: for a machine that
is not at an end of sequence, with a non-zero `LineRange`, whose next byte `b` is at least 10
and at least `OpcodeBase`, with `d = b - OpcodeBase`, one step of `next` returns without error,
consumes the byte, adds `int8(LineBase + int8(d mod LineRange))` to the line (an `int`) and
`(d div LineRange) * MinInstrLength` to the address (a `uint64`), sets `valid`, clears
`basicBlock` and leaves the file unchanged.  When `d mod LineRange` and the line advance fit an
`int8` and the new line and address fit their types, the line is
`line + LineBase + (d mod LineRange)` and the address `address + (d div LineRange) *
MinInstrLength` as exact integers. -/
theorem special_opcode_linear_formula (dec : Decoders) (sm : StateMachine) (b : Nat)
    (rest : List Nat) (hend : sm.endSeq = false) (hbuf : sm.buf = b :: rest)
    (h10 : 10 ≤ b) (hbase : sm.dbl.Prologue.OpcodeBase ≤ b) (hbyte : b < 256)
    (hrange : sm.dbl.Prologue.LineRange ≠ 0) :
    ∃ sm2, next dec sm = .ok sm2 ∧ sm2.buf = rest ∧
      sm2.line = toInt64 (sm.line + toInt8 (sm.dbl.Prologue.LineBase +
        toInt8 (((b - sm.dbl.Prologue.OpcodeBase) % sm.dbl.Prologue.LineRange : Nat) : Int))) ∧
      sm2.address = wrap64 (sm.address +
        (b - sm.dbl.Prologue.OpcodeBase) / sm.dbl.Prologue.LineRange *
          sm.dbl.Prologue.MinInstrLength) ∧
      sm2.valid = true ∧ sm2.basicBlock = false ∧ sm2.file = sm.file ∧
      ((b - sm.dbl.Prologue.OpcodeBase) % sm.dbl.Prologue.LineRange ≤ 127 →
        -128 ≤ sm.dbl.Prologue.LineBase +
          (((b - sm.dbl.Prologue.OpcodeBase) % sm.dbl.Prologue.LineRange : Nat) : Int) →
        sm.dbl.Prologue.LineBase +
          (((b - sm.dbl.Prologue.OpcodeBase) % sm.dbl.Prologue.LineRange : Nat) : Int) ≤ 127 →
        -(2 : Int) ^ 63 ≤ sm.line + sm.dbl.Prologue.LineBase +
          (((b - sm.dbl.Prologue.OpcodeBase) % sm.dbl.Prologue.LineRange : Nat) : Int) →
        sm.line + sm.dbl.Prologue.LineBase +
          (((b - sm.dbl.Prologue.OpcodeBase) % sm.dbl.Prologue.LineRange : Nat) : Int) <
            (2 : Int) ^ 63 →
        sm.address + (b - sm.dbl.Prologue.OpcodeBase) / sm.dbl.Prologue.LineRange *
          sm.dbl.Prologue.MinInstrLength < 2 ^ 64 →
        sm2.line = sm.line + sm.dbl.Prologue.LineBase +
          (((b - sm.dbl.Prologue.OpcodeBase) % sm.dbl.Prologue.LineRange : Nat) : Int) ∧
        sm2.address = sm.address + (b - sm.dbl.Prologue.OpcodeBase) /
          sm.dbl.Prologue.LineRange * sm.dbl.Prologue.MinInstrLength) := by
  have hr := nextRemember_regs sm
  have hdec : (b + (256 - sm.dbl.Prologue.OpcodeBase % 256)) % 256 =
      b - sm.dbl.Prologue.OpcodeBase := by omega
  obtain ⟨s2, hs2, hline, haddr, hv, hbb, hf, hb2⟩ :
      ∃ s2, nextDispatch dec b { nextRemember sm with buf := rest } = some s2 ∧
        s2.line = toInt64 (sm.line + toInt8 (sm.dbl.Prologue.LineBase +
          toInt8 (((b - sm.dbl.Prologue.OpcodeBase) % sm.dbl.Prologue.LineRange : Nat) : Int))) ∧
        s2.address = wrap64 (sm.address +
          (b - sm.dbl.Prologue.OpcodeBase) / sm.dbl.Prologue.LineRange *
            sm.dbl.Prologue.MinInstrLength) ∧
        s2.valid = true ∧ s2.basicBlock = false ∧ s2.file = sm.file ∧ s2.buf = rest := by
    have hb1 : ¬ b < (nextRemember sm).dbl.Prologue.OpcodeBase := by rw [hr.1]; omega
    have hrange1 : ¬ (nextRemember sm).dbl.Prologue.LineRange = 0 := by rw [hr.1]; exact hrange
    unfold nextDispatch
    rw [if_neg (by omega)]
    simp only
    rw [if_neg hb1]
    unfold execSpecialOpcode
    simp only
    rw [if_neg hrange1]
    refine ⟨_, rfl, ?_, ?_, rfl, rfl, hr.2.1, rfl⟩
    · simp only [hr.1, hr.2.2.1, hdec]
    · simp only [hr.1, hr.2.2.2.1, hdec]
  have hstep := next_eq_ok_of (nextPrepare_plain hend) ((nextRemember_buf sm).trans hbuf) hs2
  refine ⟨s2, hstep, hb2, hline, haddr, hv, hbb, hf, ?_⟩
  intro hm hlo hhi hl1 hl2 ha
  constructor
  · have hin : toInt8 (((b - sm.dbl.Prologue.OpcodeBase) % sm.dbl.Prologue.LineRange : Nat) : Int)
        = (((b - sm.dbl.Prologue.OpcodeBase) % sm.dbl.Prologue.LineRange : Nat) : Int) :=
      toInt8_of_range (by omega) (by omega)
    rw [hline, hin, toInt8_of_range hlo hhi, toInt64_of_range (by omega) (by omega)]
    omega
  · rw [haddr]
    unfold wrap64
    exact Nat.mod_eq_of_lt ha

/-- C27, witness: the first instruction of `tableReentry` is the special opcode 26: with
`OpcodeBase = 10`, `LineBase = -4` and `LineRange = 10` it takes the fresh machine from line 1
at address 0 to line 3 at address 1. -/
theorem special_opcode_linear_formula_witness :
    (stateAfter stdDecoders tableReentry 0).buf = [26, 15, 13] ∧
    rowView (stateAfter stdDecoders tableReentry 0) = (0, "a.go", 1, false) ∧
    ∃ sm2, next stdDecoders (stateAfter stdDecoders tableReentry 0) = .ok sm2 ∧
      sm2.buf = [15, 13] ∧ sm2.line = 3 ∧ sm2.address = 1 ∧ sm2.valid = true ∧
      sm2.basicBlock = false ∧ sm2.file = "a.go" := by
  refine ⟨by decide, by decide, ?_⟩
  obtain ⟨sm2, h1, h2, _, _, h5, h6, h7, h8⟩ := special_opcode_linear_formula stdDecoders
    (stateAfter stdDecoders tableReentry 0) 26 [15, 13] (by decide) (by decide) (by decide)
    (by decide) (by decide) (by decide)
  have h9 := h8 (by decide) (by decide) (by decide) (by decide) (by decide) (by decide)
  exact ⟨sm2, h1, h2, h9.1, h9.2, h5, h6, h7⟩

/-- C27, counterexample: in `tableSpecialAfterEndSeq` the machine after `end_sequence` is on
line 3 of `b.go`; its next byte is the special opcode 15, whose line advance is 1 and whose
address advance is 0.  The step leaves the machine on line 2 of `a.go`, not on line 4 of
`b.go`: the registers are reset before the opcode is run. -/
theorem special_opcode_after_end_sequence :
    (stateAfter stdDecoders tableSpecialAfterEndSeq 3).buf = [15] ∧
    rowView (stateAfter stdDecoders tableSpecialAfterEndSeq 3) = (1, "b.go", 3, true) ∧
    (match next stdDecoders (stateAfter stdDecoders tableSpecialAfterEndSeq 3) with
      | .ok sm2 => some (sm2.buf, rowView sm2)
      | _ => none) = some ([], 1, "a.go", 2, true) := by
  decide

theorem binaryRead_suffix (n : Nat) (buf : List Nat) : (binaryRead n buf).2 <:+ buf := by
  unfold binaryRead
  split_ifs
  · exact List.nil_suffix
  · exact List.drop_suffix n buf

theorem readULEB_returns {dec : Decoders} {sm : StateMachine}
    (h : (dec.DecodeULEB128 sm.buf).isSome = true) :
    ∃ v s2, readULEB dec sm = some (v, s2) ∧ s2.buf <:+ sm.buf ∧ s2.dbl = sm.dbl ∧
      s2.definedFiles = sm.definedFiles := by
  unfold readULEB
  cases hd : dec.DecodeULEB128 sm.buf with
  | none => rw [hd] at h; simp at h
  | some r => exact ⟨_, _, rfl, List.drop_suffix _ _, rfl, rfl⟩

theorem readSLEB_returns {dec : Decoders} {sm : StateMachine}
    (h : (dec.DecodeSLEB128 sm.buf).isSome = true) :
    ∃ v s2, readSLEB dec sm = some (v, s2) ∧ s2.buf <:+ sm.buf ∧ s2.dbl = sm.dbl := by
  unfold readSLEB
  cases hd : dec.DecodeSLEB128 sm.buf with
  | none => rw [hd] at h; simp at h
  | some r => exact ⟨_, _, rfl, List.drop_suffix _ _, rfl⟩

theorem skipOperands_returns {dec : Decoders} :
    ∀ (n : Nat) (sm : StateMachine), (∀ buf, buf <:+ sm.buf → DecodesAt dec sm.dbl buf) →
      ∃ s2, skipOperands dec n sm = some s2 ∧ s2.buf <:+ sm.buf ∧ s2.dbl = sm.dbl := by
  intro n
  induction n with
  | zero => intro sm _; exact ⟨sm, rfl, List.suffix_refl _, rfl⟩
  | succ n ih =>
    intro sm hd
    obtain ⟨v, s1, h1, hs1, hd1⟩ := readSLEB_returns (hd _ (List.suffix_refl _)).2.1
    obtain ⟨s2, h2, hs2, hd2⟩ := ih s1 (fun buf hb => by rw [hd1]; exact hd buf (hb.trans hs1))
    refine ⟨s2, ?_, hs2.trans hs1, hd2.trans hd1⟩
    simp only [skipOperands, h1]
    exact h2

theorem execExtendedOpcode_returns {dec : Decoders} {sm : StateMachine}
    (hd : ∀ buf, buf <:+ sm.buf → DecodesAt dec sm.dbl buf) :
    ∃ s2, execExtendedOpcode dec sm = some s2 ∧ s2.buf <:+ sm.buf ∧ s2.dbl = sm.dbl := by
  obtain ⟨v, s1, h1, hs1, hd1, _⟩ := readULEB_returns (hd _ (List.suffix_refl _)).1
  have ht : s1.buf.tail <:+ sm.buf := (List.tail_suffix _).trans hs1
  unfold execExtendedOpcode
  rw [h1]
  simp only
  split_ifs
  · exact ⟨_, rfl, ht, hd1⟩
  · exact ⟨_, rfl, (binaryRead_suffix 8 _).trans ht, hd1⟩
  · have h3 := (hd _ ht).2.2
    rw [← hd1] at h3
    unfold definefile
    simp only
    cases hf : dec.readFileEntry s1.dbl s1.buf.tail with
    | none => rw [hf] at h3; simp at h3
    | some r => exact ⟨_, rfl, (List.drop_suffix _ _).trans ht, hd1⟩
  · exact ⟨_, rfl, ht, hd1⟩

theorem setfile_returns {dec : Decoders} {sm : StateMachine}
    (h : (dec.DecodeULEB128 sm.buf).isSome = true) :
    ∃ s2, setfile dec sm = some s2 ∧ s2.buf <:+ sm.buf ∧ s2.dbl = sm.dbl := by
  obtain ⟨v, s1, h1, hs1, hd1, _⟩ := readULEB_returns h
  unfold setfile
  rw [h1]
  simp only
  split_ifs with ha hb
  · cases hg : s1.dbl.FileNames.get? (wrap64 (v + (2 ^ 64 - 1))) with
    | none =>
      have := List.get?_eq_none.mp hg
      omega
    | some e => exact ⟨_, rfl, hs1, hd1⟩
  · cases hg : s1.definedFiles.get?
        (wrap64 (wrap64 (v + (2 ^ 64 - 1)) + (2 ^ 64 - s1.dbl.FileNames.length % 2 ^ 64))) with
    | none =>
      have := List.get?_eq_none.mp hg
      omega
    | some e => exact ⟨_, rfl, hs1, hd1⟩
  · exact ⟨_, rfl, hs1, hd1⟩

theorem execOpcode_returns {dec : Decoders} {sm : StateMachine} {b : Nat} (hb : b < 10)
    (hd : ∀ buf, buf <:+ sm.buf → DecodesAt dec sm.dbl buf)
    (hrange : sm.dbl.Prologue.LineRange ≠ 0) :
    ∃ s2, execOpcode dec b sm = some s2 ∧ s2.buf <:+ sm.buf ∧ s2.dbl = sm.dbl := by
  have hu := (hd _ (List.suffix_refl _)).1
  have hs := (hd _ (List.suffix_refl _)).2.1
  interval_cases b
  · exact execExtendedOpcode_returns hd
  · exact ⟨_, rfl, List.suffix_refl _, rfl⟩
  · obtain ⟨v, s1, h1, hs1, hd1, _⟩ := readULEB_returns hu
    simp only [execOpcode, advancepc, h1]
    exact ⟨_, rfl, hs1, hd1⟩
  · obtain ⟨v, s1, h1, hs1, hd1⟩ := readSLEB_returns hs
    simp only [execOpcode, advanceline, h1]
    exact ⟨_, rfl, hs1, hd1⟩
  · exact setfile_returns hu
  · obtain ⟨v, s1, h1, hs1, hd1, _⟩ := readULEB_returns hu
    simp only [execOpcode, setcolumn, h1]
    exact ⟨_, rfl, hs1, hd1⟩
  · exact ⟨_, rfl, List.suffix_refl _, rfl⟩
  · exact ⟨_, rfl, List.suffix_refl _, rfl⟩
  · simp only [execOpcode, constaddpc, if_neg hrange]
    exact ⟨_, rfl, List.suffix_refl _, rfl⟩
  · exact ⟨_, rfl, binaryRead_suffix 2 _, rfl⟩

theorem nextDispatch_returns (dec : Decoders) (sm : StateMachine) (b : Nat)
    (hd : ∀ buf, buf <:+ sm.buf → DecodesAt dec sm.dbl buf)
    (hrange : sm.dbl.Prologue.LineRange ≠ 0)
    (hlens : sm.dbl.Prologue.OpcodeBase ≤ sm.dbl.Prologue.StdOpLengths.length + 1) :
    ∃ s2, nextDispatch dec b sm = some s2 ∧ s2.buf <:+ sm.buf ∧ s2.dbl = sm.dbl := by
  unfold nextDispatch
  by_cases h10 : b < 10
  · rw [if_pos h10]
    exact execOpcode_returns h10 hd hrange
  · rw [if_neg h10]
    by_cases hb : b < sm.dbl.Prologue.OpcodeBase
    · rw [if_pos hb]
      cases hg : sm.dbl.Prologue.StdOpLengths.get? (b - 1) with
      | none =>
        have := List.get?_eq_none.mp hg
        omega
      | some opnum => exact skipOperands_returns opnum sm hd
    · rw [if_neg hb]
      unfold execSpecialOpcode
      simp only
      rw [if_neg hrange]
      exact ⟨_, rfl, List.suffix_refl _, rfl⟩

/-- With helpers that return and a well-formed prologue a call of `next` does not panic, and
the machine it leaves reads from a suffix of the same bytes. -/
theorem next_returns (dec : Decoders) (sm : StateMachine)
    (hd : ∀ buf, buf <:+ sm.buf → DecodesAt dec sm.dbl buf)
    (hfiles : sm.dbl.FileNames ≠ []) (hrange : sm.dbl.Prologue.LineRange ≠ 0)
    (hlens : sm.dbl.Prologue.OpcodeBase ≤ sm.dbl.Prologue.StdOpLengths.length + 1) :
    (∃ s2, next dec sm = .ok s2 ∧ s2.buf <:+ sm.buf ∧ s2.dbl = sm.dbl) ∨
    (∃ e, next dec sm = .eof e) := by
  have hprep : ∃ s1, nextPrepare sm = some s1 ∧ s1.buf = sm.buf ∧ s1.dbl = sm.dbl := by
    by_cases he : sm.endSeq = true
    · cases hf : sm.dbl.FileNames with
      | nil => exact absurd hf hfiles
      | cons a fs =>
        obtain ⟨s1, h1, h2, h3, _⟩ := @nextPrepare_reset sm a he (by rw [hf]; rfl)
        exact ⟨s1, h1, h2, h3⟩
    · have he2 : sm.endSeq = false := by simpa using he
      exact ⟨_, nextPrepare_plain he2, nextRemember_buf sm, (nextRemember_regs sm).1⟩
  obtain ⟨s1, h1, hb1, hd1⟩ := hprep
  cases hbuf : s1.buf with
  | nil =>
    right
    refine ⟨s1, ?_⟩
    unfold next
    rw [h1]
    simp only
    rw [hbuf]
  | cons b rest =>
    left
    have hsuf : rest <:+ sm.buf := by
      rw [← hb1, hbuf]
      exact List.suffix_cons b rest
    obtain ⟨s2, h2, hs2, hd2⟩ := nextDispatch_returns dec { s1 with buf := rest } b
      (fun buf hb => by
        have := hd buf (hb.trans hsuf)
        rw [← hd1] at this
        exact this)
      (by rw [← hd1] at hrange; exact hrange) (by rw [← hd1] at hlens; exact hlens)
    exact ⟨s2, next_eq_ok_of h1 hbuf h2, hs2.trans hsuf, hd2.trans hd1⟩

theorem run_returns {dec : Decoders} {lineInfo : DebugLineInfo}
    (hd : ∀ buf, buf <:+ lineInfo.Instructions → DecodesAt dec lineInfo buf)
    (hfiles : lineInfo.FileNames ≠ []) (hrange : lineInfo.Prologue.LineRange ≠ 0)
    (hlens : lineInfo.Prologue.OpcodeBase ≤ lineInfo.Prologue.StdOpLengths.length + 1) :
    ∀ (k : Nat) (sm : StateMachine), sm.dbl = lineInfo → sm.buf <:+ lineInfo.Instructions →
      sm.buf.length < k → ∃ rows last, run dec k sm = .ok (rows, last) := by
  intro k
  induction k with
  | zero => intro sm _ _ hk; omega
  | succ k ih =>
    intro sm hdbl hsuf hk
    have hstep := next_returns dec sm
      (fun buf hb => by rw [hdbl]; exact hd buf (hb.trans hsuf))
      (by rw [hdbl]; exact hfiles) (by rw [hdbl]; exact hrange) (by rw [hdbl]; exact hlens)
    rcases hstep with ⟨s2, h2, hs2, hd2⟩ | ⟨e, he⟩
    · have hlt := next_ok_buf h2
      obtain ⟨rows, last, hr⟩ := ih s2 (hd2.trans hdbl) (hs2.trans hsuf) (by omega)
      exact ⟨s2 :: rows, last, by simp only [run, h2, hr]⟩
    · exact ⟨[], e, by simp only [run, he]⟩

theorem table_returns {dec : Decoders} {lineInfo : DebugLineInfo}
    (hd : ∀ buf, buf <:+ lineInfo.Instructions → DecodesAt dec lineInfo buf)
    (hfiles : lineInfo.FileNames ≠ []) (hrange : lineInfo.Prologue.LineRange ≠ 0)
    (hlens : lineInfo.Prologue.OpcodeBase ≤ lineInfo.Prologue.StdOpLengths.length + 1) :
    ∃ sm rows last, newStateMachine lineInfo lineInfo.Instructions = some sm ∧
      sm.buf = lineInfo.Instructions ∧ table dec lineInfo = .ok (rows, last) := by
  cases hf : lineInfo.FileNames with
  | nil => exact absurd hf hfiles
  | cons a fs =>
    have hnew : ∃ sm, newStateMachine lineInfo lineInfo.Instructions = some sm ∧
        sm.buf = lineInfo.Instructions ∧ sm.dbl = lineInfo := by
      unfold newStateMachine
      rw [hf]
      exact ⟨_, rfl, rfl, rfl⟩
    obtain ⟨sm, h1, h2, h3⟩ := hnew
    obtain ⟨rows, last, hr⟩ := run_returns hd hfiles hrange hlens (sm.buf.length + 1) sm h3
      (h2 ▸ List.suffix_refl _) (by omega)
    refine ⟨sm, rows, last, h1, h2, ?_⟩
    unfold table
    rw [h1]
    exact hr

theorem steps_length_le {dec : Decoders} {sm last : StateMachine} {rows : List StateMachine}
    (h : Steps dec sm rows last) : rows.length ≤ sm.buf.length := by
  induction h with
  | eof _ => simp
  | ok hs _ ih =>
    have := next_ok_buf hs
    simp only [List.length_cons]
    omega

theorem LineToPC_loop_returns {dec : Decoders} {f : String} {l : Int} {sm last : StateMachine}
    {rows : List StateMachine} (h : Steps dec sm rows last) :
    ∀ (found : Bool) (k : Nat), sm.buf.length < k →
      ∃ pc, DebugLineInfo.LineToPC.loop dec f l k sm found = .ok pc := by
  induction h with
  | eof he =>
    intro found k hk
    cases k with
    | zero => omega
    | succ k => exact ⟨0, by simp only [DebugLineInfo.LineToPC.loop, he]⟩
  | ok hs _ ih =>
    intro found k hk
    cases k with
    | zero => omega
    | succ k =>
      have hlt := next_ok_buf hs
      simp only [DebugLineInfo.LineToPC.loop, hs]
      split_ifs
      · exact ⟨_, rfl⟩
      · exact ⟨_, rfl⟩
      · exact ih true k (by omega)
      · exact ih found k (by omega)

/-- The traversals of a line table return when the helpers do: for a table with a non-empty
file table, a non-zero `LineRange` and a length entry for every standard opcode below
`OpcodeBase`, and helpers (`DecodeULEB128`, `DecodeSLEB128`, `readFileEntry`) that return on
every suffix of the stream, each call of `next` that returns `nil` has consumed at least one
byte, a machine of the table with no unread byte gets the read error from `next`, the table
has at most one state per byte, and `LineToPC`, `AllPCsForFileLine`, `AllPCsBetween` (with a
nil error) and `PCToLine` (for `basePC ≤ pc`) return a result. -/
theorem traversals_return (dec : Decoders) (lineInfo : DebugLineInfo)
    (hd : ∀ buf, buf <:+ lineInfo.Instructions → DecodesAt dec lineInfo buf)
    (hfiles : lineInfo.FileNames ≠ []) (hrange : lineInfo.Prologue.LineRange ≠ 0)
    (hlens : lineInfo.Prologue.OpcodeBase ≤ lineInfo.Prologue.StdOpLengths.length + 1) :
    (∀ sm sm2, next dec sm = .ok sm2 → sm2.buf.length < sm.buf.length) ∧
    (∀ sm, Reach dec lineInfo sm → sm.buf = [] → ∃ e, next dec sm = .eof e) ∧
    (∃ rows last, table dec lineInfo = .ok (rows, last) ∧
      rows.length ≤ lineInfo.Instructions.length) ∧
    (∀ f l, ∃ pc, DebugLineInfo.LineToPC dec (some lineInfo) f l = .ok pc) ∧
    (∀ f l, ∃ pcs, DebugLineInfo.AllPCsForFileLine dec (some lineInfo) f l = .ok pcs) ∧
    (∀ b e, ∃ pcs, DebugLineInfo.AllPCsBetween dec (some lineInfo) b e = .ok (pcs, none)) ∧
    (∀ caches basePC pc, CachesOk dec lineInfo caches → basePC ≤ pc →
      ∃ r c2, DebugLineInfo.PCToLine dec (some lineInfo) caches basePC pc = .ok (r, c2)) := by
  obtain ⟨sm0, rows, last, h0, hb0, ht⟩ := table_returns hd hfiles hrange hlens
  obtain ⟨sm1, h1, hst⟩ := table_steps ht
  rw [h0] at h1
  simp only [Option.some.injEq] at h1
  subst h1
  refine ⟨fun sm sm2 h => next_ok_buf h, ?_, ⟨rows, last, ht, ?_⟩, ?_, ?_, ?_, ?_⟩
  · intro sm hr hb
    have hnp := reach_no_panic ht hr
    cases hn : next dec sm with
    | panic => exact absurd hn hnp
    | eof e => exact ⟨e, rfl⟩
    | ok s =>
      have := next_ok_buf hn
      rw [hb] at this
      simp at this
  · have := steps_length_le hst
    rw [hb0] at this
    exact this
  · intro f l
    obtain ⟨pc, hpc⟩ := LineToPC_loop_returns (f := f) (l := l) hst false (sm0.buf.length + 1)
      (by omega)
    exact ⟨pc, by simp only [DebugLineInfo.LineToPC, h0, hpc]⟩
  · intro f l
    obtain ⟨out, idxs, hout, _⟩ := AllPCsForFileLine_loop_spec dec f l rows.length rows le_rfl
      sm0 last false [] (sm0.buf.length + 1) hst (by omega)
    exact ⟨[] ++ out, by simp only [DebugLineInfo.AllPCsForFileLine, h0, hout]⟩
  · intro b e
    obtain ⟨out, hout, _⟩ := AllPCsBetween_loop_spec (b := b) (e := e) hst
      (sm0.buf.length + 1) 0 [] (by omega)
    exact ⟨[] ++ out, by simp only [DebugLineInfo.AllPCsBetween, h0, hout]⟩
  · intro caches basePC pc hc hle
    have hn : ¬ basePC > pc := by omega
    simp only [DebugLineInfo.PCToLine, if_neg hn]
    split_ifs with hz
    · obtain ⟨res, sm2, h2, _⟩ := StateMachine_PCToLine_total ht pc sm0 (Reach.fresh h0)
      simp only [h0, h2]
      exact ⟨_, _, rfl⟩
    · obtain ⟨sm, c2, h1, hr, _⟩ := PCToLine_pick_total ht caches hc basePC pc
      obtain ⟨res, sm2, h2, _⟩ := StateMachine_PCToLine_total ht pc sm hr
      simp only [h1, h2]
      exact ⟨_, _, rfl⟩

/-! ## The traversals end on every stream -/

/-- The loop of `LineToPC` ends within one step per unread byte, whatever the helpers do. -/
theorem LineToPC_loop_ends (dec : Decoders) (f : String) (l : Int) :
    ∀ (k : Nat) (sm : StateMachine) (found : Bool), sm.buf.length < k →
      DebugLineInfo.LineToPC.loop dec f l k sm found ≠ .fuel := by
  intro k
  induction k with
  | zero => intro sm _ hk; omega
  | succ k ih =>
    intro sm found hk
    simp only [DebugLineInfo.LineToPC.loop]
    cases hn : next dec sm with
    | panic => simp
    | eof e => simp
    | ok s =>
      have hlt := next_ok_buf hn
      simp only
      split_ifs
      · simp
      · simp
      · exact ih s true (by omega)
      · exact ih s found (by omega)

/-- The inner loop of `AllPCsForFileLine` ends within one step per unread byte and leaves no
more unread bytes than it found. -/
theorem AllPCsForFileLine_skip_ends (dec : Decoders) (l : Int) :
    ∀ (k : Nat) (sm : StateMachine), sm.buf.length < k →
      DebugLineInfo.AllPCsForFileLine.skip dec l k sm ≠ .fuel ∧
      ∀ sm2, DebugLineInfo.AllPCsForFileLine.skip dec l k sm = .ok sm2 →
        sm2.buf.length ≤ sm.buf.length := by
  intro k
  induction k with
  | zero => intro sm hk; omega
  | succ k ih =>
    intro sm hk
    simp only [DebugLineInfo.AllPCsForFileLine.skip]
    cases hn : next dec sm with
    | panic => simp
    | eof e =>
      have hb := next_eof_buf hn
      refine ⟨by simp, ?_⟩
      intro sm2 h2
      simp only [Outcome.ok.injEq] at h2
      rw [← h2, hb.1]
      exact Nat.zero_le _
    | ok s =>
      have hlt := next_ok_buf hn
      simp only
      split_ifs
      · refine ⟨by simp, ?_⟩
        intro sm2 h2
        simp only [Outcome.ok.injEq] at h2
        rw [← h2]
        omega
      · obtain ⟨h1, h2⟩ := ih s (by omega)
        exact ⟨h1, fun sm2 h => by have := h2 sm2 h; omega⟩

/-- The outer loop of `AllPCsForFileLine` ends within one step per unread byte. -/
theorem AllPCsForFileLine_loop_ends (dec : Decoders) (f : String) (l : Int) (lastAddr : Nat) :
    ∀ (k : Nat) (sm : StateMachine) (found : Bool) (pcs : List Nat), sm.buf.length < k →
      DebugLineInfo.AllPCsForFileLine.loop dec f l lastAddr k sm found pcs ≠ .fuel := by
  intro k
  induction k with
  | zero => intro sm _ _ hk; omega
  | succ k ih =>
    intro sm found pcs hk
    simp only [DebugLineInfo.AllPCsForFileLine.loop]
    cases hn : next dec sm with
    | panic => simp
    | eof e => simp
    | ok s =>
      have hlt := next_ok_buf hn
      simp only
      by_cases h1 : found = true ∧ s.file ≠ f
      · rw [if_pos h1]; simp
      · rw [if_neg h1]
        by_cases h2 : s.line = l ∧ s.file = f ∧ s.address ≠ lastAddr
        · rw [if_pos h2]
          obtain ⟨hs1, hs2⟩ := AllPCsForFileLine_skip_ends dec l k s (by omega)
          cases hsk : DebugLineInfo.AllPCsForFileLine.skip dec l k s with
          | panic => simp
          | fuel => exact absurd hsk hs1
          | ok sm2 =>
            have := hs2 sm2 hsk
            exact ih sm2 true _ (by omega)
        · rw [if_neg h2]
          exact ih s found pcs (by omega)

/-- The loop of `AllPCsBetween` ends within one step per unread byte. -/
theorem AllPCsBetween_loop_ends (dec : Decoders) (b e : Nat) :
    ∀ (k : Nat) (sm : StateMachine) (lastaddr : Nat) (pcs : List Nat), sm.buf.length < k →
      DebugLineInfo.AllPCsBetween.loop dec b e k sm lastaddr pcs ≠ .fuel := by
  intro k
  induction k with
  | zero => intro sm _ _ hk; omega
  | succ k ih =>
    intro sm lastaddr pcs hk
    simp only [DebugLineInfo.AllPCsBetween.loop]
    cases hn : next dec sm with
    | panic => simp
    | eof e => simp
    | ok s =>
      have hlt := next_ok_buf hn
      simp only
      split_ifs
      all_goals first
        | exact ih s _ _ (by omega)
        | exact fun h => Outcome.noConfusion h

/-- The loop of `StateMachine.PCToLine` ends within one step per unread byte. -/
theorem PCToLine_loop_ends (dec : Decoders) (pc : Nat) :
    ∀ (k : Nat) (sm : StateMachine), sm.buf.length < k →
      StateMachine.PCToLine.loop dec pc k sm ≠ .fuel := by
  intro k
  induction k with
  | zero => intro sm hk; omega
  | succ k ih =>
    intro sm hk
    simp only [StateMachine.PCToLine.loop]
    split_ifs
    · simp
    · simp
    · cases hn : next dec sm with
      | panic => simp
      | eof e =>
        simp only
        split_ifs <;> simp
      | ok s =>
        have hlt := next_ok_buf hn
        exact ih s (by omega)

theorem StateMachine_PCToLine_ends (dec : Decoders) (sm : StateMachine) (pc : Nat) :
    StateMachine.PCToLine dec sm pc ≠ .fuel := by
  have hstarted : ∀ s, StateMachine.PCToLine.started dec pc s ≠ .fuel := by
    intro s
    unfold StateMachine.PCToLine.started
    split_ifs
    · simp
    · exact PCToLine_loop_ends dec pc _ s (by omega)
  unfold StateMachine.PCToLine
  split_ifs
  · exact hstarted sm
  · cases hn : next dec sm with
    | panic => simp
    | eof e => simp
    | ok s => exact hstarted s

theorem PCToLine_pick_ends (dec : Decoders) (lineInfo : DebugLineInfo) (caches : MachineCaches)
    (basePC pc : Nat) : DebugLineInfo.PCToLine.pick dec lineInfo caches basePC pc ≠ .fuel := by
  have hfresh : (match caches.stateMachineCache basePC with
        | some sm =>
          Outcome.ok (sm.copy, { caches with
            lastMachineCache := mapSet caches.lastMachineCache basePC sm.copy })
        | none =>
          match newStateMachine lineInfo lineInfo.Instructions with
          | none => .panic
          | some sm =>
            match sm.PCToLine dec basePC with
            | .panic => .panic
            | .fuel => .fuel
            | .ok (_, sm) =>
              .ok (sm.copy, { stateMachineCache := mapSet caches.stateMachineCache basePC sm
                              lastMachineCache := mapSet caches.lastMachineCache basePC sm.copy }))
      ≠ Outcome.fuel := by
    cases caches.stateMachineCache basePC with
    | some sm => simp
    | none =>
      simp only
      cases newStateMachine lineInfo lineInfo.Instructions with
      | none => simp
      | some sm =>
        simp only
        cases hp : sm.PCToLine dec basePC with
        | panic => simp
        | fuel => exact absurd hp (StateMachine_PCToLine_ends dec sm basePC)
        | ok r => simp
  unfold DebugLineInfo.PCToLine.pick
  simp only
  cases caches.lastMachineCache basePC with
  | none => exact hfresh
  | some sm =>
    simp only
    split_ifs
    · exact hfresh
    · simp

theorem DebugLineInfo_PCToLine_ends (dec : Decoders) (lineInfo : Option DebugLineInfo)
    (caches : MachineCaches) (basePC pc : Nat) :
    DebugLineInfo.PCToLine dec lineInfo caches basePC pc ≠ .fuel := by
  unfold DebugLineInfo.PCToLine
  cases lineInfo with
  | none => simp
  | some li =>
    simp only
    split_ifs
    · simp
    · cases newStateMachine li li.Instructions with
      | none => simp
      | some sm =>
        simp only
        cases hp : sm.PCToLine dec pc with
        | panic => simp
        | fuel => exact absurd hp (StateMachine_PCToLine_ends dec sm pc)
        | ok r => simp
    · cases hk : DebugLineInfo.PCToLine.pick dec li caches basePC pc with
      | panic => simp
      | fuel => exact absurd hk (PCToLine_pick_ends dec li caches basePC pc)
      | ok r =>
        simp only
        cases hp : r.1.PCToLine dec pc with
        | panic => simp
        | fuel => exact absurd hp (StateMachine_PCToLine_ends dec r.1 pc)
        | ok r2 => simp
/-- An outcome that is not an exhausted budget is a result or a panic. -/
theorem outcome_cases {α : Type} {x : Outcome α} (h : x ≠ .fuel) :
    (∃ a, x = .ok a) ∨ x = .panic := by
  cases x with
  | ok a => exact Or.inl ⟨a, rfl⟩
  | panic => exact Or.inr rfl
  | fuel => exact absurd rfl h

/-- A machine with no unread byte gets the read error from `next`, unless it is after an end
of sequence and the file table is empty. -/
theorem next_at_end_of_files (dec : Decoders) {sm : StateMachine} (hb : sm.buf = [])
    (h : sm.endSeq = false ∨ sm.dbl.FileNames ≠ []) : ∃ e, next dec sm = .eof e := by
  cases he : sm.endSeq with
  | false => exact next_at_end dec hb he
  | true =>
    rcases h with h | h
    · rw [he] at h
      exact absurd h (by decide)
    · cases hf : sm.dbl.FileNames with
      | nil => exact absurd hf h
      | cons a fs =>
        obtain ⟨s1, h1, h2, _⟩ := @nextPrepare_reset sm a he (by rw [hf]; rfl)
        refine ⟨s1, ?_⟩
        unfold next
        rw [h1]
        simp only
        rw [h2, hb]

/-- An `advance_pc` whose operand makes `DecodeULEB128` panic makes `next` panic. -/
theorem next_panics_with_helper (dec : Decoders) {sm : StateMachine} {buf : List Nat}
    (he : sm.endSeq = false) (hb : sm.buf = 2 :: buf) (hd : dec.DecodeULEB128 buf = none) :
    next dec sm = .panic := by
  have hb2 : (nextRemember sm).buf = 2 :: buf := by rw [nextRemember_buf, hb]
  unfold next
  rw [nextPrepare_plain he]
  simp only [hb2]
  have : nextDispatch dec 2 { nextRemember sm with buf := buf } = none := by
    unfold nextDispatch
    rw [if_pos (by decide)]
    show advancepc dec _ = none
    unfold advancepc readULEB
    simp only [hd]
  rw [this]

/-- A stream that starts with an `advance_pc` on whose operand `DecodeULEB128` panics makes
the four traversals panic. -/
theorem traversals_panic_with_helper (dec : Decoders) (lineInfo : DebugLineInfo)
    (buf : List Nat) (hfiles : lineInfo.FileNames ≠ [])
    (hi : lineInfo.Instructions = 2 :: buf) (hd : dec.DecodeULEB128 buf = none) :
    (∀ f l, DebugLineInfo.LineToPC dec (some lineInfo) f l = .panic) ∧
    (∀ f l, DebugLineInfo.AllPCsForFileLine dec (some lineInfo) f l = .panic) ∧
    (∀ b e, DebugLineInfo.AllPCsBetween dec (some lineInfo) b e = .panic) ∧
    (∀ caches pc, DebugLineInfo.PCToLine dec (some lineInfo) caches 0 pc = .panic) := by
  cases hf : lineInfo.FileNames with
  | nil => exact absurd hf hfiles
  | cons a fs =>
    obtain ⟨sm, hsm, hbuf, hend⟩ : ∃ sm, newStateMachine lineInfo lineInfo.Instructions = some sm ∧
        sm.buf = 2 :: buf ∧ sm.endSeq = false := by
      unfold newStateMachine
      rw [hf]
      exact ⟨_, rfl, hi, rfl⟩
    have hn := next_panics_with_helper dec hend hbuf hd
    have hst : sm.started = false := by
      unfold newStateMachine at hsm
      rw [hf] at hsm
      simp only [Option.some.injEq] at hsm
      rw [← hsm]
    refine ⟨?_, ?_, ?_, ?_⟩
    · intro f l
      simp only [DebugLineInfo.LineToPC, hsm, DebugLineInfo.LineToPC.loop, hn]
    · intro f l
      simp only [DebugLineInfo.AllPCsForFileLine, hsm, DebugLineInfo.AllPCsForFileLine.loop, hn]
    · intro b e
      simp only [DebugLineInfo.AllPCsBetween, hsm, DebugLineInfo.AllPCsBetween.loop, hn]
    · intro caches pc
      have hp : sm.PCToLine dec pc = .panic := by
        unfold StateMachine.PCToLine
        rw [if_neg (by rw [hst]; simp), hn]
      simp only [DebugLineInfo.PCToLine, hsm, hp]
      simp

/-- A non-zero result of the loop of `LineToPC` is the address of the first valid row on
`(f, l)` among the states that follow. -/
theorem LineToPC_loop_nonzero {dec : Decoders} {f : String} {l : Int} {sm last : StateMachine}
    {rows : List StateMachine} (h : Steps dec sm rows last) :
    ∀ (found : Bool) (k a : Nat),
      DebugLineInfo.LineToPC.loop dec f l k sm found = .ok a → a ≠ 0 →
      ∃ A r B, rows = A ++ r :: B ∧ r.valid = true ∧ r.file = f ∧ r.line = l ∧ r.address = a ∧
        ∀ x ∈ A, ¬ (x.valid = true ∧ x.file = f ∧ x.line = l) := by
  induction h with
  | eof he =>
    intro found k a hl ha
    cases k with
    | zero => simp [DebugLineInfo.LineToPC.loop] at hl
    | succ k =>
      simp only [DebugLineInfo.LineToPC.loop, he, Outcome.ok.injEq] at hl
      exact absurd hl.symm ha
  | @ok sm s last rows hs _ ih =>
    intro found k a hl ha
    cases k with
    | zero => simp [DebugLineInfo.LineToPC.loop] at hl
    | succ k =>
      simp only [DebugLineInfo.LineToPC.loop, hs] at hl
      by_cases hg : found = true ∧ s.file ≠ f
      · rw [if_pos hg] at hl
        simp only [Outcome.ok.injEq] at hl
        exact absurd hl.symm ha
      · rw [if_neg hg] at hl
        by_cases hm : s.line = l ∧ s.file = f
        · rw [if_pos hm] at hl
          by_cases hv : s.valid = true
          · rw [if_pos hv] at hl
            simp only [Outcome.ok.injEq] at hl
            exact ⟨[], s, rows, rfl, hv, hm.2, hm.1, hl, by simp⟩
          · rw [if_neg hv] at hl
            obtain ⟨A, r, B, h1, h2, h3, h4, h5, h6⟩ := ih true k a hl ha
            refine ⟨s :: A, r, B, by rw [h1]; rfl, h2, h3, h4, h5, ?_⟩
            intro x hx
            rcases List.mem_cons.mp hx with rfl | hx
            · exact fun h => hv h.1
            · exact h6 x hx
        · rw [if_neg hm] at hl
          obtain ⟨A, r, B, h1, h2, h3, h4, h5, h6⟩ := ih found k a hl ha
          refine ⟨s :: A, r, B, by rw [h1]; rfl, h2, h3, h4, h5, ?_⟩
          intro x hx
          rcases List.mem_cons.mp hx with rfl | hx
          · exact fun h => hm ⟨h.2.2, h.2.1⟩
          · exact h6 x hx

/-- The outer loop of `AllPCsForFileLine` picks, as the next address, that of a valid row `r`
on `(f, l)` with a non-zero address when no state before `r` is on `(f, l)` at a non-zero
address. -/
theorem AllPCsForFileLine_loop_first {dec : Decoders} {f : String} {l : Int}
    {r last : StateMachine} {B : List StateMachine} (hrv : r.valid = true) (hrf : r.file = f)
    (hrl : r.line = l) (hra : r.address ≠ 0) :
    ∀ (A : List StateMachine) (sm : StateMachine) (pcs : List Nat) (k : Nat),
      Steps dec sm (A ++ r :: B) last →
      (∀ x ∈ A, ¬ (x.line = l ∧ x.file = f ∧ x.address ≠ 0)) →
      sm.buf.length < k →
      ∃ out, DebugLineInfo.AllPCsForFileLine.loop dec f l 0 k sm false pcs =
        .ok (pcs ++ r.address :: out) := by
  intro A
  induction A with
  | nil =>
    intro sm pcs k hst _ hk
    cases k with
    | zero => omega
    | succ k =>
      cases hst with
      | ok hs hrest =>
        have hlt := next_ok_buf hs
        simp only [DebugLineInfo.AllPCsForFileLine.loop, hs]
        rw [if_neg (by simp), if_pos ⟨hrl, hrf, hra⟩, if_pos hrv]
        rcases AllPCsForFileLine_skip_spec (l := l) hrest k (by omega) with
          ⟨R, y, rest, hB, _, _, hsk, hy⟩ | ⟨_, hsk⟩
        · rw [hsk]
          simp only
          have hyb : y.buf.length < r.buf.length :=
            steps_buf hrest y (by rw [hB]; simp)
          obtain ⟨out, idxs, ho, _⟩ := AllPCsForFileLine_loop_spec dec f l rest.length rest
            (le_refl _) y last true (pcs ++ [r.address]) k hy (by omega)
          exact ⟨out, by rw [ho]; simp⟩
        · rw [hsk]
          simp only
          have hl := steps_last hrest
          cases k with
          | zero => omega
          | succ k =>
            rw [AllPCsForFileLine_loop_at_end dec f l 0 hl.1 hl.2 k true _]
            exact ⟨[], by simp⟩
  | cons x A ih =>
    intro sm pcs k hst hA hk
    cases k with
    | zero => omega
    | succ k =>
      cases hst with
      | ok hs hrest =>
        have hlt := next_ok_buf hs
        simp only [List.cons_append, DebugLineInfo.AllPCsForFileLine.loop, hs]
        rw [if_neg (by simp), if_neg (hA x (List.mem_cons_self _ _))]
        exact ih x pcs k hrest (fun y hy => hA y (List.mem_cons_of_mem _ hy)) (by omega)

/-- Where the two line-to-address queries do agree: on a table whose program runs to its end,
when no state on `(f, l)` that is not a row and has a non-zero address comes before the first
valid row on `(f, l)`, a non-zero address `a` that `LineToPC(f, l)` returns is the first
element of the list that `AllPCsForFileLine(f, l)` returns. -/
theorem LineToPC_is_first_of_AllPCsForFileLine (dec : Decoders) (lineInfo : DebugLineInfo)
    (f : String) (l : Int) (rows : List StateMachine) (last : StateMachine) (a : Nat)
    (ht : table dec lineInfo = .ok (rows, last))
    (hinv : ∀ A x B, rows = A ++ x :: B → x.file = f → x.line = l → x.address ≠ 0 →
      x.valid = false → ∃ y ∈ A, y.valid = true ∧ y.file = f ∧ y.line = l)
    (hpc : DebugLineInfo.LineToPC dec (some lineInfo) f l = .ok a) (ha : a ≠ 0) :
    ∃ out, DebugLineInfo.AllPCsForFileLine dec (some lineInfo) f l = .ok (a :: out) := by
  obtain ⟨sm, hsm, hst⟩ := table_steps ht
  simp only [DebugLineInfo.LineToPC, hsm] at hpc
  obtain ⟨A, r, B, h1, h2, h3, h4, h5, h6⟩ := LineToPC_loop_nonzero hst false _ a hpc ha
  rw [h1] at hst
  have hA : ∀ x ∈ A, ¬ (x.line = l ∧ x.file = f ∧ x.address ≠ 0) := by
    intro x hx hc
    obtain ⟨A1, A2, hsplit⟩ := List.append_of_mem hx
    have hxv : x.valid = false := by
      cases hv : x.valid with
      | false => rfl
      | true => exact absurd ⟨hv, hc.2.1, hc.1⟩ (h6 x hx)
    obtain ⟨y, hy, hy2⟩ := hinv A1 x (A2 ++ r :: B)
      (by rw [h1, hsplit]; simp) hc.2.1 hc.1 hc.2.2 hxv
    exact h6 y (by rw [hsplit]; exact List.mem_append_left _ hy) hy2
  obtain ⟨out, ho⟩ := AllPCsForFileLine_loop_first h2 h3 h4 (by rw [h5]; exact ha) A sm []
    (sm.buf.length + 1) hst hA (by omega)
  refine ⟨out, ?_⟩
  simp only [DebugLineInfo.AllPCsForFileLine, hsm]
  rw [ho, h5]
  rfl

/-- On `tableTwoFiles` line 4 of `a.go` has its first valid row at address 1, and the one
state on that line that is not a row comes later.  `LineToPC` returns 1 and
`AllPCsForFileLine` returns a list that starts with 1. -/
theorem LineToPC_is_first_of_AllPCsForFileLine_witness :
    tableView stdDecoders tableTwoFiles =
      .ok [(1, "a.go", 3, true), (1, "a.go", 4, true), (1, "b.go", 4, false),
           (1, "b.go", 4, true), (1, "a.go", 4, false), (2, "a.go", 3, true)] ∧
    DebugLineInfo.LineToPC stdDecoders (some tableTwoFiles) "a.go" 4 = .ok 1 ∧
    ∃ out, DebugLineInfo.AllPCsForFileLine stdDecoders (some tableTwoFiles) "a.go" 4 =
      .ok (1 :: out) := by
  refine ⟨by decide, by decide, ?_⟩
  have hrows : table stdDecoders tableTwoFiles =
      .ok (tableRows stdDecoders tableTwoFiles, tableLast stdDecoders tableTwoFiles) := by
    decide
  refine LineToPC_is_first_of_AllPCsForFileLine stdDecoders tableTwoFiles "a.go" 4 _ _ 1 hrows
    ?_ (by decide) (by decide)
  intro A x B hsplit hf hl _ hv
  have hlen : (tableRows stdDecoders tableTwoFiles).length = 6 := by decide
  have hidx : ∀ i < 6,
      ((tableRows stdDecoders tableTwoFiles).getD i (zeroMachine tableTwoFiles)).file = "a.go" →
      ((tableRows stdDecoders tableTwoFiles).getD i (zeroMachine tableTwoFiles)).line = 4 →
      ((tableRows stdDecoders tableTwoFiles).getD i (zeroMachine tableTwoFiles)).valid = false →
      2 ≤ i := by decide
  have hy : ((tableRows stdDecoders tableTwoFiles).getD 1 (zeroMachine tableTwoFiles)).valid =
        true ∧
      ((tableRows stdDecoders tableTwoFiles).getD 1 (zeroMachine tableTwoFiles)).file = "a.go" ∧
      ((tableRows stdDecoders tableTwoFiles).getD 1 (zeroMachine tableTwoFiles)).line = 4 := by
    decide
  have hA : A.length < 6 := by
    have := congrArg List.length hsplit
    rw [hlen] at this
    simp at this
    omega
  have hx : (tableRows stdDecoders tableTwoFiles).getD A.length (zeroMachine tableTwoFiles) =
      x := by
    rw [hsplit, List.getD_eq_getElem?_getD, List.getElem?_append_right (le_refl _)]
    simp
  rw [← hx] at hf hl hv
  have h2 : 2 ≤ A.length := hidx A.length hA hf hl hv
  have h1 : (tableRows stdDecoders tableTwoFiles).getD 1 (zeroMachine tableTwoFiles) =
      A.get ⟨1, by omega⟩ := by
    rw [hsplit, List.getD_eq_getElem?_getD, List.getElem?_append_left (by omega),
      List.getElem?_eq_getElem (by omega)]
    rfl
  rw [h1] at hy
  exact ⟨_, List.get_mem _ _ _, hy⟩

/-- C33. `AllPCsForFileLine` misses a row that `LineToPC` finds.  The program of
`tableInvalidFirst` advances the address to 5 before its only row, `(5, a.go, 1)`.
`LineToPC("a.go", 1)` returns 5, and `AllPCsForFileLine("a.go", 1)` returns the empty list:
the state at address 5 that is not a row enters the block of line 1, the test `if sm.valid`
keeps its address out of the list, and the inner loop, which runs while the line stays the
same, takes the row with it. -/
theorem AllPCsForFileLine_misses_row_after_invalid_state :
    tableView stdDecoders tableInvalidFirst =
      .ok [(5, "a.go", 1, false), (5, "a.go", 1, true)] ∧
    DebugLineInfo.LineToPC stdDecoders (some tableInvalidFirst) "a.go" 1 = .ok 5 ∧
    DebugLineInfo.AllPCsForFileLine stdDecoders (some tableInvalidFirst) "a.go" 1 = .ok [] := by
  refine ⟨by decide, by decide, by decide⟩

/-! ## `PCToLine` and its caches -/

/-- The choice of the machine keeps the parked machine of `basePC` what it is on empty
caches: the machine that a fresh machine becomes by `PCToLine(basePC)`. -/
theorem pick_keeps_parked {dec : Decoders} {lineInfo : DebugLineInfo}
    {caches caches2 : MachineCaches} {basePC pc : Nat} {m : StateMachine}
    (hcanon : ∀ sm, caches.stateMachineCache basePC = some sm →
      ∃ sm0 x, newStateMachine lineInfo lineInfo.Instructions = some sm0 ∧
        sm0.PCToLine dec basePC = .ok (x, sm))
    (h : DebugLineInfo.PCToLine.pick dec lineInfo caches basePC pc = .ok (m, caches2)) :
    ∀ sm, caches2.stateMachineCache basePC = some sm →
      ∃ sm0 x, newStateMachine lineInfo lineInfo.Instructions = some sm0 ∧
        sm0.PCToLine dec basePC = .ok (x, sm) := by
  have hfresh : ∀ (m : StateMachine) (caches2 : MachineCaches),
      (match caches.stateMachineCache basePC with
        | some sm =>
          Outcome.ok (sm.copy,
            { caches with lastMachineCache := mapSet caches.lastMachineCache basePC sm.copy })
        | none =>
          match newStateMachine lineInfo lineInfo.Instructions with
          | none => .panic
          | some sm =>
            match sm.PCToLine dec basePC with
            | .panic => .panic
            | .fuel => .fuel
            | .ok (_, sm) =>
              .ok (sm.copy, { stateMachineCache := mapSet caches.stateMachineCache basePC sm
                              lastMachineCache :=
                                mapSet caches.lastMachineCache basePC sm.copy })) =
        .ok (m, caches2) →
      ∀ sm, caches2.stateMachineCache basePC = some sm →
        ∃ sm0 x, newStateMachine lineInfo lineInfo.Instructions = some sm0 ∧
          sm0.PCToLine dec basePC = .ok (x, sm) := by
    intro m caches2 h
    split at h
    · simp only [Outcome.ok.injEq, Prod.mk.injEq] at h
      rw [← h.2]
      exact hcanon
    · split at h
      · exact Outcome.noConfusion h
      · rename_i sm0 hsm0
        split at h
        · exact Outcome.noConfusion h
        · exact Outcome.noConfusion h
        · rename_i x sm1 hp
          simp only [Outcome.ok.injEq, Prod.mk.injEq] at h
          rw [← h.2]
          intro sm hsm
          simp only [mapSet, if_true, Option.some.injEq] at hsm
          rw [← hsm]
          exact ⟨sm0, x, hsm0, hp⟩
  unfold DebugLineInfo.PCToLine.pick at h
  simp only at h
  split at h
  · exact hfresh m caches2 h
  · split at h
    · exact hfresh m caches2 h
    · simp only [Outcome.ok.injEq, Prod.mk.injEq] at h
      rw [← h.2]
      exact hcanon

/-- A lookup keeps the parked machine of `basePC` what it is on empty caches. -/
theorem PCToLine_keeps_parked {dec : Decoders} {lineInfo : DebugLineInfo}
    {caches caches2 : MachineCaches} {basePC pc : Nat} {r : String × Int}
    (hcanon : ∀ sm, caches.stateMachineCache basePC = some sm →
      ∃ sm0 x, newStateMachine lineInfo lineInfo.Instructions = some sm0 ∧
        sm0.PCToLine dec basePC = .ok (x, sm))
    (h : DebugLineInfo.PCToLine dec (some lineInfo) caches basePC pc = .ok (r, caches2)) :
    ∀ sm, caches2.stateMachineCache basePC = some sm →
      ∃ sm0 x, newStateMachine lineInfo lineInfo.Instructions = some sm0 ∧
        sm0.PCToLine dec basePC = .ok (x, sm) := by
  unfold DebugLineInfo.PCToLine at h
  simp only at h
  by_cases h1 : basePC > pc
  · rw [if_pos h1] at h
    exact Outcome.noConfusion h
  · rw [if_neg h1] at h
    by_cases h2 : basePC = 0
    · rw [if_pos h2] at h
      split at h
      · exact Outcome.noConfusion h
      · split at h
        · exact Outcome.noConfusion h
        · exact Outcome.noConfusion h
        · simp only [Outcome.ok.injEq, Prod.mk.injEq] at h
          rw [← h.2]
          exact hcanon
    · rw [if_neg h2] at h
      split at h
      · exact Outcome.noConfusion h
      · exact Outcome.noConfusion h
      · rename_i m c1 hp
        have hc1 := pick_keeps_parked hcanon hp
        split at h
        · exact Outcome.noConfusion h
        · exact Outcome.noConfusion h
        · simp only [Outcome.ok.injEq, Prod.mk.injEq] at h
          rw [← h.2]
          exact hc1

/-- After any lookups with `basePC`, started on empty caches, the parked machine of `basePC`
is the one of empty caches. -/
theorem cachesAfter_parked (dec : Decoders) (lineInfo : DebugLineInfo) (basePC : Nat) :
    ∀ (pcs : List Nat) (caches caches2 : MachineCaches),
      (∀ sm, caches.stateMachineCache basePC = some sm →
        ∃ sm0 x, newStateMachine lineInfo lineInfo.Instructions = some sm0 ∧
          sm0.PCToLine dec basePC = .ok (x, sm)) →
      cachesAfter dec lineInfo basePC pcs caches = .ok caches2 →
      ∀ sm, caches2.stateMachineCache basePC = some sm →
        ∃ sm0 x, newStateMachine lineInfo lineInfo.Instructions = some sm0 ∧
          sm0.PCToLine dec basePC = .ok (x, sm) := by
  intro pcs
  induction pcs with
  | nil =>
    intro caches caches2 hc h
    simp only [cachesAfter, Outcome.ok.injEq] at h
    rw [← h]
    exact hc
  | cons pc pcs ih =>
    intro caches caches2 hc h
    rw [cachesAfter] at h
    split at h
    · exact Outcome.noConfusion h
    · exact Outcome.noConfusion h
    · rename_i r c1 hp
      exact ih c1 caches2 (PCToLine_keeps_parked hc hp) h

/-- A lookup that is answered by a fresh clone of the parked machine returns what it returns
on empty caches. -/
theorem PCToLine_fresh_clone {dec : Decoders} {lineInfo : DebugLineInfo}
    {caches : MachineCaches} {basePC pc : Nat}
    (hcanon : ∀ sm, caches.stateMachineCache basePC = some sm →
      ∃ sm0 x, newStateMachine lineInfo lineInfo.Instructions = some sm0 ∧
        sm0.PCToLine dec basePC = .ok (x, sm))
    (hfresh : caches.lastMachineCache basePC = none ∨
      ∃ sm, caches.lastMachineCache basePC = some sm ∧ sm.lastAddress > pc) :
    (DebugLineInfo.PCToLine dec (some lineInfo) caches basePC pc).map (fun r => r.1) =
      (DebugLineInfo.PCToLine dec (some lineInfo) noCaches basePC pc).map (fun r => r.1) := by
  have hpick : (DebugLineInfo.PCToLine.pick dec lineInfo caches basePC pc).map (fun r => r.1) =
      (DebugLineInfo.PCToLine.pick dec lineInfo noCaches basePC pc).map (fun r => r.1) := by
    have hl : DebugLineInfo.PCToLine.pick dec lineInfo noCaches basePC pc =
        match newStateMachine lineInfo lineInfo.Instructions with
        | none => .panic
        | some sm =>
          match sm.PCToLine dec basePC with
          | .panic => .panic
          | .fuel => .fuel
          | .ok (_, sm) =>
            .ok (sm.copy, { stateMachineCache := mapSet noCaches.stateMachineCache basePC sm
                            lastMachineCache :=
                              mapSet noCaches.lastMachineCache basePC sm.copy }) := rfl
    have hf : (DebugLineInfo.PCToLine.pick dec lineInfo caches basePC pc) =
        match caches.stateMachineCache basePC with
        | some sm =>
          Outcome.ok (sm.copy,
            { caches with lastMachineCache := mapSet caches.lastMachineCache basePC sm.copy })
        | none =>
          match newStateMachine lineInfo lineInfo.Instructions with
          | none => .panic
          | some sm =>
            match sm.PCToLine dec basePC with
            | .panic => .panic
            | .fuel => .fuel
            | .ok (_, sm) =>
              .ok (sm.copy, { stateMachineCache := mapSet caches.stateMachineCache basePC sm
                              lastMachineCache :=
                                mapSet caches.lastMachineCache basePC sm.copy }) := by
      unfold DebugLineInfo.PCToLine.pick
      simp only
      rcases hfresh with h | ⟨sm, h, hgt⟩
      · rw [h]
        try rfl
      · rw [h]
        exact if_pos hgt
    rw [hf, hl]
    cases hs : caches.stateMachineCache basePC with
    | none =>
      simp only
      cases newStateMachine lineInfo lineInfo.Instructions with
      | none => rfl
      | some sm0 =>
        simp only
        cases sm0.PCToLine dec basePC with
        | panic => rfl
        | fuel => rfl
        | ok r => rfl
    | some sm =>
      obtain ⟨sm0, x, h1, h2⟩ := hcanon sm hs
      simp only [h1, h2]
      rfl
  unfold DebugLineInfo.PCToLine
  simp only
  by_cases h1 : basePC > pc
  · rw [if_pos h1, if_pos h1]
  · rw [if_neg h1, if_neg h1]
    by_cases h2 : basePC = 0
    · rw [if_pos h2, if_pos h2]
      cases newStateMachine lineInfo lineInfo.Instructions with
      | none => rfl
      | some sm0 =>
        simp only
        cases sm0.PCToLine dec pc with
        | panic => rfl
        | fuel => rfl
        | ok r => rfl
    · rw [if_neg h2, if_neg h2]
      cases ha : DebugLineInfo.PCToLine.pick dec lineInfo caches basePC pc with
      | panic =>
        rw [ha] at hpick
        cases hb : DebugLineInfo.PCToLine.pick dec lineInfo noCaches basePC pc with
        | panic => rfl
        | fuel => rw [hb] at hpick; exact Outcome.noConfusion hpick
        | ok r => rw [hb] at hpick; exact Outcome.noConfusion hpick
      | fuel =>
        rw [ha] at hpick
        cases hb : DebugLineInfo.PCToLine.pick dec lineInfo noCaches basePC pc with
        | panic => rw [hb] at hpick; exact Outcome.noConfusion hpick
        | fuel => rfl
        | ok r => rw [hb] at hpick; exact Outcome.noConfusion hpick
      | ok ra =>
        rw [ha] at hpick
        cases hb : DebugLineInfo.PCToLine.pick dec lineInfo noCaches basePC pc with
        | panic => rw [hb] at hpick; exact Outcome.noConfusion hpick
        | fuel => rw [hb] at hpick; exact Outcome.noConfusion hpick
        | ok rb =>
          rw [hb] at hpick
          simp only [Outcome.map, Outcome.ok.injEq] at hpick
          obtain ⟨ma, ca⟩ := ra
          obtain ⟨mb, cb⟩ := rb
          simp only at hpick
          subst hpick
          simp only
          cases ma.PCToLine dec pc with
          | panic => rfl
          | fuel => rfl
          | ok r => rfl

/-- The half of the transparency of the caches that holds: after any earlier lookups with the
same non-zero `basePC`, a lookup that is answered by a fresh clone of the parked machine (no
last-used machine, or one whose `lastAddress` is above `pc`) returns what it returns with
empty caches. -/
theorem fresh_clone_is_transparent (dec : Decoders) (lineInfo : DebugLineInfo)
    (basePC pc : Nat) (pcs : List Nat) (caches : MachineCaches)
    (hc : cachesAfter dec lineInfo basePC pcs noCaches = .ok caches)
    (hfresh : caches.lastMachineCache basePC = none ∨
      ∃ sm, caches.lastMachineCache basePC = some sm ∧ sm.lastAddress > pc) :
    answerAfter dec lineInfo basePC pcs pc = answerAfter dec lineInfo basePC [] pc := by
  have hcanon := cachesAfter_parked dec lineInfo basePC pcs noCaches caches
    (by intro sm h; exact Option.noConfusion h) hc
  unfold answerAfter
  rw [hc]
  simp only [cachesAfter]
  exact PCToLine_fresh_clone hcanon hfresh

/-- C34. The answer of `PCToLine` depends on the earlier lookups.  In `tableTwoRowsAtTwo` the
address 2 has a row on line 4 followed by a row on line 5.  With empty caches
`PCToLine(1, 2)` returns line 4.  After the lookup `PCToLine(1, 3)` the last-used machine of
`basePC = 1` stands on the row at address 3 and its `lastAddress` is 2, so it is not taken to
be past `pc = 2` and is used again: `PCToLine(1, 2)` now returns line 5.  The lookup of
address 3 itself gives line 5 in both cases. -/
theorem cached_last_machine_changes_answer :
    tableView stdDecoders tableTwoRowsAtTwo =
      .ok [(1, "a.go", 3, true), (2, "a.go", 4, true), (2, "a.go", 5, true),
           (3, "a.go", 5, true)] ∧
    answerAfter stdDecoders tableTwoRowsAtTwo 1 [] 2 = .ok ("a.go", 4) ∧
    answerAfter stdDecoders tableTwoRowsAtTwo 1 [3] 2 = .ok ("a.go", 5) ∧
    answerAfter stdDecoders tableTwoRowsAtTwo 1 [] 3 = .ok ("a.go", 5) ∧
    answerAfter stdDecoders tableTwoRowsAtTwo 1 [3] 3 = .ok ("a.go", 5) ∧
    (match cachesAfter stdDecoders tableTwoRowsAtTwo 1 [3] noCaches with
      | .ok caches => (caches.lastMachineCache 1).map (fun sm => (sm.lastAddress, rowView sm))
      | _ => none) = some (2, 3, "a.go", 5, true) := by
  refine ⟨by decide, by decide, by decide, by decide, by decide, by decide⟩

/-! ## `DW_LNS_set_file` -/

/-- C37. `DW_LNS_set_file` never indexes out of range.  Let `DecodeULEB128` return the value
`v` (the file index is `i = v mod 2^64`) after `n` bytes, and let the two file tables together
have fewer than `2^64` entries.  Then `setfile` returns, having consumed the `n` bytes and
touched nothing but the file register, and the file is: the path of `FileNames[i-1]` when
`1 ≤ i ≤ len(FileNames)`; the path of `definedFiles[i-1-len(FileNames)]` when that index is
within the defined-file table; the empty name otherwise (also for `i = 0`). -/
theorem setfile_never_out_of_range (dec : Decoders) (sm : StateMachine) (v n : Nat)
    (hdec : dec.DecodeULEB128 sm.buf = some (v, n))
    (hlen : sm.dbl.FileNames.length + sm.definedFiles.length < 2 ^ 64) :
    ∃ s2, setfile dec sm = some s2 ∧ s2.buf = sm.buf.drop n ∧
      keptFields s2 = keptFields sm ∧ s2.line = sm.line ∧ s2.address = sm.address ∧
      s2.definedFiles = sm.definedFiles ∧
      (1 ≤ wrap64 v ∧ wrap64 v ≤ sm.dbl.FileNames.length →
        ∃ e, sm.dbl.FileNames.get? (wrap64 v - 1) = some e ∧ s2.file = e.Path) ∧
      (sm.dbl.FileNames.length < wrap64 v ∧
          wrap64 v ≤ sm.dbl.FileNames.length + sm.definedFiles.length →
        ∃ e, sm.definedFiles.get? (wrap64 v - 1 - sm.dbl.FileNames.length) = some e ∧
          s2.file = e.Path) ∧
      (wrap64 v = 0 ∨ sm.dbl.FileNames.length + sm.definedFiles.length < wrap64 v →
        s2.file = "") := by
  have hi : wrap64 v < 2 ^ 64 := Nat.mod_lt _ (by norm_num)
  generalize hiv : wrap64 v = i at hi
  have hread : readULEB dec sm = some (i, { sm with buf := sm.buf.drop n }) := by
    unfold readULEB
    rw [hdec]
    simp only [hiv]
  unfold setfile
  rw [hread]
  simp only
  by_cases h1 : wrap64 (i + (2 ^ 64 - 1)) < sm.dbl.FileNames.length
  · rw [if_pos h1]
    have hi1 : 1 ≤ i ∧ wrap64 (i + (2 ^ 64 - 1)) = i - 1 := by
      unfold wrap64 at h1 ⊢
      omega
    rw [hi1.2] at h1 ⊢
    cases hg : sm.dbl.FileNames.get? (i - 1) with
    | none =>
      have := List.get?_eq_none.mp hg
      omega
    | some e =>
      refine ⟨_, rfl, rfl, rfl, rfl, rfl, rfl, fun _ => ⟨e, rfl, rfl⟩, fun h => ?_, fun h => ?_⟩
      · omega
      · omega
  · rw [if_neg h1]
    by_cases h2 : wrap64 (wrap64 (i + (2 ^ 64 - 1)) +
        (2 ^ 64 - sm.dbl.FileNames.length % 2 ^ 64)) < sm.definedFiles.length
    · rw [if_pos h2]
      have hj : sm.dbl.FileNames.length < i ∧
          wrap64 (wrap64 (i + (2 ^ 64 - 1)) + (2 ^ 64 - sm.dbl.FileNames.length % 2 ^ 64)) =
            i - 1 - sm.dbl.FileNames.length := by
        unfold wrap64 at h1 h2 ⊢
        omega
      rw [hj.2] at h2 ⊢
      cases hg : sm.definedFiles.get? (i - 1 - sm.dbl.FileNames.length) with
      | none =>
        have := List.get?_eq_none.mp hg
        omega
      | some e =>
        refine ⟨_, rfl, rfl, rfl, rfl, rfl, rfl, fun h => ?_, fun _ => ⟨e, rfl, rfl⟩,
          fun h => ?_⟩
        · omega
        · omega
    · rw [if_neg h2]
      refine ⟨_, rfl, rfl, rfl, rfl, rfl, rfl, fun h => ?_, fun h => ?_, fun _ => rfl⟩
      · unfold wrap64 at h1 h2
        omega
      · unfold wrap64 at h1 h2
        omega

/-- C37, witness: the machine after the `define_file` of `tableDefineFile` has the two files
`a.go`, `b.go` of the prologue and the defined file `c`.  With the operand 3 `setfile` selects
the defined file numbered 0, that is `c`. -/
theorem setfile_never_out_of_range_witness :
    (stateAfter stdDecoders tableDefineFile 1).definedFiles.map (fun e => e.Path) = ["c"] ∧
    ∃ s2, setfile stdDecoders { stateAfter stdDecoders tableDefineFile 1 with buf := [3] } =
        some s2 ∧ s2.buf = [] ∧ s2.file = "c" := by
  refine ⟨by decide, ?_⟩
  obtain ⟨s2, h1, h2, _, _, _, _, _, h8, _⟩ := setfile_never_out_of_range stdDecoders
    { stateAfter stdDecoders tableDefineFile 1 with buf := [3] } 3 1 (by decide) (by decide)
  obtain ⟨e, h9, h10⟩ := h8 (by decide)
  have h11 : (stateAfter stdDecoders tableDefineFile 1).definedFiles.get? 0 =
      some ⟨"c", 0, 0, 0⟩ := by decide
  have h12 : e = ⟨"c", 0, 0, 0⟩ := Option.some.inj (h9.symm.trans h11)
  exact ⟨s2, h1, h2, by rw [h10, h12]⟩

/-! ## `DW_LNS_const_add_pc` and the special opcode 255 -/

theorem nextPrepare_other_buf {sm s1 : StateMachine} {b1 : List Nat} (b2 : List Nat)
    (h : nextPrepare { sm with buf := b1 } = some s1) :
    nextPrepare { sm with buf := b2 } = some { s1 with buf := b2 } ∧ s1.dbl = sm.dbl ∧
      s1.address = sm.address := by
  unfold nextPrepare nextReset nextRemember at h ⊢
  cases hv : sm.valid <;> cases he : sm.endSeq <;>
    simp only [hv, he, if_true, if_false, Bool.false_eq_true, reduceIte] at h ⊢
  · simp only [Option.some.injEq] at h ⊢
    rw [← h]
    exact ⟨rfl, rfl, rfl⟩
  · cases hf : sm.dbl.FileNames with
    | nil => rw [hf] at h; cases h
    | cons f fs =>
      rw [hf] at h
      simp only [Option.some.injEq] at h ⊢
      rw [← h]
      exact ⟨rfl, rfl, rfl⟩
  · simp only [Option.some.injEq] at h ⊢
    rw [← h]
    exact ⟨rfl, rfl, rfl⟩
  · cases hf : sm.dbl.FileNames with
    | nil => rw [hf] at h; cases h
    | cons f fs =>
      rw [hf] at h
      simp only [Option.some.injEq] at h ⊢
      rw [← h]
      exact ⟨rfl, rfl, rfl⟩

/-- C38. `DW_LNS_const_add_pc` is the address part of special opcode 255.  For a machine whose
prologue has a non-zero `LineRange`, `constaddpc` and `execSpecialOpcode` with the opcode 255
both return and leave the same address, the address of the machine advanced by
`((255 - OpcodeBase) div LineRange) * MinInstrLength` in `uint8` and `uint64` arithmetic;
`constaddpc` leaves line, file and the `valid` flag as they are, the special opcode sets
`valid`.  As steps of `next` on the same machine, with the opcode byte 8 resp. 255 in front of
the same unread bytes, with `OpcodeBase` below 256 as a `uint8` is, and when the part of
`next` before the opcode does not panic, both return with the same address; the step of
`const_add_pc` leaves a state that is not a valid row, on the line and file the machine has
when the opcode is run (those of the machine before the step when it is not at an end of
sequence), and the step of the special opcode leaves a valid row. -/
theorem constaddpc_is_address_part_of_255 (sm : StateMachine)
    (hrange : sm.dbl.Prologue.LineRange ≠ 0) :
    (∃ s8 s255, constaddpc sm = some s8 ∧ execSpecialOpcode sm 255 = some s255 ∧
      s8.address = s255.address ∧
      s8.address = wrap64 (sm.address +
        (255 + (256 - sm.dbl.Prologue.OpcodeBase % 256)) % 256 / sm.dbl.Prologue.LineRange *
          sm.dbl.Prologue.MinInstrLength) ∧
      (sm.dbl.Prologue.OpcodeBase < 256 →
        s8.address = wrap64 (sm.address +
          (255 - sm.dbl.Prologue.OpcodeBase) / sm.dbl.Prologue.LineRange *
            sm.dbl.Prologue.MinInstrLength)) ∧
      s8.line = sm.line ∧ s8.file = sm.file ∧ s8.valid = sm.valid ∧ s8.buf = sm.buf ∧
      s255.valid = true) ∧
    (∀ (dec : Decoders) (rest : List Nat) (s1 : StateMachine),
      sm.dbl.Prologue.OpcodeBase < 256 →
      nextPrepare { sm with buf := 8 :: rest } = some s1 →
      ∃ r8 r255, next dec { sm with buf := 8 :: rest } = .ok r8 ∧
        next dec { sm with buf := 255 :: rest } = .ok r255 ∧
        r8.address = r255.address ∧ r8.buf = rest ∧ r255.buf = rest ∧
        r8.line = s1.line ∧ r8.file = s1.file ∧ r8.valid = false ∧ r255.valid = true ∧
        (sm.endSeq = false → r8.line = sm.line ∧ r8.file = sm.file)) := by
  have h8 : ∀ s : StateMachine, s.dbl = sm.dbl →
      ∃ s8, constaddpc s = some s8 ∧
        s8.address = wrap64 (s.address +
          (255 + (256 - sm.dbl.Prologue.OpcodeBase % 256)) % 256 / sm.dbl.Prologue.LineRange *
            sm.dbl.Prologue.MinInstrLength) ∧
        s8.line = s.line ∧ s8.file = s.file ∧ s8.valid = s.valid ∧ s8.buf = s.buf := by
    intro s hs
    have hr : ¬ s.dbl.Prologue.LineRange = 0 := by rw [hs]; exact hrange
    refine ⟨{ s with address := wrap64 (s.address +
      ((255 + (256 - s.dbl.Prologue.OpcodeBase % 256)) % 256 / s.dbl.Prologue.LineRange)
        * s.dbl.Prologue.MinInstrLength) },
      by unfold constaddpc; rw [if_neg hr], by rw [← hs], rfl, rfl, rfl, rfl⟩
  have h255 : ∀ s : StateMachine, s.dbl = sm.dbl →
      ∃ s255, execSpecialOpcode s 255 = some s255 ∧
        s255.address = wrap64 (s.address +
          (255 + (256 - sm.dbl.Prologue.OpcodeBase % 256)) % 256 / sm.dbl.Prologue.LineRange *
            sm.dbl.Prologue.MinInstrLength) ∧
        s255.valid = true ∧ s255.buf = s.buf := by
    intro s hs
    have hr : ¬ s.dbl.Prologue.LineRange = 0 := by rw [hs]; exact hrange
    have hex : ∃ s255, execSpecialOpcode s 255 = some s255 ∧
        s255.address = wrap64 (s.address +
          (255 + (256 - s.dbl.Prologue.OpcodeBase % 256)) % 256 / s.dbl.Prologue.LineRange *
            s.dbl.Prologue.MinInstrLength) ∧ s255.valid = true ∧ s255.buf = s.buf := by
      unfold execSpecialOpcode
      simp only
      rw [if_neg hr]
      exact ⟨_, rfl, rfl, rfl, rfl⟩
    rw [hs] at hex
    exact hex
  constructor
  · obtain ⟨s8, e8, a8, l8, f8, v8, b8⟩ := h8 sm rfl
    obtain ⟨s255, e255, a255, v255, _⟩ := h255 sm rfl
    refine ⟨s8, s255, e8, e255, by rw [a8, a255], a8, ?_, l8, f8, v8, b8, v255⟩
    intro hb
    have : (255 + (256 - sm.dbl.Prologue.OpcodeBase % 256)) % 256 =
        255 - sm.dbl.Prologue.OpcodeBase := by omega
    rw [a8, this]
  · intro dec rest s1 hbase hp
    obtain ⟨hp2, hdbl, haddr⟩ := nextPrepare_other_buf (255 :: rest) hp
    have hb1 : s1.buf = 8 :: rest := nextPrepare_buf hp
    obtain ⟨s8, e8, a8, l8, f8, v8, b8⟩ :=
      h8 { s1 with buf := rest, lastWasStandard := true, valid := false } hdbl
    obtain ⟨s255, e255, a255, v255, b255⟩ := h255 { s1 with buf := rest } hdbl
    have hd8 : nextDispatch dec 8 { s1 with buf := rest } = some s8 := by
      unfold nextDispatch
      rw [if_pos (by decide)]
      exact e8
    have hd255 : nextDispatch dec 255 { s1 with buf := rest } = some s255 := by
      have hlt : ¬ 255 < s1.dbl.Prologue.OpcodeBase := by rw [hdbl]; omega
      unfold nextDispatch
      rw [if_neg (by decide)]
      simp only
      rw [if_neg hlt]
      exact e255
    refine ⟨s8, s255, next_eq_ok_of hp hb1 hd8, next_eq_ok_of hp2 rfl hd255,
      by rw [a8, a255], b8, b255, l8, f8, v8, v255, ?_⟩
    intro he
    have hpl := @nextPrepare_plain { sm with buf := 8 :: rest } he
    rw [hpl] at hp
    simp only [Option.some.injEq] at hp
    have hr := nextRemember_regs { sm with buf := 8 :: rest }
    rw [l8, f8, ← hp]
    exact ⟨hr.2.2.1, hr.2.1⟩

/-- C38, witness: on the machine after the first row of `tableReentry` (address 1, line 3 of
`a.go`, `OpcodeBase = 10`, `LineRange = 10`, `MinInstrLength = 1`) both `constaddpc` and the
special opcode 255 move the address by `(255 - 10) / 10 = 24` to 25; `constaddpc` stays on
line 3. -/
theorem constaddpc_is_address_part_of_255_witness :
    rowView (stateAfter stdDecoders tableReentry 1) = (1, "a.go", 3, true) ∧
    ∃ s8 s255, constaddpc (stateAfter stdDecoders tableReentry 1) = some s8 ∧
      execSpecialOpcode (stateAfter stdDecoders tableReentry 1) 255 = some s255 ∧
      s8.address = 25 ∧ s255.address = 25 ∧ s8.line = 3 ∧ s8.file = "a.go" := by
  refine ⟨by decide, ?_⟩
  obtain ⟨⟨s8, s255, h1, h2, h3, h4, _, h6, h7, _⟩, _⟩ :=
    constaddpc_is_address_part_of_255 (stateAfter stdDecoders tableReentry 1) (by decide)
  have h8 : wrap64 ((stateAfter stdDecoders tableReentry 1).address +
      (255 + (256 - (stateAfter stdDecoders tableReentry 1).dbl.Prologue.OpcodeBase % 256)) % 256 /
        (stateAfter stdDecoders tableReentry 1).dbl.Prologue.LineRange *
        (stateAfter stdDecoders tableReentry 1).dbl.Prologue.MinInstrLength) = 25 := by decide
  have h9 : (stateAfter stdDecoders tableReentry 1).line = 3 := by decide
  have h10 : (stateAfter stdDecoders tableReentry 1).file = "a.go" := by decide
  exact ⟨s8, s255, h1, h2, by rw [h4, h8], by rw [← h3, h4, h8], by rw [h6, h9], by rw [h7, h10]⟩

end Line

namespace Proc

open Line (Outcome toInt64 wrap64)

/-! ## `stacktrace` -/

theorem toInt64_of_small {z : Int} (h0 : 0 ≤ z) (h1 : z < 2 ^ 63) : toInt64 z = z := by
  unfold toInt64
  omega

theorem nextN_succ {σ R : Type} (ops : IteratorOps σ R) (n : Nat) (it it1 : σ) (b : Bool)
    (h : ops.Next it = .ok (it1, b)) : nextN ops (n + 1) it = nextN ops n it1 := by
  simp only [nextN, h]

theorem yieldsAt_succ {σ R : Type} (ops : IteratorOps σ R) (j : Nat) (it it1 : σ) (b : Bool)
    (h : ops.Next it = .ok (it1, b)) (hy : YieldsAt ops it (j + 1)) : YieldsAt ops it1 j := by
  obtain ⟨s, s2, h1, h2⟩ := hy
  rw [nextN_succ ops j it it1 b h] at h1
  exact ⟨s, s2, h1, h2⟩

/-- The loop of `stacktrace` when no call of `Next` panics and no frame expands into inlined
frames: entered with fewer than `d` frames it leaves at most `d`, and exactly `d` after as
many calls of `Next` as frames were missing when each of these calls succeeds. -/
theorem stacktrace_loop_spec {σ R : Type} (ops : IteratorOps σ R) (depth : Int) (d : Nat)
    (hd : toInt64 (depth + 1) = d)
    (hret : ∀ s, ∃ r, ops.Next s = .ok r)
    (hinl : ∀ s frames,
      appendInlineCalls ops s frames (ops.Frame s) = some (frames ++ [ops.Frame s])) :
    ∀ (fuel : Nat) (it : σ) (frames : List (Stackframe R)),
      frames.length < d → d + 1 ≤ fuel + frames.length →
      ∃ it2 out, stacktrace.loop ops depth fuel it frames = .ok (it2, frames ++ out) ∧
        frames.length + out.length ≤ d ∧
        ((∀ j, j < d - frames.length → YieldsAt ops it j) →
          frames.length + out.length = d ∧ nextN ops (d - frames.length) it = .ok it2) := by
  intro fuel
  induction fuel with
  | zero => intro it frames h1 h2; omega
  | succ fuel ih =>
    intro it frames h1 h2
    simp only [stacktrace.loop]
    obtain ⟨⟨it1, b⟩, hn⟩ := hret it
    rw [hn]
    cases b with
    | false =>
      refine ⟨it1, [], by simp, by simp; omega, ?_⟩
      intro hy
      obtain ⟨s, s2, h3, h4⟩ := hy 0 (by omega)
      simp only [nextN, Outcome.ok.injEq] at h3
      subst h3
      rw [hn] at h4
      simp at h4
    | true =>
      simp only [hinl, hd]
      by_cases hc : ((frames ++ [ops.Frame it1]).length : Int) ≥ (d : Int)
      · rw [if_pos hc]
        simp only [List.length_append, List.length_singleton] at hc
        refine ⟨it1, [ops.Frame it1], rfl, by simp; omega, ?_⟩
        intro _
        have h3 : d - frames.length = 1 := by omega
        refine ⟨by simp; omega, ?_⟩
        rw [h3, nextN_succ ops 0 it it1 true hn]
        rfl
      · rw [if_neg hc]
        simp only [List.length_append, List.length_singleton] at hc
        obtain ⟨it2, out, h4, h5, h6⟩ := ih it1 (frames ++ [ops.Frame it1])
          (by simp; omega) (by simp; omega)
        simp only [List.length_append, List.length_singleton] at h5 h6
        refine ⟨it2, ops.Frame it1 :: out, ?_, by simp; omega, ?_⟩
        · rw [h4]
          simp
        · intro hy
          have h7 := h6 (fun j hj => yieldsAt_succ ops j it it1 true hn (hy (j + 1) (by omega)))
          refine ⟨by simp; omega, ?_⟩
          have h8 : d - frames.length = (d - (frames.length + 1)) + 1 := by omega
          rw [h8, nextN_succ ops _ it it1 true hn]
          exact h7.2

/-- C9. For every depth `0 ≤ depth` (with `depth + 1` an `int`), when no call of `Next`
panics and no frame expands into inlined frames, `stacktrace(depth)` returns; when the
iterator holds no error afterwards the returned error is nil and there are at most
`depth + 1` frames; when each of the first `depth + 1` calls of `Next` yields a frame there
are exactly `depth + 1` frames and the iterator has been advanced exactly `depth + 1`
times. -/
theorem stacktrace_stops_at_depth {σ R : Type} [Inhabited R] (ops : IteratorOps σ R) (it : σ)
    (depth : Int) (hd : 0 ≤ depth) (hmax : depth + 1 < 2 ^ 63)
    (hret : ∀ s, ∃ r, ops.Next s = .ok r)
    (hinl : ∀ s frames,
      appendInlineCalls ops s frames (ops.Frame s) = some (frames ++ [ops.Frame s])) :
    ∃ it2 frames err, stacktrace ops it depth = .ok ((frames, err), it2) ∧
      (ops.Err it2 = none →
        err = none ∧ (frames.length : Int) ≤ depth + 1 ∧
        ((∀ j : Nat, (j : Int) ≤ depth → YieldsAt ops it j) →
          (frames.length : Int) = depth + 1 ∧
            nextN ops (depth + 1).toNat it = .ok it2)) := by
  have h1 : toInt64 (depth + 1) = depth + 1 := toInt64_of_small (by omega) hmax
  have h2 : toInt64 (depth + 1) = ((depth + 1).toNat : Int) := by
    rw [h1]
    omega
  obtain ⟨it2, out, h3, h4, h5⟩ := stacktrace_loop_spec ops depth (depth + 1).toNat h2 hret hinl
    ((toInt64 (depth + 1)).toNat + 1) it [] (by simp; omega) (by rw [h1]; simp)
  simp only [List.nil_append, List.length_nil, Nat.zero_add, Nat.sub_zero] at h3 h4 h5
  have hnd : ¬ depth < 0 := by omega
  have hnn : ¬ toInt64 (depth + 1) < 0 := by rw [h1]; omega
  simp only [stacktrace, if_neg hnd, if_neg hnn, h3]
  cases he : ops.Err it2 with
  | some err =>
    simp only
    split_ifs
    · exact ⟨_, _, _, rfl, fun h => by rw [he] at h; simp at h⟩
    · exact ⟨_, _, _, rfl, fun h => by rw [he] at h; simp at h⟩
  | none =>
    refine ⟨it2, out, none, rfl, fun _ => ⟨rfl, by omega, ?_⟩⟩
    intro hy
    have h6 := h5 (fun j hj => hy j (by omega))
    exact ⟨by omega, h6.2⟩

/-- C9, witness: depth 2 on an iterator that can yield five frames. -/
theorem stacktrace_stops_at_depth_witness :
    (stacktrace (counterOps 5) 0 2).map (fun r => (r.1.1.map (·.Current.PC), r.1.2, r.2)) =
      .ok ([1, 2, 3], none, 3) ∧
    ∃ it2 frames err, stacktrace (counterOps 5) 0 2 = .ok ((frames, err), it2) ∧
      ((counterOps 5).Err it2 = none →
        err = none ∧ (frames.length : Int) ≤ 2 + 1 ∧
        ((∀ j : Nat, (j : Int) ≤ 2 → YieldsAt (counterOps 5) 0 j) →
          (frames.length : Int) = 2 + 1 ∧
            nextN (counterOps 5) (2 + 1 : Int).toNat 0 = .ok it2)) :=
  ⟨by decide,
    stacktrace_stops_at_depth (counterOps 5) 0 2 (by decide) (by decide)
      (fun s => ⟨_, rfl⟩) (fun _ _ => rfl)⟩

/-- C10. For every negative depth, whatever the iterator does, `stacktrace(depth)` returns no
frame and the error "negative maximum stack depth", and the iterator is as before the call:
`Next` has not been called and the depth has not been replaced by another. -/
theorem stacktrace_negative_depth {σ R : Type} [Inhabited R] (ops : IteratorOps σ R) (it : σ)
    (depth : Int) (hd : depth < 0) :
    stacktrace ops it depth = .ok (([], some Error.negativeDepth), it) := by
  simp only [stacktrace, if_pos hd]

/-- C10, witness: depth -1 on an iterator that could yield five frames. -/
theorem stacktrace_negative_depth_witness :
    stacktrace (counterOps 5) 0 (-1) = .ok (([], some Error.negativeDepth), 0) :=
  stacktrace_negative_depth (counterOps 5) 0 (-1) (by decide)

/-! ## The stack iterator -/

theorem advanceRegs_fields {env : StackEnv} {it ita : stackIterator} {cfr : DwarfRegisters}
    {ret retaddr : Nat} (h : advanceRegs env it = .ok (ita, cfr, ret, retaddr)) :
    ita.pc = it.pc ∧ ita.top = it.top ∧ ita.atend = it.atend ∧ ita.frame = it.frame ∧
    ita.stackhi = it.stackhi ∧ ita.systemstack = it.systemstack ∧
    ita.stackBarrierPC = it.stackBarrierPC ∧ ita.stkbar = it.stkbar ∧ ita.g = it.g ∧
    ita.g0_sched_sp = it.g0_sched_sp := by
  unfold advanceRegs at h
  simp only at h
  split at h
  · exact Outcome.noConfusion h
  · exact Outcome.noConfusion h
  · simp only [Outcome.ok.injEq, Prod.mk.injEq] at h
    obtain ⟨h1, -⟩ := h
    subst h1
    exact ⟨rfl, rfl, rfl, rfl, rfl, rfl, rfl, rfl, rfl, rfl⟩
  · split at h
    · exact Outcome.noConfusion h
    · exact Outcome.noConfusion h
    · simp only [Outcome.ok.injEq, Prod.mk.injEq] at h
      obtain ⟨h1, -⟩ := h
      subst h1
      exact ⟨rfl, rfl, rfl, rfl, rfl, rfl, rfl, rfl, rfl, rfl⟩

theorem newStackframe_fields (env : StackEnv) (it : stackIterator) (ret retaddr : Nat) :
    (newStackframe env it ret retaddr).1.pc = it.pc ∧
    (newStackframe env it ret retaddr).1.top = it.top ∧
    (newStackframe env it ret retaddr).1.atend = it.atend ∧
    (newStackframe env it ret retaddr).1.frame = it.frame ∧
    (newStackframe env it ret retaddr).1.stackhi = it.stackhi ∧
    (newStackframe env it ret retaddr).1.systemstack = it.systemstack ∧
    (newStackframe env it ret retaddr).1.stackBarrierPC = it.stackBarrierPC ∧
    (newStackframe env it ret retaddr).1.stkbar = it.stkbar ∧
    (newStackframe env it ret retaddr).1.g = it.g ∧
    (newStackframe env it ret retaddr).1.g0_sched_sp = it.g0_sched_sp := by
  unfold newStackframe
  simp only
  split_ifs <;> exact ⟨rfl, rfl, rfl, rfl, rfl, rfl, rfl, rfl, rfl, rfl⟩

/-- The frame that `newStackframe` builds: the empty frame, with a NULL address error, for a
null return address slot, and a frame at the program counter of the iterator, without error,
otherwise. -/
theorem newStackframe_frame (env : StackEnv) (it : stackIterator) (ret retaddr : Nat) :
    (newStackframe env it ret retaddr).2.Err = none ∧
    (retaddr = 0 → (newStackframe env it ret retaddr).2 = Stackframe.zero ∧
      (newStackframe env it ret retaddr).1.err = some .nullAddr) ∧
    (retaddr ≠ 0 → (newStackframe env it ret retaddr).2.Current.PC = it.pc ∧
      (newStackframe env it ret retaddr).2.Call.PC = it.pc ∧
      (newStackframe env it ret retaddr).2.Ret = ret ∧
      (newStackframe env it ret retaddr).1.err = it.err) := by
  unfold newStackframe
  simp only
  by_cases h0 : retaddr = 0
  · rw [if_pos h0]
    exact ⟨rfl, fun _ => ⟨rfl, rfl⟩, fun h => absurd h0 h⟩
  · rw [if_neg h0]
    refine ⟨?_, fun h => absurd h h0, fun _ => ?_⟩
    · split_ifs <;> rfl
    · split_ifs
      · refine ⟨?_, ?_, rfl, rfl⟩ <;> (split <;> rfl)
      · refine ⟨?_, ?_, rfl, rfl⟩
        · split <;> rfl
        · simp only
          split <;> rfl

theorem skipStackBarrier_fields {it it2 : stackIterator} (h : skipStackBarrier it = some it2) :
    it2.pc = it.pc ∧ it2.top = it.top ∧ it2.atend = it.atend ∧ it2.err = it.err ∧
    it2.systemstack = it.systemstack ∧ it2.regs = it.regs ∧
    it2.frame.Current = it.frame.Current ∧ it2.frame.Call = it.frame.Call ∧
    it2.frame.Err = it.frame.Err := by
  unfold skipStackBarrier at h
  split at h
  · simp only [Option.some.injEq] at h
    subst h
    exact ⟨rfl, rfl, rfl, rfl, rfl, rfl, rfl, rfl, rfl⟩
  · split_ifs at h
    · split at h
      · exact Option.noConfusion h
      · split_ifs at h
        · simp only [Option.some.injEq] at h
          subst h
          exact ⟨rfl, rfl, rfl, rfl, rfl, rfl, rfl, rfl, rfl⟩
        · simp only [Option.some.injEq] at h
          subst h
          exact ⟨rfl, rfl, rfl, rfl, rfl, rfl, rfl, rfl, rfl⟩
    · simp only [Option.some.injEq] at h
      subst h
      exact ⟨rfl, rfl, rfl, rfl, rfl, rfl, rfl, rfl, rfl⟩

/-- The ways `switchStack` returns.  Without a switch the iterator is as before but for the
stack pointer register; the switch at `runtime.asmcgocall` starts on the system stack and
leaves it; the switch at `runtime.cgocallback_gofunc` starts off the system stack and enters
it; a top of stack function sets `atend`. -/
theorem switchStack_cases {env : StackEnv} {it it2 : stackIterator} {k : SwitchKind}
    (h : switchStack env it = .ok (it2, k)) :
    (k = .none ∧ ∃ regs, it2 = { it with regs := regs }) ∨
    (k = .asmcgocall ∧ it.systemstack = true ∧ it.top = false ∧
      (∃ fn, it.frame.Current.Fn = some fn ∧ fn.Name = "runtime.asmcgocall") ∧
      ∃ regs addrret ret, it2 =
        { it with regs := regs, systemstack := false,
                  frame := { it.frame with addrret := addrret, Ret := ret },
                  pc := ret, top := false }) ∨
    (k = .cgocallback ∧ it.systemstack = false ∧ it.top = false ∧
      (∃ fn, it.frame.Current.Fn = some fn ∧ fn.Name = "runtime.cgocallback_gofunc") ∧
      it2.systemstack = true ∧ it2.top = false ∧ it2.atend = it.atend ∧ it2.frame = it.frame) ∨
    (k = .topOfStack ∧ it2 = { it with atend := true }) ∨
    (k = .runtime ∧ it.systemstack = true ∧ it.top = true ∧
      ∃ regs pc, it2 = { it with systemstack := false, top := false, pc := pc, regs := regs }) := by
  unfold switchStack at h
  split at h
  · simp only [Outcome.ok.injEq, Prod.mk.injEq] at h
    obtain ⟨h1, h2⟩ := h
    subst h1 h2
    exact Or.inl ⟨rfl, it.regs, rfl⟩
  · rename_i fn hfn
    by_cases hn1 : fn.Name = "runtime.asmcgocall"
    · rw [if_pos hn1] at h
      by_cases hc1 : it.top = true ∨ it.systemstack = false
      · rw [if_pos hc1] at h
        simp only [Outcome.ok.injEq, Prod.mk.injEq] at h
        obtain ⟨h1, h2⟩ := h
        subst h1 h2
        exact Or.inl ⟨rfl, it.regs, rfl⟩
      · rw [if_neg hc1] at h
        split at h
        · exact Outcome.noConfusion h
        · exact Outcome.noConfusion h
        · split at h
          · exact Outcome.noConfusion h
          · rename_i regs _
            by_cases hsp : regs.SP = it.regs.SP
            · rw [if_pos hsp] at h
              simp only [Outcome.ok.injEq, Prod.mk.injEq] at h
              obtain ⟨h1, h2⟩ := h
              subst h1 h2
              exact Or.inl ⟨rfl, _, rfl⟩
            · rw [if_neg hsp] at h
              split at h
              · exact Outcome.noConfusion h
              · exact Outcome.noConfusion h
              · simp only [Outcome.ok.injEq, Prod.mk.injEq] at h
                obtain ⟨h1, h2⟩ := h
                subst h1 h2
                have h3 : it.systemstack = true := by
                  cases hs : it.systemstack
                  · exact absurd (Or.inr hs) hc1
                  · rfl
                have h4 : it.top = false := by
                  cases ht : it.top
                  · rfl
                  · exact absurd (Or.inl ht) hc1
                exact Or.inr (Or.inl ⟨rfl, h3, h4, ⟨fn, hfn, hn1⟩, _, _, _, rfl⟩)
    · rw [if_neg hn1] at h
      by_cases hn2 : fn.Name = "runtime.cgocallback_gofunc"
      · rw [if_pos hn2] at h
        by_cases hc2 : it.top = true ∨ it.systemstack = true
        · rw [if_pos hc2] at h
          simp only [Outcome.ok.injEq, Prod.mk.injEq] at h
          obtain ⟨h1, h2⟩ := h
          subst h1 h2
          exact Or.inl ⟨rfl, it.regs, rfl⟩
        · rw [if_neg hc2] at h
          by_cases hc3 : it.g0_sched_sp ≤ 0
          · rw [if_pos hc3] at h
            simp only [Outcome.ok.injEq, Prod.mk.injEq] at h
            obtain ⟨h1, h2⟩ := h
            subst h1 h2
            exact Or.inl ⟨rfl, it.regs, rfl⟩
          · rw [if_neg hc3] at h
            split at h
            · exact Outcome.noConfusion h
            · split at h
              · exact Outcome.noConfusion h
              · exact Outcome.noConfusion h
              · split at h
                · exact Outcome.noConfusion h
                · exact Outcome.noConfusion h
                · rename_i it1 cfr ret retaddr ha
                  simp only [Outcome.ok.injEq, Prod.mk.injEq] at h
                  obtain ⟨h1, h2⟩ := h
                  subst h1 h2
                  have h3 : it.systemstack = false := by
                    cases hs : it.systemstack
                    · rfl
                    · exact absurd (Or.inr hs) hc2
                  have h4 : it.top = false := by
                    cases ht : it.top
                    · rfl
                    · exact absurd (Or.inl ht) hc2
                  have h5 := advanceRegs_fields ha
                  have h6 := newStackframe_fields env it1 ret retaddr
                  refine Or.inr (Or.inr (Or.inl ⟨rfl, h3, h4, ⟨fn, hfn, hn2⟩, rfl, ?_, ?_, ?_⟩))
                  · exact h6.2.1.trans h5.2.1
                  · exact h6.2.2.1.trans h5.2.2.1
                  · exact h6.2.2.2.1.trans h5.2.2.2.1
      · rw [if_neg hn2] at h
        by_cases hn3 : fn.Name = "runtime.goexit" ∨ fn.Name = "runtime.rt0_go" ∨
            fn.Name = "runtime.mcall"
        · rw [if_pos hn3] at h
          simp only [Outcome.ok.injEq, Prod.mk.injEq] at h
          obtain ⟨h1, h2⟩ := h
          subst h1 h2
          exact Or.inr (Or.inr (Or.inr (Or.inl ⟨rfl, rfl⟩)))
        · rw [if_neg hn3] at h
          split at h
          · simp only [Outcome.ok.injEq, Prod.mk.injEq] at h
            obtain ⟨h1, h2⟩ := h
            subst h1 h2
            exact Or.inl ⟨rfl, it.regs, rfl⟩
          · by_cases hc4 : it.systemstack = true ∧ it.top = true ∧
                ("runtime.".toList).isPrefixOf fn.Name.toList = true
            · rw [if_pos hc4] at h
              split at h
              · exact Outcome.noConfusion h
              · split at h
                · exact Outcome.noConfusion h
                · simp only [Outcome.ok.injEq, Prod.mk.injEq] at h
                  obtain ⟨h1, h2⟩ := h
                  subst h1 h2
                  exact Or.inr (Or.inr (Or.inr (Or.inr ⟨rfl, hc4.1, hc4.2.1, _, _, rfl⟩)))
            · rw [if_neg hc4] at h
              simp only [Outcome.ok.injEq, Prod.mk.injEq] at h
              obtain ⟨h1, h2⟩ := h
              subst h1 h2
              exact Or.inl ⟨rfl, it.regs, rfl⟩

/-- At a top of stack function `switchStack` sets `atend` and returns true. -/
theorem switchStack_topOfStack (env : StackEnv) (it : stackIterator) (fn : Function)
    (hfn : it.frame.Current.Fn = some fn) (hname : fn.Name ∈ topOfStackNames) :
    switchStack env it = .ok ({ it with atend := true }, .topOfStack) := by
  have h1 : fn.Name ≠ "runtime.asmcgocall" := by
    intro h
    rw [h] at hname
    revert hname
    decide
  have h2 : fn.Name ≠ "runtime.cgocallback_gofunc" := by
    intro h
    rw [h] at hname
    revert hname
    decide
  have h3 : fn.Name = "runtime.goexit" ∨ fn.Name = "runtime.rt0_go" ∨
      fn.Name = "runtime.mcall" := by
    simpa [topOfStackNames] using hname
  unfold switchStack
  rw [hfn]
  simp only [if_neg h1, if_neg h2, if_pos h3]

/-- At `runtime.asmcgocall`, off the system stack, `switchStack` does nothing. -/
theorem switchStack_asmcgocall_off (env : StackEnv) (it : stackIterator) (fn : Function)
    (hfn : it.frame.Current.Fn = some fn) (hname : fn.Name = "runtime.asmcgocall")
    (hs : it.systemstack = false) : switchStack env it = .ok (it, .none) := by
  unfold switchStack
  rw [hfn]
  simp only [if_pos hname, if_pos (Or.inr hs : it.top = true ∨ it.systemstack = false)]

/-- At `runtime.cgocallback_gofunc`, on the system stack, `switchStack` does nothing. -/
theorem switchStack_cgocallback_on (env : StackEnv) (it : stackIterator) (fn : Function)
    (hfn : it.frame.Current.Fn = some fn) (hname : fn.Name = "runtime.cgocallback_gofunc")
    (hs : it.systemstack = true) : switchStack env it = .ok (it, .none) := by
  have h1 : fn.Name ≠ "runtime.asmcgocall" := by
    rw [hname]
    decide
  unfold switchStack
  rw [hfn]
  simp only [if_neg h1, if_pos hname,
    if_pos (Or.inr hs : it.top = true ∨ it.systemstack = true)]

theorem switchStack_frame {env : StackEnv} {it it2 : stackIterator} {k : SwitchKind}
    (h : switchStack env it = .ok (it2, k)) :
    it2.frame.Current = it.frame.Current ∧ it2.frame.Call = it.frame.Call ∧
    it2.frame.Err = it.frame.Err ∧ (it2.top = true → it.top = true) ∧
    (k ≠ .cgocallback → it2.err = it.err) := by
  rcases switchStack_cases h with ⟨_, regs, h2⟩ | ⟨_, _, _, _, regs, a, r, h2⟩ |
    ⟨hk, _, h1, _, _, _, _, h2⟩ | ⟨_, h2⟩ | ⟨_, _, _, regs, pc, h2⟩
  · subst h2
    exact ⟨rfl, rfl, rfl, fun h => h, fun _ => rfl⟩
  · subst h2
    exact ⟨rfl, rfl, rfl, fun h => Bool.noConfusion h, fun _ => rfl⟩
  · rw [h2]
    exact ⟨rfl, rfl, rfl, fun h => by rw [‹it2.top = false›] at h; exact Bool.noConfusion h,
      fun h => absurd hk h⟩
  · subst h2
    exact ⟨rfl, rfl, rfl, fun h => h, fun _ => rfl⟩
  · subst h2
    exact ⟨rfl, rfl, rfl, fun h => Bool.noConfusion h, fun _ => rfl⟩

/-- The ways `Next` returns: false, on an iterator that holds an error or is at the end and
that it leaves as it is; or true, after `advanceRegs`, `newStackframe`, the stack barrier
fixup and `switchStack`. -/
theorem nextStep_cases {env : StackEnv} {it it4 : stackIterator} {k : StepKind}
    (h : nextStep env it = .ok (it4, k)) :
    (k = .stopped ∧ it4 = it ∧ (it.err ≠ none ∨ it.atend = true)) ∨
    (it.err = none ∧ it.atend = false ∧
      ∃ it1 cfr ret retaddr it2 it3 sk,
        advanceRegs env it = .ok (it1, cfr, ret, retaddr) ∧
        skipStackBarrier { (newStackframe env it1 ret retaddr).1 with
                           frame := (newStackframe env it1 ret retaddr).2 } = some it2 ∧
        switchStack env it2 = .ok (it3, sk) ∧
        ((sk ≠ .none ∧ k = .switched sk ∧ it4 = it3) ∨
         (sk = .none ∧ it3.frame.Ret ≤ 0 ∧ k = .atEnd ∧ it4 = { it3 with atend := true }) ∨
         (sk = .none ∧ ¬ it3.frame.Ret ≤ 0 ∧ k = .advanced ∧
           it4 = { it3 with top := false, pc := it3.frame.Ret, regs := cfr }))) := by
  unfold nextStep at h
  by_cases hc : it.err ≠ none ∨ it.atend = true
  · rw [if_pos hc] at h
    simp only [Outcome.ok.injEq, Prod.mk.injEq] at h
    obtain ⟨h1, h2⟩ := h
    subst h1 h2
    exact Or.inl ⟨rfl, rfl, hc⟩
  · rw [if_neg hc] at h
    have he : it.err = none := by
      by_contra hne
      exact hc (Or.inl hne)
    have ha : it.atend = false := by
      cases hat : it.atend
      · rfl
      · exact absurd (Or.inr hat) hc
    right
    refine ⟨he, ha, ?_⟩
    split at h
    · exact Outcome.noConfusion h
    · exact Outcome.noConfusion h
    · rename_i it1 cfr ret retaddr hadv
      split at h
      · exact Outcome.noConfusion h
      · rename_i it2 hskip
        split at h
        · exact Outcome.noConfusion h
        · exact Outcome.noConfusion h
        · rename_i it3 sk hsw
          refine ⟨it1, cfr, ret, retaddr, it2, it3, sk, hadv, hskip, hsw, ?_⟩
          by_cases hk : sk ≠ .none
          · rw [if_pos hk] at h
            simp only [Outcome.ok.injEq, Prod.mk.injEq] at h
            obtain ⟨h1, h2⟩ := h
            exact Or.inl ⟨hk, h2.symm, h1.symm⟩
          · rw [if_neg hk] at h
            have hk2 : sk = .none := by
              by_contra hne
              exact hk hne
            by_cases hr : it3.frame.Ret ≤ 0
            · rw [if_pos hr] at h
              simp only [Outcome.ok.injEq, Prod.mk.injEq] at h
              obtain ⟨h1, h2⟩ := h
              exact Or.inr (Or.inl ⟨hk2, hr, h2.symm, h1.symm⟩)
            · rw [if_neg hr] at h
              simp only [Outcome.ok.injEq, Prod.mk.injEq] at h
              obtain ⟨h1, h2⟩ := h
              exact Or.inr (Or.inr ⟨hk2, hr, h2.symm, h1.symm⟩)

/-- A call of `Next` that returns true leaves a frame without error at the iterator. -/
theorem nextStep_frame_err {env : StackEnv} {it it4 : stackIterator} {k : StepKind}
    (h : nextStep env it = .ok (it4, k)) (hk : k ≠ .stopped) : it4.frame.Err = none := by
  rcases nextStep_cases h with ⟨h1, _⟩ | ⟨_, _, it1, cfr, ret, retaddr, it2, it3, sk, _, hskip,
    hsw, hfin⟩
  · exact absurd h1 hk
  · have h2 := (skipStackBarrier_fields hskip).2.2.2.2.2.2.2.2
    have h3 := (switchStack_frame hsw).2.2.1
    have h4 := (newStackframe_frame env it1 ret retaddr).1
    have h5 : it3.frame.Err = none := by
      rw [h3, h2]
      exact h4
    rcases hfin with ⟨_, _, h6⟩ | ⟨_, _, _, h6⟩ | ⟨_, _, _, h6⟩
    · rw [h6]
      exact h5
    · rw [h6]
      exact h5
    · rw [h6]
      exact h5

/-- The flag `systemstack` across a call of `Next`: the switch at `runtime.asmcgocall` takes
it from true to false, the switch at `runtime.cgocallback_gofunc` from false to true, and a
call that does not switch to another stack leaves it as it is. -/
theorem nextStep_systemstack {env : StackEnv} {it it4 : stackIterator} {k : StepKind}
    (h : nextStep env it = .ok (it4, k)) :
    (k = .switched .asmcgocall → it.systemstack = true ∧ it4.systemstack = false) ∧
    (k = .switched .cgocallback → it.systemstack = false ∧ it4.systemstack = true) ∧
    (k ≠ .switched .asmcgocall → k ≠ .switched .cgocallback → k ≠ .switched .runtime →
      it4.systemstack = it.systemstack) := by
  rcases nextStep_cases h with ⟨hk, h1, _⟩ | ⟨_, _, it1, cfr, ret, retaddr, it2, it3, sk, hadv,
    hskip, hsw, hfin⟩
  · subst h1 hk
    exact ⟨fun h => StepKind.noConfusion h, fun h => StepKind.noConfusion h, fun _ _ _ => rfl⟩
  · have h2 : it2.systemstack = it.systemstack := by
      rw [(skipStackBarrier_fields hskip).2.2.2.2.1]
      exact (newStackframe_fields env it1 ret retaddr).2.2.2.2.2.1.trans
        (advanceRegs_fields hadv).2.2.2.2.2.1
    rcases switchStack_cases hsw with ⟨hs, regs, h3⟩ | ⟨hs, h4, _, _, regs, a, r, h3⟩ |
      ⟨hs, h4, _, _, h5, _, _, _⟩ | ⟨hs, h3⟩ | ⟨hs, _, _, regs, pc, h3⟩
    · have h6 : it3.systemstack = it.systemstack := by
        rw [h3]
        exact h2
      rcases hfin with ⟨h7, _, _⟩ | ⟨_, _, hk, h8⟩ | ⟨_, _, hk, h8⟩
      · exact absurd hs h7
      · subst hk h8
        exact ⟨fun h => StepKind.noConfusion h, fun h => StepKind.noConfusion h,
          fun _ _ _ => h6⟩
      · subst hk h8
        exact ⟨fun h => StepKind.noConfusion h, fun h => StepKind.noConfusion h,
          fun _ _ _ => h6⟩
    · have h6 : it3.systemstack = false := by
        rw [h3]
      rcases hfin with ⟨_, hk, h8⟩ | ⟨h7, _, _, _⟩ | ⟨h7, _, _, _⟩
      · subst hk h8 hs
        exact ⟨fun _ => ⟨h2 ▸ h4, h6⟩, fun h => (by cases h), fun h _ _ => absurd rfl h⟩
      · rw [hs] at h7
        exact SwitchKind.noConfusion h7
      · rw [hs] at h7
        exact SwitchKind.noConfusion h7
    · rcases hfin with ⟨_, hk, h8⟩ | ⟨h7, _, _, _⟩ | ⟨h7, _, _, _⟩
      · subst hk h8 hs
        exact ⟨fun h => (by cases h), fun _ => ⟨h2 ▸ h4, h5⟩, fun _ h _ => absurd rfl h⟩
      · rw [hs] at h7
        exact SwitchKind.noConfusion h7
      · rw [hs] at h7
        exact SwitchKind.noConfusion h7
    · have h6 : it3.systemstack = it.systemstack := by
        rw [h3]
        exact h2
      rcases hfin with ⟨_, hk, h8⟩ | ⟨h7, _, _, _⟩ | ⟨h7, _, _, _⟩
      · subst hk h8 hs
        exact ⟨fun h => (by cases h), fun h => (by cases h), fun _ _ _ => h6⟩
      · rw [hs] at h7
        exact SwitchKind.noConfusion h7
      · rw [hs] at h7
        exact SwitchKind.noConfusion h7
    · rcases hfin with ⟨_, hk, h8⟩ | ⟨h7, _, _, _⟩ | ⟨h7, _, _, _⟩
      · subst hk hs
        exact ⟨fun h => (by cases h), fun h => (by cases h), fun _ _ h => absurd rfl h⟩
      · rw [hs] at h7
        exact SwitchKind.noConfusion h7
      · rw [hs] at h7
        exact SwitchKind.noConfusion h7

theorem nextStep_stopped (env : StackEnv) (it : stackIterator)
    (h : it.err ≠ none ∨ it.atend = true) : nextStep env it = .ok (it, .stopped) := by
  unfold nextStep
  rw [if_pos h]

theorem Next_stopped (env : StackEnv) (it : stackIterator)
    (h : it.err ≠ none ∨ it.atend = true) : Next env it = .ok (it, false) := by
  unfold Next
  rw [nextStep_stopped env it h]
  rfl

theorem nextN_stopped (env : StackEnv) (inl : Nat → Nat → List InlineEntry)
    (it : stackIterator) (h : it.err ≠ none ∨ it.atend = true) :
    ∀ n, nextN (stackOps env inl) n it = .ok it := by
  intro n
  induction n with
  | zero => rfl
  | succ n ih =>
    have h1 : (stackOps env inl).Next it = .ok (it, false) := Next_stopped env it h
    rw [nextN_succ (stackOps env inl) n it it false h1]
    exact ih

/-- C12. After a call of `Next` that leaves a frame with return address 0 without having
switched to another stack, or a frame of `runtime.goexit`, `runtime.rt0_go` or
`runtime.mcall`, or an error in the iterator, every later call of `Next` returns false and
leaves the iterator, its frame included, exactly as it is. -/
theorem next_end_states_absorbing (env : StackEnv) (inl : Nat → Nat → List InlineEntry)
    (it it2 : stackIterator) (k : StepKind) (h : nextStep env it = .ok (it2, k))
    (hend : ((∀ s, k ≠ .switched s) ∧ it2.frame.Ret = 0) ∨
      (∃ fn, it2.frame.Current.Fn = some fn ∧ fn.Name ∈ topOfStackNames) ∨ it2.err ≠ none) :
    ∀ n, nextN (stackOps env inl) n it2 = .ok it2 ∧ Next env it2 = .ok (it2, false) := by
  have hstop : it2.err ≠ none ∨ it2.atend = true := by
    rcases nextStep_cases h with ⟨_, h1, h2⟩ | ⟨_, _, it1, cfr, ret, retaddr, ita, itb, sk, _,
      _, hsw, hfin⟩
    · rw [h1]
      exact h2
    · rcases hend with ⟨h3, h4⟩ | ⟨fn, h3, h4⟩ | h3
      · rcases hfin with ⟨_, h5, _⟩ | ⟨_, _, _, h5⟩ | ⟨_, h6, _, h5⟩
        · exact absurd h5 (h3 sk)
        · rw [h5]
          exact Or.inr rfl
        · rw [h5] at h4
          exact absurd (Nat.le_of_eq h4) h6
      · have h5 : itb.frame.Current = ita.frame.Current := (switchStack_frame hsw).1
        have h6 : it2.frame.Current = ita.frame.Current := by
          rcases hfin with ⟨_, _, h7⟩ | ⟨_, _, _, h7⟩ | ⟨_, _, _, h7⟩
          · rw [h7]
            exact h5
          · rw [h7]
            exact h5
          · rw [h7]
            exact h5
        rw [h6] at h3
        have h8 := switchStack_topOfStack env ita fn h3 h4
        rw [h8] at hsw
        simp only [Outcome.ok.injEq, Prod.mk.injEq] at hsw
        obtain ⟨h9, h10⟩ := hsw
        rcases hfin with ⟨_, _, h7⟩ | ⟨h11, _, _, _⟩ | ⟨h11, _, _, _⟩
        · rw [h7, ← h9]
          exact Or.inr rfl
        · rw [← h10] at h11
          exact SwitchKind.noConfusion h11
        · rw [← h10] at h11
          exact SwitchKind.noConfusion h11
      · exact Or.inl h3
  intro n
  exact ⟨nextN_stopped env inl it2 hstop n, Next_stopped env it2 hstop⟩

/-- C12, witness: on a stack on which `main.f` was called from `runtime.goexit` the second
call of `Next` yields the frame of `runtime.goexit`; the calls after it change nothing. -/
theorem next_end_states_absorbing_witness :
    kinds (trace (exampleEnv memGoexit) 2 (exampleIterator 0x100 1000 0 false 0)) =
      [.advanced, .switched .topOfStack] ∧
    ∀ n, nextN (stackOps (exampleEnv memGoexit) (fun _ _ => [])) n
        (lastState (exampleIterator 0x100 1000 0 false 0)
          (trace (exampleEnv memGoexit) 2 (exampleIterator 0x100 1000 0 false 0))) =
        .ok (lastState (exampleIterator 0x100 1000 0 false 0)
          (trace (exampleEnv memGoexit) 2 (exampleIterator 0x100 1000 0 false 0))) ∧
      Next (exampleEnv memGoexit)
        (lastState (exampleIterator 0x100 1000 0 false 0)
          (trace (exampleEnv memGoexit) 2 (exampleIterator 0x100 1000 0 false 0))) =
        .ok (lastState (exampleIterator 0x100 1000 0 false 0)
          (trace (exampleEnv memGoexit) 2 (exampleIterator 0x100 1000 0 false 0)), false) :=
  ⟨by decide,
    next_end_states_absorbing (exampleEnv memGoexit) (fun _ _ => [])
      (lastState (exampleIterator 0x100 1000 0 false 0)
        (trace (exampleEnv memGoexit) 1 (exampleIterator 0x100 1000 0 false 0)))
      (lastState (exampleIterator 0x100 1000 0 false 0)
        (trace (exampleEnv memGoexit) 2 (exampleIterator 0x100 1000 0 false 0)))
      (.switched .topOfStack) (by decide)
      (Or.inr (Or.inl ⟨exampleFunction "runtime.goexit" 0x400, by decide, by decide⟩))⟩

/-- The frame after a call of `Next` that returns true: unless the call ends with a NULL
address error the frame is at the program counter the iterator had before the call; and the
first-frame flag is not set by the call. -/
theorem nextStep_frame_pc {env : StackEnv} {it it4 : stackIterator} {k : StepKind}
    (h : nextStep env it = .ok (it4, k)) (hk : k ≠ .stopped) :
    (it4.err ≠ some .nullAddr →
      it4.frame.Current.PC = it.pc ∧ it4.frame.Call.PC = it.pc) ∧
    (it4.top = true → it.top = true) := by
  rcases nextStep_cases h with ⟨h1, _⟩ | ⟨_, _, it1, cfr, ret, retaddr, it2, it3, sk, hadv,
    hskip, hsw, hfin⟩
  · exact absurd h1 hk
  · have hs := skipStackBarrier_fields hskip
    have hw := switchStack_frame hsw
    have hn := newStackframe_frame env it1 ret retaddr
    have hnf := newStackframe_fields env it1 ret retaddr
    have ha := advanceRegs_fields hadv
    have h1 : it4.frame.Current = it2.frame.Current ∧ it4.frame.Call = it2.frame.Call ∧
        (it4.top = true → it2.top = true) ∧ (sk ≠ .cgocallback → it4.err = it2.err) := by
      rcases hfin with ⟨_, _, h6⟩ | ⟨_, _, _, h6⟩ | ⟨_, _, _, h6⟩
      · rw [h6]
        exact ⟨hw.1, hw.2.1, hw.2.2.2.1, hw.2.2.2.2⟩
      · rw [h6]
        exact ⟨hw.1, hw.2.1, hw.2.2.2.1, hw.2.2.2.2⟩
      · rw [h6]
        exact ⟨hw.1, hw.2.1, fun h => Bool.noConfusion h, hw.2.2.2.2⟩
    have h2 : it2.top = it.top := by
      rw [hs.2.1]
      exact hnf.2.1.trans ha.2.1
    refine ⟨fun herr => ?_, fun ht => h2 ▸ h1.2.2.1 ht⟩
    by_cases h0 : retaddr = 0
    · exfalso
      have h3 := (hn.2.1 h0)
      have h4 : it2.err = some .nullAddr := by
        rw [hs.2.2.2.1]
        exact h3.2
      have h5 : it2.frame.Current.Fn = none := by
        rw [hs.2.2.2.2.2.2.1]
        show (newStackframe env it1 ret retaddr).2.Current.Fn = none
        rw [h3.1]
        rfl
      have h6 : sk ≠ .cgocallback := by
        intro hsk
        rcases switchStack_cases hsw with ⟨h7, _⟩ | ⟨h7, _⟩ | ⟨_, _, _, ⟨fn, h8, _⟩, _⟩ |
          ⟨h7, _⟩ | ⟨h7, _⟩
        · rw [hsk] at h7
          exact SwitchKind.noConfusion h7
        · rw [hsk] at h7
          exact SwitchKind.noConfusion h7
        · rw [h5] at h8
          exact Option.noConfusion h8
        · rw [hsk] at h7
          exact SwitchKind.noConfusion h7
        · rw [hsk] at h7
          exact SwitchKind.noConfusion h7
      exact herr ((h1.2.2.2 h6).trans h4)
    · have h3 := hn.2.2 h0
      have h4 : it1.pc = it.pc := ha.1
      constructor
      · rw [h1.1, hs.2.2.2.2.2.2.1]
        show (newStackframe env it1 ret retaddr).2.Current.PC = it.pc
        rw [h3.1, h4]
      · rw [h1.2.1, hs.2.2.2.2.2.2.2.1]
        show (newStackframe env it1 ret retaddr).2.Call.PC = it.pc
        rw [h3.2.1, h4]

/-- C13, amended. For two consecutive calls of `Next` that return true, the first of which
neither switched to another stack nor reached the end, the first call clears the first-frame
flag, the second leaves it cleared, and, unless the second call ends with a NULL address
error, the frame of the second call has `Current.PC` and `Call.PC` equal to the return
address `Ret` of the frame of the first call. -/
theorem frames_chain_through_ret (env : StackEnv) (it it1 it2 : stackIterator) (k2 : StepKind)
    (h1 : nextStep env it = .ok (it1, .advanced)) (h2 : nextStep env it1 = .ok (it2, k2))
    (hk : k2 ≠ .stopped) (herr : it2.err ≠ some Error.nullAddr) :
    it2.frame.Current.PC = it1.frame.Ret ∧ it2.frame.Call.PC = it1.frame.Ret ∧
    it1.top = false ∧ it2.top = false := by
  have h3 : it1.pc = it1.frame.Ret ∧ it1.top = false := by
    rcases nextStep_cases h1 with ⟨h4, _⟩ | ⟨_, _, _, _, _, _, _, itb, _, _, _, _, hfin⟩
    · exact StepKind.noConfusion h4
    · rcases hfin with ⟨_, h4, _⟩ | ⟨_, _, h4, _⟩ | ⟨_, _, _, h4⟩
      · exact StepKind.noConfusion h4
      · exact StepKind.noConfusion h4
      · rw [h4]
        exact ⟨rfl, rfl⟩
  have h5 := nextStep_frame_pc h2 hk
  have h6 := h5.1 herr
  refine ⟨h6.1.trans h3.1, h6.2.trans h3.1, h3.2, ?_⟩
  cases ht : it2.top
  · rfl
  · have := h5.2 ht
    rw [h3.2] at this
    exact Bool.noConfusion this

/-- C13, witness: the first two frames of a stack of `main.f`. -/
theorem frames_chain_through_ret_witness :
    (trace (exampleEnv memShortStack) 2 (exampleIterator 0x100 1000 0 false 0)).map
      (fun r => (r.1, r.2.frame.Current.PC, r.2.frame.Call.PC, r.2.frame.Ret, r.2.err)) =
      [(.advanced, 0x100, 0x100, 0x110, none), (.advanced, 0x110, 0x110, 0x120, none)] ∧
    (lastState (exampleIterator 0x100 1000 0 false 0)
      (trace (exampleEnv memShortStack) 2
        (exampleIterator 0x100 1000 0 false 0))).frame.Current.PC =
    (lastState (exampleIterator 0x100 1000 0 false 0)
      (trace (exampleEnv memShortStack) 1 (exampleIterator 0x100 1000 0 false 0))).frame.Ret :=
  ⟨by decide,
    (frames_chain_through_ret (exampleEnv memShortStack) (exampleIterator 0x100 1000 0 false 0)
      (lastState (exampleIterator 0x100 1000 0 false 0)
        (trace (exampleEnv memShortStack) 1 (exampleIterator 0x100 1000 0 false 0)))
      (lastState (exampleIterator 0x100 1000 0 false 0)
        (trace (exampleEnv memShortStack) 2 (exampleIterator 0x100 1000 0 false 0)))
      .advanced (by decide) (by decide) (by decide) (by decide)).1⟩

/-- C13, counterexample. On a stack on which `main.f` returns to an address without CFA rule,
the first two calls of `Next` both return true and no stack switch occurs, the first frame
has the return address 0x510, and the second frame is the empty frame: its `Current.PC` and
`Call.PC` are 0. -/
theorem frames_chain_broken_by_null_frame :
    (trace (exampleEnv memNoCFA) 2 (exampleIterator 0x100 1000 0 false 0)).map
      (fun r => (r.1, r.2.frame.Current.PC, r.2.frame.Call.PC, r.2.frame.Ret, r.2.err)) =
      [(.advanced, 0x100, 0x100, 0x510, none), (.atEnd, 0, 0, 0, some .nullAddr)] ∧
    (lastState (exampleIterator 0x100 1000 0 false 0)
      (trace (exampleEnv memNoCFA) 2 (exampleIterator 0x100 1000 0 false 0))).frame =
      Stackframe.zero := by
  decide

/-- A switch at `runtime.asmcgocall` or `runtime.cgocallback_gofunc` leaves the iterator at a
frame of that function. -/
theorem nextStep_switch_frame {env : StackEnv} {it it4 : stackIterator} {sk : SwitchKind}
    (h : nextStep env it = .ok (it4, .switched sk)) :
    (sk = .asmcgocall →
      ∃ fn, it4.frame.Current.Fn = some fn ∧ fn.Name = "runtime.asmcgocall") ∧
    (sk = .cgocallback →
      ∃ fn, it4.frame.Current.Fn = some fn ∧ fn.Name = "runtime.cgocallback_gofunc") := by
  rcases nextStep_cases h with ⟨h1, _⟩ | ⟨_, _, it1, cfr, ret, retaddr, it2, it3, sk2, _, _,
    hsw, hfin⟩
  · exact StepKind.noConfusion h1
  · rcases hfin with ⟨_, h1, h2⟩ | ⟨_, _, h1, _⟩ | ⟨_, _, h1, _⟩
    · simp only [StepKind.switched.injEq] at h1
      subst h1 h2
      have h3 := (switchStack_frame hsw).1
      rcases switchStack_cases hsw with ⟨h7, _⟩ | ⟨h7, _, _, ⟨fn, h8, h9⟩, _⟩ |
        ⟨h7, _, _, ⟨fn, h8, h9⟩, _⟩ | ⟨h7, _⟩ | ⟨h7, _⟩
      · subst h7
        exact ⟨fun h => SwitchKind.noConfusion h, fun h => SwitchKind.noConfusion h⟩
      · subst h7
        exact ⟨fun _ => ⟨fn, by rw [h3]; exact h8, h9⟩, fun h => SwitchKind.noConfusion h⟩
      · subst h7
        exact ⟨fun h => SwitchKind.noConfusion h, fun _ => ⟨fn, by rw [h3]; exact h8, h9⟩⟩
      · subst h7
        exact ⟨fun h => SwitchKind.noConfusion h, fun h => SwitchKind.noConfusion h⟩
      · subst h7
        exact ⟨fun h => SwitchKind.noConfusion h, fun h => SwitchKind.noConfusion h⟩
    · exact StepKind.noConfusion h1
    · exact StepKind.noConfusion h1

/-- The flag `systemstack` after the calls of a trace without a switch away from the system
stack at the top frame: it is flipped once for every switch at `runtime.asmcgocall` or at
`runtime.cgocallback_gofunc`. -/
theorem trace_systemstack (env : StackEnv) :
    ∀ (n : Nat) (it : stackIterator),
      StepKind.switched .runtime ∉ kinds (trace env n it) →
      (lastState it (trace env n it)).systemstack =
        if ((kinds (trace env n it)).count (.switched .asmcgocall) +
            (kinds (trace env n it)).count (.switched .cgocallback)) % 2 = 0
        then it.systemstack else !it.systemstack := by
  intro n
  induction n with
  | zero =>
    intro it _
    rfl
  | succ n ih =>
    intro it hrt
    unfold trace at hrt ⊢
    cases hn : nextStep env it with
    | panic => rfl
    | fuel => rfl
    | ok r =>
      obtain ⟨it1, k⟩ := r
      rw [hn] at hrt
      simp only [hn]
      simp only [kinds, List.map_cons, List.mem_cons, not_or] at hrt
      have h1 := ih it1 hrt.2
      have h2 := nextStep_systemstack hn
      simp only [kinds, List.map_cons, lastState] at h1 ⊢
      rw [h1]
      by_cases ha : k = .switched .asmcgocall
      · subst ha
        have h3 := h2.1 rfl
        have hne : StepKind.switched SwitchKind.cgocallback ≠
            StepKind.switched SwitchKind.asmcgocall := by decide
        simp only [List.count_cons_self, List.count_cons_of_ne hne, h3.1, h3.2]
        split_ifs <;> first | rfl | (exfalso; omega)
      · by_cases hc : k = .switched .cgocallback
        · subst hc
          have h3 := h2.2.1 rfl
          have hne : StepKind.switched SwitchKind.asmcgocall ≠
              StepKind.switched SwitchKind.cgocallback := by decide
          simp only [List.count_cons_self, List.count_cons_of_ne hne, h3.1, h3.2]
          split_ifs <;> first | rfl | (exfalso; omega)
        · have h3 := h2.2.2 ha hc (fun h => hrt.1 h.symm)
          simp only [List.count_cons_of_ne (fun h => ha h.symm),
            List.count_cons_of_ne (fun h => hc h.symm), h3]

/-- C14. Over any number of calls of `Next` among which exactly one switches stacks at
`runtime.asmcgocall`, exactly one at `runtime.cgocallback_gofunc`, in either order, and none
switches away from the system stack at the top frame, the flag `systemstack` is at the end
what it was at the start.  Each of the two switches happens at a frame of its function and
flips the flag, `runtime.asmcgocall` from true to false and `runtime.cgocallback_gofunc`
from false to true; at a frame of `runtime.asmcgocall` with the flag false, and at a frame of
`runtime.cgocallback_gofunc` with the flag true, `switchStack` returns false and leaves the
iterator as it is. -/
theorem stack_switch_symmetry (env : StackEnv) (it : stackIterator) (n : Nat)
    (hasm : (kinds (trace env n it)).count (.switched .asmcgocall) = 1)
    (hcgo : (kinds (trace env n it)).count (.switched .cgocallback) = 1)
    (hrt : StepKind.switched .runtime ∉ kinds (trace env n it)) :
    (lastState it (trace env n it)).systemstack = it.systemstack ∧
    (∀ a b, nextStep env a = .ok (b, .switched .asmcgocall) →
      a.systemstack = true ∧ b.systemstack = false ∧
      ∃ fn, b.frame.Current.Fn = some fn ∧ fn.Name = "runtime.asmcgocall") ∧
    (∀ a b, nextStep env a = .ok (b, .switched .cgocallback) →
      a.systemstack = false ∧ b.systemstack = true ∧
      ∃ fn, b.frame.Current.Fn = some fn ∧ fn.Name = "runtime.cgocallback_gofunc") ∧
    (∀ a fn, a.frame.Current.Fn = some fn → fn.Name = "runtime.asmcgocall" →
      a.systemstack = false → switchStack env a = .ok (a, .none)) ∧
    (∀ a fn, a.frame.Current.Fn = some fn → fn.Name = "runtime.cgocallback_gofunc" →
      a.systemstack = true → switchStack env a = .ok (a, .none)) := by
  refine ⟨?_, ?_, ?_, ?_, ?_⟩
  · rw [trace_systemstack env n it hrt, hasm, hcgo]
    rfl
  · intro a b h
    have h1 := (nextStep_systemstack h).1 rfl
    exact ⟨h1.1, h1.2, (nextStep_switch_frame h).1 rfl⟩
  · intro a b h
    have h1 := (nextStep_systemstack h).2.1 rfl
    exact ⟨h1.1, h1.2, (nextStep_switch_frame h).2 rfl⟩
  · exact fun a fn h1 h2 h3 => switchStack_asmcgocall_off env a fn h1 h2 h3
  · exact fun a fn h1 h2 h3 => switchStack_cgocallback_on env a fn h1 h2 h3

/-- C14, witness: a stack that crosses the boundary between C and Go twice, walked from the
system stack. -/
theorem stack_switch_symmetry_witness :
    (trace (exampleEnv memCgoStack) 4 (exampleIterator 0x50 1000 5000 true 2000)).map
      (fun r => (r.1, r.2.systemstack)) =
      [(.advanced, true), (.switched .asmcgocall, false), (.advanced, false),
        (.switched .cgocallback, true)] ∧
    (lastState (exampleIterator 0x50 1000 5000 true 2000)
      (trace (exampleEnv memCgoStack) 4
        (exampleIterator 0x50 1000 5000 true 2000))).systemstack = true :=
  ⟨by decide,
    (stack_switch_symmetry (exampleEnv memCgoStack) (exampleIterator 0x50 1000 5000 true 2000) 4
      (by decide) (by decide) (by decide)).1⟩

/-! ## `Next` returns or panics -/

theorem executeFrameRegRule_ne_fuel (env : StackEnv) (it : stackIterator) (regnum : Nat)
    (rule : DWRule) (cfa : Int) : executeFrameRegRule env it regnum rule cfa ≠ .fuel := by
  unfold executeFrameRegRule
  split <;> (try split) <;> (try split) <;> exact fun h => Outcome.noConfusion h

theorem advanceRegs_loop_ne_fuel (env : StackEnv) (it : stackIterator) (retAddrReg : Nat) :
    ∀ (rules : List (Nat × DWRule)) (st : Option Error × DwarfRegisters × Nat × Nat),
      advanceRegs.loop env it retAddrReg rules st ≠ .fuel := by
  intro rules
  induction rules with
  | nil =>
    intro st
    unfold advanceRegs.loop
    exact fun h => Outcome.noConfusion h
  | cons r rest ih =>
    intro st
    obtain ⟨i, regRule⟩ := r
    obtain ⟨err, cfr, ret, retaddr⟩ := st
    unfold advanceRegs.loop
    cases he : executeFrameRegRule env it i regRule it.regs.CFA with
    | panic => exact fun h => Outcome.noConfusion h
    | fuel => exact absurd he (executeFrameRegRule_ne_fuel env it i regRule it.regs.CFA)
    | ok x =>
      obtain ⟨reg, e⟩ := x
      simp only
      split_ifs
      · split
        · exact ih _
        · exact ih _
      · exact ih _

theorem advanceRegs_ne_fuel (env : StackEnv) (it : stackIterator) :
    advanceRegs env it ≠ .fuel := by
  unfold advanceRegs
  simp only
  split
  · exact fun h => Outcome.noConfusion h
  · rename_i he
    exact absurd he (executeFrameRegRule_ne_fuel env it _ _ _)
  · exact fun h => Outcome.noConfusion h
  · split
    · exact fun h => Outcome.noConfusion h
    · rename_i he
      exact absurd he (advanceRegs_loop_ne_fuel env _ _ _ _)
    · exact fun h => Outcome.noConfusion h

theorem readUintRaw_ne_fuel (mem : Memory) (addr : Nat) (size : Int) :
    readUintRaw mem addr size ≠ .fuel := by
  unfold readUintRaw
  by_cases h : size < 0
  · rw [if_pos h]
    exact fun h => Outcome.noConfusion h
  · rw [if_neg h]
    split <;> exact fun h => Outcome.noConfusion h

theorem readIntRaw_ne_fuel (mem : Memory) (addr : Nat) (size : Int) :
    readIntRaw mem addr size ≠ .fuel := by
  unfold readIntRaw
  by_cases h : size < 0
  · rw [if_pos h]
    exact fun h => Outcome.noConfusion h
  · rw [if_neg h]
    split <;> exact fun h => Outcome.noConfusion h

theorem switchStack_ne_fuel (env : StackEnv) (it : stackIterator) :
    switchStack env it ≠ .fuel := by
  unfold switchStack
  split
  · exact fun h => Outcome.noConfusion h
  · rename_i fn hfn
    by_cases hn1 : fn.Name = "runtime.asmcgocall"
    · rw [if_pos hn1]
      by_cases hc1 : it.top = true ∨ it.systemstack = false
      · rw [if_pos hc1]
        exact fun h => Outcome.noConfusion h
      · rw [if_neg hc1]
        split
        · exact fun h => Outcome.noConfusion h
        · rename_i he
          exact absurd he (readIntRaw_ne_fuel _ _ _)
        · split
          · exact fun h => Outcome.noConfusion h
          · rename_i regs _
            by_cases hsp : regs.SP = it.regs.SP
            · rw [if_pos hsp]
              exact fun h => Outcome.noConfusion h
            · rw [if_neg hsp]
              split
              · exact fun h => Outcome.noConfusion h
              · rename_i he
                exact absurd he (readUintRaw_ne_fuel _ _ _)
              · exact fun h => Outcome.noConfusion h
    · rw [if_neg hn1]
      by_cases hn2 : fn.Name = "runtime.cgocallback_gofunc"
      · rw [if_pos hn2]
        by_cases hc2 : it.top = true ∨ it.systemstack = true
        · rw [if_pos hc2]
          exact fun h => Outcome.noConfusion h
        · rw [if_neg hc2]
          by_cases hc3 : it.g0_sched_sp ≤ 0
          · rw [if_pos hc3]
            exact fun h => Outcome.noConfusion h
          · rw [if_neg hc3]
            split
            · exact fun h => Outcome.noConfusion h
            · split
              · exact fun h => Outcome.noConfusion h
              · rename_i he
                exact absurd he (readUintRaw_ne_fuel _ _ _)
              · split
                · exact fun h => Outcome.noConfusion h
                · rename_i he
                  exact absurd he (advanceRegs_ne_fuel _ _)
                · exact fun h => Outcome.noConfusion h
      · rw [if_neg hn2]
        by_cases hn3 : fn.Name = "runtime.goexit" ∨ fn.Name = "runtime.rt0_go" ∨
            fn.Name = "runtime.mcall"
        · rw [if_pos hn3]
          exact fun h => Outcome.noConfusion h
        · rw [if_neg hn3]
          split
          · exact fun h => Outcome.noConfusion h
          · by_cases hc4 : it.systemstack = true ∧ it.top = true ∧
                ("runtime.".toList).isPrefixOf fn.Name.toList = true
            · rw [if_pos hc4]
              split
              · exact fun h => Outcome.noConfusion h
              · split <;> exact fun h => Outcome.noConfusion h
            · rw [if_neg hc4]
              exact fun h => Outcome.noConfusion h

theorem nextStep_ne_fuel (env : StackEnv) (it : stackIterator) : nextStep env it ≠ .fuel := by
  unfold nextStep
  by_cases hc : it.err ≠ none ∨ it.atend = true
  · rw [if_pos hc]
    exact fun h => Outcome.noConfusion h
  · rw [if_neg hc]
    split
    · exact fun h => Outcome.noConfusion h
    · rename_i he
      exact absurd he (advanceRegs_ne_fuel _ _)
    · split
      · exact fun h => Outcome.noConfusion h
      · split
        · exact fun h => Outcome.noConfusion h
        · rename_i he
          exact absurd he (switchStack_ne_fuel _ _)
        · split_ifs <;> exact fun h => Outcome.noConfusion h

theorem Next_ne_fuel (env : StackEnv) (it : stackIterator) : Next env it ≠ .fuel := by
  unfold Next Outcome.map
  cases hn : nextStep env it with
  | panic => exact fun h => Outcome.noConfusion h
  | fuel => exact absurd hn (nextStep_ne_fuel env it)
  | ok r => exact fun h => Outcome.noConfusion h

/-- The loop of `appendInlineCalls` keeps the frames it is given and appends at least one
frame; every frame it appends has the `Err` of the physical frame. -/
theorem appendInlineCalls_loop_err {R : Type} (callFn : Function) :
    ∀ (entries : List InlineEntry) (frames : List (Stackframe R)) (frame : Stackframe R)
      (out : List (Stackframe R)),
      appendInlineCalls.loop callFn entries frames frame = some out →
      ∃ extra, out = frames ++ extra ∧ extra ≠ [] ∧ ∀ f ∈ extra, f.Err = frame.Err := by
  intro entries
  induction entries with
  | nil =>
    intro frames frame out h
    simp only [appendInlineCalls.loop, Option.some.injEq] at h
    exact ⟨[frame], h.symm, by simp, by simp⟩
  | cons entry rest ih =>
    intro frames frame out h
    have hdone : some (frames ++ [frame]) = some out →
        ∃ extra, out = frames ++ extra ∧ extra ≠ [] ∧ ∀ f ∈ extra, f.Err = frame.Err := by
      intro h
      simp only [Option.some.injEq] at h
      exact ⟨[frame], h.symm, by simp, by simp⟩
    unfold appendInlineCalls.loop at h
    split at h
    · simp only at h
      split_ifs at h
      · exact hdone h
      · split at h
        · exact Option.noConfusion h
        · split at h
          · exact Option.noConfusion h
          · split at h
            · exact Option.noConfusion h
            · split_ifs at h
              · exact hdone h
              · split at h
                · exact Option.noConfusion h
                · obtain ⟨extra, h1, _, h3⟩ := ih _ _ _ h
                  rw [List.append_assoc] at h1
                  refine ⟨_, h1, by simp, ?_⟩
                  intro f hf
                  rcases List.mem_append.mp hf with hf | hf
                  · rw [List.mem_singleton.mp hf]
                  · exact h3 f hf
    · exact hdone h

theorem appendInlineCalls_err {σ R : Type} (ops : IteratorOps σ R) (it : σ)
    (frames : List (Stackframe R)) (frame : Stackframe R) (out : List (Stackframe R))
    (h : appendInlineCalls ops it frames frame = some out) :
    ∃ extra, out = frames ++ extra ∧ extra ≠ [] ∧ ∀ f ∈ extra, f.Err = frame.Err := by
  have hdone : some (frames ++ [frame]) = some out →
      ∃ extra, out = frames ++ extra ∧ extra ≠ [] ∧ ∀ f ∈ extra, f.Err = frame.Err := by
    intro h
    simp only [Option.some.injEq] at h
    exact ⟨[frame], h.symm, by simp, by simp⟩
  unfold appendInlineCalls at h
  split at h
  · exact hdone h
  · split at h
    · exact Option.noConfusion h
    · split at h
      · exact hdone h
      · exact appendInlineCalls_loop_err _ _ _ _ _ h

/-- The loop of `stacktrace` does not run out of fuel when it starts with one unit of fuel for
every frame that is missing and one more, and every frame it collects is without error when
the frames that `Next` yields are. -/
theorem stacktrace_loop_clean {σ R : Type} (ops : IteratorOps σ R) (depth : Int)
    (hfuel : ∀ s, ops.Next s ≠ .fuel)
    (hclean : ∀ s s2, ops.Next s = .ok (s2, true) → (ops.Frame s2).Err = none) :
    ∀ (fuel : Nat) (it : σ) (frames : List (Stackframe R)),
      1 ≤ fuel → (toInt64 (depth + 1)).toNat + 1 ≤ fuel + frames.length →
      (∀ f ∈ frames, f.Err = none) →
      stacktrace.loop ops depth fuel it frames ≠ .fuel ∧
      ∀ it2 out, stacktrace.loop ops depth fuel it frames = .ok (it2, out) →
        ∀ f ∈ out, f.Err = none := by
  intro fuel
  induction fuel with
  | zero => intro it frames h1; omega
  | succ fuel ih =>
    intro it frames _ h2 h3
    unfold stacktrace.loop
    cases hn : ops.Next it with
    | panic => exact ⟨fun h => Outcome.noConfusion h, fun _ _ h => Outcome.noConfusion h⟩
    | fuel => exact absurd hn (hfuel it)
    | ok r =>
      obtain ⟨it1, b⟩ := r
      cases b with
      | false =>
        refine ⟨fun h => Outcome.noConfusion h, fun it2 out h => ?_⟩
        simp only [Outcome.ok.injEq, Prod.mk.injEq] at h
        rw [← h.2]
        exact h3
      | true =>
        simp only
        cases ha : appendInlineCalls ops it1 frames (ops.Frame it1) with
        | none => exact ⟨fun h => Outcome.noConfusion h, fun _ _ h => Outcome.noConfusion h⟩
        | some frames2 =>
          obtain ⟨extra, h4, h5, h6⟩ := appendInlineCalls_err ops it1 frames _ _ ha
          have h7 : ∀ f ∈ frames2, f.Err = none := by
            intro f hf
            rw [h4] at hf
            rcases List.mem_append.mp hf with hf | hf
            · exact h3 f hf
            · rw [h6 f hf]
              exact hclean it it1 hn
          have h8 : frames.length + 1 ≤ frames2.length := by
            rw [h4, List.length_append]
            have : 0 < extra.length := List.length_pos.mpr h5
            omega
          simp only
          by_cases hc : (frames2.length : Int) ≥ toInt64 (depth + 1)
          · rw [if_pos hc]
            refine ⟨fun h => Outcome.noConfusion h, fun it2 out h => ?_⟩
            simp only [Outcome.ok.injEq, Prod.mk.injEq] at h
            rw [← h.2]
            exact h7
          · rw [if_neg hc]
            exact ih it1 frames2 (by omega) (by omega) h7

/-- C11. For every depth `0 ≤ depth`, `stacktrace(depth)` on a stack iterator does not loop
for ever, and when it returns, with `collected` the frames its loop has collected: no
collected frame has `Err` set; when the iterator holds an error and at least one frame was
collected, the returned error is nil and the returned frames are the collected frames,
unchanged and in order, followed by the one frame `Stackframe{Err: err}`; when the iterator
holds an error and no frame was collected, the error is returned with no frames; without
error the collected frames are returned. -/
theorem stacktrace_keeps_frames_on_error (env : StackEnv) (inl : Nat → Nat → List InlineEntry)
    (it : stackIterator) (depth : Int) (hd : 0 ≤ depth) :
    stacktrace (stackOps env inl) it depth ≠ .fuel ∧
    ∀ frames err it2, stacktrace (stackOps env inl) it depth = .ok ((frames, err), it2) →
      ∃ collected,
        stacktrace.loop (stackOps env inl) depth ((toInt64 (depth + 1)).toNat + 1) it [] =
          .ok (it2, collected) ∧
        (∀ f ∈ collected, f.Err = none) ∧
        (∀ e, it2.err = some e → collected ≠ [] →
          err = none ∧ frames = collected ++ [Stackframe.ofErr e]) ∧
        (∀ e, it2.err = some e → collected = [] → err = some e ∧ frames = []) ∧
        (it2.err = none → err = none ∧ frames = collected) := by
  have hfuel : ∀ s, (stackOps env inl).Next s ≠ .fuel := Next_ne_fuel env
  have hclean : ∀ s s2, (stackOps env inl).Next s = .ok (s2, true) →
      ((stackOps env inl).Frame s2).Err = none := by
    intro s s2 h
    have h1 : Next env s = .ok (s2, true) := h
    unfold Next Outcome.map at h1
    cases hn : nextStep env s with
    | panic => rw [hn] at h1; exact Outcome.noConfusion h1
    | fuel => rw [hn] at h1; exact Outcome.noConfusion h1
    | ok r =>
      obtain ⟨s3, k⟩ := r
      rw [hn] at h1
      simp only [Outcome.ok.injEq, Prod.mk.injEq, decide_eq_true_eq] at h1
      rw [← h1.1]
      exact nextStep_frame_err hn h1.2
  have hnd : ¬ depth < 0 := by omega
  unfold stacktrace
  rw [if_neg hnd]
  by_cases hneg : toInt64 (depth + 1) < 0
  · rw [if_pos hneg]
    exact ⟨fun h => Outcome.noConfusion h, fun _ _ _ h => Outcome.noConfusion h⟩
  · rw [if_neg hneg]
    have h2 := stacktrace_loop_clean (stackOps env inl) depth hfuel hclean
      ((toInt64 (depth + 1)).toNat + 1) it [] (by omega) (by simp) (by simp)
    cases hl : stacktrace.loop (stackOps env inl) depth ((toInt64 (depth + 1)).toNat + 1) it []
      with
    | panic => exact ⟨fun h => Outcome.noConfusion h, fun _ _ _ h => Outcome.noConfusion h⟩
    | fuel => exact absurd hl h2.1
    | ok r =>
      obtain ⟨it3, collected⟩ := r
      have h3 := h2.2 it3 collected hl
      simp only
      cases he : (stackOps env inl).Err it3 with
      | none =>
        refine ⟨fun h => Outcome.noConfusion h, fun frames err it2 h => ?_⟩
        simp only [Outcome.ok.injEq, Prod.mk.injEq] at h
        obtain ⟨⟨h4, h5⟩, h6⟩ := h
        subst h4 h5 h6
        have he2 : it3.err = none := he
        refine ⟨collected, rfl, h3, ?_, ?_, fun _ => ⟨rfl, rfl⟩⟩
        · intro e h7
          rw [he2] at h7
          exact Option.noConfusion h7
        · intro e h7
          rw [he2] at h7
          exact Option.noConfusion h7
      | some e0 =>
        have he2 : it3.err = some e0 := he
        simp only
        by_cases hlen : collected.length = 0
        · rw [if_pos hlen]
          refine ⟨fun h => Outcome.noConfusion h, fun frames err it2 h => ?_⟩
          simp only [Outcome.ok.injEq, Prod.mk.injEq] at h
          obtain ⟨⟨h4, h5⟩, h6⟩ := h
          subst h4 h5 h6
          have hnil : collected = [] := List.length_eq_zero.mp hlen
          refine ⟨collected, rfl, h3, ?_, ?_, ?_⟩
          · intro e _ h8
            exact absurd hnil h8
          · intro e h7 _
            rw [he2] at h7
            simp only [Option.some.injEq] at h7
            rw [h7]
            exact ⟨rfl, rfl⟩
          · intro h7
            rw [he2] at h7
            exact Option.noConfusion h7
        · rw [if_neg hlen]
          refine ⟨fun h => Outcome.noConfusion h, fun frames err it2 h => ?_⟩
          simp only [Outcome.ok.injEq, Prod.mk.injEq] at h
          obtain ⟨⟨h4, h5⟩, h6⟩ := h
          subst h4 h5 h6
          refine ⟨collected, rfl, h3, ?_, ?_, ?_⟩
          · intro e h7 _
            rw [he2] at h7
            simp only [Option.some.injEq] at h7
            rw [h7]
            exact ⟨rfl, rfl⟩
          · intro e _ h8
            rw [h8] at hlen
            exact absurd rfl hlen
          · intro h7
            rw [he2] at h7
            exact Option.noConfusion h7

/-- C11, witness: a stack of `main.f` of which the return address of the third frame cannot
be read, walked with depth 10: the three frames are returned, followed by the frame that
holds the error. -/
theorem stacktrace_keeps_frames_on_error_witness :
    (stacktrace (stackOps (exampleEnv memShortStack) (fun _ _ => []))
        (exampleIterator 0x100 1000 0 false 0) 10).map
      (fun r => (r.1.1.map (fun f => (f.Current.PC, f.Err)), r.1.2)) =
      .ok ([(0x100, none), (0x110, none), (0x120, none),
        (0, some (.other "unreadable memory"))], none) ∧
    stacktrace (stackOps (exampleEnv memShortStack) (fun _ _ => []))
      (exampleIterator 0x100 1000 0 false 0) 10 ≠ .fuel :=
  ⟨by decide,
    (stacktrace_keeps_frames_on_error (exampleEnv memShortStack) (fun _ _ => [])
      (exampleIterator 0x100 1000 0 false 0) 10 (by decide)).1⟩

/-! ## The loader of values (`pkg/proc/variables.go`) -/

theorem loadValueInternal_succ (env : LoadEnv) (fuel : Nat) :
    loadValueInternal env (fuel + 1) =
      loadValueInternalBody env fuel (newVariable env fuel) (loadValueInternal env fuel) := rfl

theorem newVariable_succ (env : LoadEnv) (fuel : Nat) :
    newVariable env (fuel + 1) =
      newVariableBody env (newVariable env fuel) (loadValueInternal env fuel) := rfl

theorem ReadMemory_length {mem : Memory} {size addr : Nat} {bs : List Nat}
    (h : mem.ReadMemory size addr = .ok bs) : bs.length = size := by
  unfold Memory.ReadMemory at h
  split at h
  · cases h
    simp [fitBytes]
  · cases h

theorem Outcome_isOk_iff {α : Type} {x : Outcome α} : x.isOk = true ↔ ∃ a, x = .ok a := by
  cases x <;> simp [Outcome.isOk]

theorem readUintRaw_ok (mem : Memory) (addr : Nat) {size : Int} (h : 0 ≤ size) :
    ∃ r, readUintRaw mem addr size = .ok r := by
  unfold readUintRaw
  rw [if_neg (not_lt.mpr h)]
  split
  · exact ⟨_, rfl⟩
  · exact ⟨_, rfl⟩

theorem Outcome_bind_eq_ok {α β : Type} {x : Outcome α} {g : α → Outcome β} {b : β} :
    x.bind g = .ok b ↔ ∃ a, x = .ok a ∧ g a = .ok b := by
  cases x <;> simp [Outcome.bind]

theorem Outcome_map_eq_ok {α β : Type} {x : Outcome α} {g : α → β} {b : β} :
    x.map g = .ok b ↔ ∃ a, x = .ok a ∧ g a = b := by
  cases x <;> simp [Outcome.map]

/-- A variable without children satisfies the poisoning invariant. -/
theorem leafWhenUnreadable_of_no_children {v : Variable} (h : v.Children = []) :
    LeafWhenUnreadable v :=
  .node v (fun _ _ => h) (by rw [h]; intro c hc; cases hc)

/-- A variable without an error whose children satisfy the poisoning invariant satisfies
it. -/
theorem leafWhenUnreadable_of_readable (w : Variable) (hu : w.Unreadable = none)
    (hch : ∀ c ∈ w.Children, LeafWhenUnreadable c) : LeafWhenUnreadable w :=
  .node w (fun hne => absurd hu hne) hch

theorem leafWhenUnreadable_of_single (w d : Variable) (hu : w.Unreadable = none)
    (hc : w.Children = [d]) (hd : LeafWhenUnreadable d) : LeafWhenUnreadable w :=
  .node w (fun hne => absurd hu hne) (by
    intro c hcm
    rw [hc] at hcm
    rw [List.mem_singleton.mp hcm]
    exact hd)

theorem leafWhenUnreadable_children {v : Variable} (h : LeafWhenUnreadable v) :
    ∀ c ∈ v.Children, LeafWhenUnreadable c := by
  cases h with
  | node _ _ hc => exact hc

theorem maybeDereference_fresh {env : LoadEnv} {rn : NewFn} (hrn : RnFresh rn) {v d : Variable}
    (h : maybeDereference env rn v = .ok d) (hv : v.Children = []) : d.Children = [] := by
  unfold maybeDereference at h
  split_ifs at h with h1
  · cases h; exact hv
  · split at h
    · cases h; exact hv
    · split at h
      · cases h; exact hv
      · obtain ⟨r, _, h2⟩ := Outcome_bind_eq_ok.mp h
        obtain ⟨d0, h3, h4⟩ := Outcome_bind_eq_ok.mp h2
        have := hrn _ _ _ _ h3
        split at h4
        · cases h4; exact this
        · cases h4; exact this

theorem toField_fresh {rn : NewFn} (hrn : RnFresh rn) {v f : Variable} {field : StructField Ty}
    (hv : v.Children = []) (h : toField rn v field = .ok (.ok f)) : f.Children = [] := by
  unfold toField at h
  split_ifs at h with h1 h2
  · cases h; exact hv
  · cases h
  · obtain ⟨d, h3, h4⟩ := Outcome_map_eq_ok.mp h
    cases h4
    exact hrn _ _ _ _ h3

theorem toFieldVar_fresh {rn : NewFn} (hrn : RnFresh rn) {v f : Variable}
    {field : StructField Ty} (hv : v.Children = []) (h : toFieldVar rn v field = .ok f) :
    f.Children = [] := by
  unfold toFieldVar at h
  obtain ⟨r, h1, h2⟩ := Outcome_bind_eq_ok.mp h
  split at h2
  · cases h2; exact toField_fresh hrn hv h1
  · cases h2

theorem sliceAccess_fresh {rn : NewFn} (hrn : RnFresh rn) {v f : Variable} {idx : Int}
    (h : sliceAccess rn v idx = .ok (.ok f)) : f.Children = [] := by
  unfold sliceAccess at h
  split_ifs at h with h1
  · cases h
  · obtain ⟨d, h3, h4⟩ := Outcome_map_eq_ok.mp h
    cases h4
    exact hrn _ _ _ _ h3


theorem loadSliceInfo_loop_children (env : LoadEnv) (rn : NewFn) (rl : LoadFn) :
    ∀ (fields : List (StructField Ty)) (v : Variable) (r : Variable × Bool),
      loadSliceInfo.loop env rn rl fields v = .ok r → r.1.Children = v.Children := by
  intro fields
  induction fields with
  | nil =>
    intro v r h
    simp only [loadSliceInfo.loop] at h
    cases h
    rfl
  | cons f rest ih =>
    intro v r h
    rw [loadSliceInfo.loop] at h
    split_ifs at h with h1 h2 h3
    · obtain ⟨r1, _, h5⟩ := Outcome_bind_eq_ok.mp h
      split at h5
      · cases h5; rfl
      · split at h5
        · cases h5; rfl
        · exact (ih _ _ h5).trans rfl
    · obtain ⟨fv, _, h5⟩ := Outcome_bind_eq_ok.mp h
      obtain ⟨lv, _, h6⟩ := Outcome_bind_eq_ok.mp h5
      split at h6
      · cases h6; rfl
      · split at h6
        · cases h6
        · exact (ih _ _ h6).trans rfl
    · obtain ⟨fv, _, h5⟩ := Outcome_bind_eq_ok.mp h
      obtain ⟨lv, _, h6⟩ := Outcome_bind_eq_ok.mp h5
      split at h6
      · cases h6; rfl
      · split at h6
        · cases h6
        · exact (ih _ _ h6).trans rfl
    · exact ih _ _ h

theorem loadSliceInfo_children {env : LoadEnv} {rn : NewFn} {rl : LoadFn} {v d : Variable}
    {fields : List (StructField Ty)} (h : loadSliceInfo env rn rl v fields = .ok d) :
    d.Children = v.Children := by
  unfold loadSliceInfo at h
  obtain ⟨r, h1, h2⟩ := Outcome_bind_eq_ok.mp h
  have h3 := loadSliceInfo_loop_children env rn rl _ _ _ h1
  split_ifs at h2
  · cases h2; exact h3
  · split at h2
    · cases h2
    · split at h2 <;> (cases h2; exact h3)

theorem loadChanInfo_children {env : LoadEnv} {rn : NewFn} {rl : LoadFn} {v d : Variable}
    {c : CommonType} {target elemType : Ty}
    (h : loadChanInfo env rn rl v c target elemType = .ok d) : d.Children = v.Children := by
  unfold loadChanInfo at h
  obtain ⟨sv, _, h2⟩ := Outcome_bind_eq_ok.mp h
  split_ifs at h2
  · cases h2; rfl
  · split at h2
    · split at h2
      · cases h2
      · obtain ⟨la, _, h3⟩ := Outcome_bind_eq_ok.mp h2
        obtain ⟨lv, _, h4⟩ := Outcome_bind_eq_ok.mp h3
        split at h4
        · cases h4; rfl
        · split at h4
          · cases h4
          · cases h4; rfl
    · cases h2; rfl

theorem newVariableBody_fresh (env : LoadEnv) (rn : NewFn) (rl : LoadFn) :
    RnFresh (newVariableBody env rn rl) := by
  intro name addr t d h
  unfold newVariableBody at h
  split at h
  · cases h; rfl
  · split at h
    all_goals first
      | (cases h; rfl)
      | (split_ifs at h
         · exact (loadChanInfo_children h).trans rfl
         · cases h; rfl)
      | (split_ifs at h
         · exact (loadSliceInfo_children h).trans rfl
         · cases h; rfl)
      | (split_ifs at h
         · obtain ⟨r, _, h2⟩ := Outcome_bind_eq_ok.mp h
           cases h2; rfl
         · cases h; rfl)


theorem SameNode.refl (a : Variable) : SameNode a a := ⟨rfl, rfl⟩

theorem SameNode.trans {a b c : Variable} (h1 : SameNode a b) (h2 : SameNode b c) :
    SameNode a c := ⟨h2.1.trans h1.1, h2.2.trans h1.2⟩

theorem mapIteratorFields_same (env : LoadEnv) (rn : NewFn) (rl : LoadFn) (sv : Variable) :
    ∀ (fields : List (StructField Ty)) (it : mapIterator) (r : Except Variable mapIterator),
      mapIteratorFields env rn rl sv fields it = .ok r →
      match r with
      | .error v2 => SameNode it.v v2
      | .ok it2 => SameNode it.v it2.v := by
  intro fields
  induction fields with
  | nil =>
    intro it r h
    simp only [mapIteratorFields] at h
    cases h
    exact SameNode.refl _
  | cons f rest ih =>
    intro it r h
    rw [mapIteratorFields] at h
    obtain ⟨field, _, h2⟩ := Outcome_bind_eq_ok.mp h
    split_ifs at h2 with h3 h4 h5 h6
    · obtain ⟨r1, _, h7⟩ := Outcome_bind_eq_ok.mp h2
      split at h7
      · cases h7
        exact ⟨rfl, rfl⟩
      · have := ih _ _ h7
        cases r with
        | error v2 => exact SameNode.trans ⟨rfl, rfl⟩ this
        | ok it2 => exact SameNode.trans ⟨rfl, rfl⟩ this
    · obtain ⟨r1, _, h7⟩ := Outcome_bind_eq_ok.mp h2
      split at h7
      · cases h7
        exact ⟨rfl, rfl⟩
      · have h9 := ih _ _ h7; exact h9
    · obtain ⟨d, _, h7⟩ := Outcome_bind_eq_ok.mp h2
      have h9 := ih _ _ h7; exact h9
    · obtain ⟨d, _, h7⟩ := Outcome_bind_eq_ok.mp h2
      have h9 := ih _ _ h7; exact h9
    · have h9 := ih _ _ h2; exact h9

theorem mapIteratorOf_same {env : LoadEnv} {rn : NewFn} {rl : LoadFn} {v : Variable}
    {target : Ty} {r : Except Variable mapIterator}
    (h : mapIteratorOf env rn rl v target = .ok r) :
    match r with
    | .error v2 => SameNode v v2
    | .ok it2 => SameNode v it2.v := by
  unfold mapIteratorOf at h
  obtain ⟨sv, _, h2⟩ := Outcome_bind_eq_ok.mp h
  split at h2
  · split_ifs at h2
    · cases h2
      exact ⟨rfl, rfl⟩
    · obtain ⟨r1, h3, h4⟩ := Outcome_bind_eq_ok.mp h2
      have h5 := mapIteratorFields_same env rn rl sv _ _ _ h3
      split at h4
      · cases h4
        exact SameNode.trans ⟨rfl, rfl⟩ h5
      · split at h4
        · split_ifs at h4
          · cases h4
            exact SameNode.trans (SameNode.trans ⟨rfl, rfl⟩ h5) ⟨rfl, rfl⟩
          · cases h4
            exact SameNode.trans ⟨rfl, rfl⟩ h5
        · cases h4
  · cases h2
    exact ⟨rfl, rfl⟩

theorem nextBucket_fields_same (env : LoadEnv) (rn : NewFn) (b : Variable) :
    ∀ (fields : List (StructField Ty)) (it : mapIterator) (r : mapIterator × Bool),
      nextBucket.fields env rn b fields it = .ok r → SameNode it.v r.1.v := by
  intro fields
  induction fields with
  | nil =>
    intro it r h
    simp only [nextBucket.fields] at h
    cases h
    exact SameNode.refl _
  | cons f rest ih =>
    intro it r h
    rw [nextBucket.fields] at h
    obtain ⟨fr, _, h2⟩ := Outcome_bind_eq_ok.mp h
    split at h2
    · cases h2
      exact ⟨rfl, rfl⟩
    · split at h2
      · cases h2
        exact ⟨rfl, rfl⟩
      · split_ifs at h2
        · have h9 := ih _ _ h2; exact h9
        · have h9 := ih _ _ h2; exact h9
        · have h9 := ih _ _ h2; exact h9
        · obtain ⟨d, _, h3⟩ := Outcome_bind_eq_ok.mp h2
          have h9 := ih _ _ h3; exact h9
        · have h9 := ih _ _ h2; exact h9

theorem nextBucket_checks_same {it : mapIterator} {r : mapIterator × Bool}
    (h : nextBucket.checks it = .ok r) : SameNode it.v r.1.v := by
  unfold nextBucket.checks at h
  split at h
  · split_ifs at h
    · cases h; exact ⟨rfl, rfl⟩
    · cases h; exact ⟨rfl, rfl⟩
    · split at h
      · cases h
      · split_ifs at h
        · cases h; exact ⟨rfl, rfl⟩
        · split at h
          · cases h
          · split_ifs at h
            · cases h; exact ⟨rfl, rfl⟩
            · cases h; exact ⟨rfl, rfl⟩
  · cases h; exact ⟨rfl, rfl⟩

theorem nextBucket_enter_same {env : LoadEnv} {rn : NewFn} {it : mapIterator} {b : Variable}
    {bidx : Nat} {r : mapIterator × Bool} (h : nextBucket.enter env rn it b bidx = .ok r) :
    SameNode it.v r.1.v := by
  unfold nextBucket.enter at h
  split_ifs at h
  · cases h; exact ⟨rfl, rfl⟩
  · split at h
    · obtain ⟨r1, h2, h3⟩ := Outcome_bind_eq_ok.mp h
      have h4 := nextBucket_fields_same env rn b _ _ _ h2
      split_ifs at h3
      · cases h3
        exact SameNode.trans ⟨rfl, rfl⟩ h4
      · exact SameNode.trans (SameNode.trans ⟨rfl, rfl⟩ h4) (nextBucket_checks_same h3)
    · cases h

theorem nextBucket_same {env : LoadEnv} {rn : NewFn} {rl : LoadFn} {it : mapIterator}
    {r : mapIterator × Bool} (h : nextBucket env rn rl it = .ok r) : SameNode it.v r.1.v := by
  have hstart : ∀ r, nextBucket.start env rn rl it = .ok r → SameNode it.v r.1.v := by
    intro r h
    unfold nextBucket.start at h
    split_ifs at h
    · split at h
      · obtain ⟨r1, _, h3⟩ := Outcome_bind_eq_ok.mp h
        split at h3
        · cases h3; exact ⟨rfl, rfl⟩
        · exact nextBucket_enter_same h3
      · cases h
    · cases h; exact ⟨rfl, rfl⟩
  unfold nextBucket at h
  split at h
  · split_ifs at h
    · exact nextBucket_enter_same h
    · exact hstart _ h
  · exact hstart _ h

theorem refill_same {env : LoadEnv} {rn : NewFn} {rl : LoadFn} {it : mapIterator}
    {r : mapIterator × Bool} (h : mapIterator.refill env rn rl it = .ok r) :
    SameNode it.v r.1.v := by
  unfold mapIterator.refill at h
  split at h
  · cases h
  · split_ifs at h
    · obtain ⟨r1, h2, h3⟩ := Outcome_bind_eq_ok.mp h
      have := nextBucket_same h2
      split_ifs at h3 <;> (cases h3; exact SameNode.trans this ⟨rfl, rfl⟩)
    · cases h; exact SameNode.refl _
  · obtain ⟨r1, h2, h3⟩ := Outcome_bind_eq_ok.mp h
    have := nextBucket_same h2
    split_ifs at h3 <;> (cases h3; exact SameNode.trans this ⟨rfl, rfl⟩)

theorem next_same (env : LoadEnv) (rn : NewFn) (rl : LoadFn) :
    ∀ (n : Nat) (it : mapIterator) (r : mapIterator × Bool),
      mapIterator.next env rn rl n it = .ok r → SameNode it.v r.1.v := by
  intro n
  induction n with
  | zero =>
    intro it r h
    simp only [mapIterator.next] at h
    cases h
  | succ n ih =>
    intro it r h
    rw [mapIterator.next] at h
    obtain ⟨r1, h2, h3⟩ := Outcome_bind_eq_ok.mp h
    have h4 := refill_same h2
    split_ifs at h3
    · cases h3; exact h4
    · split at h3
      · cases h3
      · obtain ⟨sa, _, h5⟩ := Outcome_bind_eq_ok.mp h3
        split at h5
        · cases h5
        · obtain ⟨hh, _, h6⟩ := Outcome_bind_eq_ok.mp h5
          split at h6
          · cases h6
            exact SameNode.trans h4 ⟨rfl, rfl⟩
          · split_ifs at h6
            · cases h6
              exact SameNode.trans h4 ⟨rfl, rfl⟩
            · have h9 := ih _ _ h6
              exact SameNode.trans h4 h9

theorem loadMap_skip_same (env : LoadEnv) (rn : NewFn) (rl : LoadFn) (fuel : Nat) :
    ∀ (n : Nat) (it : mapIterator) (r : mapIterator × Bool),
      loadMap.skip env rn rl fuel n it = .ok r → SameNode it.v r.1.v := by
  intro n
  induction n with
  | zero =>
    intro it r h
    simp only [loadMap.skip] at h
    cases h
    exact SameNode.refl _
  | succ n ih =>
    intro it r h
    rw [loadMap.skip] at h
    obtain ⟨r1, h2, h3⟩ := Outcome_bind_eq_ok.mp h
    have h4 := next_same env rn rl _ _ _ h2
    split_ifs at h3
    · cases h3
      exact SameNode.trans h4 ⟨rfl, rfl⟩
    · exact SameNode.trans h4 (ih _ _ h3)


theorem loadArrayValues_loop_sound {rn : NewFn} {rl : LoadFn} (hrn : RnFresh rn)
    (hrl : RlSound rl) (lvl : Int) (cfg : LoadConfig) (v : Variable) (count : Int) :
    ∀ (n : Nat) (i errcount : Int) (children cs : List Variable),
      (∀ c ∈ children, LeafWhenUnreadable c) →
      loadArrayValues.loop rn rl lvl cfg v count n i errcount children = .ok cs →
      ∀ c ∈ cs, LeafWhenUnreadable c := by
  intro n
  induction n with
  | zero =>
    intro i errcount children cs hch h
    simp only [loadArrayValues.loop] at h
    cases h
    exact hch
  | succ n ih =>
    intro i errcount children cs hch h
    rw [loadArrayValues.loop] at h
    split_ifs at h with hi
    · obtain ⟨lv, h1, h2⟩ := Outcome_bind_eq_ok.mp h
      unfold loadElem at h1
      obtain ⟨fv, h3, h4⟩ := Outcome_bind_eq_ok.mp h1
      have hlv : LeafWhenUnreadable lv := hrl _ _ _ _ (hrn _ _ _ _ h3) h4
      have hch2 : ∀ c ∈ children ++ [lv], LeafWhenUnreadable c := by
        intro c hc
        rcases List.mem_append.mp hc with hc | hc
        · exact hch c hc
        · rw [List.mem_singleton.mp hc]
          exact hlv
      generalize (if lv.Unreadable ≠ none then errcount + 1 else errcount) = e at h2
      split_ifs at h2
      · cases h2
        exact hch2
      · exact ih _ _ _ _ hch2 h2
    · cases h
      exact hch

theorem loadStructFields_sound {rn : NewFn} {rl : LoadFn} (hrn : RnFresh rn)
    (hrl : RlSound rl) (lvl : Int) (cfg : LoadConfig) (v : Variable) (hv : v.Children = []) :
    ∀ (fields : List (StructField Ty)) (children cs : List Variable),
      (∀ c ∈ children, LeafWhenUnreadable c) →
      loadStructFields rn rl lvl cfg v fields children = .ok cs →
      ∀ c ∈ cs, LeafWhenUnreadable c := by
  intro fields
  induction fields with
  | nil =>
    intro children cs hch h
    simp only [loadStructFields] at h
    cases h
    exact hch
  | cons f rest ih =>
    intro children cs hch h
    rw [loadStructFields] at h
    split_ifs at h
    · cases h
      exact hch
    · obtain ⟨c1, h1, h2⟩ := Outcome_bind_eq_ok.mp h
      unfold loadField at h1
      obtain ⟨fv, h3, h4⟩ := Outcome_bind_eq_ok.mp h1
      have hfv : fv.Children = [] := toFieldVar_fresh hrn hv h3
      have hc1 : LeafWhenUnreadable c1 := hrl _ _ { fv with Name := f.Name } _ hfv h4
      refine ih _ _ ?_ h2
      intro c hc
      rcases List.mem_append.mp hc with hc | hc
      · exact hch c hc
      · rw [List.mem_singleton.mp hc]
        exact hc1

theorem mapIterator_key_fresh {rn : NewFn} (hrn : RnFresh rn) {it : mapIterator}
    {k : Variable} (h : mapIterator.key rn it = .ok k) : k.Children = [] := by
  unfold mapIterator.key at h
  split at h
  · cases h
  · obtain ⟨r, h1, h2⟩ := Outcome_bind_eq_ok.mp h
    split at h2
    · cases h2
    · cases h2
      exact sliceAccess_fresh hrn h1

theorem mapIterator_value_fresh {rn : NewFn} (hrn : RnFresh rn) {it : mapIterator}
    {k : Variable} (h : mapIterator.value rn it = .ok k) : k.Children = [] := by
  unfold mapIterator.value at h
  split at h
  · cases h
  · obtain ⟨r, h1, h2⟩ := Outcome_bind_eq_ok.mp h
    split at h2
    · cases h2
    · cases h2
      exact sliceAccess_fresh hrn h1

theorem loadMap_loop_sound {env : LoadEnv} {rn : NewFn} {rl : LoadFn} (hrn : RnFresh rn)
    (hrl : RlSound rl) (fuel : Nat) (lvl : Int) (cfg : LoadConfig) :
    ∀ (n : Nat) (it : mapIterator) (count errcount : Int) (children : List Variable)
      (r : mapIterator × List Variable),
      (∀ c ∈ children, LeafWhenUnreadable c) →
      loadMap.loop env rn rl fuel lvl cfg n it count errcount children = .ok r →
      SameNode it.v r.1.v ∧ ∀ c ∈ r.2, LeafWhenUnreadable c := by
  intro n
  induction n with
  | zero =>
    intro it count errcount children r hch h
    simp only [loadMap.loop] at h
    cases h
  | succ n ih =>
    intro it count errcount children r hch h
    rw [loadMap.loop] at h
    obtain ⟨r1, h1, h2⟩ := Outcome_bind_eq_ok.mp h
    have hs := next_same env rn rl _ _ _ h1
    split_ifs at h2
    · cases h2
      exact ⟨hs, hch⟩
    · cases h2
      exact ⟨hs, hch⟩
    · obtain ⟨key, h3, h4⟩ := Outcome_bind_eq_ok.mp h2
      split at h4
      · cases h4
      · split at h4
        · cases h4
        · obtain ⟨val, h5, h6⟩ := Outcome_bind_eq_ok.mp h4
          obtain ⟨lk, h7, h8⟩ := Outcome_bind_eq_ok.mp h6
          obtain ⟨lv, h9, h10⟩ := Outcome_bind_eq_ok.mp h8
          have hkey : LeafWhenUnreadable lk := hrl _ _ _ _ (mapIterator_key_fresh hrn h3) h7
          have hvalf : val.Children = [] := by
            split_ifs at h5
            · exact mapIterator_value_fresh hrn h5
            · exact hrn _ _ _ _ h5
          have hval : LeafWhenUnreadable lv := hrl _ _ _ _ hvalf h9
          have hch2 : ∀ c ∈ children ++ [lk, lv], LeafWhenUnreadable c := by
            intro c hc
            rcases List.mem_append.mp hc with hc | hc
            · exact hch c hc
            · simp only [List.mem_cons, List.mem_singleton, List.not_mem_nil, or_false] at hc
              rcases hc with hc | hc
              · rw [hc]; exact hkey
              · rw [hc]; exact hval
          generalize (if lk.Unreadable ≠ none ∨ lv.Unreadable ≠ none then errcount + 1
            else errcount) = e at h10
          split_ifs at h10
          · cases h10
            exact ⟨hs, hch2⟩
          · have h11 := ih _ _ _ _ _ hch2 h10
            exact ⟨SameNode.trans hs h11.1, h11.2⟩

theorem loadMap_sound {env : LoadEnv} {rn : NewFn} {rl : LoadFn} (hrn : RnFresh rn)
    (hrl : RlSound rl) (fuel : Nat) (lvl : Int) (cfg : LoadConfig) (v w : Variable)
    (target : Ty) (hk : v.Kind = .Map) (hv : v.Children = [])
    (h : loadMap env rn rl fuel lvl cfg v target = .ok w) : LeafWhenUnreadable w := by
  unfold loadMap at h
  obtain ⟨r, h1, h2⟩ := Outcome_bind_eq_ok.mp h
  have hs := mapIteratorOf_same h1
  split at h2
  · cases h2
    exact leafWhenUnreadable_of_no_children (hs.2.trans hv)
  · obtain ⟨s, h3, h4⟩ := Outcome_bind_eq_ok.mp h2
    have hs2 := loadMap_skip_same env rn rl fuel _ _ _ h3
    split_ifs at h4
    · cases h4
      exact leafWhenUnreadable_of_no_children ((SameNode.trans hs hs2).2.trans hv)
    · obtain ⟨l, h5, h6⟩ := Outcome_map_eq_ok.mp h4
      have h7 := loadMap_loop_sound hrn hrl fuel lvl cfg _ _ _ _ _ _
        (by intro c hc; cases hc) h5
      have hkind : l.1.v.Kind = .Map := ((SameNode.trans hs (SameNode.trans hs2 h7.1)).1).trans hk
      subst h6
      refine .node _ (fun _ hne => absurd hkind hne) ?_
      intro c hc
      have hc2 : c ∈ v.Children ++ l.2 := hc
      rw [hv, List.nil_append] at hc2
      exact h7.2 c hc2

theorem loadInterface_sound {env : LoadEnv} {rn : NewFn} {rl : LoadFn} (hrn : RnFresh rn)
    (hrl : RlSound rl) (lvl : Int) (loadData : Bool) (cfg : LoadConfig) (v w : Variable)
    (target : Ty) (hu : v.Unreadable = none) (hv : v.Children = [])
    (h : loadInterface env rn rl lvl loadData cfg v target = .ok w) :
    LeafWhenUnreadable w := by
  have hone : ∀ d : Variable, LeafWhenUnreadable d →
      LeafWhenUnreadable { v with Children := [d] } := by
    intro d hd
    refine .node _ (fun hne => absurd hu hne) ?_
    intro c hc
    have hc2 : c ∈ [d] := hc
    rw [List.mem_singleton.mp hc2]
    exact hd
  unfold loadInterface at h
  split at h
  · split at h
    · cases h
    · cases h
      exact leafWhenUnreadable_of_no_children hv
    · split at h
      · cases h
      · obtain ⟨data0, h1, h2⟩ := Outcome_bind_eq_ok.mp h
        obtain ⟨data, h3, h4⟩ := Outcome_bind_eq_ok.mp h2
        have hdata : data.Children = [] :=
          maybeDereference_fresh hrn h3 (toFieldVar_fresh hrn hv h1)
        split_ifs at h4
        · obtain ⟨d, h5, h6⟩ := Outcome_map_eq_ok.mp h4
          subst h6
          exact hone d (hrl _ _ _ _ hdata h5)
        · cases h4
          exact hone data (leafWhenUnreadable_of_no_children hdata)
    · split at h
      · cases h
        exact leafWhenUnreadable_of_no_children hv
      · obtain ⟨fr, h1, h2⟩ := Outcome_bind_eq_ok.mp h
        split at h2
        · cases h2
          exact leafWhenUnreadable_of_no_children hv
        · split at h2
          · cases h2
          · cases h2
            exact leafWhenUnreadable_of_no_children hv
          · obtain ⟨data, h3, h4⟩ := Outcome_bind_eq_ok.mp h2
            have hdata : data.Children = [] := by
              split_ifs at h3
              · obtain ⟨p, h5, h6⟩ := Outcome_bind_eq_ok.mp h3
                obtain ⟨d, h7, h8⟩ := Outcome_map_eq_ok.mp h6
                subst h8
                have h9 := maybeDereference_fresh hrn h7 (hrn _ _ _ _ h5)
                exact h9
              · exact hrn _ _ _ _ h3
            split_ifs at h4
            · obtain ⟨d, h5, h6⟩ := Outcome_map_eq_ok.mp h4
              subst h6
              exact hone d (hrl _ _ _ _ hdata h5)
            · cases h4
              exact hone _ (leafWhenUnreadable_of_no_children hdata)
  · cases h

theorem readComplex_children {rn : NewFn} {rl : LoadFn} {v w : Variable} {size : Int}
    (h : readComplex rn rl v size = .ok w) : w.Children = v.Children := by
  unfold readComplex at h
  by_cases hsz : size = 8 ∨ size = 16
  · rw [if_pos hsz] at h
    obtain ⟨a1, _, h1⟩ := Outcome_bind_eq_ok.mp h
    obtain ⟨a2, _, h2⟩ := Outcome_bind_eq_ok.mp h1
    obtain ⟨a3, _, h3⟩ := Outcome_bind_eq_ok.mp h2
    obtain ⟨a4, _, h4⟩ := Outcome_bind_eq_ok.mp h3
    split at h4
    · cases h4; rfl
    · cases h4
  · rw [if_neg hsz] at h
    cases h; rfl

theorem readFunctionPtr_children {env : LoadEnv} {v w : Variable}
    (h : readFunctionPtr env v = .ok w) : w.Children = v.Children := by
  unfold readFunctionPtr at h
  split at h
  · cases h; rfl
  · split at h
    · cases h
    · split_ifs at h
      · cases h; rfl
      · split at h
        · cases h; rfl
        · split at h
          · cases h
          · split at h <;> (cases h; rfl)


theorem loadValueInternalBody_sound (env : LoadEnv) (fuel : Nat) {rn : NewFn} {rl : LoadFn}
    (hrn : RnFresh rn) (hrl : RlSound rl) : RlSound (loadValueInternalBody env fuel rn rl) := by
  intro lvl cfg v w hv h
  unfold loadValueInternalBody at h
  by_cases hg : v.Unreadable ≠ none ∨ v.loaded = true ∨ (v.Addr = 0 ∧ v.Base = 0)
  · rw [if_pos hg] at h
    cases h
    exact leafWhenUnreadable_of_no_children hv
  · rw [if_neg hg] at h
    have hu : v.Unreadable = none := by
      by_contra hne
      exact hg (Or.inl hne)
    split at h
    iterate 2
      obtain ⟨child, h1, h2⟩ := Outcome_bind_eq_ok.mp h
      have hchild : child.Children = [] := maybeDereference_fresh hrn h1 hv
      by_cases hfp : cfg.FollowPointers = true
      · rw [if_pos hfp] at h2
        obtain ⟨c, h3, h4⟩ := Outcome_map_eq_ok.mp h2
        subst h4
        exact leafWhenUnreadable_of_single _ c hu rfl (hrl _ _ _ _ hchild h3)
      · rw [if_neg hfp] at h2
        cases h2
        exact leafWhenUnreadable_of_single _ _ hu rfl
          (leafWhenUnreadable_of_no_children hchild)
    · split at h
      · obtain ⟨sv, h1, h2⟩ := Outcome_bind_eq_ok.mp h
        obtain ⟨lsv, h3, h4⟩ := Outcome_map_eq_ok.mp h2
        subst h4
        have hsv : sv.Children = [] := maybeDereference_fresh hrn h1 hv
        have hl : LeafWhenUnreadable lsv := hrl _ _ _ _ hsv h3
        have hl2 := leafWhenUnreadable_children hl
        exact leafWhenUnreadable_of_readable _ hu hl2
      · cases h
    · rename_i hkind
      split at h
      · by_cases hlvl : lvl ≤ cfg.MaxVariableRecurse
        · rw [if_pos hlvl] at h
          exact loadMap_sound hrn hrl fuel lvl cfg { v with loaded := true } w _ hkind hv h
        · rw [if_neg hlvl] at h
          obtain ⟨r, h1, h2⟩ := Outcome_map_eq_ok.mp h
          have hs := mapIteratorOf_same h1
          subst h2
          cases r with
          | error v2 => exact leafWhenUnreadable_of_no_children (hs.2.trans hv)
          | ok it => exact leafWhenUnreadable_of_no_children (hs.2.trans hv)
      · cases h
    · obtain ⟨r, _, h2⟩ := Outcome_map_eq_ok.mp h
      subst h2
      exact leafWhenUnreadable_of_no_children hv
    iterate 2
      unfold loadArrayValues at h
      split_ifs at h
      · cases h
        exact leafWhenUnreadable_of_no_children hv
      · cases h
        exact leafWhenUnreadable_of_no_children hv
      · obtain ⟨cs, h1, h2⟩ := Outcome_map_eq_ok.mp h
        subst h2
        refine leafWhenUnreadable_of_readable _ hu ?_
        refine loadArrayValues_loop_sound hrn hrl _ _ _ _ _ _ _ _ _ ?_ h1
        intro c hc
        have hc2 : c ∈ v.Children := hc
        rw [hv] at hc2
        cases hc2
    · split at h
      · by_cases hlvl : lvl ≤ cfg.MaxVariableRecurse
        · rw [if_pos hlvl] at h
          obtain ⟨cs, h1, h2⟩ := Outcome_map_eq_ok.mp h
          subst h2
          exact leafWhenUnreadable_of_readable _ hu
            (loadStructFields_sound hrn hrl lvl cfg v hv _ _ _ (by intro c hc; cases hc) h1)
        · rw [if_neg hlvl] at h
          cases h
          exact leafWhenUnreadable_of_no_children hv
      · cases h
    · split at h
      · exact loadInterface_sound hrn hrl _ _ _ { v with loaded := true } _ _ hu hv h
      · cases h
    iterate 2
      split at h
      · exact leafWhenUnreadable_of_no_children ((readComplex_children h).trans hv)
      · cases h
    iterate 11
      split at h
      · obtain ⟨r, _, h2⟩ := Outcome_map_eq_ok.mp h
        subst h2
        exact leafWhenUnreadable_of_no_children hv
      · cases h
    · split at h
      · cases h
        exact leafWhenUnreadable_of_no_children hv
      · cases h
        exact leafWhenUnreadable_of_no_children hv
    iterate 2
      split at h
      · obtain ⟨r, _, h2⟩ := Outcome_map_eq_ok.mp h
        subst h2
        exact leafWhenUnreadable_of_no_children hv
      · cases h
    · exact leafWhenUnreadable_of_no_children ((readFunctionPtr_children h).trans hv)
    · cases h
      exact leafWhenUnreadable_of_no_children hv

theorem loaderAt_sound (env : LoadEnv) :
    ∀ fuel, RnFresh (loaderAt env fuel).1 ∧ RlSound (loaderAt env fuel).2 := by
  intro fuel
  induction fuel with
  | zero =>
    constructor
    · intro name addr t d h
      cases h
    · intro lvl cfg v w _ h
      cases h
  | succ n ih =>
    exact ⟨newVariableBody_fresh env _ _, loadValueInternalBody_sound env n ih.1 ih.2⟩


/-- The loop over the fields of a struct: when the fields it takes all load, it appends their
loaded variables to the children it starts with, in the order of the fields, and stops at
`MaxStructFields` children when that is not negative. -/
theorem loadStructFields_spec (rn : NewFn) (rl : LoadFn) (lvl : Int) (cfg : LoadConfig)
    (v : Variable) :
    ∀ (fields : List (StructField Ty)) (children : List Variable),
      (∀ f ∈ fields.take (if 0 ≤ cfg.MaxStructFields
          then cfg.MaxStructFields.toNat - children.length else fields.length),
        (loadField rn rl lvl cfg v f).isOk = true) →
      ∃ cs, loadStructFields rn rl lvl cfg v fields children = .ok (children ++ cs) ∧
        cs.length = (if 0 ≤ cfg.MaxStructFields
          then min fields.length (cfg.MaxStructFields.toNat - children.length)
          else fields.length) ∧
        List.Forall₂ (fun f ch => loadField rn rl lvl cfg v f = .ok ch)
          (fields.take cs.length) cs := by
  intro fields
  induction fields with
  | nil =>
    intro children _
    refine ⟨[], ?_, ?_, ?_⟩
    · simp [loadStructFields]
    · simp
    · simp
  | cons f rest ih =>
    intro children hall
    unfold loadStructFields
    by_cases hstop : cfg.MaxStructFields ≥ 0 ∧ (children.length : Int) ≥ cfg.MaxStructFields
    · rw [if_pos hstop]
      refine ⟨[], by simp, ?_, by simp⟩
      rw [if_pos hstop.1]
      have : cfg.MaxStructFields.toNat - children.length = 0 := by omega
      simp [this]
    · rw [if_neg hstop]
      have hf : (loadField rn rl lvl cfg v f).isOk = true := by
        apply hall
        by_cases h0 : 0 ≤ cfg.MaxStructFields
        · rw [if_pos h0]
          have : cfg.MaxStructFields.toNat - children.length =
              (cfg.MaxStructFields.toNat - children.length - 1) + 1 := by
            have : ¬ ((children.length : Int) ≥ cfg.MaxStructFields) := fun h => hstop ⟨h0, h⟩
            omega
          rw [this, List.take_succ_cons]
          exact List.mem_cons_self _ _
        · rw [if_neg h0]
          simp
      obtain ⟨c, hc⟩ := Outcome_isOk_iff.mp hf
      rw [hc]
      simp only [Outcome.bind]
      have hrest : ∀ g ∈ rest.take (if 0 ≤ cfg.MaxStructFields
          then cfg.MaxStructFields.toNat - (children ++ [c]).length else rest.length),
          (loadField rn rl lvl cfg v g).isOk = true := by
        intro g hg
        apply hall
        by_cases h0 : 0 ≤ cfg.MaxStructFields
        · rw [if_pos h0] at hg
          rw [if_pos h0]
          have hlen : (children ++ [c]).length = children.length + 1 := by simp
          have : cfg.MaxStructFields.toNat - children.length =
              (cfg.MaxStructFields.toNat - (children ++ [c]).length) + 1 := by
            have : ¬ ((children.length : Int) ≥ cfg.MaxStructFields) := fun h => hstop ⟨h0, h⟩
            rw [hlen]
            omega
          rw [this, List.take_succ_cons]
          exact List.mem_cons_of_mem _ hg
        · rw [if_neg h0] at hg
          rw [if_neg h0]
          simp only [List.length_cons, List.take_succ_cons]
          exact List.mem_cons_of_mem _ hg
      obtain ⟨cs, h1, h2, h3⟩ := ih (children ++ [c]) hrest
      refine ⟨c :: cs, ?_, ?_, ?_⟩
      · rw [h1, List.append_assoc]
        rfl
      · have hlen : (children ++ [c]).length = children.length + 1 := by simp
        rw [List.length_cons, h2, hlen]
        by_cases h0 : 0 ≤ cfg.MaxStructFields
        · rw [if_pos h0, if_pos h0]
          have : ¬ ((children.length : Int) ≥ cfg.MaxStructFields) := fun h => hstop ⟨h0, h⟩
          rw [List.length_cons]
          omega
        · rw [if_neg h0, if_neg h0]
          rfl
      · rw [List.length_cons, List.take_succ_cons]
        exact List.Forall₂.cons hc h3

/-- C15. A struct variable that is readable, not loaded yet and at a non-zero address, with a
struct type of the fields `fields`, loaded at a level within `MaxVariableRecurse`, and whose
fields (those the cap lets through) all load, comes back with `Len` equal to the number of
fields, with `min n MaxStructFields` children when `MaxStructFields` is not negative and `n`
children when it is negative, and the children are the loaded variables of the first fields,
in the order of declaration. -/
theorem struct_truncation_keeps_len (env : LoadEnv) (fuel : Nat) (lvl : Int) (cfg : LoadConfig)
    (v : Variable) (c : CommonType) (fields : List (StructField Ty))
    (hk : v.Kind = .Struct) (ht : v.RealType = some (.StructType c fields))
    (hu : v.Unreadable = none) (hl : v.loaded = false) (ha : v.Addr ≠ 0)
    (hlvl : lvl ≤ cfg.MaxVariableRecurse)
    (hfields : ∀ f ∈ fields.take (if 0 ≤ cfg.MaxStructFields
        then cfg.MaxStructFields.toNat else fields.length),
      (loadField (newVariable env fuel) (loadValueInternal env fuel) lvl cfg v f).isOk = true) :
    ∃ v2, loadValueInternal env (fuel + 1) lvl cfg v = .ok v2 ∧
      v2.Len = fields.length ∧
      v2.Children.length = (if 0 ≤ cfg.MaxStructFields
        then min fields.length cfg.MaxStructFields.toNat else fields.length) ∧
      List.Forall₂
        (fun f ch =>
          loadField (newVariable env fuel) (loadValueInternal env fuel) lvl cfg v f = .ok ch)
        (fields.take v2.Children.length) v2.Children := by
  obtain ⟨cs, h1, h2, h3⟩ := loadStructFields_spec (newVariable env fuel)
    (loadValueInternal env fuel) lvl cfg v fields [] (by simpa using hfields)
  rw [loadValueInternal_succ]
  unfold loadValueInternalBody
  rw [if_neg (by rw [hu, hl]; simp [ha])]
  simp only [hk, ht, if_pos hlvl, h1, Outcome.map, List.nil_append]
  refine ⟨_, rfl, rfl, ?_, h3⟩
  simpa using h2

/-- C15, witness: the struct of five fields of `memStruct5`, loaded with `MaxStructFields = 2`,
comes back with `Len = 5` and the two children `A` and `B`. -/
theorem struct_truncation_keeps_len_witness :
    ∃ v2, loadValueInternal (exampleLoadEnv memStruct5) 3 0 ⟨true, 1, 64, 64, 2⟩
        (varAt "s" 1000 struct5Ty .Struct) = .ok v2 ∧
      v2.Len = 5 ∧ v2.Children.length = 2 ∧
      v2.Children.map (fun ch => (ch.Name, ch.Value)) =
        [("A", some (.int 11)), ("B", some (.int 22))] := by
  obtain ⟨v2, h1, h2, h3, h4⟩ := struct_truncation_keeps_len (exampleLoadEnv memStruct5) 2 0
    ⟨true, 1, 64, 64, 2⟩ (varAt "s" 1000 struct5Ty .Struct) ⟨40, "main.S"⟩
    [⟨"A", intTy, 0, false⟩, ⟨"B", intTy, 8, false⟩, ⟨"C", intTy, 16, false⟩,
      ⟨"D", intTy, 24, false⟩, ⟨"E", intTy, 32, false⟩]
    rfl rfl rfl rfl (by decide) (by decide) (by decide)
  refine ⟨v2, h1, h2, h3, ?_⟩
  have h5 : loadValueInternal (exampleLoadEnv memStruct5) 3 0 ⟨true, 1, 64, 64, 2⟩
      (varAt "s" 1000 struct5Ty .Struct) =
      .ok v2 → v2.Children.map (fun ch => (ch.Name, ch.Value)) =
        [("A", some (.int 11)), ("B", some (.int 22))] := by
    intro h
    have e : (Outcome.ok v2 : Outcome Variable) = _ := h.symm
    injection e.trans (by rfl : loadValueInternal (exampleLoadEnv memStruct5) 3 0 ⟨true, 1, 64, 64, 2⟩
      (varAt "s" 1000 struct5Ty .Struct) = .ok _) with e2
    rw [e2]
    rfl
  exact h5 h1

/-- C16, amended. With `FollowPointers` off, whatever `MaxVariableRecurse` is, a pointer to a
pointer that is readable, not loaded yet and at a non-zero address comes back with exactly
one child, which has `OnlyAddr` set, is not loaded and has no children. -/
theorem pointer_not_followed_only_addr (env : LoadEnv) (fuel : Nat) (lvl : Int)
    (cfg : LoadConfig) (v : Variable) (c c2 : CommonType) (elem2 : Ty)
    (hk : v.Kind = .Ptr) (ht : v.RealType = some (.PtrType c (.PtrType c2 elem2)))
    (hu : v.Unreadable = none) (hl : v.loaded = false) (ha : v.Addr ≠ 0)
    (hsz : 0 ≤ c.ByteSize) (hfp : cfg.FollowPointers = false) :
    ∃ v2 ch, loadValueInternal env (fuel + 2) lvl cfg v = .ok v2 ∧ v2.Children = [ch] ∧
      ch.OnlyAddr = true ∧ ch.Children = [] ∧ ch.loaded = false := by
  obtain ⟨r, hr⟩ := readUintRaw_ok env.mem v.Addr hsz
  have hnew : ∃ d, newVariable env (fuel + 1) "" r.1 (some (.PtrType c2 elem2)) = .ok d ∧
      d.Children = [] ∧ d.loaded = false := by
    rw [newVariable_succ]
    unfold newVariableBody
    simp only [Option.map, resolveTypedef]
    exact ⟨_, rfl, rfl, rfl⟩
  obtain ⟨d0, hd0, hd01, hd02⟩ := hnew
  have hderef : ∃ d, maybeDereference env (newVariable env (fuel + 1))
      { v with loaded := true, Len := 1 } = .ok d ∧ d.Children = [] ∧ d.loaded = false := by
    unfold maybeDereference
    rw [if_neg (by show ¬ (v.Unreadable ≠ none); rw [hu]; simp)]
    simp only [ht, ptrElem, Ty.Common, hr, Outcome.bind, hd0]
    split
    · exact ⟨_, rfl, hd01, hd02⟩
    · exact ⟨_, rfl, hd01, hd02⟩
  obtain ⟨d, hd, hd1, hd2⟩ := hderef
  rw [loadValueInternal_succ]
  unfold loadValueInternalBody
  rw [if_neg (by rw [hu, hl]; simp [ha])]
  simp only [hk]
  rw [hk] at hd
  rw [hd]
  simp only [Outcome.bind, hfp]
  exact ⟨_, _, rfl, rfl, rfl, hd1, hd2⟩

/-- C16, witness: the chain of three pointers of `memPtrChain`, loaded with `FollowPointers`
off and `MaxVariableRecurse = 0`. -/
theorem pointer_not_followed_only_addr_witness :
    ∃ v2 ch, loadValueInternal (exampleLoadEnv memPtrChain) 2 0 ⟨false, 0, 64, 64, -1⟩
        (varAt "p" 2000 (ptrTy (ptrTy (ptrTy intTy))) .Ptr) = .ok v2 ∧
      v2.Children = [ch] ∧ ch.OnlyAddr = true ∧ ch.Children = [] ∧ ch.loaded = false :=
  pointer_not_followed_only_addr (exampleLoadEnv memPtrChain) 0 0 ⟨false, 0, 64, 64, -1⟩
    (varAt "p" 2000 (ptrTy (ptrTy (ptrTy intTy))) .Ptr) _ _ _ rfl rfl rfl rfl (by decide)
    (by decide) rfl

/-- C16, counterexample. With `MaxVariableRecurse = 0` and `FollowPointers` on, the chain of
three pointers of `memPtrChain` is followed down to the integer 7: the child of the variable
does not have `OnlyAddr` set and has a child of its own, and so on to the integer. -/
theorem pointer_chain_followed_at_budget_zero :
    (loadAt (exampleLoadEnv memPtrChain) 6 ⟨true, 0, 64, 64, -1⟩ "p" 2000
      (ptrTy (ptrTy (ptrTy intTy)))).map (fun v =>
        (v.Children.map fun c1 =>
          (c1.OnlyAddr, c1.Children.map fun c2 =>
            (c2.OnlyAddr, c2.Children.map fun c3 => (c3.OnlyAddr, c3.Value))))) =
      .ok [(false, [(false, [(false, some (.int 7))])])] := by
  rfl

/-- C17, amended. When the load of a variable that has no children yet returns, every
variable of the resulting tree that has an error and is not a map has no children (a map
keeps the entries it has loaded before the error); and the load of a variable that has an
error returns the variable as it is, at every level and with every configuration. -/
theorem poisoned_are_leaves_except_maps (env : LoadEnv) (fuel : Nat) (cfg : LoadConfig)
    (v w : Variable) (hv : v.Children = []) (h : loadValue env fuel cfg v = .ok w) :
    LeafWhenUnreadable w ∧
    ∀ (u : Variable) (k : Nat) (lvl : Int) (cfg2 : LoadConfig), u.Unreadable ≠ none →
      loadValueInternal env (k + 1) lvl cfg2 u = .ok u := by
  constructor
  · exact (loaderAt_sound env fuel).2 0 cfg v w hv h
  · intro u k lvl cfg2 hu
    rw [loadValueInternal_succ]
    unfold loadValueInternalBody
    rw [if_pos (Or.inl hu)]

/-- C17, witness: a struct of five fields of which the memory of `memMapTorn` holds the first
two: the last three children come back with an error and without children. -/
theorem poisoned_are_leaves_except_maps_witness :
    ∃ w, loadValue (exampleLoadEnv memMapTorn) 3 loadFullValue
        (varAt "s" 5232 struct5Ty .Struct) = .ok w ∧
      w.Children.map (fun c => (c.Unreadable.isSome, c.Children.length)) =
        [(false, 0), (false, 0), (true, 0), (true, 0), (true, 0)] ∧
      LeafWhenUnreadable w :=
  ⟨_, rfl, rfl, (poisoned_are_leaves_except_maps (exampleLoadEnv memMapTorn) 3 loadFullValue
    (varAt "s" 5232 struct5Ty .Struct) _ rfl rfl).1⟩

/-- C17, counterexample. The map of `memMapTorn`, whose second bucket cannot be read, comes
back with the error "unreadable tophash" and with the two children, key and value, that the
load has taken from its first bucket. -/
theorem unreadable_map_keeps_children :
    (loadAt (exampleLoadEnv memMapTorn) 9 loadFullValue "m" 5000 mapTy).map
        (fun v => (v.Unreadable, v.Children.map (fun ch => (ch.Addr, ch.Value)))) =
      .ok (some (.other "unreadable tophash"),
        [(5112, some (.int 1)), (5176, some (.int 10))]) := by
  rfl

/-- C18. The function `readStringValue` on a string of `n` bytes at the address `p`, with a cap
`MaxStringLen` that is not negative and a memory that delivers `bytes` for a read of
`min n MaxStringLen` bytes at `p`, returns these bytes, `min n MaxStringLen` of them, without
an error; `loadValueInternal` stores them as the value of a string variable and leaves its
`Len` at `n`.  For `n = 0` the result is the empty string whatever the memory is, and
`readStringInfo` reports the address 0 and the length 0 for a header whose pointer is nil, so
that the value of such a string is empty whatever the memory is. -/
theorem readStringValue_capped (env : LoadEnv) (p : Nat) (n : Int) (cfg : LoadConfig)
    (bytes : List Nat) (hn : 0 ≤ n) (hmax : 0 ≤ cfg.MaxStringLen)
    (hread : env.mem.ReadMemory (min n cfg.MaxStringLen).toNat p = .ok bytes) :
    readStringValue env p n cfg = .ok (if n = 0 then [] else bytes, none) ∧
    bytes.length = (min n cfg.MaxStringLen).toNat ∧
    (∀ (fuel : Nat) (lvl : Int) (v : Variable), v.Kind = .String → v.Unreadable = none →
      v.loaded = false → v.Addr ≠ 0 → v.Base = p → v.Len = n →
      ∃ v2, loadValueInternal env (fuel + 1) lvl cfg v = .ok v2 ∧ v2.Len = n ∧
        v2.Value = some (.string (if n = 0 then [] else bytes)) ∧ v2.Unreadable = none) ∧
    (∀ (env2 : LoadEnv) (q : Nat), readStringValue env2 q 0 cfg = .ok ([], none)) ∧
    (∀ (env2 : LoadEnv) (addr k : Nat) (lenw ptrw : List Nat),
      env2.mem.ReadMemory env2.ptrSize (addr + env2.ptrSize) = .ok lenw →
      leUint64 lenw = some k → 0 ≤ toInt64 k →
      env2.mem.ReadMemory env2.ptrSize addr = .ok ptrw → leUint64 ptrw = some 0 →
      readStringInfo env2 addr = .ok (0, 0, none)) := by
  have hcap : (if n > cfg.MaxStringLen then cfg.MaxStringLen else n) = min n cfg.MaxStringLen := by
    split_ifs with h
    · exact (min_eq_right (le_of_lt h)).symm
    · exact (min_eq_left (not_lt.mp h)).symm
  have hval : readStringValue env p n cfg = .ok (if n = 0 then [] else bytes, none) := by
    unfold readStringValue
    by_cases h0 : n = 0
    · rw [if_pos h0, if_pos h0]
    · rw [if_neg h0, if_neg h0, hcap, if_neg (not_lt.mpr (le_min hn hmax)), hread]
  refine ⟨hval, ReadMemory_length hread, ?_, ?_, ?_⟩
  · intro fuel lvl v hk hu hl ha hb hlen
    rw [loadValueInternal_succ]
    unfold loadValueInternalBody
    rw [if_neg (by rw [hu, hl]; simp [ha])]
    simp only [hk, hb, hlen, hval, Outcome.map]
    exact ⟨_, rfl, rfl, rfl, rfl⟩
  · intro env2 q
    unfold readStringValue
    rw [if_pos rfl]
  · intro env2 addr k lenw ptrw h1 h2 h3 h4 h5
    unfold readStringInfo
    simp only [h1, h2, h4, h5, if_neg (not_lt.mpr h3), if_true]

/-- C18, witness: the string "hello" of `memString` read with `MaxStringLen = 3` gives the
three bytes of "hel". -/
theorem readStringValue_capped_witness :
    (0 : Int) ≤ 5 ∧
    readStringValue (exampleLoadEnv memString) 3104 5 ⟨true, 1, 3, 64, -1⟩ =
      .ok ([104, 101, 108], none) :=
  ⟨by decide,
    (readStringValue_capped (exampleLoadEnv memString) 3104 5 ⟨true, 1, 3, 64, -1⟩
      [104, 101, 108] (by decide) (by decide) rfl).1⟩

/-- The loop of `loadArrayValues`: when the elements from `i` up to `count` all load without
an error and there are rounds enough, it appends their loaded variables to the children it
starts with, in the order of the indices. -/
theorem loadArrayValues_loop_spec (rn : NewFn) (rl : LoadFn) (lvl : Int) (cfg : LoadConfig)
    (v : Variable) (count : Int) :
    ∀ (n i : Nat) (errcount : Int) (children : List Variable),
      (∀ j : Nat, i ≤ j → (j : Int) < count →
        ∃ c, loadElem rn rl lvl cfg v j = .ok c ∧ c.Unreadable = none) →
      errcount ≤ maxErrCount → (count - i).toNat ≤ n →
      ∃ cs, loadArrayValues.loop rn rl lvl cfg v count n i errcount children =
          .ok (children ++ cs) ∧
        cs.length = (count - i).toNat ∧
        List.Forall₂ (fun (j : Nat) ch => loadElem rn rl lvl cfg v j = .ok ch)
          (List.range' i cs.length) cs := by
  intro n
  induction n with
  | zero =>
    intro i errcount children _ _ hn
    have h0 : (count - i).toNat = 0 := by omega
    refine ⟨[], by simp [loadArrayValues.loop], by simp [h0], by simp⟩
  | succ n ih =>
    intro i errcount children hall herr hn
    unfold loadArrayValues.loop
    by_cases hi : (i : Int) < count
    · rw [if_pos hi]
      obtain ⟨c, hc, hcu⟩ := hall i (le_refl _) hi
      rw [hc]
      simp only [Outcome.bind]
      have hnu : ¬ (c.Unreadable ≠ none) := by rw [hcu]; simp
      have hne : ¬ (errcount > maxErrCount) := not_lt.mpr herr
      simp only [if_neg hnu, if_neg hne]
      obtain ⟨cs, h1, h2, h3⟩ := ih (i + 1) errcount (children ++ [c])
        (fun j hj hjc => hall j (by omega) hjc) herr (by push_cast; omega)
      refine ⟨c :: cs, ?_, ?_, ?_⟩
      · have : ((i : Int) + 1) = ((i + 1 : Nat) : Int) := by push_cast; rfl
        rw [this, h1, List.append_assoc]
        rfl
      · rw [List.length_cons, h2]
        push_cast
        omega
      · rw [List.length_cons, List.range'_succ]
        exact List.Forall₂.cons hc h3
    · rw [if_neg hi]
      have h0 : (count - i).toNat = 0 := by omega
      refine ⟨[], by simp, by simp [h0], by simp⟩

/-- C19. A slice or array variable that is readable, not loaded yet, without children and
with a length `Len` that is not negative, whose elements below `min Len MaxArrayValues` all
load without an error, comes back with `min Len MaxArrayValues` children (none when that is
negative), the loaded variables of the elements in the order of the indices, with `Len` and
`Cap` as they were and without an error; with a negative `Len` instead the variable comes
back with the error "Negative array length" and no children. -/
theorem container_truncation_keeps_len (env : LoadEnv) (fuel : Nat) (lvl : Int)
    (cfg : LoadConfig) (v : Variable)
    (hk : v.Kind = .Slice ∨ v.Kind = .Array) (hu : v.Unreadable = none)
    (hl : v.loaded = false) (ha : v.Addr ≠ 0 ∨ v.Base ≠ 0) (hch : v.Children = [])
    (hlen : 0 ≤ v.Len)
    (helems : ∀ j : Nat, (j : Int) < min v.Len cfg.MaxArrayValues →
      ∃ c, loadElem (newVariable env fuel) (loadValueInternal env fuel) lvl cfg v j = .ok c ∧
        c.Unreadable = none) :
    (∃ v2, loadValueInternal env (fuel + 1) lvl cfg v = .ok v2 ∧
      v2.Len = v.Len ∧ v2.Cap = v.Cap ∧ v2.Unreadable = none ∧
      v2.Children.length = (min v.Len cfg.MaxArrayValues).toNat ∧
      List.Forall₂
        (fun (j : Nat) ch =>
          loadElem (newVariable env fuel) (loadValueInternal env fuel) lvl cfg v j = .ok ch)
        (List.range v2.Children.length) v2.Children) ∧
    (∀ w : Variable, (w.Kind = .Slice ∨ w.Kind = .Array) → w.Unreadable = none →
      w.loaded = false → (w.Addr ≠ 0 ∨ w.Base ≠ 0) → w.Children = [] → w.Len < 0 →
      ∃ w2, loadValueInternal env (fuel + 1) lvl cfg w = .ok w2 ∧
        w2.Unreadable = some (.other "Negative array length") ∧ w2.Children = [] ∧
        w2.Len = w.Len) := by
  constructor
  · have hcount : arrayCount cfg { v with loaded := true } = min v.Len cfg.MaxArrayValues := by
      unfold arrayCount
      show (if v.Len > cfg.MaxArrayValues then cfg.MaxArrayValues else v.Len) = _
      split_ifs with h
      · exact (min_eq_right (le_of_lt h)).symm
      · exact (min_eq_left (not_lt.mp h)).symm
    obtain ⟨cs, h1, h2, h3⟩ := loadArrayValues_loop_spec (newVariable env fuel)
      (loadValueInternal env fuel) lvl cfg { v with loaded := true }
      (min v.Len cfg.MaxArrayValues) (min v.Len cfg.MaxArrayValues).toNat 0 0 []
      (fun j _ hj => helems j hj) (by decide) (by simp)
    have hbody : loadArrayValues (newVariable env fuel) (loadValueInternal env fuel) lvl cfg
        { v with loaded := true } = .ok { v with loaded := true, Children := cs } := by
      unfold loadArrayValues
      rw [if_neg (by show ¬ (v.Unreadable ≠ none); rw [hu]; simp),
        if_neg (by show ¬ (v.Len < 0); omega), hcount]
      show (loadArrayValues.loop _ _ lvl cfg _ _ _ 0 0 v.Children).map _ = _
      have h1b := h1
      simp only [Nat.cast_zero, List.nil_append] at h1b
      rw [hch] at h1b ⊢
      rw [h1b]
      simp only [Outcome.map, hch]
    have hload : loadValueInternal env (fuel + 1) lvl cfg v =
        .ok { v with loaded := true, Children := cs } := by
      rw [loadValueInternal_succ]
      unfold loadValueInternalBody
      rw [if_neg (by rw [hu, hl]; simp; tauto)]
      rcases hk with hk | hk <;> simp only [hk] <;> rw [← hk] <;> exact hbody
    refine ⟨_, hload, rfl, rfl, hu, ?_, ?_⟩
    · show cs.length = _
      rw [h2]
      simp
    · show List.Forall₂ _ (List.range cs.length) cs
      rw [List.range_eq_range']
      exact h3
  · intro w hk hu hl ha hch hlen
    have hbody : loadArrayValues (newVariable env fuel) (loadValueInternal env fuel) lvl cfg
        { w with loaded := true } =
        .ok { w with loaded := true, Unreadable := some (.other "Negative array length") } := by
      unfold loadArrayValues
      rw [if_neg (by show ¬ (w.Unreadable ≠ none); rw [hu]; simp),
        if_pos (by show w.Len < 0; exact hlen)]
    have hload : loadValueInternal env (fuel + 1) lvl cfg w =
        .ok { w with loaded := true, Unreadable := some (.other "Negative array length") } := by
      rw [loadValueInternal_succ]
      unfold loadValueInternalBody
      rw [if_neg (by rw [hu, hl]; simp; tauto)]
      rcases hk with hk | hk <;> simp only [hk] <;> rw [← hk] <;> exact hbody
    exact ⟨_, hload, rfl, hch, rfl⟩

/-- C19, witness: the slice of 200 elements of `memSlice`, loaded with `MaxArrayValues = 64`,
comes back with `Len = 200`, `Cap = 256` and 64 children. -/
theorem container_truncation_keeps_len_witness :
    ∃ v2, loadValueInternal (exampleLoadEnv memSlice) 3 0 loadFullValue exampleSliceVar =
        .ok v2 ∧
      v2.Len = 200 ∧ v2.Cap = 256 ∧ v2.Unreadable = none ∧ v2.Children.length = 64 := by
  obtain ⟨v2, h1, h2, h3, h4, h5, _⟩ := (container_truncation_keeps_len
    (exampleLoadEnv memSlice) 2 0 loadFullValue exampleSliceVar (Or.inl rfl) rfl rfl
    (Or.inl (by decide)) rfl (by decide) (by
      intro j hj
      have hj2 : j < 64 := by
        have : min exampleSliceVar.Len loadFullValue.MaxArrayValues = 64 := by decide
        rw [this] at hj
        omega
      interval_cases j <;> exact ⟨_, rfl, rfl⟩)).1
  exact ⟨v2, h1, h2, h3, h4, h5⟩

/-- The bucket count and the mask of the old buckets that the method `mapIterator` computes
from the field `B` of the map header. -/
theorem mapIterator_masks (B : Nat) (h0 : 0 < B) (h1 : B < 64) :
    shl64 1 B = 2 ^ B ∧
    wrap64 (shl64 1 (wrap64 (B + (2 ^ 64 - 1))) + (2 ^ 64 - 1)) = 2 ^ (B - 1) - 1 := by
  interval_cases B <;> exact ⟨by decide, by decide⟩

/-- The choice of the bucket in a map that is being resized from `2 ^ (B - 1)` old buckets to
`2 ^ B` new ones (the bucket count and the mask that the iterator computes from the header
field `B` below 64), with old buckets that are not nil: take the old bucket `o` and the two
new buckets `o` and `o + 2 ^ (B - 1)` that map to it.  When the old bucket is not evacuated,
the choice of the bucket at `o` is the old bucket, and at `o + 2 ^ (B - 1)` no bucket is
chosen: the search moves on to the next index.  When it is evacuated, the choice is the new
bucket at either index, never the old one.  On the map of `memMapResize`, with one old bucket
that holds the keys 1, 2, 3 and is not evacuated and two new buckets of which the first has
received 1 and 3, the load yields the keys 1, 2, 3 once each, with their values, read from
the old bucket; once the old bucket is marked evacuated (`memMapEvacuated`), the same keys
come from the new buckets, once each. -/
theorem map_resize_each_key_once (rn : NewFn) (rl : LoadFn) (it : mapIterator)
    (buckets oldbuckets : Variable) (B o n : Nat) (b1 b2 oldb : Variable) (ev : Bool)
    (hB : 0 < B) (hnum : it.numbuckets = 2 ^ B) (hmask : it.oldmask = 2 ^ (B - 1) - 1)
    (hold : 0 < oldbuckets.Addr) (ho : o < 2 ^ (B - 1))
    (hb1 : bucketAt buckets o = some b1) (hb2 : bucketAt buckets (o + 2 ^ (B - 1)) = some b2)
    (hob : bucketAt oldbuckets o = some oldb) (hev : mapEvacuated rn rl oldb = .ok ev) :
    (B < 64 → shl64 1 B = it.numbuckets ∧
      wrap64 (shl64 1 (wrap64 (B + (2 ^ 64 - 1))) + (2 ^ 64 - 1)) = it.oldmask) ∧
    nextBucket.pick rn rl it buckets oldbuckets (n + 1) o =
      .ok (some (if ev = true then b1 else oldb), o) ∧
    nextBucket.pick rn rl it buckets oldbuckets (n + 1) (o + 2 ^ (B - 1)) =
      (if ev = true then .ok (some b2, o + 2 ^ (B - 1))
        else nextBucket.pick rn rl it buckets oldbuckets n (wrap64 (o + 2 ^ (B - 1) + 1))) ∧
    (loadAt (exampleLoadEnv memMapResize) 9 loadFullValue "m" 5000 mapTy).map
        (fun v => (v.Children.map (fun ch => (ch.Addr, ch.Value)), v.Len, v.Unreadable)) =
      .ok ([(7008, some (.int 1)), (7072, some (.int 10)), (7016, some (.int 2)),
        (7080, some (.int 20)), (7024, some (.int 3)), (7088, some (.int 30))], 3, none) ∧
    (loadAt (exampleLoadEnv memMapEvacuated) 9 loadFullValue "m" 5000 mapTy).map
        (fun v => (v.Children.map (fun ch => (ch.Addr, ch.Value)), v.Len, v.Unreadable)) =
      .ok ([(6008, some (.int 1)), (6072, some (.int 10)), (6016, some (.int 3)),
        (6080, some (.int 30)), (6152, some (.int 2)), (6216, some (.int 20))], 3, none) := by
  have hpow : 2 ^ B = 2 ^ (B - 1) + 2 ^ (B - 1) := by
    obtain ⟨k, rfl⟩ : ∃ k, B = k + 1 := ⟨B - 1, by omega⟩
    simp only [Nat.add_sub_cancel, pow_succ]
    omega
  have hand1 : Nat.land o it.oldmask = o := by
    rw [hmask]
    show o &&& (2 ^ (B - 1) - 1) = o
    rw [Nat.and_pow_two_sub_one_eq_mod, Nat.mod_eq_of_lt ho]
  have hand2 : Nat.land (o + 2 ^ (B - 1)) it.oldmask = o := by
    rw [hmask]
    show (o + 2 ^ (B - 1)) &&& (2 ^ (B - 1) - 1) = o
    rw [Nat.and_pow_two_sub_one_eq_mod, Nat.add_mod_right, Nat.mod_eq_of_lt ho]
  have hne : o ≠ o + 2 ^ (B - 1) := by
    have : 0 < 2 ^ (B - 1) := Nat.two_pow_pos _
    omega
  refine ⟨?_, ?_, ?_, by rfl, by rfl⟩
  · intro hB64
    rw [hnum, hmask]
    exact mapIterator_masks B hB hB64
  · unfold nextBucket.pick
    rw [if_pos (by rw [hnum, hpow]; omega), hb1]
    simp only
    rw [if_neg (by omega), hand1, hob]
    simp only [hev, Outcome.bind]
    cases ev
    · simp
    · simp
  · rw [nextBucket.pick]
    rw [if_pos (by rw [hnum, hpow]; omega), hb2]
    simp only
    rw [if_neg (by omega), hand2, hob]
    simp only [hev, Outcome.bind]
    cases ev
    · simp [hne]
    · simp

/-- On the map of `memMapResize` the old bucket is chosen at the index 0 and no bucket at the
index 1. -/
theorem map_resize_each_key_once_witness :
    nextBucket.pick (newVariable (exampleLoadEnv memMapResize) 5)
        (loadValueInternal (exampleLoadEnv memMapResize) 5) exampleMapIterator exampleBuckets
        exampleOldBuckets 2 0 = .ok (some exampleOldBuckets, 0) ∧
      nextBucket.pick (newVariable (exampleLoadEnv memMapResize) 5)
        (loadValueInternal (exampleLoadEnv memMapResize) 5) exampleMapIterator exampleBuckets
        exampleOldBuckets 2 1 = .ok (none, 2) := by
  have h := map_resize_each_key_once (newVariable (exampleLoadEnv memMapResize) 5)
    (loadValueInternal (exampleLoadEnv memMapResize) 5) exampleMapIterator exampleBuckets
    exampleOldBuckets 1 0 1 exampleBuckets { exampleBuckets with Addr := 6144 }
    exampleOldBuckets false (by decide) rfl rfl (by decide) (by decide) rfl rfl rfl (by rfl)
  exact ⟨h.2.1, h.2.2.1⟩

/-- C20. A map in the middle of a grow that keeps the number of buckets loses keys.  The map
of `memMapSameSize` has `B = 1`, two new buckets that are still empty and two old buckets, of
which bucket 0 holds the keys 1 and 3 and bucket 1 holds the key 2, none of them evacuated.
The iterator computes the mask `2 ^ (B - 1) - 1 = 0` for the old buckets: at the new index 1
it looks at the old bucket `1 AND 0 = 0`, finds it not evacuated and already iterated, and
chooses no bucket; the old bucket 1 is never looked at.  The load returns the keys 1 and 3
with their values, the length 3 and no error: the key 2 is missing. -/
theorem map_same_size_grow_omits_key :
    (loadAt (exampleLoadEnv memMapSameSize) 9 loadFullValue "m" 5000 mapTy).map
        (fun v => (v.Children.map (fun ch => (ch.Addr, ch.Value)), v.Len, v.Unreadable)) =
      .ok ([(7008, some (.int 1)), (7072, some (.int 10)), (7016, some (.int 3)),
        (7080, some (.int 30))], 3, none) ∧
    nextBucket.pick (newVariable (exampleLoadEnv memMapSameSize) 5)
        (loadValueInternal (exampleLoadEnv memMapSameSize) 5) exampleMapIterator exampleBuckets
        exampleOldBuckets 2 0 = .ok (some exampleOldBuckets, 0) ∧
    nextBucket.pick (newVariable (exampleLoadEnv memMapSameSize) 5)
        (loadValueInternal (exampleLoadEnv memMapSameSize) 5) exampleMapIterator exampleBuckets
        exampleOldBuckets 2 1 = .ok (none, 2) ∧
    mapEvacuated (newVariable (exampleLoadEnv memMapSameSize) 5)
        (loadValueInternal (exampleLoadEnv memMapSameSize) 5)
        { exampleOldBuckets with Addr := 7144 } = .ok false ∧
    readIntRaw memMapSameSize 7152 8 = .ok (2, none) := by
  refine ⟨by rfl, by rfl, by rfl, by rfl, by rfl⟩

/-! ## Bytes and little-endian values -/

theorem fitBytes_lt (size : Nat) (bs : List Nat) : ∀ b ∈ fitBytes size bs, b < 256 := by
  intro b hb
  unfold fitBytes at hb
  have hb2 := List.mem_of_mem_take hb
  rcases List.mem_append.mp hb2 with h | h
  · obtain ⟨a, _, rfl⟩ := List.mem_map.mp h
    exact Nat.mod_lt _ (by decide)
  · rw [List.eq_of_mem_replicate h]
    decide

theorem ReadMemory_lt {mem : Memory} {size addr : Nat} {bs : List Nat}
    (h : mem.ReadMemory size addr = .ok bs) : ∀ b ∈ bs, b < 256 := by
  unfold Memory.ReadMemory at h
  split at h
  · cases h
    exact fitBytes_lt _ _
  · cases h

theorem leValue_lt : ∀ (bs : List Nat), (∀ b ∈ bs, b < 256) →
    Line.leValue bs < 2 ^ (8 * bs.length) := by
  intro bs
  induction bs with
  | nil => intro _; simp [Line.leValue]
  | cons b rest ih =>
    intro h
    have hb : b < 256 := h b (List.mem_cons_self _ _)
    have hr := ih (fun x hx => h x (List.mem_cons_of_mem _ hx))
    simp only [Line.leValue, List.length_cons]
    have : 2 ^ (8 * (rest.length + 1)) = 256 * 2 ^ (8 * rest.length) := by
      rw [Nat.mul_add, pow_add]
      norm_num
      ring
    rw [this]
    omega

/-! ## `Locals`: names and flags of new variables -/

theorem loadSliceInfo_loop_name (env : LoadEnv) (rn : NewFn) (rl : LoadFn) :
    ∀ (fields : List (StructField Ty)) (v : Variable) (r : Variable × Bool),
      loadSliceInfo.loop env rn rl fields v = .ok r →
        r.1.Name = v.Name ∧ r.1.Flags = v.Flags := by
  intro fields
  induction fields with
  | nil =>
    intro v r h
    simp only [loadSliceInfo.loop] at h
    cases h
    exact ⟨rfl, rfl⟩
  | cons f rest ih =>
    intro v r h
    rw [loadSliceInfo.loop] at h
    split_ifs at h with h1 h2 h3
    · obtain ⟨r1, _, h5⟩ := Outcome_bind_eq_ok.mp h
      split at h5
      · cases h5; exact ⟨rfl, rfl⟩
      · split at h5
        · cases h5; exact ⟨rfl, rfl⟩
        · have h9 := ih _ _ h5; exact h9
    · obtain ⟨fv, _, h5⟩ := Outcome_bind_eq_ok.mp h
      obtain ⟨lv, _, h6⟩ := Outcome_bind_eq_ok.mp h5
      split at h6
      · cases h6; exact ⟨rfl, rfl⟩
      · split at h6
        · cases h6
        · have h9 := ih _ _ h6; exact h9
    · obtain ⟨fv, _, h5⟩ := Outcome_bind_eq_ok.mp h
      obtain ⟨lv, _, h6⟩ := Outcome_bind_eq_ok.mp h5
      split at h6
      · cases h6; exact ⟨rfl, rfl⟩
      · split at h6
        · cases h6
        · have h9 := ih _ _ h6; exact h9
    · exact ih _ _ h

theorem loadSliceInfo_name {env : LoadEnv} {rn : NewFn} {rl : LoadFn} {v d : Variable}
    {fields : List (StructField Ty)} (h : loadSliceInfo env rn rl v fields = .ok d) :
    d.Name = v.Name ∧ d.Flags = v.Flags := by
  unfold loadSliceInfo at h
  obtain ⟨r, h1, h2⟩ := Outcome_bind_eq_ok.mp h
  have h3 := loadSliceInfo_loop_name env rn rl _ _ _ h1
  split_ifs at h2
  · cases h2; exact h3
  · split at h2
    · cases h2
    · split at h2 <;> (cases h2; exact h3)

theorem loadChanInfo_name {env : LoadEnv} {rn : NewFn} {rl : LoadFn} {v d : Variable}
    {c : CommonType} {target elemType : Ty}
    (h : loadChanInfo env rn rl v c target elemType = .ok d) :
    d.Name = v.Name ∧ d.Flags = v.Flags := by
  unfold loadChanInfo at h
  obtain ⟨sv, _, h2⟩ := Outcome_bind_eq_ok.mp h
  split_ifs at h2
  · cases h2; exact ⟨rfl, rfl⟩
  · split at h2
    · split at h2
      · cases h2
      · obtain ⟨la, _, h3⟩ := Outcome_bind_eq_ok.mp h2
        obtain ⟨lv, _, h4⟩ := Outcome_bind_eq_ok.mp h3
        split at h4
        · cases h4; exact ⟨rfl, rfl⟩
        · split at h4
          · cases h4
          · cases h4; exact ⟨rfl, rfl⟩
    · cases h2; exact ⟨rfl, rfl⟩

/-- A variable that `newVariable` returns has the name it was asked for and no flag. -/
theorem newVariableBody_name (env : LoadEnv) (rn : NewFn) (rl : LoadFn) (name : String)
    (addr : Nat) (t : Option Ty) (d : Variable)
    (h : newVariableBody env rn rl name addr t = .ok d) : d.Name = name ∧ d.Flags = 0 := by
  unfold newVariableBody at h
  split at h
  · cases h; exact ⟨rfl, rfl⟩
  · split at h
    all_goals first
      | (cases h; exact ⟨rfl, rfl⟩)
      | (split_ifs at h
         · exact loadChanInfo_name h
         · cases h; exact ⟨rfl, rfl⟩)
      | (split_ifs at h
         · exact loadSliceInfo_name h
         · cases h; exact ⟨rfl, rfl⟩)
      | (split_ifs at h
         · obtain ⟨r, _, h2⟩ := Outcome_bind_eq_ok.mp h
           cases h2; exact ⟨rfl, rfl⟩
         · cases h; exact ⟨rfl, rfl⟩)

theorem newVariable_name (env : LoadEnv) (fuel : Nat) (name : String) (addr : Nat)
    (t : Option Ty) (d : Variable) (h : newVariable env fuel name addr t = .ok d) :
    d.Name = name ∧ d.Flags = 0 := by
  cases fuel with
  | zero => cases h
  | succ fuel =>
    rw [newVariable_succ] at h
    exact newVariableBody_name _ _ _ _ _ _ _ h

/-- What `maybeDereference` returns has the flags of the variable or none. -/
theorem maybeDereference_flags (env : LoadEnv) (fuel : Nat) (v d : Variable)
    (h : maybeDereference env (newVariable env fuel) v = .ok d) :
    d.Flags = v.Flags ∨ d.Flags = 0 := by
  unfold maybeDereference at h
  split_ifs at h
  · cases h; exact Or.inl rfl
  · split at h
    · cases h; exact Or.inl rfl
    · split at h
      · cases h; exact Or.inl rfl
      · obtain ⟨r, _, h2⟩ := Outcome_bind_eq_ok.mp h
        obtain ⟨w, h3, h4⟩ := Outcome_bind_eq_ok.mp h2
        have h5 := (newVariable_name _ _ _ _ _ _ h3).2
        split at h4
        · cases h4; exact Or.inr h5
        · cases h4; exact Or.inr h5

/-! ## `Locals`: the two loops -/

theorem testBit_or_two (f : Nat) : (f ||| 2).testBit 1 = true := by
  rw [Nat.testBit_or]
  have : Nat.testBit 2 1 = true := by decide
  simp [this]

theorem testBit_or_one (f : Nat) : (f ||| 1).testBit 1 = f.testBit 1 := by
  rw [Nat.testBit_or]
  have : Nat.testBit 1 1 = false := by decide
  simp [this]

theorem getElem?_snoc {α : Type} (l : List α) (w : α) (j : Nat) (y : α) :
    (l ++ [w])[j]? = some y ↔ (l[j]? = some y) ∨ (j = l.length ∧ y = w) := by
  rcases Nat.lt_trichotomy j l.length with h | h | h
  · rw [List.getElem?_append_left h]
    constructor
    · exact Or.inl
    · rintro (h1 | ⟨h1, _⟩)
      · exact h1
      · omega
  · subst h
    simp [eq_comm]
  · rw [List.getElem?_eq_none (by simp; omega), List.getElem?_eq_none (by omega)]
    simp
    omega

theorem getElem?_lt {α : Type} {l : List α} {j : Nat} {y : α} (h : l[j]? = some y) :
    j < l.length := by
  obtain ⟨h1, _⟩ := List.getElem?_eq_some.mp h
  exact h1

theorem markShadowed_length : ∀ (i : Nat) (l : List LocalVar),
    (markShadowed i l).length = l.length := by
  intro i l
  induction l generalizing i with
  | nil => cases i <;> rfl
  | cons a rest ih =>
    cases i with
    | zero => rfl
    | succ i => simp only [markShadowed, List.length_cons, ih]

theorem markShadowed_get : ∀ (i : Nat) (l : List LocalVar) (j : Nat) (x : LocalVar),
    (markShadowed i l)[j]? = some x ↔
      ∃ y, l[j]? = some y ∧ x = (if j = i then y.mark else y) := by
  intro i l
  induction l generalizing i with
  | nil => intro j x; simp [markShadowed]
  | cons a rest ih =>
    intro j x
    cases i with
    | zero =>
      cases j with
      | zero => simp [markShadowed, eq_comm]
      | succ j => simp [markShadowed, eq_comm]
    | succ i =>
      cases j with
      | zero => simp [markShadowed, eq_comm]
      | succ j =>
        simp only [markShadowed, List.getElem?_cons_succ, ih i j x, add_left_inj]

theorem mark_name (y : LocalVar) (c : Prop) [Decidable c] :
    (if c then y.mark else y).v.Name = y.v.Name ∧ (if c then y.mark else y).depth = y.depth := by
  split_ifs <;> exact ⟨rfl, rfl⟩

theorem markShadowed_keys (i : Nat) (l : List LocalVar) :
    (markShadowed i l).map (fun lv => (lv.v.Name, lv.depth)) =
      l.map (fun lv => (lv.v.Name, lv.depth)) := by
  induction l generalizing i with
  | nil => cases i <;> rfl
  | cons a rest ih =>
    cases i with
    | zero => rfl
    | succ i => simp only [markShadowed, List.map_cons, ih]

/-- One round of the second loop of `Locals` keeps the two invariants. -/
theorem shadow_step (done : List LocalVar) (lvn : String → Option Nat) (w : LocalVar)
    (hL : LastSeen done lvn) (hS : ShadowMarks done) (hw : ¬ Shadowed w.v) :
    LastSeen (Locals.markOther lvn w.v.Name done ++ [w])
      (fun name => if name = w.v.Name then some done.length else lvn name) ∧
    ShadowMarks (Locals.markOther lvn w.v.Name done ++ [w]) ∧
    (Locals.markOther lvn w.v.Name done ++ [w]).map (fun lv => (lv.v.Name, lv.depth)) =
      done.map (fun lv => (lv.v.Name, lv.depth)) ++ [(w.v.Name, w.depth)] := by
  -- what is known of the list before `w`
  obtain ⟨done2, hdone2, hlen, hget, hmarked⟩ : ∃ done2 : List LocalVar,
      done2 = Locals.markOther lvn w.v.Name done ∧ done2.length = done.length ∧
      (∀ j x, done2[j]? = some x ↔
        ∃ y, done[j]? = some y ∧ x = (if lvn w.v.Name = some j then y.mark else y)) ∧
      done2.map (fun lv => (lv.v.Name, lv.depth)) = done.map (fun lv => (lv.v.Name, lv.depth)) := by
    refine ⟨_, rfl, ?_⟩
    unfold Locals.markOther
    cases hl : lvn w.v.Name with
    | none => exact ⟨rfl, fun j x => by simp [eq_comm], rfl⟩
    | some i0 =>
      refine ⟨markShadowed_length _ _, fun j x => ?_, markShadowed_keys _ _⟩
      simp only
      rw [markShadowed_get]
      simp only [Option.some.injEq]
      constructor
      · rintro ⟨y, h1, h2⟩
        refine ⟨y, h1, ?_⟩
        rw [h2]
        by_cases hj : j = i0
        · rw [if_pos hj, if_pos hj.symm]
        · rw [if_neg hj, if_neg (fun h => hj h.symm)]
      · rintro ⟨y, h1, h2⟩
        refine ⟨y, h1, ?_⟩
        rw [h2]
        by_cases hj : j = i0
        · rw [if_pos hj, if_pos hj.symm]
        · rw [if_neg hj, if_neg (fun h => hj h.symm)]
  rw [← hdone2]
  have hname : ∀ (j : Nat) (x : LocalVar), done2[j]? = some x →
      ∃ y, done[j]? = some y ∧ x.v.Name = y.v.Name := by
    intro j x hx
    obtain ⟨y, hy, hxy⟩ := (hget j x).mp hx
    exact ⟨y, hy, by rw [hxy]; exact (mark_name y _).1⟩
  have hname2 : ∀ (j : Nat) (y : LocalVar), done[j]? = some y →
      ∃ x, done2[j]? = some x ∧ x.v.Name = y.v.Name := by
    intro j y hy
    exact ⟨_, (hget j _).mpr ⟨y, hy, rfl⟩, (mark_name y _).1⟩
  refine ⟨?_, ?_, ?_⟩
  · -- `lvn` after the round
    intro m
    by_cases hm : m = w.v.Name
    · simp only [if_pos hm]
      refine ⟨⟨w, ?_, hm.symm⟩, ?_⟩
      · rw [getElem?_snoc]
        exact Or.inr ⟨hlen.symm, rfl⟩
      · intro j y hj hy
        rcases (getElem?_snoc _ _ _ _).mp hy with h1 | ⟨h1, _⟩
        · have := getElem?_lt h1
          omega
        · omega
    · simp only [if_neg hm]
      have hLm := hL m
      cases hl : lvn m with
      | none =>
        rw [hl] at hLm
        simp only at hLm ⊢
        intro j y hy
        rcases (getElem?_snoc _ _ _ _).mp hy with h1 | ⟨_, h1⟩
        · obtain ⟨y0, hy0, hn⟩ := hname j y h1
          rw [hn]
          exact hLm j y0 hy0
        · rw [h1]
          exact fun h => hm h.symm
      | some i =>
        rw [hl] at hLm
        simp only at hLm ⊢
        obtain ⟨⟨x, hx, hxm⟩, hlater⟩ := hLm
        obtain ⟨x2, hx2, hxn⟩ := hname2 i x hx
        refine ⟨⟨x2, (getElem?_snoc _ _ _ _).mpr (Or.inl hx2), by rw [hxn, hxm]⟩, ?_⟩
        intro j y hj hy
        rcases (getElem?_snoc _ _ _ _).mp hy with h1 | ⟨_, h1⟩
        · obtain ⟨y0, hy0, hn⟩ := hname j y h1
          rw [hn]
          exact hlater j y0 hj hy0
        · rw [h1]
          exact fun h => hm h.symm
  · -- the marks after the round
    intro i x hx
    rcases (getElem?_snoc _ _ _ _).mp hx with h1 | ⟨h1, h2⟩
    · obtain ⟨y, hy, hxy⟩ := (hget i x).mp h1
      have hxn : x.v.Name = y.v.Name := by rw [hxy]; exact (mark_name y _).1
      have hSy := hS i y hy
      by_cases hi : lvn w.v.Name = some i
      · -- the variable that `lvn` points to is marked, and `w` comes after it
        rw [if_pos hi] at hxy
        have hLw := hL w.v.Name
        rw [hi] at hLw
        simp only at hLw
        obtain ⟨⟨x0, hx0, hx0n⟩, _⟩ := hLw
        rw [hy] at hx0
        simp only [Option.some.injEq] at hx0
        subst hx0
        constructor
        · intro _
          exact ⟨done2.length, w, by have := getElem?_lt h1; omega,
            (getElem?_snoc _ _ _ _).mpr (Or.inr ⟨rfl, rfl⟩), by rw [hxn, hx0n]⟩
        · intro _
          rw [hxy]
          exact testBit_or_two _
      · rw [if_neg hi] at hxy
        subst hxy
        rw [hSy]
        constructor
        · rintro ⟨j, y2, hj, hy2, hn⟩
          obtain ⟨x2, hx2, hxn2⟩ := hname2 j y2 hy2
          exact ⟨j, x2, hj, (getElem?_snoc _ _ _ _).mpr (Or.inl hx2), by rw [hxn2, hn]⟩
        · rintro ⟨j, y2, hj, hy2, hn⟩
          rcases (getElem?_snoc _ _ _ _).mp hy2 with h3 | ⟨_, h3⟩
          · obtain ⟨y0, hy0, hn0⟩ := hname j y2 h3
            exact ⟨j, y0, hj, hy0, by rw [← hn0, hn]⟩
          · -- `w` has the name of `x`: `lvn` points to a later variable of that name
            rw [h3] at hn
            have hLw := hL w.v.Name
            cases hl : lvn w.v.Name with
            | none =>
              rw [hl] at hLw
              exact absurd hn.symm (hLw i x hy)
            | some i0 =>
              rw [hl] at hLw hi
              simp only at hLw
              obtain ⟨⟨x0, hx0, hx0n⟩, hlater⟩ := hLw
              have hne : i ≠ i0 := fun h => hi (by rw [h])
              have hle : ¬ i0 < i := fun h => hlater i x h hy hn.symm
              exact ⟨i0, x0, by omega, hx0, by rw [hx0n, hn]⟩
    · subst h2
      constructor
      · intro h
        exact absurd h hw
      · rintro ⟨j, y, hj, hy, _⟩
        rcases (getElem?_snoc _ _ _ _).mp hy with h3 | ⟨h3, _⟩
        · have := getElem?_lt h3
          omega
        · omega
  · rw [List.map_append, hmarked]
    rfl

theorem escaped_spec {env : LoadEnv} {fuel : Nat} {lv w : LocalVar}
    (h : Locals.escaped env fuel lv = .ok w) (hf : ¬ Shadowed lv.v) :
    w.depth = lv.depth ∧ w.v.Name = localName lv.v.Name ∧ ¬ Shadowed w.v := by
  unfold Locals.escaped at h
  unfold localName
  by_cases hc : EscapedName lv.v.Name
  · rw [if_pos hc] at h
    rw [if_pos hc]
    obtain ⟨d, hd, hw⟩ := Outcome_map_eq_ok.mp h
    rw [← hw]
    refine ⟨rfl, rfl, ?_⟩
    unfold Shadowed at hf ⊢
    simp only
    rw [testBit_or_one]
    rcases maybeDereference_flags _ _ _ _ hd with h1 | h1
    · rw [h1]; exact hf
    · rw [h1]; decide
  · rw [if_neg hc] at h
    rw [if_neg hc]
    cases h
    exact ⟨rfl, rfl, hf⟩

/-- The second loop of `Locals` in a function with nested scopes: the marks are as
`ShadowMarks` says, names lose their `&` and depths stay in their order. -/
theorem loop_scopes_spec (env : LoadEnv) (fuel : Nat) :
    ∀ (rest done : List LocalVar) (lvn : String → Option Nat) (out : List LocalVar),
      Locals.loop env fuel true rest done lvn = .ok out →
      LastSeen done lvn → ShadowMarks done → (∀ lv ∈ rest, ¬ Shadowed lv.v) →
      ShadowMarks out ∧
      out.map (fun lv => (lv.v.Name, lv.depth)) =
        done.map (fun lv => (lv.v.Name, lv.depth)) ++
          rest.map (fun lv => (localName lv.v.Name, lv.depth)) := by
  intro rest
  induction rest with
  | nil =>
    intro done lvn out h _ hS _
    simp only [Locals.loop] at h
    cases h
    exact ⟨hS, by simp⟩
  | cons lv rest ih =>
    intro done lvn out h hL hS hf
    rw [Locals.loop] at h
    obtain ⟨w, hw, h2⟩ := Outcome_bind_eq_ok.mp h
    rw [if_pos rfl] at h2
    obtain ⟨hd, hn, hwf⟩ := escaped_spec hw (hf lv (List.mem_cons_self _ _))
    obtain ⟨hL2, hS2, hk2⟩ := shadow_step done lvn w hL hS hwf
    obtain ⟨hS3, hk3⟩ := ih _ _ out h2 hL2 hS2 (fun x hx => hf x (List.mem_cons_of_mem _ hx))
    refine ⟨hS3, ?_⟩
    rw [hk3, hk2, hn, hd]
    simp

/-- The second loop of `Locals` in a function without nested scopes: no variable is
marked. -/
theorem loop_flat_spec (env : LoadEnv) (fuel : Nat) :
    ∀ (rest done : List LocalVar) (lvn : String → Option Nat) (out : List LocalVar),
      Locals.loop env fuel false rest done lvn = .ok out →
      (∀ lv ∈ done, ¬ Shadowed lv.v) → (∀ lv ∈ rest, ¬ Shadowed lv.v) →
      (∀ lv ∈ out, ¬ Shadowed lv.v) ∧
      out.map (fun lv => (lv.v.Name, lv.depth)) =
        done.map (fun lv => (lv.v.Name, lv.depth)) ++
          rest.map (fun lv => (localName lv.v.Name, lv.depth)) := by
  intro rest
  induction rest with
  | nil =>
    intro done lvn out h hD _
    simp only [Locals.loop] at h
    cases h
    exact ⟨hD, by simp⟩
  | cons lv rest ih =>
    intro done lvn out h hD hf
    rw [Locals.loop] at h
    obtain ⟨w, hw, h2⟩ := Outcome_bind_eq_ok.mp h
    rw [if_neg (by decide)] at h2
    obtain ⟨hd, hn, hwf⟩ := escaped_spec hw (hf lv (List.mem_cons_self _ _))
    obtain ⟨hS3, hk3⟩ := ih _ _ out h2
      (fun x hx => by
        rcases List.mem_append.mp hx with h3 | h3
        · exact hD x h3
        · rw [List.mem_singleton.mp h3]; exact hwf)
      (fun x hx => hf x (List.mem_cons_of_mem _ hx))
    refine ⟨hS3, ?_⟩
    rw [hk3]
    simp [hn, hd]

theorem extract_ok {scope : LocalsScope} {fuel : Nat} (item : Option VarEntry × Int)
    {v : Variable} {mem : Memory}
    (h : extractVarInfoFromEntry scope fuel item.1 = .ok (.ok (v, mem))) :
    ∃ e, item.1 = some e ∧ v.Flags = 0 ∧
      entryKey item =
        some (v.Name, if e.Tag = .FormalParameter ∧ item.2 ≤ 1 then 0 else item.2) := by
  unfold extractVarInfoFromEntry at h
  unfold entryKey
  cases he : item.1 with
  | none => rw [he] at h; cases h
  | some e =>
    rw [he] at h
    simp only at h ⊢
    refine ⟨e, rfl, ?_⟩
    cases ht : e.Tag with
    | other text => rw [ht] at h; cases h
    | FormalParameter =>
      rw [ht] at h
      simp only at h
      cases hn : e.Name with
      | none => rw [hn] at h; cases h
      | some n =>
        rw [hn] at h
        simp only at h
        cases hty : e.Typ with
        | none => rw [hty] at h; cases h
        | some r =>
          cases r with
          | error err => rw [hty] at h; cases h
          | ok t =>
            rw [hty] at h
            simp only at h
            obtain ⟨d, hd, hv⟩ := Outcome_map_eq_ok.mp h
            obtain ⟨h1, h2⟩ := newVariable_name _ _ _ _ _ _ hd
            cases hv
            exact ⟨h2, by simp only [h1]⟩
    | Variable =>
      rw [ht] at h
      simp only at h
      cases hn : e.Name with
      | none => rw [hn] at h; cases h
      | some n =>
        rw [hn] at h
        simp only at h
        cases hty : e.Typ with
        | none => rw [hty] at h; cases h
        | some r =>
          cases r with
          | error err => rw [hty] at h; cases h
          | ok t =>
            rw [hty] at h
            simp only at h
            obtain ⟨d, hd, hv⟩ := Outcome_map_eq_ok.mp h
            obtain ⟨h1, h2⟩ := newVariable_name _ _ _ _ _ _ hd
            cases hv
            exact ⟨h2, by simp only [h1]⟩

theorem extract_error {scope : LocalsScope} {fuel : Nat} (item : Option VarEntry × Int)
    {err : Error} (h : extractVarInfoFromEntry scope fuel item.1 = .ok (.error err)) :
    entryKey item = none := by
  unfold extractVarInfoFromEntry at h
  unfold entryKey
  cases he : item.1 with
  | none => rfl
  | some e =>
    rw [he] at h
    simp only at h ⊢
    cases ht : e.Tag with
    | other text => rfl
    | FormalParameter =>
      rw [ht] at h
      simp only at h
      cases hn : e.Name with
      | none => rfl
      | some n =>
        rw [hn] at h
        simp only at h
        cases hty : e.Typ with
        | none => rfl
        | some r =>
          cases r with
          | error err => rfl
          | ok t =>
            rw [hty] at h
            simp only at h
            obtain ⟨d, _, hv⟩ := Outcome_map_eq_ok.mp h
            cases hv
    | Variable =>
      rw [ht] at h
      simp only at h
      cases hn : e.Name with
      | none => rfl
      | some n =>
        rw [hn] at h
        simp only at h
        cases hty : e.Typ with
        | none => rfl
        | some r =>
          cases r with
          | error err => rfl
          | ok t =>
            rw [hty] at h
            simp only at h
            obtain ⟨d, _, hv⟩ := Outcome_map_eq_ok.mp h
            cases hv

/-- The first loop of `Locals`: the variables it adds are those of the entries that parse,
in the order of the reader, none of them marked, and `hasScopes` tells whether one of them is
deeper than 1. -/
theorem collect_spec (scope : LocalsScope) (fuel : Nat) :
    ∀ (items : List (Option VarEntry × Int)) (vars : List LocalVar) (hs : Bool)
      (out : List LocalVar) (hs2 : Bool),
      Locals.collect scope fuel items vars hs = .ok (out, hs2) →
      ∃ new, out = vars ++ new ∧
        new.map (fun lv => (lv.v.Name, lv.depth)) = items.filterMap entryKey ∧
        (∀ lv ∈ new, ¬ Shadowed lv.v) ∧
        hs2 = (hs || new.any (fun lv => decide (lv.depth > 1))) := by
  intro items
  induction items with
  | nil =>
    intro vars hs out hs2 h
    simp only [Locals.collect, Outcome.ok.injEq, Prod.mk.injEq] at h
    exact ⟨[], by simp [h.1], rfl, by simp, by simp [h.2]⟩
  | cons item rest ih =>
    intro vars hs out hs2 h
    obtain ⟨entry, d⟩ := item
    rw [Locals.collect] at h
    obtain ⟨r, hr, h2⟩ := Outcome_bind_eq_ok.mp h
    cases r with
    | error err =>
      simp only at h2
      obtain ⟨new, h3, h4, h5, h6⟩ := ih _ _ _ _ h2
      have hk := extract_error (entry, d) hr
      exact ⟨new, h3, by rw [List.filterMap_cons, hk]; exact h4, h5, h6⟩
    | ok p =>
      obtain ⟨val, mem⟩ := p
      obtain ⟨e, he, hfl, hk⟩ := extract_ok (entry, d) hr
      simp only at he
      subst he
      simp only at h2
      obtain ⟨new, h3, h4, h5, h6⟩ := ih _ _ _ _ h2
      rw [List.append_assoc, List.singleton_append] at h3
      refine ⟨_, h3, ?_, ?_, ?_⟩
      · rw [List.filterMap_cons, hk]
        simp only [List.map_cons, h4]
      · intro lv hlv
        rcases List.mem_cons.mp hlv with h7 | h7
        · rw [h7]
          unfold Shadowed
          simp only [hfl]
          split_ifs <;> decide
        · exact h5 lv h7
      · rw [h6]
        simp only [List.any_cons, Bool.or_assoc]

theorem collect_returns (scope : LocalsScope) (fuel : Nat) :
    ∀ (items : List (Option VarEntry × Int)) (vars : List LocalVar) (hs : Bool),
      (∀ item ∈ items, ∃ r, extractVarInfoFromEntry scope fuel item.1 = .ok r) →
      ∃ out hs2, Locals.collect scope fuel items vars hs = .ok (out, hs2) := by
  intro items
  induction items with
  | nil => intro vars hs _; exact ⟨vars, hs, rfl⟩
  | cons item rest ih =>
    intro vars hs hall
    obtain ⟨entry, d⟩ := item
    obtain ⟨r, hr⟩ := hall (entry, d) (List.mem_cons_self _ _)
    have hrest := fun it hit => hall it (List.mem_cons_of_mem _ hit)
    rw [Locals.collect]
    simp only at hr
    rw [hr]
    simp only [Outcome.bind]
    cases r with
    | error err => exact ih _ _ hrest
    | ok p =>
      obtain ⟨val, mem⟩ := p
      obtain ⟨e, he, _, _⟩ := extract_ok (entry, d) hr
      simp only at he
      subst he
      exact ih _ _ hrest

theorem loop_returns (env : LoadEnv) (fuel : Nat) (hasScopes : Bool) :
    ∀ (rest done : List LocalVar) (lvn : String → Option Nat),
      (∀ lv ∈ rest, ¬ EscapedName lv.v.Name) →
      ∃ out, Locals.loop env fuel hasScopes rest done lvn = .ok out := by
  intro rest
  induction rest with
  | nil => intro done lvn _; exact ⟨done, rfl⟩
  | cons lv rest ih =>
    intro done lvn hne
    have h1 : Locals.escaped env fuel lv = .ok lv := by
      unfold Locals.escaped
      rw [if_neg (hne lv (List.mem_cons_self _ _))]
    have hrest := fun x hx => hne x (List.mem_cons_of_mem _ hx)
    rw [Locals.loop, h1]
    simp only [Outcome.bind]
    split_ifs
    · exact ih _ _ hrest
    · exact ih _ _ hrest

theorem sortByDepth_perm (vars : List LocalVar) : (sortByDepth vars).Perm vars :=
  List.perm_insertionSort _ vars

theorem sortByDepth_sorted (vars : List LocalVar) :
    (sortByDepth vars).Pairwise (fun a b => a.depth ≤ b.depth) := by
  haveI : IsTotal LocalVar (fun a b => a.depth ≤ b.depth) := ⟨fun a b => le_total _ _⟩
  haveI : IsTrans LocalVar (fun a b => a.depth ≤ b.depth) := ⟨fun a b c => le_trans⟩
  exact List.sorted_insertionSort (fun a b => a.depth ≤ b.depth) vars

/-- Depths that are in order in the list of pairs are in order by index. -/
theorem depths_in_order {vars sorted : List LocalVar}
    (hk : vars.map (fun lv => (lv.v.Name, lv.depth)) =
      sorted.map (fun lv => (localName lv.v.Name, lv.depth)))
    (hs : sorted.Pairwise (fun a b => a.depth ≤ b.depth)) :
    ∀ (i j : Nat) (x y : LocalVar), i < j → vars[i]? = some x → vars[j]? = some y →
      x.depth ≤ y.depth := by
  have h1 : vars.map (fun lv => lv.depth) = sorted.map (fun lv => lv.depth) := by
    have := congrArg (List.map Prod.snd) hk
    simpa [List.map_map, Function.comp] using this
  have h2 : (sorted.map (fun lv => lv.depth)).Pairwise (· ≤ ·) := by
    rw [List.pairwise_map]
    exact hs
  rw [← h1, List.pairwise_map] at h2
  intro i j x y hij hx hy
  obtain ⟨hi, hxi⟩ := List.getElem?_eq_some.mp hx
  obtain ⟨hj, hyj⟩ := List.getElem?_eq_some.mp hy
  have := List.pairwise_iff_getElem.mp h2 i j hi hj hij
  rw [hxi, hyj] at this
  exact this

/-- C21. Shadowing marks, never hides, among the entries that parse.  When the entries of the
reader on which `extractVarInfoFromEntry` returns (an error or a variable) hold no escaped
name, `Locals` returns for a scope with a function and a reader without error.  Whenever
`Locals` returns variables, their names and depths are, up to order, those of the entries
that `extractVarInfoFromEntry` parses (an entry it fails on is skipped; an escaped name has
lost its `&`; the depth of a formal parameter at depth 0 or 1 is 0).  When one of these
depths is above 1, a returned variable carries `VariableShadowed` exactly when a later
returned variable has its name; so of two variables of one name at different depths the one
of smaller depth carries the flag, and a variable deeper than every other variable of its
name does not.  When no depth is above 1 no returned variable carries the flag. -/
theorem Locals_marks_shadowed (scope : LocalsScope) (fuel : Nat) :
    (scope.Fn ≠ none → scope.readerErr = none →
      (∀ item ∈ scope.entries, ∃ r, extractVarInfoFromEntry scope fuel item.1 = .ok r) →
      (∀ k ∈ scope.entries.filterMap entryKey, ¬ EscapedName k.1) →
      ∃ vars, LocalsDepths scope fuel = .ok (.ok vars)) ∧
    (∀ vars, LocalsDepths scope fuel = .ok (.ok vars) →
      Locals scope fuel = .ok (.ok (vars.map (fun lv => lv.v))) ∧
      (vars.map (fun lv => (lv.v.Name, lv.depth))).Perm
        ((scope.entries.filterMap entryKey).map (fun k => (localName k.1, k.2))) ∧
      ((∃ k ∈ scope.entries.filterMap entryKey, k.2 > 1) →
        ShadowMarks vars ∧
        (∀ (i j : Nat) (x y : LocalVar), vars[i]? = some x → vars[j]? = some y →
          x.v.Name = y.v.Name → x.depth < y.depth → Shadowed x.v) ∧
        (∀ (i : Nat) (x : LocalVar), vars[i]? = some x →
          (∀ (j : Nat) (y : LocalVar), j ≠ i → vars[j]? = some y → y.v.Name = x.v.Name →
            y.depth < x.depth) → ¬ Shadowed x.v)) ∧
      ((∀ k ∈ scope.entries.filterMap entryKey, k.2 ≤ 1) → ∀ lv ∈ vars, ¬ Shadowed lv.v)) := by
  constructor
  · intro hFn hErr hall hne
    obtain ⟨out, hs2, hc⟩ := collect_returns scope fuel scope.entries [] false hall
    obtain ⟨new, h1, h2, _, _⟩ := collect_spec scope fuel _ _ _ _ _ hc
    simp only [List.nil_append] at h1
    subst h1
    have hne2 : ∀ lv ∈ out, ¬ EscapedName lv.v.Name := by
      intro lv hlv
      have hm : (lv.v.Name, lv.depth) ∈ out.map (fun lv => (lv.v.Name, lv.depth)) :=
        List.mem_map.mpr ⟨lv, hlv, rfl⟩
      rw [h2] at hm
      exact hne _ hm
    have hne3 : ∀ lv ∈ (if hs2 = true then sortByDepth out else out),
        ¬ EscapedName lv.v.Name := by
      intro lv hlv
      split_ifs at hlv
      · exact hne2 lv ((sortByDepth_perm out).mem_iff.mp hlv)
      · exact hne2 lv hlv
    obtain ⟨res, hres⟩ := loop_returns scope.env fuel hs2 _ [] (fun _ => none) hne3
    unfold LocalsDepths
    cases hf : scope.Fn with
    | none => exact absurd hf hFn
    | some fn =>
      simp only [hc, Outcome.bind, hErr]
      by_cases hlen : out.length ≤ 0
      · rw [if_pos hlen]
        exact ⟨_, rfl⟩
      · rw [if_neg hlen, hres]
        exact ⟨_, rfl⟩
  · intro vars h
    refine ⟨by unfold Locals; rw [h]; rfl, ?_⟩
    unfold LocalsDepths at h
    cases hf : scope.Fn with
    | none => rw [hf] at h; cases h
    | some fn =>
      rw [hf] at h
      simp only at h
      obtain ⟨r, hr, h2⟩ := Outcome_bind_eq_ok.mp h
      obtain ⟨coll, hs⟩ := r
      obtain ⟨new, h3, hkeys, hflags, hhs⟩ := collect_spec scope fuel _ _ _ _ _ hr
      simp only [List.nil_append] at h3
      subst h3
      simp only [Bool.false_or] at hhs
      cases he : scope.readerErr with
      | some err => rw [he] at h2; cases h2
      | none =>
        rw [he] at h2
        simp only at h2
        by_cases hlen : coll.length ≤ 0
        · rw [if_pos hlen] at h2
          simp only [Outcome.ok.injEq, Except.ok.injEq] at h2
          have hnil : coll = [] := List.length_eq_zero.mp (by omega)
          subst h2
          subst hnil
          simp only [List.map_nil] at hkeys
          rw [← hkeys]
          refine ⟨List.Perm.refl _, ?_, ?_⟩
          · rintro ⟨k, hk, _⟩
            simp at hk
          · intro _ lv hlv
            simp at hlv
        · rw [if_neg hlen] at h2
          obtain ⟨out, hout, hov⟩ := Outcome_map_eq_ok.mp h2
          simp only [Except.ok.injEq] at hov
          subst hov
          have hany : hs = true ↔ ∃ k ∈ scope.entries.filterMap entryKey, k.2 > 1 := by
            rw [hhs, ← hkeys, List.any_eq_true]
            constructor
            · rintro ⟨lv, hlv, hd⟩
              exact ⟨_, List.mem_map.mpr ⟨lv, hlv, rfl⟩, of_decide_eq_true hd⟩
            · rintro ⟨k, hk, hd⟩
              obtain ⟨lv, hlv, hlk⟩ := List.mem_map.mp hk
              refine ⟨lv, hlv, decide_eq_true ?_⟩
              rw [← hlk] at hd
              exact hd
          have hkeys2 : ∀ l : List LocalVar, l.Perm coll →
              (l.map (fun lv => (localName lv.v.Name, lv.depth))).Perm
                ((scope.entries.filterMap entryKey).map (fun k => (localName k.1, k.2))) := by
            intro l hl
            rw [← hkeys, List.map_map]
            exact hl.map _
          cases hs with
          | true =>
            simp only [if_true] at hout
            obtain ⟨hS, hk⟩ := loop_scopes_spec scope.env fuel _ _ _ _ hout
              (fun m j y hy => by simp at hy) (fun i x hx => by simp at hx)
              (fun lv hlv => hflags lv ((sortByDepth_perm coll).mem_iff.mp hlv))
            simp only [List.map_nil, List.nil_append] at hk
            have hord := depths_in_order hk (sortByDepth_sorted coll)
            refine ⟨?_, ?_, ?_⟩
            · rw [hk]
              exact hkeys2 _ (sortByDepth_perm coll)
            · intro _
              refine ⟨hS, ?_, ?_⟩
              · intro i j x y hx hy hn hd
                have hij : i < j := by
                  by_contra hcon
                  rcases Nat.lt_or_eq_of_le (not_lt.mp hcon) with h5 | h5
                  · have := hord j i y x h5 hy hx
                    omega
                  · subst h5
                    rw [hx] at hy
                    cases hy
                    omega
                exact (hS i x hx).mpr ⟨j, y, hij, hy, hn.symm⟩
              · intro i x hx hdeep hsh
                obtain ⟨j, y, hij, hy, hn⟩ := (hS i x hx).mp hsh
                have h5 := hdeep j y (by omega) hy hn
                have h6 := hord i j x y hij hx hy
                omega
            · intro hall
              obtain ⟨k, hk1, hk2⟩ := hany.mp rfl
              have := hall k hk1
              omega
          | false =>
            simp only [Bool.false_eq_true, if_false] at hout
            obtain ⟨hN, hk⟩ := loop_flat_spec scope.env fuel _ _ _ _ hout
              (fun lv hlv => by simp at hlv) hflags
            simp only [List.map_nil, List.nil_append] at hk
            refine ⟨?_, ?_, ?_⟩
            · rw [hk]
              exact hkeys2 _ (List.Perm.refl _)
            · intro hex
              have := hany.mpr hex
              cases this
            · intro _
              exact hN

/-- C21, witness: in `scopeShadow` the entries that parse are the parameter `n` and the two
variables `a`, at the depths 0, 1 and 2.  `Locals` returns them in the order of their depths,
`n` as an argument, the outer `a` with `VariableShadowed` and the inner `a` without.  In
`scopeEscaped`, where no depth is above 1, the parameter `x` and the escaped variable `x`
are returned and neither carries `VariableShadowed`. -/
theorem Locals_marks_shadowed_witness :
    localsView (LocalsDepths scopeShadow 1) =
      .ok (some [("n", 0, 8), ("a", 1, 2), ("a", 2, 0)]) ∧
    (∃ vars, LocalsDepths scopeShadow 1 = .ok (.ok vars) ∧ ShadowMarks vars ∧
      (vars.map (fun lv => (lv.v.Name, lv.depth))).Perm [("a", 2), ("a", 1), ("n", 0)]) ∧
    localsView (LocalsDepths scopeEscaped 2) = .ok (some [("x", 0, 8), ("x", 1, 1)]) := by
  refine ⟨by decide, ?_, by rfl⟩
  have h := Locals_marks_shadowed scopeShadow 1
  obtain ⟨vars, hv⟩ := h.1 (by decide) rfl
    (by
      intro item hitem
      simp only [scopeShadow, List.mem_cons, List.mem_singleton, List.not_mem_nil,
        or_false] at hitem
      rcases hitem with h1 | h1 | h1 | h1 <;> (rw [h1]; exact ⟨_, rfl⟩))
    (by decide)
  have h2 := h.2 vars hv
  exact ⟨vars, hv, (h2.2.2.1 ⟨("a", 2), by decide, by decide⟩).1, h2.2.1⟩

/-- C21, counterexample: the reader of `scopeShadow` yields four entries, for the variables
`a`, `b`, `a` and `n`; the type of `b` cannot be resolved, `extractVarInfoFromEntry` fails on
it, and `Locals` returns three variables, without `b`. -/
theorem Locals_skips_unparsed_entry :
    scopeShadow.entries.map (fun item => (item.1.bind (fun e => e.Name), item.2)) =
      [(some "a", 2), (some "b", 1), (some "a", 1), (some "n", 1)] ∧
    (scopeShadow.entries.map
      (fun item => (extractVarInfoFromEntry scopeShadow 1 item.1).map
        (fun r => r.toOption.map (fun p => p.1.Name)))) =
      [.ok (some "a"), .ok none, .ok (some "a"), .ok (some "n")] ∧
    (Locals scopeShadow 1).map (fun r => r.toOption.map (fun vars => vars.map (fun v => v.Name))) =
      .ok (some ["n", "a", "a"]) := by
  refine ⟨by decide, by rfl, by rfl⟩

/-- C22. When the target expression parses and evaluates to a variable with `Unreadable`
set, `SetVariable` returns an error and leaves the memory of the target as it is; the error
reports that the expression is unreadable when the address of the variable is not 0, and is
the error `Can not assign to` when the address is 0: the address is tested first. -/
theorem SetVariable_unreadable_target {Expr : Type} (c : ConstOps) (scope : SetScope Expr)
    (fuel : Nat) (bytes : Nat → Option Nat) (name value : String) (t : Expr) (xv : Variable)
    (e : Error) (hparse : scope.ParseExpr name = .ok t)
    (heval : scope.evalAST t = .ok (.ok xv)) (hun : xv.Unreadable = some e) :
    SetVariable c scope fuel bytes name value =
      .ok (some (.other (if xv.Addr = 0 then "Can not assign to \"" ++ name ++ "\""
        else "Expression \"" ++ name ++ "\" is unreadable: " ++ e.text)), bytes) := by
  unfold SetVariable
  rw [hparse]
  simp only [heval, Outcome.bind]
  by_cases ha : xv.Addr = 0
  · rw [if_pos ha, if_pos ha]
  · rw [if_neg ha, if_neg ha, hun]

/-- C22, witness: in `exampleSetScope` the variable `p` is at the address 8192 and could not
be read; setting it fails with the unreadable error and the memory is the one before. -/
theorem SetVariable_unreadable_target_witness :
    SetVariable exampleConstOps exampleSetScope 1 bytesZero "p" "abc" =
      .ok (some (.other "Expression \"p\" is unreadable: input/output error"), bytesZero) :=
  SetVariable_unreadable_target exampleConstOps exampleSetScope 1 bytesZero "p" "abc" "p"
    { varAt "p" 8192 intTy .Int with Unreadable := some (.other "input/output error") }
    (.other "input/output error") rfl rfl rfl

/-- C22, counterexample: in `exampleSetScope` the variable `u` has no address and is
unreadable (its location could not be computed); setting it fails with `Can not assign to`,
an error that does not say that the expression is unreadable. -/
theorem SetVariable_unreadable_without_address :
    (exampleSetScope.evalAST "u").map
      (fun r => r.toOption.map (fun v => (v.Addr, v.Unreadable))) =
        .ok (some (0, some (.other "no location"))) ∧
    (SetVariable exampleConstOps exampleSetScope 1 bytesZero "u" "abc").map (fun r => r.1) =
      .ok (some (.other "Can not assign to \"u\"")) := by
  constructor <;> rfl

theorem leBytes_length : ∀ (n v : Nat), (leBytes n v).length = n := by
  intro n
  induction n with
  | zero => intro v; rfl
  | succ n ih => intro v; simp only [leBytes, List.length_cons, ih]

theorem leBytes_lt : ∀ (n v : Nat), ∀ b ∈ leBytes n v, b < 256 := by
  intro n
  induction n with
  | zero => intro v b hb; simp [leBytes] at hb
  | succ n ih =>
    intro v b hb
    simp only [leBytes, List.mem_cons] at hb
    rcases hb with h | h
    · rw [h]; exact Nat.mod_lt _ (by decide)
    · exact ih _ b h

theorem leValue_leBytes : ∀ (n v : Nat), Line.leValue (leBytes n v) = v % 2 ^ (8 * n) := by
  intro n
  induction n with
  | zero => intro v; simp [leBytes, Line.leValue, Nat.mod_one]
  | succ n ih =>
    intro v
    simp only [leBytes, Line.leValue, ih]
    have : 2 ^ (8 * (n + 1)) = 256 * 2 ^ (8 * n) := by
      rw [Nat.mul_add, pow_add]
      norm_num
      ring
    rw [this, Nat.mod_mul]

theorem fitBytes_id {size : Nat} {bs : List Nat} (hl : bs.length = size)
    (hb : ∀ b ∈ bs, b < 256) : fitBytes size bs = bs := by
  unfold fitBytes
  have h1 : bs.map (· % 256) = bs := by
    conv_rhs => rw [← List.map_id bs]
    exact List.map_congr_left (fun b hbm => Nat.mod_eq_of_lt (hb b hbm))
  rw [h1, ← hl, List.take_left]

/-- What a write leaves in memory is what a read of the same range returns. -/
theorem WriteMemory_read {bytes bytes2 : Nat → Option Nat} {addr : Nat} {data : List Nat}
    (hw : WriteMemory bytes addr data = (none, bytes2)) (hb : ∀ b ∈ data, b < 256) :
    (Memory.ofBytes bytes2).ReadMemory data.length addr = .ok data := by
  unfold WriteMemory at hw
  split_ifs at hw with hall
  · simp only [Prod.mk.injEq, true_and] at hw
    have hget : ∀ i (hi : i < data.length),
        bytes2 (addr % 2 ^ 64 + i) = some (data.get ⟨i, hi⟩) := by
      intro i hi
      rw [← hw]
      simp only
      rw [if_pos ⟨by omega, by omega⟩, Nat.add_sub_cancel_left, List.get?_eq_get hi]
      simp only [Option.map_some', Option.some.injEq]
      exact Nat.mod_eq_of_lt (hb _ (List.get_mem _ _ _))
    have hall2 : (List.range data.length).all
        (fun i => (bytes2 (addr % 2 ^ 64 + i)).isSome) = true := by
      rw [List.all_eq_true]
      intro i hi
      rw [hget i (List.mem_range.mp hi)]
      rfl
    have hmap : (List.range data.length).map
        (fun i => (bytes2 (addr % 2 ^ 64 + i)).getD 0) = data := by
      apply List.ext_get
      · simp
      · intro i h1 h2
        simp only [List.get_eq_getElem, List.getElem_map, List.getElem_range]
        rw [hget i h2]
        rfl
    unfold Memory.ReadMemory Memory.ofBytes
    simp only [hall2, if_true, hmap]
    rw [fitBytes_id rfl hb]
  · simp at hw

/-- A write succeeds when every byte of its range is mapped. -/
theorem WriteMemory_mapped (bytes : Nat → Option Nat) (addr : Nat) (data : List Nat)
    (hm : ∀ i, i < data.length → (bytes (addr % 2 ^ 64 + i)).isSome = true) :
    ∃ bytes2, WriteMemory bytes addr data = (none, bytes2) := by
  unfold WriteMemory
  rw [if_pos]
  · exact ⟨_, rfl⟩
  · rw [List.all_eq_true]
    intro i hi
    exact hm i (List.mem_range.mp hi)

theorem toUint64_toInt64 (n : Int) : ((toUint64 (toInt64 n) : Nat) : Int) = n % 2 ^ 64 := by
  unfold toUint64 toInt64
  rw [Int.toNat_of_nonneg (Int.emod_nonneg _ (by norm_num))]
  norm_num
  omega

/-- The bytes `writeUint` writes for an integer that fits `s` bytes read back as that
integer. -/
theorem twosComplement_leBytes (s : Nat) (hs : s = 1 ∨ s = 2 ∨ s = 4 ∨ s = 8)
    (n : Int) (hlo : -(2 : Int) ^ (8 * s - 1) ≤ n) (hhi : n < (2 : Int) ^ (8 * s - 1)) :
    twosComplement (leBytes s (toUint64 (toInt64 n))) = n := by
  have hu := toUint64_toInt64 n
  unfold twosComplement
  rw [leValue_leBytes, leBytes_length]
  rcases hs with h | h | h | h <;> subst h <;>
    norm_num at hlo hhi hu ⊢ <;> split_ifs <;> omega

theorem uint_leBytes (s : Nat) (hs : s = 1 ∨ s = 2 ∨ s = 4 ∨ s = 8)
    (n : Int) (hlo : 0 ≤ n) (hhi : n < (2 : Int) ^ (8 * s)) :
    ((toUint64 (toInt64 n) % 2 ^ (8 * s) : Nat) : Int) = n := by
  have hu := toUint64_toInt64 n
  rcases hs with h | h | h | h <;> subst h <;> norm_num at hhi hu ⊢ <;> omega

/-- C23. Write/read round trip on integers.  For a size of 1, 2, 4 or 8 bytes and a variable
at some address: when every byte of the range is mapped `writeUint` returns without error;
after a call of `writeUint` with the value `value` that returned without error, a read of the
range gives the `size` little-endian bytes of `value`, `readUintRaw` returns `value mod
2^(8 size)` and `readIntRaw` the two's complement reading of these bytes.  Consequently, after
`setValue` has set a signed integer variable of that size to an integer `n` with
`-2^(8 size - 1) ≤ n < 2^(8 size - 1)`, or an unsigned one to `n` with `0 ≤ n < 2^(8 size)`,
loading the variable (readable, not loaded, at a non-zero address) yields the value `n`
without error. -/
theorem writeUint_read_round_trip (bytes : Nat → Option Nat) (v : Variable) (size : Int)
    (hs : size = 1 ∨ size = 2 ∨ size = 4 ∨ size = 8) :
    (∀ value, (∀ i, i < size.toNat → (bytes (v.Addr % 2 ^ 64 + i)).isSome = true) →
      ∃ bytes2, v.writeUint bytes value size = .ok (none, bytes2)) ∧
    (∀ value bytes2, v.writeUint bytes value size = .ok (none, bytes2) →
      (Memory.ofBytes bytes2).ReadMemory size.toNat v.Addr = .ok (leBytes size.toNat value) ∧
      readUintRaw (Memory.ofBytes bytes2) v.Addr size =
        .ok (value % 2 ^ (8 * size.toNat), none) ∧
      readIntRaw (Memory.ofBytes bytes2) v.Addr size =
        .ok (twosComplement (leBytes size.toNat value), none)) ∧
    (∀ (c : ConstOps) (y : Variable) (ct : CommonType) (n : Int) (bytes2 : Nat → Option Nat)
        (env : LoadEnv) (fuel : Nat) (cfg : LoadConfig),
      (v.Kind = .Int ∨ v.Kind = .Int8 ∨ v.Kind = .Int16 ∨ v.Kind = .Int32 ∨ v.Kind = .Int64) →
      v.RealType = some (.IntType ct) → ct.ByteSize = size → y.Value = some (.int n) →
      -(2 : Int) ^ (8 * size.toNat - 1) ≤ n → n < (2 : Int) ^ (8 * size.toNat - 1) →
      v.Unreadable = none → v.loaded = false → v.Addr ≠ 0 →
      v.setValue c bytes y = .ok (none, bytes2) → env.mem = Memory.ofBytes bytes2 →
      (loadValue env (fuel + 1) cfg v).map (fun w => (w.Value, w.Unreadable)) =
        .ok (some (.int n), none)) ∧
    (∀ (c : ConstOps) (y : Variable) (ct : CommonType) (n : Int) (bytes2 : Nat → Option Nat)
        (env : LoadEnv) (fuel : Nat) (cfg : LoadConfig),
      (v.Kind = .Uint ∨ v.Kind = .Uint8 ∨ v.Kind = .Uint16 ∨ v.Kind = .Uint32 ∨
        v.Kind = .Uint64) →
      v.RealType = some (.UintType ct) → ct.ByteSize = size → y.Value = some (.int n) →
      0 ≤ n → n < (2 : Int) ^ (8 * size.toNat) →
      v.Unreadable = none → v.loaded = false → v.Addr ≠ 0 →
      v.setValue c bytes y = .ok (none, bytes2) → env.mem = Memory.ofBytes bytes2 →
      (loadValue env (fuel + 1) cfg v).map (fun w => (w.Value, w.Unreadable)) =
        .ok (some (.int n), none)) := by
  have h0 : ¬ size < 0 := by omega
  have hsn : size.toNat = 1 ∨ size.toNat = 2 ∨ size.toNat = 4 ∨ size.toNat = 8 := by
    rcases hs with h | h | h | h <;> subst h <;> decide
  have hread : ∀ value bytes2, v.writeUint bytes value size = .ok (none, bytes2) →
      (Memory.ofBytes bytes2).ReadMemory size.toNat v.Addr = .ok (leBytes size.toNat value) ∧
      readUintRaw (Memory.ofBytes bytes2) v.Addr size =
        .ok (value % 2 ^ (8 * size.toNat), none) ∧
      readIntRaw (Memory.ofBytes bytes2) v.Addr size =
        .ok (twosComplement (leBytes size.toNat value), none) := by
    intro value bytes2 hw
    unfold Variable.writeUint at hw
    rw [if_neg h0, if_pos hs] at hw
    simp only [Outcome.ok.injEq] at hw
    have hr := WriteMemory_read hw (leBytes_lt _ _)
    rw [leBytes_length] at hr
    refine ⟨hr, ?_, ?_⟩
    · unfold readUintRaw
      rw [if_neg h0]
      simp only [hr, if_pos hs, leValue_leBytes]
    · unfold readIntRaw
      rw [if_neg h0]
      simp only [hr, if_pos hs]
      unfold signExtend twosComplement
      rw [leBytes_length, leValue_leBytes, Nat.mod_mod]
  refine ⟨?_, hread, ?_, ?_⟩
  · intro value hm
    unfold Variable.writeUint
    rw [if_neg h0, if_pos hs]
    obtain ⟨b2, hb2⟩ := WriteMemory_mapped bytes v.Addr (leBytes size.toNat value)
      (by rw [leBytes_length]; exact hm)
    exact ⟨b2, by rw [hb2]⟩
  · intro c y ct n bytes2 env fuel cfg hk hrt hsz hy hlo hhi hun hld haddr hset hmem
    have hw : v.writeUint bytes (toUint64 (toInt64 n)) size = .ok (none, bytes2) := by
      unfold Variable.setValue at hset
      rcases hk with h | h | h | h | h <;>
        (rw [h] at hset
         simp only [hy, hrt, int64Val] at hset
         have hsz2 : (Ty.IntType ct).Size = size := by rw [← hsz]; rfl
         rw [hsz2] at hset
         exact hset)
    have hri := (hread _ _ hw).2.2
    rw [twosComplement_leBytes size.toNat hsn n hlo hhi] at hri
    have hcond : ¬ (v.Unreadable ≠ none ∨ v.loaded = true ∨ (v.Addr = 0 ∧ v.Base = 0)) := by
      rw [hun, hld]
      simp [haddr]
    unfold loadValue
    rw [loadValueInternal_succ]
    unfold loadValueInternalBody
    rw [if_neg hcond]
    rcases hk with h | h | h | h | h <;>
      (rw [h]
       simp only [hrt, hmem, hsz, hri]
       rfl)
  · intro c y ct n bytes2 env fuel cfg hk hrt hsz hy hlo hhi hun hld haddr hset hmem
    have hw : v.writeUint bytes (toUint64 (toInt64 n)) size = .ok (none, bytes2) := by
      unfold Variable.setValue at hset
      rcases hk with h | h | h | h | h <;>
        (rw [h] at hset
         simp only [hy, hrt, uint64Val, int64Val, Option.map_some'] at hset
         have hsz2 : (Ty.UintType ct).Size = size := by rw [← hsz]; rfl
         rw [hsz2] at hset
         exact hset)
    have hru := (hread _ _ hw).2.1
    have hval := uint_leBytes size.toNat hsn n hlo hhi
    have hcond : ¬ (v.Unreadable ≠ none ∨ v.loaded = true ∨ (v.Addr = 0 ∧ v.Base = 0)) := by
      rw [hun, hld]
      simp [haddr]
    unfold loadValue
    rw [loadValueInternal_succ]
    unfold loadValueInternalBody
    rw [if_neg hcond]
    rcases hk with h | h | h | h | h <;>
      (rw [h]
       simp only [hrt, hmem, hsz, hru]
       simp only [Outcome.map, hval])

/-- C23, witness: the 8 byte variable at the address 4096 of the zeroed memory `bytesZero`
is written with the `uint64` of -5; it reads back as `2^64 - 5` unsigned and as -5 signed,
and after `setValue` with the constant -5 the variable loads as -5. -/
theorem writeUint_read_round_trip_witness :
    (∃ bytes2, (varAt "x" 4096 intTy .Int).writeUint bytesZero (toUint64 (-5)) 8 =
        .ok (none, bytes2) ∧
      readUintRaw (Memory.ofBytes bytes2) 4096 8 = .ok (18446744073709551611, none) ∧
      readIntRaw (Memory.ofBytes bytes2) 4096 8 = .ok (-5, none)) ∧
    (∀ bytes2, (varAt "x" 4096 intTy .Int).setValue exampleConstOps bytesZero
        { Variable.zero with Value := some (.int (-5)) } = .ok (none, bytes2) →
      (loadValue (exampleLoadEnv (Memory.ofBytes bytes2)) 1 loadSingleValue
        (varAt "x" 4096 intTy .Int)).map (fun w => (w.Value, w.Unreadable)) =
          .ok (some (.int (-5)), none)) := by
  have h := writeUint_read_round_trip bytesZero (varAt "x" 4096 intTy .Int) 8 (by decide)
  obtain ⟨b2, hb2⟩ := h.1 (toUint64 (-5)) (by decide)
  have hr := h.2.1 _ b2 hb2
  refine ⟨⟨b2, hb2, hr.2.1, hr.2.2⟩, ?_⟩
  intro bytes2 hset
  exact h.2.2.1 exampleConstOps _ ⟨8, "int"⟩ (-5) bytes2 _ 0 loadSingleValue (Or.inl rfl) rfl
    rfl rfl (by decide) (by decide) rfl rfl (by decide) hset rfl

/-- C24. For a size of 1, 2, 4 or 8 bytes, `readIntRaw` on a memory whose read of that many
bytes at `addr` succeeds with the bytes `val` returns the value of `val` as a little-endian
two's complement number, without error; that value is a number of `8 * size` bits with sign.
When the read fails, `readIntRaw` returns 0 and the error of the read.  The byte 0xFB reads
as -5, and so do the encodings of -5 in 2, 4 and 8 bytes. -/
theorem readIntRaw_sign_extends (mem : Memory) (addr : Nat) (size : Int)
    (hs : size = 1 ∨ size = 2 ∨ size = 4 ∨ size = 8) :
    (∀ val, mem.ReadMemory size.toNat addr = .ok val →
      val.length = size.toNat ∧
      readIntRaw mem addr size = .ok (twosComplement val, none) ∧
      -(2 : Int) ^ (8 * size.toNat - 1) ≤ twosComplement val ∧
      twosComplement val < 2 ^ (8 * size.toNat - 1)) ∧
    (∀ err, mem.ReadMemory size.toNat addr = .error err →
      readIntRaw mem addr size = .ok (0, some err)) ∧
    readIntRaw memMinusFive 100 1 = .ok (-5, none) ∧
    readIntRaw memMinusFive 110 2 = .ok (-5, none) ∧
    readIntRaw memMinusFive 120 4 = .ok (-5, none) ∧
    readIntRaw memMinusFive 130 8 = .ok (-5, none) := by
  have h0 : ¬ size < 0 := by omega
  refine ⟨?_, ?_, by decide, by decide, by decide, by decide⟩
  · intro val hval
    have hlen := ReadMemory_length hval
    have hlt := leValue_lt val (ReadMemory_lt hval)
    have hmod : Line.leValue val % 2 ^ (8 * size.toNat) = Line.leValue val := by
      rw [← hlen]
      exact Nat.mod_eq_of_lt hlt
    have hval2 : readIntRaw mem addr size = .ok (twosComplement val, none) := by
      unfold readIntRaw
      rw [if_neg h0]
      simp only [hval, if_pos hs]
      unfold signExtend twosComplement
      rw [hmod, hlen]
    refine ⟨hlen, hval2, ?_, ?_⟩
    · unfold twosComplement
      rw [hlen]
      rw [hlen] at hlt
      have hpow : (2 : Int) ^ (8 * size.toNat) = 2 * 2 ^ (8 * size.toNat - 1) := by
        rcases hs with h | h | h | h <;> subst h <;> decide
      split_ifs with hc
      · have : (0 : Int) ≤ (2 : Int) ^ (8 * size.toNat - 1) := by positivity
        omega
      · have hc2 : (2 : Int) ^ (8 * size.toNat - 1) ≤ (Line.leValue val : Int) := by
          have := not_lt.mp hc
          exact_mod_cast this
        omega
    · unfold twosComplement
      rw [hlen]
      rw [hlen] at hlt
      have hpow : (2 : Int) ^ (8 * size.toNat) = 2 * 2 ^ (8 * size.toNat - 1) := by
        rcases hs with h | h | h | h <;> subst h <;> decide
      have hlt2 : (Line.leValue val : Int) < 2 ^ (8 * size.toNat) := by exact_mod_cast hlt
      split_ifs with hc
      · exact_mod_cast hc
      · omega
  · intro err herr
    unfold readIntRaw
    rw [if_neg h0]
    simp only [herr]

/-- C24, witness: the two bytes 0xFB 0xFF at the address 110. -/
theorem readIntRaw_sign_extends_witness :
    readIntRaw memMinusFive 110 2 = .ok (twosComplement [0xFB, 0xFF], none) ∧
    twosComplement [0xFB, 0xFF] = -5 ∧
    readIntRaw memMinusFive 200 2 = .ok (0, some (.other "unreadable memory")) :=
  ⟨((readIntRaw_sign_extends memMinusFive 110 2 (by decide)).1 [0xFB, 0xFF] rfl).2.1,
    by decide,
    (readIntRaw_sign_extends memMinusFive 200 2 (by decide)).2.1 _ rfl⟩

/-- C29. When the CFA rule at the program counter of the iterator gives no register, the
call of `Next` (on an iterator without error, not at its end and without stack barriers)
returns true, and the iterator it leaves holds the empty frame, is at its end, and its error
is the NULL address error: `newStackframe`, called with the return address slot 0 that
`advanceRegs` returns next to its error "CFA becomes undefined", replaces that error.  On the
first frame of a stack whose program counter 0x510 has no CFA rule, `stacktrace` returns two
frames, the empty frame and the frame that carries the NULL address error, and no error. -/
theorem undefined_cfa_error_is_replaced (env : StackEnv) (it : stackIterator)
    (e : Option Error) (herr : it.err = none) (hend : it.atend = false)
    (hbar : it.stkbar = none)
    (hcfa : executeFrameRegRule env it 0 (env.frameContext it.pc).CFA 0 = .ok (none, e)) :
    (advanceRegs env it).map (fun r => (r.1.err, r.2.2)) =
      .ok (some (.other "CFA becomes undefined"), 0, 0) ∧
    Next env it =
      .ok ({ it with err := some .nullAddr, frame := Stackframe.zero, atend := true }, true) ∧
    (stacktrace (stackOps (exampleEnv memNoCFA) (fun _ _ => []))
        (exampleIterator 0x510 1000 0 false 0) 10).map (·.1) =
      .ok ([Stackframe.zero, Stackframe.ofErr .nullAddr], none) := by
  have hadv : advanceRegs env it =
      .ok ({ it with err := some (.other "CFA becomes undefined") }, DwarfRegisters.zero, 0, 0) := by
    unfold advanceRegs
    simp only [hcfa]
  refine ⟨?_, ?_, by decide⟩
  · rw [hadv]
    rfl
  · unfold Next nextStep
    rw [if_neg (by rw [herr, hend]; simp), hadv]
    simp only [newStackframe, if_true, skipStackBarrier, hbar, switchStack, Stackframe.zero,
      Location.zero, Outcome.map]
    simp

/-- C29, witness: the first frame of a thread that stands at the program counter 0x510, for
which the example binary has no CFA rule. -/
theorem undefined_cfa_error_is_replaced_witness :
    (Next (exampleEnv memNoCFA) (exampleIterator 0x510 1000 0 false 0)).map
        (fun r => (r.2, r.1.err, r.1.atend, r.1.frame)) =
      .ok (true, some .nullAddr, true, Stackframe.zero) := by
  rw [(undefined_cfa_error_is_replaced (exampleEnv memNoCFA)
    (exampleIterator 0x510 1000 0 false 0) none rfl rfl rfl (by decide)).2.1]
  rfl

theorem physicalOf_refl {R : Type} (frame : Stackframe R) : PhysicalOf frame frame := by
  unfold PhysicalOf
  rfl

/-- The loop of `appendInlineCalls` keeps the frames it is given, appends at most one synthetic
frame for every inline entry and then the physical frame. -/
theorem appendInlineCalls_loop_shape {R : Type} (callFn : Function) :
    ∀ (entries : List InlineEntry) (frames : List (Stackframe R)) (frame : Stackframe R)
      (out : List (Stackframe R)),
      appendInlineCalls.loop callFn entries frames frame = some out →
      ∃ synth phys, out = frames ++ synth ++ [phys] ∧ synth.length ≤ entries.length ∧
        (∀ s ∈ synth, SyntheticOf frame s) ∧ PhysicalOf frame phys := by
  intro entries
  induction entries with
  | nil =>
    intro frames frame out h
    simp only [appendInlineCalls.loop, Option.some.injEq] at h
    exact ⟨[], frame, by simp [h], by simp, by simp, physicalOf_refl frame⟩
  | cons entry rest ih =>
    intro frames frame out h
    have hdone : some (frames ++ [frame]) = some out →
        ∃ synth phys, out = frames ++ synth ++ [phys] ∧
          synth.length ≤ (entry :: rest).length ∧
          (∀ s ∈ synth, SyntheticOf frame s) ∧ PhysicalOf frame phys := by
      intro h
      simp only [Option.some.injEq] at h
      exact ⟨[], frame, by simp [h], by simp, by simp, physicalOf_refl frame⟩
    unfold appendInlineCalls.loop at h
    split at h
    · simp only at h
      split_ifs at h
      · exact hdone h
      · split at h
        · exact Option.noConfusion h
        · split at h
          · exact Option.noConfusion h
          · split at h
            · exact Option.noConfusion h
            · split_ifs at h
              · exact hdone h
              · split at h
                · exact Option.noConfusion h
                · obtain ⟨synth, phys, h1, h2, h3, h4⟩ := ih _ _ _ h
                  rw [List.append_assoc frames] at h1
                  refine ⟨_, phys, h1, ?_, ?_, ?_⟩
                  · simp only [List.length_append, List.length_cons, List.length_nil]
                    omega
                  · intro s hs
                    rcases List.mem_append.mp hs with hs | hs
                    · rw [List.mem_singleton.mp hs]
                      exact ⟨rfl, rfl, rfl, rfl, rfl, rfl, rfl, rfl, rfl, rfl⟩
                    · obtain ⟨a1, a2, a3, a4, a5, a6, a7, a8, a9, a10⟩ := h3 s hs
                      exact ⟨a1, a2, a3, a4, a5, a6, a7, a8, a9, a10⟩
                  · exact h4
    · exact hdone h

/-- The loop of `appendInlineCalls` returns when the function of `frame.Current` has a compile
unit with line information. -/
theorem appendInlineCalls_loop_returns {R : Type} (callFn : Function) :
    ∀ (entries : List InlineEntry) (frames : List (Stackframe R)) (frame : Stackframe R),
      (∃ fn cu li, frame.Current.Fn = some fn ∧ fn.cu = some cu ∧ cu.lineInfo = some li) →
      ∃ out, appendInlineCalls.loop callFn entries frames frame = some out := by
  intro entries
  induction entries with
  | nil =>
    intro frames frame _
    exact ⟨_, rfl⟩
  | cons entry rest ih =>
    intro frames frame hcur
    obtain ⟨fn, cu, li, h1, h2, h3⟩ := hcur
    unfold appendInlineCalls.loop
    split
    · rename_i fnname fileidx line _ _ _
      simp only
      split_ifs with h4
      · exact ⟨_, rfl⟩
      · simp only [h1, h2, h3]
        split_ifs with h5
        · exact ⟨_, rfl⟩
        · have hlt : (toInt64 (fileidx - 1)).toNat < li.FileNames.length := by
            have h6 := not_le.mp h5
            have h7 := not_lt.mp h4
            omega
          rw [List.get?_eq_get hlt]
          exact ih _ _ ⟨fn, cu, li, h1, h2, h3⟩
    · exact ⟨_, rfl⟩

/-- C30. What `appendInlineCalls(frames, frame)` returns is the given frames, unchanged,
followed by synthetic frames and then by the physical frame.  Every synthetic frame is marked
as inlined and has the `Current` location, the registers, the return address and its slot,
the `SystemStack` flag, the stack limit, the error and `lastpc` of `frame`, and its call site
keeps the program counter; the physical frame is `frame` except for `Call.File` and
`Call.Line`, so it keeps its own `Inlined` flag.  For a frame without `Call` function the
result is the given frames followed by `frame` itself.  The call returns whenever the function
of `Call` has a compile unit and the function of `Current` has one with line information. -/
theorem appendInlineCalls_adds_in_front {σ R : Type} (ops : IteratorOps σ R) (it : σ)
    (frames : List (Stackframe R)) (frame : Stackframe R) :
    (∀ out, appendInlineCalls ops it frames frame = some out →
      ∃ synth phys, out = frames ++ synth ++ [phys] ∧
        (∀ s ∈ synth, SyntheticOf frame s) ∧ PhysicalOf frame phys ∧
        phys.Inlined = frame.Inlined) ∧
    (frame.Call.Fn = none → appendInlineCalls ops it frames frame = some (frames ++ [frame])) ∧
    ((∀ fn, frame.Call.Fn = some fn → fn.cu ≠ none) →
      (∃ fn cu li, frame.Current.Fn = some fn ∧ fn.cu = some cu ∧ cu.lineInfo = some li) →
      ∃ out, appendInlineCalls ops it frames frame = some out) := by
  refine ⟨?_, ?_, ?_⟩
  · intro out h
    have hdone : some (frames ++ [frame]) = some out →
        ∃ synth phys, out = frames ++ synth ++ [phys] ∧
          (∀ s ∈ synth, SyntheticOf frame s) ∧ PhysicalOf frame phys ∧
          phys.Inlined = frame.Inlined := by
      intro h
      simp only [Option.some.injEq] at h
      exact ⟨[], frame, by simp [h], by simp, physicalOf_refl frame, rfl⟩
    unfold appendInlineCalls at h
    split at h
    · exact hdone h
    · split at h
      · exact Option.noConfusion h
      · split at h
        · exact hdone h
        · obtain ⟨synth, phys, h1, _, h3, h4⟩ := appendInlineCalls_loop_shape _ _ _ _ _ h
          refine ⟨synth, phys, h1, h3, h4, ?_⟩
          unfold PhysicalOf at h4
          rw [h4]
  · intro h
    unfold appendInlineCalls
    rw [h]
  · intro hcall hcur
    unfold appendInlineCalls
    split
    · exact ⟨_, rfl⟩
    · rename_i callFn hfn
      split
      · rename_i hcu
        exact absurd hcu (hcall callFn hfn)
      · split
        · exact ⟨_, rfl⟩
        · exact appendInlineCalls_loop_returns _ _ _ _ hcur

/-- C30, witness: a frame of `main.g` into which the call of `main.inl` at line 7 of `b.go`
is inlined gets one synthetic frame in front, with the call site of the physical frame and
the function `main.inl`; the physical frame gets the call site `b.go:7`. -/
theorem appendInlineCalls_adds_in_front_witness :
    (appendInlineCalls inlineOps 0 [] inlineFrame).map
        (fun out => out.map fun f =>
          (f.Inlined, f.Current.Line, f.Call.File, f.Call.Line, f.Call.Fn.map (·.Name), f.Ret)) =
      some [(true, 12, "a.go", 12, some "main.inl", 0x90),
        (false, 12, "b.go", 7, some "main.g", 0x90)] ∧
    ∃ synth phys, appendInlineCalls inlineOps 0 [] inlineFrame = some ([] ++ synth ++ [phys]) ∧
      (∀ s ∈ synth, SyntheticOf inlineFrame s) ∧ PhysicalOf inlineFrame phys := by
  refine ⟨by rfl, ?_⟩
  obtain ⟨out, hout⟩ := (appendInlineCalls_adds_in_front inlineOps 0 [] inlineFrame).2.2
    (by intro fn h; cases h; exact Option.noConfusion)
    ⟨_, _, _, rfl, rfl, rfl⟩
  obtain ⟨synth, phys, h1, h2, h3, _⟩ :=
    (appendInlineCalls_adds_in_front inlineOps 0 [] inlineFrame).1 out hout
  exact ⟨synth, phys, by rw [hout, h1], h2, h3⟩

/-! ## `popcnt`, byte by byte -/

theorem and_bytes {b c : Nat} (y z : Nat) (hb : b < 256) (hc : c < 256) :
    (b + 256 * y) &&& (c + 256 * z) = (b &&& c) + 256 * (y &&& z) := by
  have hbc : b &&& c < 2 ^ 8 := lt_of_le_of_lt Nat.and_le_left hb
  apply Nat.eq_of_testBit_eq
  intro i
  have e1 : b + 256 * y = 2 ^ 8 * y + b := by omega
  have e2 : c + 256 * z = 2 ^ 8 * z + c := by omega
  have e3 : (b &&& c) + 256 * (y &&& z) = 2 ^ 8 * (y &&& z) + (b &&& c) := by omega
  rw [Nat.testBit_and, e1, e2, e3, Nat.testBit_mul_pow_two_add _ (by omega),
    Nat.testBit_mul_pow_two_add _ (by omega), Nat.testBit_mul_pow_two_add _ hbc]
  by_cases h : i < 8
  · simp [h]
  · simp [h]

theorem mapBytes_lt {f : Nat → Nat} (hf : ∀ b < 256, f b < 256) :
    ∀ k x, mapBytes f k x < 256 ^ k := by
  intro k
  induction k with
  | zero => intro x; simp [mapBytes]
  | succ k ih =>
    intro x
    have h1 := hf (x % 256) (Nat.mod_lt _ (by norm_num))
    have h2 := ih (x / 256)
    simp only [mapBytes, pow_succ]
    omega

theorem mapBytes_comp {f g : Nat → Nat} (hg : ∀ b < 256, g b < 256) :
    ∀ k x, mapBytes f k (mapBytes g k x) = mapBytes (fun b => f (g b)) k x := by
  intro k
  induction k with
  | zero => intro x; rfl
  | succ k ih =>
    intro x
    have h1 := hg (x % 256) (Nat.mod_lt _ (by norm_num))
    simp only [mapBytes]
    have e1 : (g (x % 256) + 256 * mapBytes g k (x / 256)) % 256 = g (x % 256) := by omega
    have e2 : (g (x % 256) + 256 * mapBytes g k (x / 256)) / 256 = mapBytes g k (x / 256) := by
      omega
    rw [e1, e2, ih]

set_option maxRecDepth 100000 in
/-- The first step of `popcnt` works on every byte by itself. -/
theorem popcnt_step1 : ∀ k x,
    ((x >>> 1) &&& repByte 0x55 k) + (x &&& repByte 0x55 k) =
      mapBytes (fun b => ((b >>> 1) &&& 0x55) + (b &&& 0x55)) k x := by
  intro k
  induction k with
  | zero => intro x; simp [repByte, mapBytes]
  | succ k ih =>
    intro x
    have hx : x = x % 256 + 256 * (x / 256) := by omega
    have hb : x % 256 < 256 := Nat.mod_lt _ (by norm_num)
    generalize x % 256 = b at hx hb
    generalize x / 256 = y at hx
    subst hx
    have hfact : ∀ b < 256, ∀ e < 2, (b / 2 + 128 * e) &&& 0x55 = (b >>> 1) &&& 0x55 := by
      decide
    have e1 : (b + 256 * y) >>> 1 = (b / 2 + 128 * (y % 2)) + 256 * (y >>> 1) := by
      simp only [Nat.shiftRight_eq_div_pow]
      omega
    have e2 : (b + 256 * y) % 256 = b := by omega
    have e3 : (b + 256 * y) / 256 = y := by omega
    simp only [repByte, mapBytes]
    rw [e2, e3, ← ih y, e1, and_bytes _ _ (by omega) (by norm_num),
      and_bytes _ _ hb (by norm_num), hfact b hb (y % 2) (Nat.mod_lt _ (by norm_num))]
    omega

set_option maxRecDepth 100000 in
/-- The second step of `popcnt` works on every byte by itself. -/
theorem popcnt_step2 : ∀ k x,
    ((x >>> 2) &&& repByte 0x33 k) + (x &&& repByte 0x33 k) =
      mapBytes (fun b => ((b >>> 2) &&& 0x33) + (b &&& 0x33)) k x := by
  intro k
  induction k with
  | zero => intro x; simp [repByte, mapBytes]
  | succ k ih =>
    intro x
    have hx : x = x % 256 + 256 * (x / 256) := by omega
    have hb : x % 256 < 256 := Nat.mod_lt _ (by norm_num)
    generalize x % 256 = b at hx hb
    generalize x / 256 = y at hx
    subst hx
    have hfact : ∀ b < 256, ∀ e < 4, (b / 4 + 64 * e) &&& 0x33 = (b >>> 2) &&& 0x33 := by
      decide
    have e1 : (b + 256 * y) >>> 2 = (b / 4 + 64 * (y % 4)) + 256 * (y >>> 2) := by
      simp only [Nat.shiftRight_eq_div_pow]
      omega
    have e2 : (b + 256 * y) % 256 = b := by omega
    have e3 : (b + 256 * y) / 256 = y := by omega
    simp only [repByte, mapBytes]
    rw [e2, e3, ← ih y, e1, and_bytes _ _ (by omega) (by norm_num),
      and_bytes _ _ hb (by norm_num), hfact b hb (y % 4) (Nat.mod_lt _ (by norm_num))]
    omega

set_option maxRecDepth 100000 in
theorem nibbleCounts_facts : ∀ b < 256, nibbleCounts b ≤ 68 ∧ nibbleCounts b % 16 ≤ 4 ∧
    ∀ e < 5, nibbleCounts b / 16 + nibbleCounts b + 16 * e < 256 ∧
      (nibbleCounts b / 16 + nibbleCounts b + 16 * e) &&& 0x0f = onesCount 8 b := by
  decide

theorem mapBytes_nibbleCounts_mod (k x : Nat) : mapBytes nibbleCounts k x % 16 ≤ 4 := by
  cases k with
  | zero => simp [mapBytes]
  | succ k =>
    have h := (nibbleCounts_facts (x % 256) (Nat.mod_lt _ (by norm_num))).2.1
    simp only [mapBytes]
    omega

theorem mapBytes_nibbleCounts_lt : ∀ k x, 2 * mapBytes nibbleCounts k x < 256 ^ k := by
  intro k
  induction k with
  | zero => intro x; simp [mapBytes]
  | succ k ih =>
    intro x
    have h := (nibbleCounts_facts (x % 256) (Nat.mod_lt _ (by norm_num))).1
    have h2 := ih (x / 256)
    simp only [mapBytes, pow_succ]
    omega

/-- The third step of `popcnt` leaves in every byte the number of bits set in that byte of
the argument. -/
theorem popcnt_step3 : ∀ k x,
    ((mapBytes nibbleCounts k x >>> 4) + mapBytes nibbleCounts k x) &&& repByte 0x0f k =
      mapBytes (onesCount 8) k x := by
  intro k
  induction k with
  | zero => intro x; simp [repByte, mapBytes]
  | succ k ih =>
    intro x
    have hb : x % 256 < 256 := Nat.mod_lt _ (by norm_num)
    have hm := mapBytes_nibbleCounts_mod k (x / 256)
    have hf := (nibbleCounts_facts (x % 256) hb).2.2 (mapBytes nibbleCounts k (x / 256) % 16)
      (by omega)
    simp only [repByte, mapBytes]
    rw [← ih (x / 256)]
    generalize mapBytes nibbleCounts k (x / 256) = Y at hm hf ⊢
    generalize nibbleCounts (x % 256) = g at hf ⊢
    have e1 : ((g + 256 * Y) >>> 4) + (g + 256 * Y) =
        (g / 16 + g + 16 * (Y % 16)) + 256 * ((Y >>> 4) + Y) := by
      simp only [Nat.shiftRight_eq_div_pow]
      omega
    rw [e1, and_bytes _ _ hf.1 (by norm_num), hf.2]

theorem onesCount_add (m : Nat) : ∀ n x,
    onesCount (n + m) x = onesCount n (x % 2 ^ n) + onesCount m (x / 2 ^ n) := by
  intro n
  induction n with
  | zero => intro x; simp [onesCount]
  | succ n ih =>
    intro x
    have e : n + 1 + m = (n + m) + 1 := by omega
    rw [e]
    simp only [onesCount]
    rw [ih (x / 2)]
    have e1 : x % 2 ^ (n + 1) % 2 = x % 2 := by
      rw [pow_succ]
      exact Nat.mod_mul_left_mod x (2 ^ n) 2
    have e2 : x % 2 ^ (n + 1) / 2 = x / 2 % 2 ^ n := by
      rw [pow_succ, Nat.mul_comm, Nat.mod_mul_right_div_self]
    have e3 : x / 2 ^ (n + 1) = x / 2 / 2 ^ n := by
      rw [pow_succ, Nat.mul_comm, Nat.div_div_eq_div_mul]
    rw [e1, e2, e3]
    omega

theorem onesCount_le : ∀ n x, onesCount n x ≤ n := by
  intro n
  induction n with
  | zero => intro x; simp [onesCount]
  | succ n ih =>
    intro x
    have := ih (x / 2)
    simp only [onesCount]
    omega

theorem onesCount_mod : ∀ n x, onesCount n (x % 2 ^ n) = onesCount n x := by
  intro n
  induction n with
  | zero => intro x; simp [onesCount]
  | succ n ih =>
    intro x
    simp only [onesCount]
    have e1 : x % 2 ^ (n + 1) % 2 = x % 2 := by
      rw [pow_succ]
      exact Nat.mod_mul_left_mod x (2 ^ n) 2
    have e2 : x % 2 ^ (n + 1) / 2 = x / 2 % 2 ^ n := by
      rw [pow_succ, Nat.mul_comm, Nat.mod_mul_right_div_self]
    rw [e1, e2, ih]

/-- The recursive count is the number of positions below `n` at which `x` has a bit set. -/
theorem onesCount_eq_filter : ∀ n x,
    onesCount n x = ((List.range n).filter (fun i => x.testBit i)).length := by
  intro n
  induction n with
  | zero => intro x; simp [onesCount]
  | succ n ih =>
    intro x
    simp only [onesCount]
    have hcomp : ((fun i => x.testBit i) ∘ Nat.succ) = fun i => (x / 2).testBit i := by
      funext i
      simp [Nat.testBit_succ]
    rw [List.range_succ_eq_map, List.filter_cons, List.filter_map, hcomp, ih (x / 2)]
    rcases Nat.mod_two_eq_zero_or_one x with h | h
    · simp [Nat.testBit_zero, h]
    · simp [Nat.testBit_zero, h]
      omega

theorem onesCount_byte (m x : Nat) :
    onesCount (m + 8) x = onesCount 8 (x % 256) + onesCount m (x / 256) := by
  have h := onesCount_add m 8 x
  rw [Nat.add_comm 8 m] at h
  rw [h]
  norm_num

theorem leValue_div (b : Nat) (bs : List Nat) (h : b < 256) :
    Line.leValue (b :: bs) / 256 = Line.leValue bs := by
  simp only [Line.leValue]
  omega

theorem leValue_mod (b : Nat) (bs : List Nat) (h : b < 128) :
    Line.leValue (b :: bs) % 128 = b := by
  simp only [Line.leValue]
  omega

/-- The last three steps of `popcnt` add up the eight bytes. -/
theorem popcnt_fold (c0 c1 c2 c3 c4 c5 c6 c7 : Nat) (h0 : c0 ≤ 8) (h1 : c1 ≤ 8) (h2 : c2 ≤ 8)
    (h3 : c3 ≤ 8) (h4 : c4 ≤ 8) (h5 : c5 ≤ 8) (h6 : c6 ≤ 8) (h7 : c7 ≤ 8) (x3 x4 x5 x6 : Nat)
    (e3 : x3 = Line.leValue [c0, c1, c2, c3, c4, c5, c6, c7])
    (e4 : x4 = wrap64 (x3 + (x3 >>> 8))) (e5 : x5 = wrap64 (x4 + (x4 >>> 16)))
    (e6 : x6 = wrap64 (x5 + (x5 >>> 32))) :
    x6 &&& (2 ^ 7 - 1) = c0 + c1 + c2 + c3 + c4 + c5 + c6 + c7 := by
  have a3 : x3 >>> 8 = Line.leValue [c1, c2, c3, c4, c5, c6, c7] := by
    rw [e3, Nat.shiftRight_eq_div_pow]
    exact leValue_div _ _ (by omega)
  have s4 : x3 + (x3 >>> 8) =
      Line.leValue [c0 + c1, c1 + c2, c2 + c3, c3 + c4, c4 + c5, c5 + c6, c6 + c7, c7] := by
    rw [a3, e3]
    simp only [Line.leValue]
    ring
  have b4 : x3 + (x3 >>> 8) < 2 ^ 64 := by
    rw [s4]
    refine leValue_lt _ ?_
    intro b hb
    simp only [List.mem_cons, List.mem_singleton, List.not_mem_nil, or_false] at hb
    omega
  rw [show wrap64 (x3 + (x3 >>> 8)) = x3 + (x3 >>> 8) from Nat.mod_eq_of_lt b4, s4] at e4
  have a4 : x4 >>> 16 = Line.leValue [c2 + c3, c3 + c4, c4 + c5, c5 + c6, c6 + c7, c7] := by
    rw [e4, Nat.shiftRight_eq_div_pow, show (2 : Nat) ^ 16 = 256 * 256 from by norm_num,
      ← Nat.div_div_eq_div_mul, leValue_div _ _ (by omega), leValue_div _ _ (by omega)]
  have s5 : x4 + (x4 >>> 16) =
      Line.leValue [c0 + c1 + c2 + c3, c1 + c2 + c3 + c4, c2 + c3 + c4 + c5, c3 + c4 + c5 + c6,
        c4 + c5 + c6 + c7, c5 + c6 + c7, c6 + c7, c7] := by
    rw [a4, e4]
    simp only [Line.leValue]
    ring
  have b5 : x4 + (x4 >>> 16) < 2 ^ 64 := by
    rw [s5]
    refine leValue_lt _ ?_
    intro b hb
    simp only [List.mem_cons, List.mem_singleton, List.not_mem_nil, or_false] at hb
    omega
  rw [show wrap64 (x4 + (x4 >>> 16)) = x4 + (x4 >>> 16) from Nat.mod_eq_of_lt b5, s5] at e5
  have a5 : x5 >>> 32 = Line.leValue [c4 + c5 + c6 + c7, c5 + c6 + c7, c6 + c7, c7] := by
    rw [e5, Nat.shiftRight_eq_div_pow,
      show (2 : Nat) ^ 32 = 256 * 256 * 256 * 256 from by norm_num,
      ← Nat.div_div_eq_div_mul, ← Nat.div_div_eq_div_mul, ← Nat.div_div_eq_div_mul,
      leValue_div _ _ (by omega), leValue_div _ _ (by omega), leValue_div _ _ (by omega),
      leValue_div _ _ (by omega)]
  have s6 : x5 + (x5 >>> 32) =
      Line.leValue [c0 + c1 + c2 + c3 + c4 + c5 + c6 + c7, c1 + c2 + c3 + c4 + c5 + c6 + c7,
        c2 + c3 + c4 + c5 + c6 + c7, c3 + c4 + c5 + c6 + c7,
        c4 + c5 + c6 + c7, c5 + c6 + c7, c6 + c7, c7] := by
    rw [a5, e5]
    simp only [Line.leValue]
    ring
  have b6 : x5 + (x5 >>> 32) < 2 ^ 64 := by
    rw [s6]
    refine leValue_lt _ ?_
    intro b hb
    simp only [List.mem_cons, List.mem_singleton, List.not_mem_nil, or_false] at hb
    omega
  rw [show wrap64 (x5 + (x5 >>> 32)) = x5 + (x5 >>> 32) from Nat.mod_eq_of_lt b6, s6] at e6
  rw [Nat.and_pow_two_sub_one_eq_mod, e6]
  exact leValue_mod _ _ (by omega)

set_option maxRecDepth 100000 in
theorem popcnt_byte_lt : ∀ b < 256, ((b >>> 1) &&& 0x55) + (b &&& 0x55) < 256 := by
  decide

/-- The value of `popcnt` is the count of the bits set among the low 64 bits. -/
theorem popcnt_eq_onesCount (x : Nat) : popcnt x = onesCount 64 x := by
  have m0 : (0x5555555555555555 &&& (2 ^ 64 - 1)) = repByte 0x55 8 := by decide
  have m1 : (0x3333333333333333 &&& (2 ^ 64 - 1)) = repByte 0x33 8 := by decide
  have m2 : (0x0f0f0f0f0f0f0f0f &&& (2 ^ 64 - 1)) = repByte 0x0f 8 := by decide
  have p64 : (256 : Nat) ^ 8 = 2 ^ 64 := by norm_num
  have hx1 : wrap64 (((x >>> 1) &&& repByte 0x55 8) + (x &&& repByte 0x55 8)) =
      mapBytes (fun b => ((b >>> 1) &&& 0x55) + (b &&& 0x55)) 8 x := by
    rw [popcnt_step1]
    exact Nat.mod_eq_of_lt (p64 ▸ mapBytes_lt popcnt_byte_lt 8 x)
  have hn : ∀ b < 256, nibbleCounts b < 256 := fun b hb => by
    have := (nibbleCounts_facts b hb).1
    omega
  have hx2 : wrap64 (((mapBytes (fun b => ((b >>> 1) &&& 0x55) + (b &&& 0x55)) 8 x >>> 2) &&&
        repByte 0x33 8) +
      (mapBytes (fun b => ((b >>> 1) &&& 0x55) + (b &&& 0x55)) 8 x &&& repByte 0x33 8)) =
      mapBytes nibbleCounts 8 x := by
    rw [popcnt_step2, mapBytes_comp popcnt_byte_lt]
    exact Nat.mod_eq_of_lt (p64 ▸ mapBytes_lt hn 8 x)
  have hx3 : wrap64 ((mapBytes nibbleCounts 8 x >>> 4) + mapBytes nibbleCounts 8 x) &&&
      repByte 0x0f 8 = mapBytes (onesCount 8) 8 x := by
    have hlt := mapBytes_nibbleCounts_lt 8 x
    have hw : wrap64 ((mapBytes nibbleCounts 8 x >>> 4) + mapBytes nibbleCounts 8 x) =
        (mapBytes nibbleCounts 8 x >>> 4) + mapBytes nibbleCounts 8 x := by
      refine Nat.mod_eq_of_lt ?_
      rw [Nat.shiftRight_eq_div_pow]
      generalize mapBytes nibbleCounts 8 x = X at hlt
      norm_num at hlt ⊢
      omega
    rw [hw, popcnt_step3]
  unfold popcnt
  simp only [m0, m1, m2, hx1, hx2, hx3]
  have hb : mapBytes (onesCount 8) 8 x = Line.leValue
      [onesCount 8 (x % 256), onesCount 8 (x / 256 % 256), onesCount 8 (x / 256 / 256 % 256),
        onesCount 8 (x / 256 / 256 / 256 % 256), onesCount 8 (x / 256 / 256 / 256 / 256 % 256),
        onesCount 8 (x / 256 / 256 / 256 / 256 / 256 % 256),
        onesCount 8 (x / 256 / 256 / 256 / 256 / 256 / 256 % 256),
        onesCount 8 (x / 256 / 256 / 256 / 256 / 256 / 256 / 256 % 256)] := rfl
  rw [popcnt_fold _ _ _ _ _ _ _ _ (onesCount_le 8 _) (onesCount_le 8 _) (onesCount_le 8 _)
    (onesCount_le 8 _) (onesCount_le 8 _) (onesCount_le 8 _) (onesCount_le 8 _)
    (onesCount_le 8 _) _ _ _ _ hb rfl rfl rfl]
  have h7 : ∀ y, onesCount 64 y = onesCount 8 (y % 256) + onesCount 56 (y / 256) :=
    fun y => onesCount_byte 56 y
  have h6 : ∀ y, onesCount 56 y = onesCount 8 (y % 256) + onesCount 48 (y / 256) :=
    fun y => onesCount_byte 48 y
  have h5 : ∀ y, onesCount 48 y = onesCount 8 (y % 256) + onesCount 40 (y / 256) :=
    fun y => onesCount_byte 40 y
  have h4 : ∀ y, onesCount 40 y = onesCount 8 (y % 256) + onesCount 32 (y / 256) :=
    fun y => onesCount_byte 32 y
  have h3 : ∀ y, onesCount 32 y = onesCount 8 (y % 256) + onesCount 24 (y / 256) :=
    fun y => onesCount_byte 24 y
  have h2 : ∀ y, onesCount 24 y = onesCount 8 (y % 256) + onesCount 16 (y / 256) :=
    fun y => onesCount_byte 16 y
  have h1 : ∀ y, onesCount 16 y = onesCount 8 (y % 256) + onesCount 8 (y / 256) :=
    fun y => onesCount_byte 8 y
  have h0 : ∀ y, onesCount 8 y = onesCount 8 (y % 256) := fun y => by
    have := onesCount_byte 0 y
    simpa [onesCount] using this
  rw [h7, h6, h5, h4, h3, h2, h1,
    h0 (x / 256 / 256 / 256 / 256 / 256 / 256 / 256)]
  omega

/-! ## A pointer that points to itself -/

/-- C31. `loadValue` does not return on a pointer that points to itself.  Let the entry `id`
of the type table be the pointer type `T` whose target is the entry `id` (the Go type
`type T *T`), and let the word at the non-zero address `addr` hold `addr`.  With
`FollowPointers` set, loading the variable of type `T` at `addr` runs out of every number of
nested calls, at every recursion level: each dereference makes a variable of the same type at
the same address and loads it at the same level, so the recursion-depth budget is never
compared. -/
theorem loadValue_self_pointer_never_returns (env : LoadEnv) (c : CommonType) (id addr : Nat)
    (cfg : LoadConfig) (htype : env.types id = .PtrRef c id)
    (hread : readUintRaw env.mem addr c.ByteSize = .ok (addr, none)) (haddr : addr ≠ 0)
    (hfollow : cfg.FollowPointers = true) :
    ∀ (fuel : Nat) (lvl : Int) (name : String),
      loadValueInternal env fuel lvl cfg (varAt name addr (.PtrRef c id) .Ptr) = .fuel := by
  intro fuel
  induction fuel with
  | zero => intro lvl name; rfl
  | succ k ih =>
    intro lvl name
    have hnew : newVariable env k "" addr (some (.PtrRef c id)) = .fuel ∨
        newVariable env k "" addr (some (.PtrRef c id)) =
          .ok (varAt "" addr (.PtrRef c id) .Ptr) := by
      cases k with
      | zero => exact Or.inl rfl
      | succ j =>
        refine Or.inr ?_
        rw [newVariable_succ]
        simp only [newVariableBody, Option.map, resolveTypedef, htype]
        rfl
    have hderef : maybeDereference env (newVariable env k)
        { varAt name addr (.PtrRef c id) .Ptr with loaded := true, Len := 1 } = .fuel ∨
        maybeDereference env (newVariable env k)
          { varAt name addr (.PtrRef c id) .Ptr with loaded := true, Len := 1 } =
          .ok (varAt "" addr (.PtrRef c id) .Ptr) := by
      have hr : readUintRaw env.mem addr (Ty.PtrRef c id).Common.ByteSize = .ok (addr, none) :=
        hread
      unfold maybeDereference
      simp only [varAt, Variable.zero, ne_eq, not_true_eq_false, if_false, ptrElem, htype, hr,
        Outcome.bind]
      rcases hnew with h | h
      · rw [h]
        exact Or.inl rfl
      · rw [h]
        exact Or.inr rfl
    have key : ∀ (X : Outcome Variable) (f : Variable → Variable)
        (g : Variable → Outcome Variable),
        (X = .fuel ∨ X = .ok (varAt "" addr (.PtrRef c id) .Ptr)) →
        (X.bind fun child =>
          if cfg.FollowPointers = true then
            (loadValueInternal env k (if child.Kind = .Interface then lvl + 1 else lvl) cfg
              child).map f
          else g child) = .fuel := by
      intro X f g hX
      rcases hX with h | h
      · rw [h]
        rfl
      · rw [h]
        simp only [Outcome.bind, hfollow, if_true]
        have hki : (varAt "" addr (.PtrRef c id) .Ptr).Kind ≠ .Interface := by
          intro h9
          exact Kind.noConfusion h9
        rw [if_neg hki, ih lvl ""]
        rfl
    have hguard : ¬ ((varAt name addr (.PtrRef c id) .Ptr).Unreadable ≠ none ∨
        (varAt name addr (.PtrRef c id) .Ptr).loaded = true ∨
        ((varAt name addr (.PtrRef c id) .Ptr).Addr = 0 ∧
          (varAt name addr (.PtrRef c id) .Ptr).Base = 0)) := by
      rintro (h | h | h)
      · exact h rfl
      · exact Bool.noConfusion h
      · exact haddr h.1
    rw [loadValueInternal_succ]
    unfold loadValueInternalBody
    rw [if_neg hguard]
    exact key _
      (fun x => { varAt name addr (.PtrRef c id) .Ptr with
        loaded := true, Len := 1, Children := [x] })
      (fun child => .ok { varAt name addr (.PtrRef c id) .Ptr with
        loaded := true, Len := 1, Children := [{ child with OnlyAddr := true }] })
      hderef

/-- C31, witness: in `selfPtrEnv` the variable `p` of type `type T *T` at the address 4096
holds its own address.  Loading it with `loadFullValue`, which follows pointers and has the
recursion limit 1, runs out of a thousand nested calls; without following pointers the load
returns. -/
theorem loadValue_self_pointer_never_returns_witness :
    readUintRaw selfPtrEnv.mem 4096 8 = .ok (4096, none) ∧
    loadValue selfPtrEnv 1000 loadFullValue (varAt "p" 4096 selfPtrTy .Ptr) = .fuel ∧
    (loadValue selfPtrEnv 3 loadSingleValue (varAt "p" 4096 selfPtrTy .Ptr)).isOk = true :=
  ⟨by decide,
    loadValue_self_pointer_never_returns selfPtrEnv { ByteSize := 8, Name := "T" } 0 4096
      loadFullValue rfl (by decide) (by decide) rfl 1000 0 "p",
    by decide⟩

/-! ## The error budget of `loadArrayValues` -/

/-- The loop of `loadArrayValues` with the error budget: from the index `i` on, with
`errcount` errors so far, it appends the loaded elements in the order of the indices, stops
after the element that brings the number of errors to 4, and otherwise goes on to `count`. -/
theorem loadArrayValues_loop_budget (rn : NewFn) (rl : LoadFn) (lvl : Int) (cfg : LoadConfig)
    (v : Variable) (count : Int) :
    ∀ (n i e : Nat) (children : List Variable),
      (∀ j : Nat, i ≤ j → (j : Int) < count → (loadElem rn rl lvl cfg v j).isOk = true) →
      e ≤ 3 → (count - i).toNat ≤ n →
      ∃ cs, loadArrayValues.loop rn rl lvl cfg v count n i e children = .ok (children ++ cs) ∧
        List.Forall₂ (fun (j : Nat) ch => loadElem rn rl lvl cfg v j = .ok ch)
          (List.range' i cs.length) cs ∧
        cs.length ≤ (count - i).toNat ∧
        e + cs.countP (fun c => c.Unreadable.isSome) ≤ 4 ∧
        (e + cs.countP (fun c => c.Unreadable.isSome) ≤ 3 → cs.length = (count - i).toNat) ∧
        (e + cs.countP (fun c => c.Unreadable.isSome) = 4 →
          ∃ pre lv, cs = pre ++ [lv] ∧ lv.Unreadable ≠ none ∧
            e + pre.countP (fun c => c.Unreadable.isSome) = 3) := by
  intro n
  induction n with
  | zero =>
    intro i e children _ he hn
    have h0 : (count - i).toNat = 0 := by omega
    refine ⟨[], by simp [loadArrayValues.loop], by simp, by simp, by simp; omega,
      by simp [h0], ?_⟩
    intro h
    simp at h
    omega
  | succ n ih =>
    intro i e children hall he hn
    unfold loadArrayValues.loop
    by_cases hi : (i : Int) < count
    · rw [if_pos hi]
      obtain ⟨c, hc⟩ := Outcome_isOk_iff.mp (hall i (le_refl _) hi)
      rw [hc]
      simp only [Outcome.bind]
      by_cases hcu : c.Unreadable ≠ none
      · have hsome : c.Unreadable.isSome = true := Option.isSome_iff_ne_none.mpr hcu
        simp only [if_pos hcu]
        by_cases h4 : ((e : Int) + 1) > maxErrCount
        · rw [if_pos h4]
          have he3 : e = 3 := by
            unfold maxErrCount at h4
            omega
          refine ⟨[c], rfl, ?_, ?_, ?_, ?_, ?_⟩
          · simp [List.range', hc]
          · simp only [List.length_singleton]
            omega
          · simp [List.countP_cons, hsome]
            omega
          · intro h
            simp [List.countP_cons, hsome] at h
            omega
          · intro _
            exact ⟨[], c, rfl, hcu, by simp [he3]⟩
        · rw [if_neg h4]
          have he2 : e + 1 ≤ 3 := by
            unfold maxErrCount at h4
            omega
          have hlen : (count - ((i + 1 : Nat) : Int)).toNat + 1 = (count - (i : Int)).toNat := by
            clear ih hall hc hn h4 he2
            push_cast
            omega
          obtain ⟨cs, h1, h2, h3, h5, h6, h7⟩ := ih (i + 1) (e + 1) (children ++ [c])
            (fun j hj hjc => hall j (by omega) hjc) he2 (by push_cast; omega)
          have hcast : ((i : Int) + 1) = ((i + 1 : Nat) : Int) := by push_cast; rfl
          have hcast2 : ((e : Int) + 1) = ((e + 1 : Nat) : Int) := by push_cast; rfl
          rw [hcast, hcast2, h1]
          refine ⟨c :: cs, by simp, ?_, ?_, ?_, ?_, ?_⟩
          · simp only [List.length_cons, List.range'_succ]
            exact List.Forall₂.cons hc h2
          · simp only [List.length_cons]
            omega
          · simp only [List.countP_cons, hsome, if_true]
            omega
          · intro h
            simp only [List.countP_cons, hsome, if_true] at h
            simp only [List.length_cons]
            rw [h6 (by omega)]
            exact hlen
          · intro h
            simp only [List.countP_cons, hsome, if_true] at h
            obtain ⟨pre, lv, hp1, hp2, hp3⟩ := h7 (by omega)
            refine ⟨c :: pre, lv, by rw [hp1]; rfl, hp2, ?_⟩
            simp only [List.countP_cons, hsome, if_true]
            omega
      · have hnone : c.Unreadable.isSome = false := by
          cases hu : c.Unreadable with
          | none => rfl
          | some x => exact absurd (by rw [hu]; simp) hcu
        simp only [if_neg hcu]
        have h4 : ¬ ((e : Int) > maxErrCount) := by
          unfold maxErrCount
          omega
        rw [if_neg h4]
        have hlen : (count - ((i + 1 : Nat) : Int)).toNat + 1 = (count - (i : Int)).toNat := by
          clear ih hall hc hn h4
          push_cast
          omega
        obtain ⟨cs, h1, h2, h3, h5, h6, h7⟩ := ih (i + 1) e (children ++ [c])
          (fun j hj hjc => hall j (by omega) hjc) he (by push_cast; omega)
        have hcast : ((i : Int) + 1) = ((i + 1 : Nat) : Int) := by push_cast; rfl
        rw [hcast, h1]
        refine ⟨c :: cs, by simp, ?_, ?_, ?_, ?_, ?_⟩
        · simp only [List.length_cons, List.range'_succ]
          exact List.Forall₂.cons hc h2
        · simp only [List.length_cons]
          omega
        · simp only [List.countP_cons, hnone, Bool.false_eq_true, if_false]
          omega
        · intro h
          simp only [List.countP_cons, hnone, Bool.false_eq_true, if_false] at h
          simp only [List.length_cons]
          rw [h6 (by omega)]
          exact hlen
        · intro h
          simp only [List.countP_cons, hnone, Bool.false_eq_true, if_false] at h
          obtain ⟨pre, lv, hp1, hp2, hp3⟩ := h7 (by omega)
          refine ⟨c :: pre, lv, by rw [hp1]; rfl, hp2, ?_⟩
          simp only [List.countP_cons, hnone, Bool.false_eq_true, if_false]
          omega
    · rw [if_neg hi]
      have h0 : (count - i).toNat = 0 := by omega
      refine ⟨[], by simp, by simp, by simp, by simp; omega, by simp [h0], ?_⟩
      intro h
      simp at h
      omega

/-- C32. The error budget of a container.  Let `loadArrayValues` run on a slice or array
without error and with a length that is not negative, and let the load of every element
below the capped length return.  Then the call returns the container with the loaded elements
`cs` appended to its children, in the order of the indices from 0, and without error on the
container itself.  At most 4 of the elements are unreadable; if at most 3 are, every element
below the capped length has been loaded; if 4 are, the fourth of them is the last element
loaded: no element after it is loaded, and it and all the elements before it are kept. -/
theorem loadArrayValues_error_budget (rn : NewFn) (rl : LoadFn) (lvl : Int) (cfg : LoadConfig)
    (v : Variable) (hu : v.Unreadable = none) (hlen : 0 ≤ v.Len)
    (hel : ∀ j : Nat, j < (arrayCount cfg v).toNat →
      (loadElem rn rl lvl cfg v j).isOk = true) :
    ∃ w cs, loadArrayValues rn rl lvl cfg v = .ok w ∧
      w = { v with Children := v.Children ++ cs } ∧ w.Unreadable = none ∧
      List.Forall₂ (fun (j : Nat) ch => loadElem rn rl lvl cfg v j = .ok ch)
        (List.range cs.length) cs ∧
      cs.length ≤ (arrayCount cfg v).toNat ∧
      cs.countP (fun c => c.Unreadable.isSome) ≤ 4 ∧
      (cs.countP (fun c => c.Unreadable.isSome) ≤ 3 → cs.length = (arrayCount cfg v).toNat) ∧
      (cs.countP (fun c => c.Unreadable.isSome) = 4 →
        ∃ pre lv, cs = pre ++ [lv] ∧ lv.Unreadable ≠ none ∧
          pre.countP (fun c => c.Unreadable.isSome) = 3) := by
  obtain ⟨cs, h1, h2, h3, h4, h5, h6⟩ := loadArrayValues_loop_budget rn rl lvl cfg v
    (arrayCount cfg v) (arrayCount cfg v).toNat 0 0 v.Children
    (fun j _ hj => hel j (by omega)) (by omega) (by simp)
  have h1b : loadArrayValues.loop rn rl lvl cfg v (arrayCount cfg v) (arrayCount cfg v).toNat
      0 0 v.Children = .ok (v.Children ++ cs) := h1
  refine ⟨{ v with Children := v.Children ++ cs }, cs, ?_, rfl, hu, ?_, ?_, ?_, ?_, ?_⟩
  · unfold loadArrayValues
    rw [if_neg (by rw [hu]; simp), if_neg (by omega), h1b]
    rfl
  · rw [List.range_eq_range']
    exact h2
  · simpa using h3
  · simpa using h4
  · intro h
    simpa using h5 (by simpa using h)
  · intro h
    simpa using h6 (by simpa using h)

/-- C32, witness: `shortArrayVar` is an array of ten `uint8` of which only the first two can
be read.  The load returns six children, the two readable elements and four unreadable ones,
and the array itself has no error; the elements 6 to 9 are not loaded. -/
theorem loadArrayValues_error_budget_witness :
    (loadArrayValues (newVariable (exampleLoadEnv memShortArray) 2)
        (loadValueInternal (exampleLoadEnv memShortArray) 2) 0 loadFullValue shortArrayVar).map
      (fun w => (w.Children.map (fun c => (c.Addr, c.Unreadable.isSome)), w.Unreadable)) =
      .ok ([(5000, false), (5001, false), (5002, true), (5003, true), (5004, true),
        (5005, true)], none) ∧
    ∃ w cs, loadArrayValues (newVariable (exampleLoadEnv memShortArray) 2)
        (loadValueInternal (exampleLoadEnv memShortArray) 2) 0 loadFullValue shortArrayVar =
        .ok w ∧
      w.Children = cs ∧ w.Unreadable = none ∧ cs.length ≤ 10 ∧
      cs.countP (fun c => c.Unreadable.isSome) ≤ 4 := by
  refine ⟨by decide, ?_⟩
  obtain ⟨w, cs, h1, h2, h3, _, h5, h6, _, _⟩ := loadArrayValues_error_budget
    (newVariable (exampleLoadEnv memShortArray) 2)
    (loadValueInternal (exampleLoadEnv memShortArray) 2) 0 loadFullValue shortArrayVar rfl
    (by decide) (by decide)
  refine ⟨w, cs, h1, ?_, h3, h5, h6⟩
  rw [h2]
  rfl

/-! ## `Next` and the first record of the list of stack barriers -/

/-- The test for a stack barrier indexes an empty list exactly when the list is not nil and
the return address of the frame is `stackBarrierPC`. -/
theorem skipStackBarrier_eq_none (s : stackIterator) :
    skipStackBarrier s = none ↔ s.stkbar = some [] ∧ s.frame.Ret = s.stackBarrierPC := by
  unfold skipStackBarrier
  cases hb : s.stkbar with
  | none => simp
  | some bars =>
    simp only
    by_cases hr : s.frame.Ret = s.stackBarrierPC
    · rw [if_pos hr]
      cases bars with
      | nil => simp [hr]
      | cons bar rest =>
        simp only
        split_ifs <;> simp
    · rw [if_neg hr]
      simp [hr]

/-- With a nil list of saved return addresses `newStackIterator` returns an iterator with a
nil list, `stackBarrierPC = 0`, no error and not at its end. -/
theorem newStackIterator_nil (bi : BarrierInfo) (regs : DwarfRegisters) (stackhi : Nat)
    (pos : Int) (g g0 : Option G) :
    ∃ it0, newStackIterator bi regs stackhi none pos g g0 = some it0 ∧ it0.stkbar = none ∧
      it0.stackBarrierPC = 0 ∧ it0.err = none ∧ it0.atend = false := by
  unfold newStackIterator
  cases bi.stackBarrierFunc with
  | none => exact ⟨_, rfl, rfl, rfl, rfl, rfl⟩
  | some f => exact ⟨_, rfl, rfl, rfl, rfl, rfl⟩

set_option maxRecDepth 100000 in
/-- The iterators that `newStackIterator` builds for the goroutine of `memStkbar` from the
list that `G.stkbar` returns: without `runtime.stackBarrier` in the binary `stackBarrierPC`
is 0, with it `stackBarrierPC` is its entry, and the list is kept, empty or not. -/
theorem iteratorAt_eq :
    iteratorAt noBarrierInfo (memStkbar 0 0) = some (goroutineIterator 0 []) ∧
    iteratorAt barrierInfo (memStkbar 0x600 0) = some (goroutineIterator 0x600 []) ∧
    iteratorAt barrierInfo (memStkbar 0x120 0) = some (goroutineIterator 0x600 []) ∧
    iteratorAt barrierInfo (memStkbar 0x600 1) =
      some (goroutineIterator 0x600 [⟨1016, 0x120⟩]) :=
  ⟨by rfl, by rfl, by rfl, by rfl⟩

/-- C35 (amended). The test of `Next` for a stack barrier reads the first record of the list
whenever the list is not nil and the return address of the new frame is `stackBarrierPC`: it
indexes out of range exactly when the list is non-nil and empty and the return address is
`stackBarrierPC`.  An iterator that `newStackIterator` builds from a nil list has a nil list.
Let the iterator have no error and not be at its end, and let `advanceRegs` return the
return address `ret` read from the slot `retaddr`, so that the new frame has the return
address `ret`, or 0 when `retaddr` is 0.  When the list is nil, or not empty, or that return
address differs from `stackBarrierPC`, the test returns, and `Next` panics only if
`switchStack` does.  When the list is non-nil and empty and the return address is
`stackBarrierPC`, `Next` panics on `it.stkbar[0]`. -/
theorem Next_fixup_index (env : StackEnv) (it : stackIterator) (ret retaddr : Nat)
    (herr : it.err = none) (hend : it.atend = false)
    (hadv : (advanceRegs env it).map (fun r => (r.2.2.1, r.2.2.2)) = .ok (ret, retaddr)) :
    (∀ s : stackIterator,
      skipStackBarrier s = none ↔ s.stkbar = some [] ∧ s.frame.Ret = s.stackBarrierPC) ∧
    (∀ bi regs stackhi pos g g0, ∃ it0,
      newStackIterator bi regs stackhi none pos g g0 = some it0 ∧ it0.stkbar = none ∧
        it0.stackBarrierPC = 0 ∧ it0.err = none ∧ it0.atend = false) ∧
    ∃ ita cfr, advanceRegs env it = .ok (ita, cfr, ret, retaddr) ∧
      (withNewFrame env ita ret retaddr).stkbar = it.stkbar ∧
      (withNewFrame env ita ret retaddr).stackBarrierPC = it.stackBarrierPC ∧
      (withNewFrame env ita ret retaddr).frame.Ret = (if retaddr = 0 then 0 else ret) ∧
      (it.stkbar = none ∨ (∃ bar rest, it.stkbar = some (bar :: rest)) ∨
          (if retaddr = 0 then 0 else ret) ≠ it.stackBarrierPC →
        ∃ it2, skipStackBarrier (withNewFrame env ita ret retaddr) = some it2 ∧
          (Next env it = .panic ↔ switchStack env it2 = .panic)) ∧
      (it.stkbar = some [] → (if retaddr = 0 then 0 else ret) = it.stackBarrierPC →
        skipStackBarrier (withNewFrame env ita ret retaddr) = none ∧ Next env it = .panic) := by
  refine ⟨skipStackBarrier_eq_none, newStackIterator_nil, ?_⟩
  cases h : advanceRegs env it with
  | panic => rw [h] at hadv; exact Outcome.noConfusion hadv
  | fuel => rw [h] at hadv; exact Outcome.noConfusion hadv
  | ok r =>
    obtain ⟨ita, cfr, ret1, retaddr1⟩ := r
    rw [h] at hadv
    simp only [Outcome.map, Outcome.ok.injEq, Prod.mk.injEq] at hadv
    obtain ⟨hr1, hr2⟩ := hadv
    subst hr1
    subst hr2
    have hf := advanceRegs_fields h
    have hn := newStackframe_fields env ita ret1 retaddr1
    have hfr := newStackframe_frame env ita ret1 retaddr1
    have hsb : (withNewFrame env ita ret1 retaddr1).stkbar = it.stkbar := by
      show (newStackframe env ita ret1 retaddr1).1.stkbar = _
      rw [hn.2.2.2.2.2.2.2.1, hf.2.2.2.2.2.2.2.1]
    have hpc : (withNewFrame env ita ret1 retaddr1).stackBarrierPC = it.stackBarrierPC := by
      show (newStackframe env ita ret1 retaddr1).1.stackBarrierPC = _
      rw [hn.2.2.2.2.2.2.1, hf.2.2.2.2.2.2.1]
    have hRet : (withNewFrame env ita ret1 retaddr1).frame.Ret =
        (if retaddr1 = 0 then 0 else ret1) := by
      show (newStackframe env ita ret1 retaddr1).2.Ret = _
      by_cases h0 : retaddr1 = 0
      · rw [if_pos h0, (hfr.2.1 h0).1]
        rfl
      · rw [if_neg h0, (hfr.2.2 h0).2.2.1]
    have hstep : nextStep env it =
        (match skipStackBarrier (withNewFrame env ita ret1 retaddr1) with
          | none => .panic
          | some it2 =>
            match switchStack env it2 with
            | .panic => .panic
            | .fuel => .fuel
            | .ok (it3, k) =>
              if k ≠ .none then .ok (it3, .switched k)
              else if it3.frame.Ret ≤ 0 then .ok ({ it3 with atend := true }, .atEnd)
              else
                .ok ({ it3 with top := false, pc := it3.frame.Ret, regs := cfr },
                  .advanced)) := by
      unfold nextStep
      rw [if_neg (by rw [herr, hend]; simp), h]
      rfl
    refine ⟨ita, cfr, rfl, hsb, hpc, hRet, ?_, ?_⟩
    · intro hsafe
      cases hs : skipStackBarrier (withNewFrame env ita ret1 retaddr1) with
      | none =>
        have hx := (skipStackBarrier_eq_none _).mp hs
        rw [hsb, hpc, hRet] at hx
        rcases hsafe with h1 | ⟨bar, rest, h1⟩ | h1
        · rw [h1] at hx; exact absurd hx.1 (by simp)
        · rw [h1] at hx; exact absurd hx.1 (by simp)
        · exact absurd hx.2 h1
      | some it2 =>
        refine ⟨it2, rfl, ?_⟩
        unfold Next
        rw [hstep, hs]
        simp only
        cases hsw : switchStack env it2 with
        | panic => simp [Outcome.map]
        | fuel => simp [Outcome.map]
        | ok r2 =>
          obtain ⟨it3, k⟩ := r2
          simp only [Outcome.map]
          split_ifs <;> simp
    · intro hbar hret
      have hs : skipStackBarrier (withNewFrame env ita ret1 retaddr1) = none :=
        (skipStackBarrier_eq_none _).mpr ⟨by rw [hsb, hbar], by rw [hRet, hpc, hret]⟩
      refine ⟨hs, ?_⟩
      unfold Next
      rw [hstep, hs]
      rfl

/-- C35, witness: a goroutine stopped in `main.f`, in a binary with `runtime.stackBarrier` at
0x600, whose return address slot 1016 holds 0x600 and whose list has the one record for that
slot.  The list is not empty: the test returns, and `Next` puts the saved return address
0x120 in place of the barrier and leaves a list that is empty and not nil. -/
theorem Next_fixup_index_witness :
    iteratorAt barrierInfo (memStkbar 0x600 1) = some (goroutineIterator 0x600 [⟨1016, 0x120⟩]) ∧
    (Next (exampleEnv (memStkbar 0x600 1)) (goroutineIterator 0x600 [⟨1016, 0x120⟩])).map
      (fun r => (r.1.pc, r.1.stkbar, r.2)) = .ok (0x120, some [], true) ∧
    ∃ ita cfr it2,
      advanceRegs (exampleEnv (memStkbar 0x600 1)) (goroutineIterator 0x600 [⟨1016, 0x120⟩]) =
        .ok (ita, cfr, 0x600, 1016) ∧
      skipStackBarrier (withNewFrame (exampleEnv (memStkbar 0x600 1)) ita 0x600 1016) =
        some it2 ∧
      (Next (exampleEnv (memStkbar 0x600 1)) (goroutineIterator 0x600 [⟨1016, 0x120⟩]) = .panic ↔
        switchStack (exampleEnv (memStkbar 0x600 1)) it2 = .panic) := by
  refine ⟨iteratorAt_eq.2.2.2, by rfl, ?_⟩
  obtain ⟨ita, cfr, h1, _, _, _, h5, _⟩ := (Next_fixup_index (exampleEnv (memStkbar 0x600 1))
    (goroutineIterator 0x600 [⟨1016, 0x120⟩]) 0x600 1016 rfl rfl (by rfl)).2.2
  obtain ⟨it2, h6, h7⟩ := h5 (Or.inr (Or.inl ⟨_, _, rfl⟩))
  exact ⟨ita, cfr, it2, h1, h6, h7⟩

/-- C35, counterexample: a goroutine stopped in `main.f` whose field `stkbar` holds no record:
`G.stkbar` returns a slice that is empty and not nil, and `newStackIterator` keeps it.  In a
binary without `runtime.stackBarrier` (`stackBarrierPC = 0`) and with the return address 0 in
the slot of the frame, and in a binary with `runtime.stackBarrier` at 0x600 and with the
return address 0x600 in the slot, the first call of `Next` indexes the empty list and
panics.  With the return address 0x120 in the slot it returns, and so it does for a thread
without goroutine, whose list is nil, with the return address 0 in the slot (`memBottom`). -/
theorem Next_panics_on_empty_stkbar :
    stkbarAt (memStkbar 0 0) = .ok (.ok (some [])) ∧
    iteratorAt noBarrierInfo (memStkbar 0 0) = some (goroutineIterator 0 []) ∧
    Next (exampleEnv (memStkbar 0 0)) (goroutineIterator 0 []) = .panic ∧
    iteratorAt barrierInfo (memStkbar 0x600 0) = some (goroutineIterator 0x600 []) ∧
    Next (exampleEnv (memStkbar 0x600 0)) (goroutineIterator 0x600 []) = .panic ∧
    iteratorAt barrierInfo (memStkbar 0x120 0) = some (goroutineIterator 0x600 []) ∧
    (Next (exampleEnv (memStkbar 0x120 0)) (goroutineIterator 0x600 [])).map
      (fun r => (r.1.pc, r.1.stkbar, r.2)) = .ok (0x120, some [], true) ∧
    Next (exampleEnv memBottom) (exampleIterator 0x110 1000 0 false 0) ≠ .panic := by
  refine ⟨by rfl, iteratorAt_eq.1, by rfl, iteratorAt_eq.2.1, by rfl, iteratorAt_eq.2.2.1,
    by rfl, by decide⟩

/-! ## A second `loadValue` -/

theorem loaded_trans {a b c : Variable} (h1 : b.loaded = a.loaded) (h2 : c.loaded = b.loaded) :
    c.loaded = a.loaded := h2.trans h1

theorem mapIteratorFields_loaded (env : LoadEnv) (rn : NewFn) (rl : LoadFn) (sv : Variable) :
    ∀ (fields : List (StructField Ty)) (it : mapIterator) (r : Except Variable mapIterator),
      mapIteratorFields env rn rl sv fields it = .ok r →
      match r with
      | .error v2 => v2.loaded = it.v.loaded
      | .ok it2 => it2.v.loaded = it.v.loaded := by
  intro fields
  induction fields with
  | nil =>
    intro it r h
    simp only [mapIteratorFields] at h
    cases h
    exact rfl
  | cons f rest ih =>
    intro it r h
    rw [mapIteratorFields] at h
    obtain ⟨field, _, h2⟩ := Outcome_bind_eq_ok.mp h
    split_ifs at h2 with h3 h4 h5 h6
    · obtain ⟨r1, _, h7⟩ := Outcome_bind_eq_ok.mp h2
      split at h7
      · cases h7
        exact rfl
      · have := ih _ _ h7
        cases r with
        | error v2 => exact loaded_trans rfl this
        | ok it2 => exact loaded_trans rfl this
    · obtain ⟨r1, _, h7⟩ := Outcome_bind_eq_ok.mp h2
      split at h7
      · cases h7
        exact rfl
      · have h9 := ih _ _ h7; exact h9
    · obtain ⟨d, _, h7⟩ := Outcome_bind_eq_ok.mp h2
      have h9 := ih _ _ h7; exact h9
    · obtain ⟨d, _, h7⟩ := Outcome_bind_eq_ok.mp h2
      have h9 := ih _ _ h7; exact h9
    · have h9 := ih _ _ h2; exact h9

theorem mapIteratorOf_loaded {env : LoadEnv} {rn : NewFn} {rl : LoadFn} {v : Variable}
    {target : Ty} {r : Except Variable mapIterator}
    (h : mapIteratorOf env rn rl v target = .ok r) :
    match r with
    | .error v2 => v2.loaded = v.loaded
    | .ok it2 => it2.v.loaded = v.loaded := by
  unfold mapIteratorOf at h
  obtain ⟨sv, _, h2⟩ := Outcome_bind_eq_ok.mp h
  split at h2
  · split_ifs at h2
    · cases h2
      exact rfl
    · obtain ⟨r1, h3, h4⟩ := Outcome_bind_eq_ok.mp h2
      have h5 := mapIteratorFields_loaded env rn rl sv _ _ _ h3
      split at h4
      · cases h4
        exact loaded_trans rfl h5
      · split at h4
        · split_ifs at h4
          · cases h4
            exact loaded_trans (loaded_trans rfl h5) rfl
          · cases h4
            exact loaded_trans rfl h5
        · cases h4
  · cases h2
    exact rfl

theorem nextBucket_fields_loaded (env : LoadEnv) (rn : NewFn) (b : Variable) :
    ∀ (fields : List (StructField Ty)) (it : mapIterator) (r : mapIterator × Bool),
      nextBucket.fields env rn b fields it = .ok r → r.1.v.loaded = it.v.loaded := by
  intro fields
  induction fields with
  | nil =>
    intro it r h
    simp only [nextBucket.fields] at h
    cases h
    exact rfl
  | cons f rest ih =>
    intro it r h
    rw [nextBucket.fields] at h
    obtain ⟨fr, _, h2⟩ := Outcome_bind_eq_ok.mp h
    split at h2
    · cases h2
      exact rfl
    · split at h2
      · cases h2
        exact rfl
      · split_ifs at h2
        · have h9 := ih _ _ h2; exact h9
        · have h9 := ih _ _ h2; exact h9
        · have h9 := ih _ _ h2; exact h9
        · obtain ⟨d, _, h3⟩ := Outcome_bind_eq_ok.mp h2
          have h9 := ih _ _ h3; exact h9
        · have h9 := ih _ _ h2; exact h9

theorem nextBucket_checks_loaded {it : mapIterator} {r : mapIterator × Bool}
    (h : nextBucket.checks it = .ok r) : r.1.v.loaded = it.v.loaded := by
  unfold nextBucket.checks at h
  split at h
  · split_ifs at h
    · cases h; exact rfl
    · cases h; exact rfl
    · split at h
      · cases h
      · split_ifs at h
        · cases h; exact rfl
        · split at h
          · cases h
          · split_ifs at h
            · cases h; exact rfl
            · cases h; exact rfl
  · cases h; exact rfl

theorem nextBucket_enter_loaded {env : LoadEnv} {rn : NewFn} {it : mapIterator} {b : Variable}
    {bidx : Nat} {r : mapIterator × Bool} (h : nextBucket.enter env rn it b bidx = .ok r) :
    r.1.v.loaded = it.v.loaded := by
  unfold nextBucket.enter at h
  split_ifs at h
  · cases h; exact rfl
  · split at h
    · obtain ⟨r1, h2, h3⟩ := Outcome_bind_eq_ok.mp h
      have h4 := nextBucket_fields_loaded env rn b _ _ _ h2
      split_ifs at h3
      · cases h3
        exact loaded_trans rfl h4
      · exact loaded_trans (loaded_trans rfl h4) (nextBucket_checks_loaded h3)
    · cases h

theorem nextBucket_loaded {env : LoadEnv} {rn : NewFn} {rl : LoadFn} {it : mapIterator}
    {r : mapIterator × Bool} (h : nextBucket env rn rl it = .ok r) : r.1.v.loaded = it.v.loaded := by
  have hstart : ∀ r, nextBucket.start env rn rl it = .ok r → r.1.v.loaded = it.v.loaded := by
    intro r h
    unfold nextBucket.start at h
    split_ifs at h
    · split at h
      · obtain ⟨r1, _, h3⟩ := Outcome_bind_eq_ok.mp h
        split at h3
        · cases h3; exact rfl
        · exact nextBucket_enter_loaded h3
      · cases h
    · cases h; exact rfl
  unfold nextBucket at h
  split at h
  · split_ifs at h
    · exact nextBucket_enter_loaded h
    · exact hstart _ h
  · exact hstart _ h

theorem refill_loaded {env : LoadEnv} {rn : NewFn} {rl : LoadFn} {it : mapIterator}
    {r : mapIterator × Bool} (h : mapIterator.refill env rn rl it = .ok r) :
    r.1.v.loaded = it.v.loaded := by
  unfold mapIterator.refill at h
  split at h
  · cases h
  · split_ifs at h
    · obtain ⟨r1, h2, h3⟩ := Outcome_bind_eq_ok.mp h
      have := nextBucket_loaded h2
      split_ifs at h3 <;> (cases h3; exact loaded_trans this rfl)
    · cases h; exact rfl
  · obtain ⟨r1, h2, h3⟩ := Outcome_bind_eq_ok.mp h
    have := nextBucket_loaded h2
    split_ifs at h3 <;> (cases h3; exact loaded_trans this rfl)

theorem next_loaded (env : LoadEnv) (rn : NewFn) (rl : LoadFn) :
    ∀ (n : Nat) (it : mapIterator) (r : mapIterator × Bool),
      mapIterator.next env rn rl n it = .ok r → r.1.v.loaded = it.v.loaded := by
  intro n
  induction n with
  | zero =>
    intro it r h
    simp only [mapIterator.next] at h
    cases h
  | succ n ih =>
    intro it r h
    rw [mapIterator.next] at h
    obtain ⟨r1, h2, h3⟩ := Outcome_bind_eq_ok.mp h
    have h4 := refill_loaded h2
    split_ifs at h3
    · cases h3; exact h4
    · split at h3
      · cases h3
      · obtain ⟨sa, _, h5⟩ := Outcome_bind_eq_ok.mp h3
        split at h5
        · cases h5
        · obtain ⟨hh, _, h6⟩ := Outcome_bind_eq_ok.mp h5
          split at h6
          · cases h6
            exact loaded_trans h4 rfl
          · split_ifs at h6
            · cases h6
              exact loaded_trans h4 rfl
            · have h9 := ih _ _ h6
              exact loaded_trans h4 h9

theorem loadMap_skip_loaded (env : LoadEnv) (rn : NewFn) (rl : LoadFn) (fuel : Nat) :
    ∀ (n : Nat) (it : mapIterator) (r : mapIterator × Bool),
      loadMap.skip env rn rl fuel n it = .ok r → r.1.v.loaded = it.v.loaded := by
  intro n
  induction n with
  | zero =>
    intro it r h
    simp only [loadMap.skip] at h
    cases h
    exact rfl
  | succ n ih =>
    intro it r h
    rw [loadMap.skip] at h
    obtain ⟨r1, h2, h3⟩ := Outcome_bind_eq_ok.mp h
    have h4 := next_loaded env rn rl _ _ _ h2
    split_ifs at h3
    · cases h3
      exact loaded_trans h4 rfl
    · exact loaded_trans h4 (ih _ _ h3)

theorem loadMap_loop_loaded {env : LoadEnv} {rn : NewFn} {rl : LoadFn} (fuel : Nat) (lvl : Int)
    (cfg : LoadConfig) :
    ∀ (n : Nat) (it : mapIterator) (count errcount : Int) (children : List Variable)
      (r : mapIterator × List Variable),
      loadMap.loop env rn rl fuel lvl cfg n it count errcount children = .ok r →
      r.1.v.loaded = it.v.loaded := by
  intro n
  induction n with
  | zero =>
    intro it count errcount children r h
    simp only [loadMap.loop] at h
    cases h
  | succ n ih =>
    intro it count errcount children r h
    rw [loadMap.loop] at h
    obtain ⟨r1, h1, h2⟩ := Outcome_bind_eq_ok.mp h
    have hs := next_loaded env rn rl _ _ _ h1
    split_ifs at h2
    · cases h2
      exact hs
    · cases h2
      exact hs
    · obtain ⟨key, h3, h4⟩ := Outcome_bind_eq_ok.mp h2
      split at h4
      · cases h4
      · split at h4
        · cases h4
        · obtain ⟨val, h5, h6⟩ := Outcome_bind_eq_ok.mp h4
          obtain ⟨lk, h7, h8⟩ := Outcome_bind_eq_ok.mp h6
          obtain ⟨lv, h9, h10⟩ := Outcome_bind_eq_ok.mp h8
          generalize (if lk.Unreadable ≠ none ∨ lv.Unreadable ≠ none then errcount + 1
            else errcount) = e at h10
          split_ifs at h10
          · cases h10
            exact hs
          · have h11 := ih _ _ _ _ _ h10
            exact loaded_trans hs h11

theorem loadMap_loaded {env : LoadEnv} {rn : NewFn} {rl : LoadFn} (fuel : Nat) (lvl : Int)
    (cfg : LoadConfig) (v w : Variable) (target : Ty)
    (h : loadMap env rn rl fuel lvl cfg v target = .ok w) : w.loaded = v.loaded := by
  unfold loadMap at h
  obtain ⟨r, h1, h2⟩ := Outcome_bind_eq_ok.mp h
  have hs := mapIteratorOf_loaded h1
  split at h2
  · cases h2
    exact hs
  · obtain ⟨s, h3, h4⟩ := Outcome_bind_eq_ok.mp h2
    have hs2 := loadMap_skip_loaded env rn rl fuel _ _ _ h3
    split_ifs at h4
    · cases h4
      exact loaded_trans hs hs2
    · obtain ⟨l, h5, h6⟩ := Outcome_map_eq_ok.mp h4
      have h7 := loadMap_loop_loaded fuel lvl cfg _ _ _ _ _ _ h5
      subst h6
      exact loaded_trans hs (loaded_trans hs2 h7)

theorem loadInterface_loaded {env : LoadEnv} {rn : NewFn} {rl : LoadFn} (lvl : Int)
    (loadData : Bool) (cfg : LoadConfig) (v w : Variable) (target : Ty)
    (h : loadInterface env rn rl lvl loadData cfg v target = .ok w) : w.loaded = v.loaded := by
  unfold loadInterface at h
  split at h
  · split at h
    · cases h
    · cases h; rfl
    · split at h
      · cases h
      · obtain ⟨d0, _, h2⟩ := Outcome_bind_eq_ok.mp h
        obtain ⟨d, _, h3⟩ := Outcome_bind_eq_ok.mp h2
        split_ifs at h3
        · obtain ⟨x, _, h4⟩ := Outcome_map_eq_ok.mp h3
          subst h4
          rfl
        · cases h3; rfl
    · split at h
      · cases h; rfl
      · obtain ⟨fr, _, h2⟩ := Outcome_bind_eq_ok.mp h
        split at h2
        · cases h2; rfl
        · split at h2
          · cases h2
          · cases h2; rfl
          · obtain ⟨data, _, h3⟩ := Outcome_bind_eq_ok.mp h2
            split_ifs at h3
            · obtain ⟨x, _, h4⟩ := Outcome_map_eq_ok.mp h3
              subst h4
              rfl
            · cases h3; rfl
  · cases h

theorem readComplex_loaded {rn : NewFn} {rl : LoadFn} (v w : Variable) (size : Int)
    (h : readComplex rn rl v size = .ok w) : w.loaded = v.loaded := by
  unfold readComplex at h
  by_cases hs : size = 8 ∨ size = 16
  · rw [if_pos hs] at h
    obtain ⟨a, _, h2⟩ := Outcome_bind_eq_ok.mp h
    obtain ⟨b, _, h3⟩ := Outcome_bind_eq_ok.mp h2
    obtain ⟨c, _, h4⟩ := Outcome_bind_eq_ok.mp h3
    obtain ⟨d, _, h5⟩ := Outcome_bind_eq_ok.mp h4
    split at h5
    · cases h5; rfl
    · cases h5
  · rw [if_neg hs] at h
    cases h
    rfl

theorem readFunctionPtr_loaded {env : LoadEnv} (v w : Variable)
    (h : readFunctionPtr env v = .ok w) : w.loaded = v.loaded := by
  unfold readFunctionPtr at h
  split at h
  · cases h; rfl
  · split at h
    · cases h
    · split_ifs at h
      · cases h; rfl
      · split at h
        · cases h; rfl
        · split at h
          · cases h
          · split at h
            · cases h; rfl
            · cases h; rfl

theorem loadArrayValues_loaded {rn : NewFn} {rl : LoadFn} (lvl : Int) (cfg : LoadConfig)
    (v w : Variable) (h : loadArrayValues rn rl lvl cfg v = .ok w) : w.loaded = v.loaded := by
  unfold loadArrayValues at h
  split_ifs at h
  · cases h; rfl
  · cases h; rfl
  · obtain ⟨cs, _, h2⟩ := Outcome_map_eq_ok.mp h
    subst h2
    rfl

/-- What `loadValueInternal` returns is a variable that the guard at its entry sends back as
it is: it has an error, or it is marked as loaded, or it has neither address nor base. -/
theorem loadValueInternalBody_guard {env : LoadEnv} {fuel : Nat} {rn : NewFn} {rl : LoadFn}
    {lvl : Int} {cfg : LoadConfig} {v w : Variable}
    (h : loadValueInternalBody env fuel rn rl lvl cfg v = .ok w) :
    w.Unreadable ≠ none ∨ w.loaded = true ∨ (w.Addr = 0 ∧ w.Base = 0) := by
  unfold loadValueInternalBody at h
  by_cases hg : v.Unreadable ≠ none ∨ v.loaded = true ∨ (v.Addr = 0 ∧ v.Base = 0)
  · rw [if_pos hg] at h
    cases h
    exact hg
  · rw [if_neg hg] at h
    refine Or.inr (Or.inl ?_)
    have hptr :
        ((maybeDereference env rn { v with loaded := true, Len := 1 }).bind fun child =>
          if cfg.FollowPointers = true then
            (rl (if child.Kind = .Interface then lvl + 1 else lvl) cfg child).map fun c =>
              { v with loaded := true, Len := 1, Children := [c] }
          else
            .ok { v with loaded := true, Len := 1,
                         Children := [{ child with OnlyAddr := true }] }) = .ok w →
        w.loaded = true := by
      intro h
      obtain ⟨child, _, h2⟩ := Outcome_bind_eq_ok.mp h
      by_cases hf : cfg.FollowPointers = true
      · rw [if_pos hf] at h2
        obtain ⟨x, _, h3⟩ := Outcome_map_eq_ok.mp h2
        subst h3
        rfl
      · rw [if_neg hf] at h2
        cases h2
        rfl
    split at h
    all_goals first
      | exact hptr h
      | exact (loadArrayValues_loaded _ _ _ _ h).trans rfl
      | exact (readFunctionPtr_loaded _ _ h).trans rfl
      | (cases h; rfl)
      | (obtain ⟨x, _, h3⟩ := Outcome_map_eq_ok.mp h; subst h3; rfl)
      | (split at h
         all_goals first
           | (cases h; done)
           | (cases h; rfl)
           | exact (loadInterface_loaded _ _ _ _ _ _ h).trans rfl
           | exact (readComplex_loaded _ _ _ h).trans rfl
           | (obtain ⟨x, _, h3⟩ := Outcome_map_eq_ok.mp h; subst h3; rfl)
           | (obtain ⟨sv, _, h2⟩ := Outcome_bind_eq_ok.mp h
              obtain ⟨x, _, h3⟩ := Outcome_map_eq_ok.mp h2
              subst h3
              rfl)
           | (split_ifs at h
              · exact (loadMap_loaded _ _ _ _ _ _ h).trans rfl
              · obtain ⟨r, h2, h3⟩ := Outcome_map_eq_ok.mp h
                have h4 := mapIteratorOf_loaded h2
                subst h3
                cases r with
                | error v2 => exact h4.trans rfl
                | ok it => exact h4.trans rfl)
           | (split_ifs at h
              · obtain ⟨x, _, h3⟩ := Outcome_map_eq_ok.mp h
                subst h3
                rfl
              · cases h
                rfl))

/-- C36. Loading is idempotent.  If `loadValue` returns on a variable, the variable it leaves
has an error, or is marked as loaded, or has neither address nor base; a second `loadValue`
on it, with any configuration and on any memory and binary, returns it as it is.  The result
of the second call does not depend on the memory: the call reads nothing. -/
theorem loadValue_is_idempotent (env : LoadEnv) (fuel : Nat) (cfg : LoadConfig)
    (v v1 : Variable) (h : loadValue env fuel cfg v = .ok v1) :
    (v1.Unreadable ≠ none ∨ v1.loaded = true ∨ (v1.Addr = 0 ∧ v1.Base = 0)) ∧
    ∀ (env2 : LoadEnv) (fuel2 : Nat) (cfg2 : LoadConfig),
      loadValue env2 (fuel2 + 1) cfg2 v1 = .ok v1 := by
  have hg : v1.Unreadable ≠ none ∨ v1.loaded = true ∨ (v1.Addr = 0 ∧ v1.Base = 0) := by
    cases fuel with
    | zero => exact Outcome.noConfusion h
    | succ k =>
      unfold loadValue at h
      rw [loadValueInternal_succ] at h
      exact loadValueInternalBody_guard h
  refine ⟨hg, ?_⟩
  intro env2 fuel2 cfg2
  unfold loadValue
  rw [loadValueInternal_succ]
  unfold loadValueInternalBody
  rw [if_pos hg]

/-- C36, witness: the variable of type `int` at the address 130 of `memMinusFive` loads to the
value -5; a second load with another configuration, on a memory that holds nothing, leaves
the loaded variable as it is. -/
theorem loadValue_is_idempotent_witness :
    ∃ v1, loadValue (exampleLoadEnv memMinusFive) 2 loadFullValue (varAt "x" 130 intTy .Int) =
        .ok v1 ∧
      v1.Value = some (.int (-5)) ∧ v1.loaded = true ∧
      loadValue (exampleLoadEnv (Memory.ofList 0 [])) 1 loadSingleValue v1 = .ok v1 := by
  have hv : (loadValue (exampleLoadEnv memMinusFive) 2 loadFullValue
      (varAt "x" 130 intTy .Int)).map (fun w => (w.Value, w.loaded)) =
      .ok (some (.int (-5)), true) := by decide
  cases hl : loadValue (exampleLoadEnv memMinusFive) 2 loadFullValue
      (varAt "x" 130 intTy .Int) with
  | panic => rw [hl] at hv; exact Outcome.noConfusion hv
  | fuel => rw [hl] at hv; exact Outcome.noConfusion hv
  | ok v1 =>
    rw [hl] at hv
    simp only [Outcome.map, Outcome.ok.injEq, Prod.mk.injEq] at hv
    exact ⟨v1, rfl, hv.1, hv.2,
      (loadValue_is_idempotent (exampleLoadEnv memMinusFive) 2 loadFullValue
        (varAt "x" 130 intTy .Int) v1 hl).2 (exampleLoadEnv (Memory.ofList 0 [])) 0
        loadSingleValue⟩

/-! ## `describe` -/

theorem onesCount_eq_zero : ∀ n x, onesCount n x = 0 → x % 2 ^ n = 0 := by
  intro n
  induction n with
  | zero => intro x _; simp [Nat.mod_one]
  | succ n ih =>
    intro x h
    simp only [onesCount] at h
    have h1 := ih (x / 2) (by omega)
    have h2 : x % 2 = 0 := by omega
    rw [pow_succ, Nat.mul_comm, Nat.mod_mul, h2, h1]

theorem onesCount_eq_one : ∀ n x, onesCount n x = 1 → ∃ k, k < n ∧ x % 2 ^ n = 2 ^ k := by
  intro n
  induction n with
  | zero => intro x h; simp [onesCount] at h
  | succ n ih =>
    intro x h
    simp only [onesCount] at h
    rcases Nat.mod_two_eq_zero_or_one x with h2 | h2
    · obtain ⟨k, hk, hk2⟩ := ih (x / 2) (by omega)
      refine ⟨k + 1, by omega, ?_⟩
      rw [pow_succ, Nat.mul_comm, Nat.mod_mul, h2, hk2, pow_succ]
      omega
    · have h1 := onesCount_eq_zero n (x / 2) (by omega)
      refine ⟨0, by omega, ?_⟩
      rw [pow_succ, Nat.mul_comm, Nat.mod_mul, h2, h1]
      rfl

/-- A `uint64` on which `popcnt` is 1 is a power of two. -/
theorem popcnt_eq_one {u : Nat} (hu : u < 2 ^ 64) (h : popcnt u = 1) :
    ∃ k, k < 64 ∧ u = 2 ^ k := by
  rw [popcnt_eq_onesCount] at h
  obtain ⟨k, hk, hk2⟩ := onesCount_eq_one 64 u h
  rw [Nat.mod_eq_of_lt hu] at hk2
  exact ⟨k, hk, hk2⟩

theorem toUint64_lt (z : Int) : toUint64 z < 2 ^ 64 := by
  unfold toUint64
  have h1 : (0 : Int) ≤ z % 2 ^ 64 := Int.emod_nonneg _ (by norm_num)
  have h2 : z % 2 ^ 64 < 2 ^ 64 := Int.emod_lt_of_pos _ (by norm_num)
  omega

theorem toUint64_toInt64_nat {x : Nat} (h : x < 2 ^ 64) : toUint64 (toInt64 (x : Int)) = x := by
  have h1 := toUint64_toInt64 (x : Int)
  have h2 : ((x : Int)) % 2 ^ 64 = x := Int.emod_eq_of_lt (by omega) (by exact_mod_cast h)
  rw [h2] at h1
  exact_mod_cast h1

theorem toInt64_nat_eq_zero {x : Nat} (h : x < 2 ^ 64) (h0 : toInt64 (x : Int) = 0) : x = 0 := by
  have h1 := toUint64_toInt64_nat h
  rw [h0] at h1
  rw [← h1]
  rfl

/-- Clearing a bit that is set and putting it back gives the number again. -/
theorem or_and_not_pow {u k : Nat} (hu : u < 2 ^ 64) (hk : k < 64) (h : u &&& 2 ^ k ≠ 0) :
    2 ^ k ||| (u &&& (2 ^ 64 - 1 - 2 ^ k)) = u := by
  have hbit : u.testBit k = true := by
    obtain ⟨i, hi⟩ := Nat.ne_zero_implies_bit_true h
    rw [Nat.testBit_and, Nat.testBit_two_pow] at hi
    simp only [Bool.and_eq_true, decide_eq_true_eq] at hi
    rw [hi.2]
    exact hi.1
  have hlt : 2 ^ k < 2 ^ 64 := Nat.pow_lt_pow_right (by norm_num) hk
  have hsub : 2 ^ 64 - 1 - 2 ^ k = 2 ^ 64 - (2 ^ k + 1) := by omega
  apply Nat.eq_of_testBit_eq
  intro i
  rw [Nat.testBit_or, Nat.testBit_and, hsub, Nat.testBit_two_pow_sub_succ hlt,
    Nat.testBit_two_pow]
  by_cases hik : k = i
  · subst hik
    simp [hbit]
  · by_cases hi : i < 64
    · simp [hik, hi]
    · have : u.testBit i = false :=
        Nat.testBit_lt_two_pow (lt_of_lt_of_le hu (Nat.pow_le_pow_right (by norm_num) (by omega)))
      simp [hik, hi, this]

/-- The second loop of `describe`: the names it collects are those of single-bit constants
`fs`, taken in the order of the table, and the bits of `n` are those of `fs` and those that
are left. -/
theorem describe_fields_spec : ∀ (values : List constantValue) (n : Int) (fields : List String),
    (∀ v ∈ values, v.singleBit = true → ∃ k, k < 64 ∧ toUint64 v.value = 2 ^ k) →
    ∃ fs, fs.Sublist values ∧ (∀ v ∈ fs, v.singleBit = true) ∧
      (constantType.describe.fields values n fields).1 = fields ++ fs.map (fun v => v.name) ∧
      toUint64 n = orValues fs ||| toUint64 (constantType.describe.fields values n fields).2 := by
  intro values
  induction values with
  | nil =>
    intro n fields _
    exact ⟨[], List.Sublist.refl _, by simp, by simp [constantType.describe.fields],
      by simp [constantType.describe.fields, orValues]⟩
  | cons val rest ih =>
    intro n fields hv
    have hrest : ∀ v ∈ rest, v.singleBit = true → ∃ k, k < 64 ∧ toUint64 v.value = 2 ^ k :=
      fun v hm => hv v (List.mem_cons_of_mem _ hm)
    unfold constantType.describe.fields
    by_cases hsb : val.singleBit = false
    · rw [if_pos hsb]
      obtain ⟨fs, h1, h2, h3, h4⟩ := ih n fields hrest
      exact ⟨fs, List.Sublist.cons _ h1, h2, h3, h4⟩
    · rw [if_neg hsb]
      have hsb2 : val.singleBit = true := by
        cases h : val.singleBit with
        | false => exact absurd h hsb
        | true => rfl
      by_cases hand : and64 n val.value ≠ 0
      · rw [if_pos hand]
        obtain ⟨k, hk, hk2⟩ := hv val (List.mem_cons_self _ _) hsb2
        have hu := toUint64_lt n
        have hne : toUint64 n &&& 2 ^ k ≠ 0 := by
          intro h0
          apply hand
          unfold and64
          rw [hk2, h0]
          rfl
        have hlt : toUint64 n &&& (2 ^ 64 - 1 - 2 ^ k) < 2 ^ 64 :=
          lt_of_le_of_lt Nat.and_le_left hu
        have hn2 : toUint64 (andNot64 n val.value) = toUint64 n &&& (2 ^ 64 - 1 - 2 ^ k) := by
          unfold andNot64
          rw [hk2]
          exact toUint64_toInt64_nat hlt
        obtain ⟨fs, h1, h2, h3, h4⟩ := ih (andNot64 n val.value) (fields ++ [val.name]) hrest
        refine ⟨val :: fs, List.Sublist.cons₂ _ h1, ?_, ?_, ?_⟩
        · intro v hm
          rcases List.mem_cons.mp hm with rfl | hm
          · exact hsb2
          · exact h2 v hm
        · rw [h3]
          simp
        · rw [← or_and_not_pow hu hk hne, ← hn2, h4]
          simp only [orValues, List.foldr_cons, hk2, Nat.or_assoc]
      · rw [if_neg hand]
        obtain ⟨fs, h1, h2, h3, h4⟩ := ih n fields hrest
        exact ⟨fs, List.Sublist.cons _ h1, h2, h3, h4⟩

/-- What `Get` makes of a constant type that it finds not initialised and without marks: the
constants marked are those whose value has exactly one bit set. -/
theorem Get_marks_single_bits {cm : Nat → Option constantType} {offset : Nat}
    {typepkg : String} {raw c : constantType} (hraw : cm offset = some raw)
    (hinit : raw.initialized = false) (hflags : ∀ v ∈ raw.values, v.singleBit = false)
    (hget : (constantsMap.Get cm offset typepkg).1 = some c) :
    c.initialized = true ∧
    (∀ v ∈ c.values, v.singleBit = true ↔ popcnt (toUint64 v.value) = 1) ∧
    (constantsMap.Get (constantsMap.Get cm offset typepkg).2 offset typepkg).1 = some c := by
  unfold constantsMap.Get at hget
  simp only [hraw, hinit, Bool.false_eq_true, if_false, Option.some.injEq] at hget
  refine ⟨by rw [← hget], ?_, ?_⟩
  · intro v hm
    rw [← hget] at hm
    obtain ⟨v0, hm0, hv0⟩ := List.mem_map.mp hm
    have hm1 : v0 ∈ raw.values := (List.perm_insertionSort _ _).mem_iff.mp hm0
    have hf := hflags v0 hm1
    rw [← hv0]
    unfold constantValue.prepare
    simp only [hf]
    by_cases hp : popcnt (toUint64 v0.value) = 1
    · simp [hp]
    · simp [hp]
  · unfold constantsMap.Get
    simp only [hraw, hinit, Bool.false_eq_true, if_false, if_true]
    exact congrArg some hget

/-- C39. Constant descriptions are exact.  Let `Get` find a constant type that is not
initialised and has no constant marked as single-bit, and let `c` be the type it returns:
its constants are marked as single-bit exactly when `popcnt` of their value is 1.  Then for
every `n`: if a constant of `c` has the value `n`, `describe(n)` is the name of a constant of
value `n`; otherwise `describe(n)` is the empty string, or `n` is not 0 and `describe(n)` is
the names, joined by `|`, of single-bit constants `fs` of `c`, taken in the order of the
table, and the bitwise OR of the values of `fs` is `n`. -/
theorem describe_is_exact (cm : Nat → Option constantType) (offset : Nat) (typepkg : String)
    (raw c : constantType) (n : Int) (hraw : cm offset = some raw)
    (hinit : raw.initialized = false) (hflags : ∀ v ∈ raw.values, v.singleBit = false)
    (hget : (constantsMap.Get cm offset typepkg).1 = some c) :
    (∀ v ∈ c.values, v.singleBit = true ↔ popcnt (toUint64 v.value) = 1) ∧
    ((∃ v ∈ c.values, v.value = n) → ∃ w ∈ c.values, w.value = n ∧ c.describe n = w.name) ∧
    ((∀ v ∈ c.values, v.value ≠ n) →
      c.describe n = "" ∨
      (n ≠ 0 ∧ ∃ fs, fs.Sublist c.values ∧ (∀ v ∈ fs, v.singleBit = true) ∧
        c.describe n = "|".intercalate (fs.map (fun v => v.name)) ∧
        toUint64 n = orValues fs)) := by
  have hmarks := (Get_marks_single_bits hraw hinit hflags hget).2.1
  refine ⟨hmarks, ?_, ?_⟩
  · rintro ⟨v, hv, hvn⟩
    unfold constantType.describe
    cases hf : c.values.find? (fun val => val.value == n) with
    | none =>
      have := List.find?_eq_none.mp hf v hv
      simp [hvn] at this
    | some w =>
      have h1 := List.find?_some hf
      simp only [beq_iff_eq] at h1
      exact ⟨w, List.mem_of_find?_eq_some hf, h1, rfl⟩
  · intro hno
    unfold constantType.describe
    have hf : c.values.find? (fun val => val.value == n) = none := by
      rw [List.find?_eq_none]
      intro v hv
      simp [hno v hv]
    rw [hf]
    simp only
    by_cases h0 : n = 0
    · rw [if_pos h0]
      exact Or.inl rfl
    · rw [if_neg h0]
      obtain ⟨fs, h1, h2, h3, h4⟩ := describe_fields_spec c.values n [] (by
        intro v hv hsb
        exact popcnt_eq_one (toUint64_lt _) ((hmarks v hv).mp hsb))
      by_cases hr : (constantType.describe.fields c.values n []).2 = 0
      · rw [if_pos hr]
        refine Or.inr ⟨h0, fs, h1, h2, by rw [h3]; rfl, ?_⟩
        rw [h4, hr]
        simp [toUint64]
      · rw [if_neg hr]
        exact Or.inl rfl

/-- C39, witness: `exampleConstants` after `Get` has the constants `None` = 0, `Read` = 1,
`Write` = 2, `ReadWrite` = 3 and `Exec` = 4, of which `Read`, `Write` and `Exec` are marked.
`describe(3)` is the name of the constant of value 3; no constant has the value 5, and
`describe(5)` is `Read|Exec`, names of marked constants whose values have the bitwise OR 5;
`describe(8)` is empty. -/
theorem describe_is_exact_witness :
    ((constantsMap.Get (fun _ => some exampleConstants) 7 "os.").1.map fun c =>
      (c.values.map (fun v => (v.name, v.value, v.singleBit)),
        [c.describe 3, c.describe 5, c.describe 7, c.describe 8, c.describe 0])) =
      some ([("None", 0, false), ("Read", 1, true), ("Write", 2, true),
          ("ReadWrite", 3, false), ("Exec", 4, true)],
        ["ReadWrite", "Read|Exec", "Read|Write|Exec", "", "None"]) ∧
    ∃ c, (constantsMap.Get (fun _ => some exampleConstants) 7 "os.").1 = some c ∧
      (∃ w ∈ c.values, w.value = 3 ∧ c.describe 3 = w.name) ∧
      (c.describe 5 = "" ∨ ∃ fs, fs.Sublist c.values ∧
        c.describe 5 = "|".intercalate (fs.map (fun v => v.name)) ∧ orValues fs = 5) := by
  refine ⟨by decide, ?_⟩
  have hget : (constantsMap.Get (fun _ => some exampleConstants) 7 "os.").1 =
      some { initialized := true
             values := (sortByValue exampleConstants.values).map
               (constantValue.prepare "os.") } := rfl
  refine ⟨_, hget, ?_, ?_⟩
  · exact (describe_is_exact (fun _ => some exampleConstants) 7 "os." exampleConstants _ 3 rfl
      rfl (by decide) hget).2.1 (by decide)
  · have h5 := (describe_is_exact (fun _ => some exampleConstants) 7 "os." exampleConstants
      _ 5 rfl rfl (by decide) hget).2.2 (by decide)
    rcases h5 with h | ⟨_, fs, h1, _, h3, h4⟩
    · exact Or.inl h
    · exact Or.inr ⟨fs, h1, h3, by rw [← h4]; rfl⟩

/-! ## `popcnt` counts the bits -/

/-- C40. For every `x`, `popcnt(x)` is the number of positions below 64 at which `x` has a bit
set to 1, which for a `uint64` is the number of its bits set to 1, and that number is at most
64. -/
theorem popcnt_counts_set_bits (x : Nat) :
    popcnt x = ((List.range 64).filter (fun i => x.testBit i)).length ∧
    popcnt x = onesCount 64 x ∧ popcnt x ≤ 64 := by
  refine ⟨?_, popcnt_eq_onesCount x, ?_⟩
  · rw [popcnt_eq_onesCount, onesCount_eq_filter]
  · rw [popcnt_eq_onesCount]
    exact onesCount_le 64 x

end Proc
